import Mathlib

/-!
# Text-analytics pipeline: Producer / Worker / Aggregator

A shallow embedding of `src/cpp/producer.cpp`, `src/cpp/worker.cpp` and
`src/cpp/aggregator.cpp`, followed by theorems about the embedded functions.

Modelling conventions
* `std::string` is a list of characters (`Str`); every character stands for one
  byte, and the character classes are the ones of the "C" locale (ASCII only).
* `int` is `Int`. `std::stoi` reports `out_of_range` outside the 32-bit range;
  arithmetic on stored counts is carried out in `Int` (signed overflow is
  undefined behaviour in C++ and is not modelled).
* `std::map` is an association list kept in ascending key order, `std::multimap`
  an association list kept in key order with insertion after equal keys.
* a C++ exception is an explicit result: functions that can throw return the
  state reached at the throw together with the exception.
* a field of a local that the source leaves uninitialised is an `Option`
  (`none` = never assigned). The member `all_results_received`, which the
  constructor does not initialise, starts as `false`.
* `double` values computed by the Worker are IEEE-754 binary64 values, carried
  as sign, mantissa and binary exponent; `std::stod` is a parameter of the
  Aggregator functions.
* a `double` of the Aggregator is the rational number it denotes (`Double`);
  its sums and quotients are the exact results rounded to binary64
  (`Cpp.roundBinary64`, round to nearest, ties to even, subnormal numbers
  included). A result that is not a finite number is `none`; the sign of a zero
  is not represented.
* `std::sort` leaves the relative order of equivalent elements unspecified; the
  embedding follows libstdc++ (`Cpp.stdSort`: introsort with threshold 16, then
  insertion sort), which keeps that order for at most 16 elements only.
* the queue transport (AMQP) is not modelled: the collection loop consumes a
  list of incoming messages.
-/

set_option autoImplicit false

/-- A `std::string`, as the list of its characters. -/
abbrev Str := List Char

/-- The exceptions of `<stdexcept>` raised by `std::stoi` / `std::stod`. -/
inductive StdExcept where
  | invalid_argument
  | out_of_range
  deriving DecidableEq, Repr

/-- The type `double`, by the exact rational value of a finite double. -/
abbrev Double := ℚ

namespace Cpp

/-- The function `std::isspace` in the "C" locale. -/
def isspace (c : Char) : Bool :=
  c == ' ' || c == '\t' || c == '\n' || c == '\x0b' || c == '\x0c' || c == '\r'

/-- The function `std::isalpha` in the "C" locale. -/
def isalpha (c : Char) : Bool := c.isAlpha

/-- The function `::tolower` in the "C" locale. -/
def tolower (c : Char) : Char := c.toLower

/-- Membership in the trim set `" \n\r\t"` used with `find_first_not_of`. -/
def isTrimChar (c : Char) : Bool :=
  c == ' ' || c == '\n' || c == '\r' || c == '\t'

/-- The sentence terminators `.`, `!` and `?`. -/
def isTerminator (c : Char) : Bool :=
  c == '.' || c == '!' || c == '?'

/-- The test `s.find(p) == 0`: the string `s` begins with `p`. -/
def startsWith (p s : Str) : Bool := p.isPrefixOf s

/-- The operator `std::string::operator<`: lexicographic comparison of the bytes. -/
def strLt : Str → Str → Bool
  | [], [] => false
  | [], _ :: _ => true
  | _ :: _, [] => false
  | a :: as, b :: bs =>
    if a.toNat < b.toNat then true
    else if b.toNat < a.toNat then false
    else strLt as bs

/-- The function `std::to_string(unsigned)`: the decimal digits of a natural number. -/
def natToString (n : Nat) : Str := Nat.toDigits 10 n

/-- The function `std::to_string(int)`. -/
def to_string (i : Int) : Str :=
  if i < 0 then '-' :: natToString i.natAbs else natToString i.natAbs

/-- The value of a run of decimal digits, most significant first. -/
def digitsValue (ds : Str) : Nat :=
  ds.foldl (fun acc c => acc * 10 + (c.toNat - 48)) 0

/-- The function `std::stoi(s)` (base 10): skip leading white space, read an optional sign
and the longest run of digits; `invalid_argument` when there is no digit,
`out_of_range` when the value does not fit an `int`. Trailing characters are
ignored. -/
def stoi (s : Str) : Except StdExcept Int :=
  let s1 := s.dropWhile isspace
  let neg := s1.head? == some '-'
  let s2 := if s1.head? == some '-' || s1.head? == some '+' then s1.tail else s1
  let ds := s2.takeWhile Char.isDigit
  if ds.isEmpty then Except.error StdExcept.invalid_argument
  else
    let v : Int := if neg then - (digitsValue ds : Int) else (digitsValue ds : Int)
    if v < -2147483648 ∨ 2147483647 < v then Except.error StdExcept.out_of_range
    else Except.ok v

/-- The tokens that the loop `while (std::getline(in, token, d))` reads: the
input is cut at every `d`; a final empty piece (input empty, or ending in `d`)
is not produced, an empty piece between two delimiters is. -/
def getlines (d : Char) : Str → List Str
  | [] => []
  | c :: rest =>
    if c = d then [] :: getlines d rest
    else
      match getlines d rest with
      | [] => [[c]]
      | tok :: toks => (c :: tok) :: toks

/-- The words that the loop `while (iss >> word)` reads: the maximal runs of
characters that are not white space. `cur` is the word being read, reversed. -/
def extractWordsAux : Str → Str → List Str
  | [], cur => if cur.isEmpty then [] else [cur.reverse]
  | c :: rest, cur =>
    if isspace c then
      if cur.isEmpty then extractWordsAux rest [] else cur.reverse :: extractWordsAux rest []
    else extractWordsAux rest (c :: cur)

/-- The words read by `while (iss >> word)` from `text`. -/
def extractWords (text : Str) : List Str := extractWordsAux text []

/-- The result of `s.substr(start, end - start + 1)` with
`start = s.find_first_not_of(" \n\r\t")` and `end = s.find_last_not_of(" \n\r\t")`,
or `none` when one of them is `npos` (no character outside the trim set). -/
def cleanSentence (s : Str) : Option Str :=
  let t := s.dropWhile isTrimChar
  if t.isEmpty then none
  else some (t.reverse.dropWhile isTrimChar).reverse

/-- A `std::map<std::string, V>`: pairs in ascending key order. -/
abbrev StdMap (V : Type) := List (Str × V)

/-- The statement `m[k] = f(m[k])`, where `operator[]` first inserts the
value-initialised `dflt` when `k` is absent. -/
def StdMap.modify {V : Type} (k : Str) (dflt : V) (f : V → V) : StdMap V → StdMap V
  | [] => [(k, f dflt)]
  | (k1, v) :: rest =>
    if k = k1 then (k1, f v) :: rest
    else if strLt k k1 then (k, f dflt) :: (k1, v) :: rest
    else (k1, v) :: StdMap.modify k dflt f rest

/-- The lookup `m.find(k)`: the value stored under `k`, if any. -/
def StdMap.find {V : Type} (k : Str) : StdMap V → Option V
  | [] => none
  | (k1, v) :: rest => if k = k1 then some v else StdMap.find k rest

/-- The invariant of a `std::map`: the keys are in strictly ascending order. -/
def StdMap.Ordered {V : Type} (m : StdMap V) : Prop :=
  List.Pairwise (fun p q => strLt p.1 q.1 = true) m

/-- A `std::multimap<int, std::string, std::greater<int>>`: pairs in
descending key order. -/
abbrev MultiMap := List (Int × Str)

/-- The call `m.insert((k, v))`: the new pair goes after the pairs whose key is not
smaller, that is at the upper bound of the equal keys. -/
def MultiMap.insert (k : Int) (v : Str) : MultiMap → MultiMap
  | [] => [(k, v)]
  | (k1, v1) :: rest =>
    if k1 < k then (k, v) :: (k1, v1) :: rest
    else (k1, v1) :: MultiMap.insert k v rest

/-- The string `parts[0] + sep + parts[1] + sep + ...` built by the loops of the
form `if (i > 0) result += sep; result += parts[i];`. -/
def joinWith (sep : Str) : List Str → Str
  | [] => []
  | [p] => p
  | p :: q :: rest => p ++ sep ++ joinWith sep (q :: rest)

/-- The call `std::iter_swap(i, j)` on the positions `i` and `j` of a sequence. -/
def swapAt {α : Type} (l : List α) (i j : Nat) : List α :=
  match l.get? i, l.get? j with
  | some a, some b => (l.set i b).set j a
  | _, _ => l

/-- The comparison `comp(i, j)` of the elements at the positions `i` and `j`. -/
def compAt {α : Type} (comp : α → α → Bool) (l : List α) (i j : Nat) : Bool :=
  match l.get? i, l.get? j with
  | some a, some b => comp a b
  | _, _ => false

/-- The helper `std::__move_median_to_first(result, a, b, c, comp)` of libstdc++. -/
def moveMedianToFirst {α : Type} (comp : α → α → Bool) (l : List α) (result a b c : Nat) : List α :=
  if compAt comp l a b then
    if compAt comp l b c then swapAt l result b
    else if compAt comp l a c then swapAt l result c
    else swapAt l result a
  else if compAt comp l a c then swapAt l result a
  else if compAt comp l b c then swapAt l result c
  else swapAt l result b

/-- The loop `while (comp(first, pivot)) ++first;`. -/
def scanUp {α : Type} (comp : α → α → Bool) (l : List α) (pivot : Nat) : Nat → Nat → Nat
  | 0, first => first
  | fuel + 1, first =>
    if compAt comp l first pivot then scanUp comp l pivot fuel (first + 1) else first

/-- The loop `while (comp(pivot, last)) --last;`. -/
def scanDown {α : Type} (comp : α → α → Bool) (l : List α) (pivot : Nat) : Nat → Nat → Nat
  | 0, last => last
  | fuel + 1, last =>
    if compAt comp l pivot last then scanDown comp l pivot fuel (last - 1) else last

/-- The helper `std::__unguarded_partition(first, last, pivot, comp)` of
libstdc++: the sequence after the swaps, and the returned position. -/
def unguardedPartition {α : Type} (comp : α → α → Bool) (pivot : Nat) :
    Nat → List α → Nat → Nat → List α × Nat
  | 0, l, first, _ => (l, first)
  | fuel + 1, l, first, last =>
    let first1 := scanUp comp l pivot l.length first
    let last1 := scanDown comp l pivot l.length (last - 1)
    if first1 < last1 then
      unguardedPartition comp pivot fuel (swapAt l first1 last1) (first1 + 1) last1
    else (l, first1)

/-- The helper `std::__unguarded_partition_pivot(first, last, comp)` of libstdc++. -/
def unguardedPartitionPivot {α : Type} (comp : α → α → Bool) (l : List α) (first last : Nat) :
    List α × Nat :=
  let mid := first + (last - first) / 2
  let l1 := moveMedianToFirst comp l first (first + 1) mid (last - 1)
  unguardedPartition comp first l1.length l1 (first + 1) last

/-- The helper `std::__push_heap(first, holeIndex, topIndex, value, comp)` of
libstdc++, with the value kept at the hole: each move of a parent into the hole
is a swap of the hole with the parent. -/
def pushHeap {α : Type} (comp : α → α → Bool) (first topIndex : Nat) : Nat → List α → Nat → List α
  | 0, l, _ => l
  | fuel + 1, l, holeIndex =>
    let parent := (holeIndex - 1) / 2
    if topIndex < holeIndex && compAt comp l (first + parent) (first + holeIndex) then
      pushHeap comp first topIndex fuel (swapAt l (first + holeIndex) (first + parent)) parent
    else l

/-- The first loop of `std::__adjust_heap`: the hole moves down to the larger
child; the sequence and the final hole. -/
def siftDown {α : Type} (comp : α → α → Bool) (first len : Nat) : Nat → List α → Nat → List α × Nat
  | 0, l, holeIndex => (l, holeIndex)
  | fuel + 1, l, holeIndex =>
    if holeIndex < (len - 1) / 2 then
      let secondChild := 2 * (holeIndex + 1)
      let child :=
        if compAt comp l (first + secondChild) (first + (secondChild - 1)) then secondChild - 1
        else secondChild
      siftDown comp first len fuel (swapAt l (first + holeIndex) (first + child)) child
    else (l, holeIndex)

/-- The helper `std::__adjust_heap(first, holeIndex, len, value, comp)` of
libstdc++, called with `value` being the element at the hole. -/
def adjustHeap {α : Type} (comp : α → α → Bool) (first holeIndex len : Nat) (l : List α) : List α :=
  let r := siftDown comp first len len l holeIndex
  let r2 :=
    if len % 2 = 0 ∧ 2 ≤ len ∧ r.2 = (len - 2) / 2 then
      (swapAt r.1 (first + r.2) (first + (2 * (r.2 + 1) - 1)), 2 * (r.2 + 1) - 1)
    else r
  pushHeap comp first holeIndex len r2.1 r2.2

/-- The loop of `std::__make_heap`, from `parent` down to 0. -/
def makeHeapLoop {α : Type} (comp : α → α → Bool) (first len : Nat) : Nat → List α → List α
  | 0, l => adjustHeap comp first 0 len l
  | parent + 1, l => makeHeapLoop comp first len parent (adjustHeap comp first (parent + 1) len l)

/-- The helper `std::__make_heap(first, last, comp)` of libstdc++. -/
def makeHeap {α : Type} (comp : α → α → Bool) (first last : Nat) (l : List α) : List α :=
  if last - first < 2 then l
  else makeHeapLoop comp first (last - first) ((last - first - 2) / 2) l

/-- The helper `std::__pop_heap(first, last, result, comp)` of libstdc++. -/
def popHeap {α : Type} (comp : α → α → Bool) (first last result : Nat) (l : List α) : List α :=
  adjustHeap comp first 0 (last - first) (swapAt l first result)

/-- The helper `std::__sort_heap(first, last, comp)` of libstdc++. -/
def sortHeap {α : Type} (comp : α → α → Bool) (first : Nat) : Nat → List α → Nat → List α
  | 0, l, _ => l
  | fuel + 1, l, last =>
    if 1 < last - first then
      sortHeap comp first fuel (popHeap comp first (last - 1) (last - 1) l) (last - 1)
    else l

/-- The call `std::__partial_sort(first, last, last, comp)` of libstdc++: a heap
sort of the range. -/
def partialSort {α : Type} (comp : α → α → Bool) (first last : Nat) (l : List α) : List α :=
  sortHeap comp first (last - first) (makeHeap comp first last l) last

/-- The helper `std::__introsort_loop(first, last, depth_limit, comp)` of
libstdc++ (threshold 16). -/
def introsortLoop {α : Type} (comp : α → α → Bool) : Nat → List α → Nat → Nat → List α
  | 0, l, first, last => if 16 < last - first then partialSort comp first last l else l
  | depth_limit + 1, l, first, last =>
    if 16 < last - first then
      let r := unguardedPartitionPivot comp l first last
      introsortLoop comp depth_limit (introsortLoop comp depth_limit r.1 r.2 last) first r.2
    else l

/-- The loop of `std::__lg`: how many times `n` can be halved before it is
below 2. -/
def lgAux : Nat → Nat → Nat
  | 0, _ => 0
  | fuel + 1, n => if 2 ≤ n then lgAux fuel (n / 2) + 1 else 0

/-- The helper `std::__lg(n)` of libstdc++: the binary logarithm of `n`,
rounded down. -/
def lg (n : Nat) : Nat := lgAux n n

/-- The call `std::sort(first, last, comp)` as libstdc++ carries it out: the
introsort loop, then the final insertion sort, which puts every element after
the elements before it that it does not precede. -/
def stdSort {α : Type} (comp : α → α → Bool) (l : List α) : List α :=
  (introsortLoop comp (lg l.length * 2) l 0 l.length).insertionSort
    (fun a b => comp b a = false)

end Cpp

open Cpp

namespace Worker

/-- The member `positive_words`. -/
def positive_words : List Str :=
  ["good", "great", "excellent", "amazing", "wonderful", "fantastic",
   "happy", "joy", "love", "perfect", "beautiful", "nice", "best",
   "positive", "success", "win", "pleasure", "delight", "brilliant"].map String.toList

/-- The member `negative_words`. -/
def negative_words : List Str :=
  ["bad", "terrible", "awful", "horrible", "hate", "angry",
   "sad", "unhappy", "disappointing", "poor", "worst", "negative",
   "failure", "lose", "problem", "issue", "wrong", "broken"].map String.toList

/-- The body of the loop of `countWords` for one word: drop one trailing
non-letter, then one leading non-letter; the word counts when something is
left. -/
def countsAsWord (word : Str) : Bool :=
  let w1 := if !word.isEmpty && !isalpha (word.getLast?.getD ' ') then word.dropLast else word
  let w2 := if !w1.isEmpty && !isalpha (w1.head?.getD ' ') then w1.tail else w1
  !w2.isEmpty

/-- The member function `Worker::countWords`. -/
def countWords (text : Str) : Int :=
  (extractWords text).foldl (fun count word => if countsAsWord word then count + 1 else count) 0

/-- The erase/remove_if and transform steps shared by `findTopWords` and
`analyzeSentiment`: keep the letters, lower-cased. -/
def normalizeWord (word : Str) : Str :=
  (word.filter isalpha).map tolower

/-- The map `word_count` at the end of the first loop of `findTopWords`. -/
def wordCountMap (text : Str) : StdMap Int :=
  (extractWords text).foldl
    (fun m word =>
      let w := normalizeWord word
      if !w.isEmpty then StdMap.modify w 0 (fun c => c + 1) m else m)
    []

/-- The call `std::sort(words.begin(), words.end(), a.second > b.second)`. -/
def sortByCountDesc (words : List (Str × Int)) : List (Str × Int) :=
  stdSort (fun a b => decide (a.2 > b.2)) words

/-- The pairs `words[0 .. min(top_word_count, words.size()))` that
`findTopWords` writes out. -/
def topWordPairs (top_word_count : Int) (text : Str) : List (Str × Int) :=
  let words := sortByCountDesc (wordCountMap text)
  words.take (min top_word_count (words.length : Int)).toNat

/-- The member function `Worker::findTopWords`, for a worker configured with `top_word_count`. -/
def findTopWords (top_word_count : Int) (text : Str) : Str :=
  joinWith [';'] ((topWordPairs top_word_count text).map (fun p => p.1 ++ [':'] ++ to_string p.2))

/-- A finite binary64 value `(-1)^neg * mant / 2^expo`. -/
structure Binary64 where
  neg : Bool
  mant : Nat
  expo : Nat
  deriving DecidableEq, Repr

/-- The rational value of a finite binary64. -/
def Binary64.toRat (d : Binary64) : ℚ :=
  (if d.neg then -1 else 1) * (d.mant : ℚ) / (2 : ℚ) ^ d.expo

/-- Rounding of `num / den` to the nearest integer, ties to even. -/
def roundHalfEven (num den : Nat) : Nat :=
  let q := num / den
  let r := num % den
  if 2 * r < den then q
  else if den < 2 * r then q + 1
  else if q % 2 = 0 then q else q + 1

/-- The least `k` at or after the given one with `t ≤ a * 2^k`, searched for
at most `fuel` steps. -/
def normShift : Nat → Nat → Nat → Nat → Nat
  | 0, _, _, k => k
  | fuel + 1, a, t, k => if t ≤ a * 2 ^ k then k else normShift fuel a t (k + 1)

/-- The binary64 quotient `static_cast<double>(a) / t` for integers with
`0 < |a| ≤ t` (round to nearest, ties to even; 53-bit mantissa), and `+0.0`
for `a = 0`. -/
def divDouble (a : Int) (t : Nat) : Binary64 :=
  if a = 0 then { neg := false, mant := 0, expo := 0 }
  else
    let k := normShift t a.natAbs t 0
    { neg := decide (a < 0), mant := roundHalfEven (a.natAbs * 2 ^ (52 + k)) t, expo := 52 + k }

/-- The comparison `d > 0.1`; the literal `0.1` is the binary64
`3602879701896397 / 2^55`. -/
def gtTenth (d : Binary64) : Bool :=
  !d.neg && decide (3602879701896397 * 2 ^ d.expo < d.mant * 2 ^ 55)

/-- The comparison `d < -0.1`. -/
def ltMinusTenth (d : Binary64) : Bool :=
  d.neg && decide (3602879701896397 * 2 ^ d.expo < d.mant * 2 ^ 55)

/-- The six digits after the decimal point: `n` in decimal, padded with
zeros on the left to width six. -/
def sixDigits (n : Nat) : Str :=
  let ds := natToString n
  List.replicate (6 - ds.length) '0' ++ ds

/-- The function `std::to_string(double)`, that is `sprintf("%f")`: the exact value rounded
to six decimals (ties to even), with a minus sign for a negative value. -/
def to_string_double (d : Binary64) : Str :=
  let n := roundHalfEven (d.mant * 1000000) (2 ^ d.expo)
  (if d.neg then ['-'] else []) ++ natToString (n / 1000000) ++ ['.'] ++ sixDigits (n % 1000000)

/-- The counters `(positive_count, negative_count, total_words)` at the end of
the loop of `analyzeSentiment`. -/
def sentimentCounts (text : Str) : Int × Int × Int :=
  (extractWords text).foldl
    (fun acc word =>
      let w := normalizeWord word
      if !w.isEmpty then
        if positive_words.contains w then (acc.1 + 1, acc.2.1, acc.2.2 + 1)
        else if negative_words.contains w then (acc.1, acc.2.1 + 1, acc.2.2 + 1)
        else (acc.1, acc.2.1, acc.2.2 + 1)
      else acc)
    (0, 0, 0)

/-- The label that `analyzeSentiment` attaches to the score `d`. -/
def sentimentLabel (d : Binary64) : Str :=
  if gtTenth d then "positive".toList
  else if ltMinusTenth d then "negative".toList
  else "neutral".toList

/-- The two parts of the string that `analyzeSentiment` returns, the label
before the colon and the score after it: `("neutral", "0")` when there is no
word, else the label of the score and `std::to_string(sentiment_score)`. -/
def sentimentParts (text : Str) : Str × Str :=
  let c := sentimentCounts text
  if c.2.2 = 0 then ("neutral".toList, "0".toList)
  else
    let sentiment_score := divDouble (c.1 - c.2.1) c.2.2.toNat
    (sentimentLabel sentiment_score, to_string_double sentiment_score)

/-- The member function `Worker::analyzeSentiment`. -/
def analyzeSentiment (text : Str) : Str :=
  (sentimentParts text).1 ++ [':'] ++ (sentimentParts text).2

/-- A word character of the regular-expression engine (`\w`). -/
def isWordChar (c : Char) : Bool := c.isAlphanum || c == '_'

/-- The scan of `std::regex_replace(text, /\b[A-Z][a-z]+\b/, replacement)`.
`prevWord` tells whether the character before the current one is a word
character, `skip` how many characters of the current match are still to be
passed over. A match starts at an upper-case letter that is not preceded by a
word character, takes the whole run of lower-case letters after it (at least
one) and needs the next character, if any, not to be a word character. -/
def replaceNamesAux (replacement : Str) : Bool → Nat → Str → Str
  | _, _, [] => []
  | _, skip + 1, c :: rest => replaceNamesAux replacement (isWordChar c) skip rest
  | prevWord, 0, c :: rest =>
    let run := rest.takeWhile Char.isLower
    let after := rest.dropWhile Char.isLower
    if !prevWord && c.isUpper && !run.isEmpty && !(isWordChar (after.head?.getD ' ')) then
      replacement ++ replaceNamesAux replacement true run.length rest
    else c :: replaceNamesAux replacement (isWordChar c) 0 rest

/-- The member function `Worker::replaceNames` with the default replacement `"FFFFF"`. -/
def replaceNames (text : Str) : Str :=
  replaceNamesAux "FFFFF".toList false 0 text

/-- The scanning loop of `sortSentencesByLength`: `cur` is `current_sentence`,
the result is the vector `sentences` followed by the final `current_sentence`. -/
def scanSentences : Str → Str → List Str × Str
  | [], cur => ([], cur)
  | c :: rest, cur =>
    let cur1 := cur ++ [c]
    if isTerminator c then
      let r := scanSentences rest []
      match cleanSentence cur1 with
      | some clean => if !clean.isEmpty then (clean :: r.1, r.2) else r
      | none => r
    else scanSentences rest cur1

/-- The vector `sentences` of `sortSentencesByLength` before it is sorted: the
terminated sentences, then the trimmed trailing fragment when it is not
blank. -/
def extractSentences (text : Str) : List Str :=
  let r := scanSentences text []
  let last :=
    if !r.2.isEmpty then
      match cleanSentence r.2 with
      | some clean => if !clean.isEmpty then [clean] else []
      | none => []
    else []
  r.1 ++ last

/-- The call `std::sort(sentences.begin(), sentences.end(), a.length() > b.length())`. -/
def sortByLengthDesc (sentences : List Str) : List Str :=
  stdSort (fun a b => decide (a.length > b.length)) sentences

/-- The vector `sentences` of `sortSentencesByLength` after the sort. -/
def rankedSentences (text : Str) : List Str :=
  sortByLengthDesc (extractSentences text)

/-- The member function `Worker::sortSentencesByLength`. -/
def sortSentencesByLength (text : Str) : Str :=
  joinWith ['~'] (rankedSentences text)

/-- The result string that `processMessages` builds for a section. -/
def buildResult (top_word_count : Int) (section_id text : Str) : Str :=
  let name_replaced := replaceNames text
  section_id ++ ['|'] ++
  "words:".toList ++ to_string (countWords text) ++ ['|'] ++
  "top:".toList ++ findTopWords top_word_count text ++ ['|'] ++
  "sentiment:".toList ++ analyzeSentiment text ++ ['|'] ++
  "names_replaced:".toList ++ natToString name_replaced.length ++ ['|'] ++
  "processed_text:".toList ++ name_replaced ++ ['|'] ++
  "sorted:".toList ++ sortSentencesByLength text

/-- The body of the loop of `processMessages` for one task message: the result
sent to the result queue, or `none` when the message has no `|`. -/
def processMessage (top_word_count : Int) (message : Str) : Option Str :=
  if message.contains '|' then
    let section_id := message.takeWhile (fun c => c != '|')
    let text := (message.dropWhile (fun c => c != '|')).tail
    some (buildResult top_word_count section_id text)
  else none

end Worker

/-- The struct `Aggregator::SectionResult`. The default value is the
default-initialised local `SectionResult result;` of `parseResult`. -/
structure Aggregator.SectionResult where
  word_count : Option Int := none
  word_frequencies : StdMap Int := []
  sentiment_score : Option Double := none
  sentiment_label : Str := []
  processed_text : Str := []
  deriving DecidableEq, Repr

/-- The data members of the class `Aggregator` (the connection apart). -/
structure Aggregator where
  top_word_count : Int
  results : StdMap Aggregator.SectionResult
  total_sections_expected : Int
  total_sections_processed : Int
  total_words : Int
  all_results_received : Bool
  sentences_by_length : MultiMap
  deriving DecidableEq, Repr

namespace Aggregator

open Cpp

/-- The state left by the constructor `Aggregator(hostname, port, top_word_cnt)`. -/
def init (top_word_cnt : Int) : Aggregator :=
  { top_word_count := top_word_cnt
    results := []
    total_sections_expected := 0
    total_sections_processed := 0
    total_words := 0
    all_results_received := false
    sentences_by_length := [] }

/-- One turn of the loop of `parseTopWords`, for the piece `pair`. -/
def parseTopWordsPair (frequencies : StdMap Int) (pair : Str) : Except StdExcept (StdMap Int) :=
  if pair.contains ':' then
    let word := pair.takeWhile (fun c => c != ':')
    match stoi (pair.dropWhile (fun c => c != ':')).tail with
    | Except.ok count => Except.ok (StdMap.modify word 0 (fun c => c + count) frequencies)
    | Except.error e => Except.error e
  else Except.ok frequencies

/-- The loop of `parseTopWords` over the pieces that are left. -/
def parseTopWordsLoop : StdMap Int → List Str → Except StdExcept (StdMap Int)
  | frequencies, [] => Except.ok frequencies
  | frequencies, pair :: pairs =>
    match parseTopWordsPair frequencies pair with
    | Except.ok f1 => parseTopWordsLoop f1 pairs
    | Except.error e => Except.error e

/-- The member function `Aggregator::parseTopWords`: the map `frequencies` on return, or the
exception of `std::stoi`. -/
def parseTopWords (top_words_str : Str) (frequencies : StdMap Int) :
    Except StdExcept (StdMap Int) :=
  parseTopWordsLoop frequencies (getlines ';' top_words_str)

/-- The member function `Aggregator::parseSentiment`: the references `label` and `score` on return,
or the exception of `std::stod`. -/
def parseSentiment (stod : Str → Except StdExcept Double) (sentiment_str : Str)
    (label : Str) (score : Option Double) : Except StdExcept (Str × Option Double) :=
  if sentiment_str.contains ':' then
    match stod (sentiment_str.dropWhile (fun c => c != ':')).tail with
    | Except.ok v => Except.ok (sentiment_str.takeWhile (fun c => c != ':'), some v)
    | Except.error e => Except.error e
  else Except.ok (label, score)

/-- What the token loop of `parseResult` reads and writes: the members
`total_words` and `sentences_by_length`, and the locals `result` and
`section_id`. -/
structure Locals where
  total_words : Int
  sentences_by_length : MultiMap
  result : SectionResult
  section_id : Str
  deriving DecidableEq, Repr

/-- The loop over the pieces of a `sorted:` field: every non-empty piece is
inserted under its length. -/
def insertSentences (m : MultiMap) (sentences : List Str) : MultiMap :=
  sentences.foldl
    (fun acc sentence =>
      if !sentence.isEmpty then MultiMap.insert (sentence.length : Int) sentence acc else acc)
    m

/-- The body of the token loop of `parseResult` for one token. -/
def parseToken (stod : Str → Except StdExcept Double) (l : Locals) (token : Str) :
    Except StdExcept Locals :=
  if startsWith "SECTION_".toList token then
    Except.ok { l with section_id := token }
  else if startsWith "words:".toList token then
    match stoi (token.drop 6) with
    | Except.ok n =>
      Except.ok { l with result := { l.result with word_count := some n },
                         total_words := l.total_words + n }
    | Except.error e => Except.error e
  else if startsWith "top:".toList token then
    match parseTopWords (token.drop 4) l.result.word_frequencies with
    | Except.ok f => Except.ok { l with result := { l.result with word_frequencies := f } }
    | Except.error e => Except.error e
  else if startsWith "sentiment:".toList token then
    match parseSentiment stod (token.drop 10) l.result.sentiment_label l.result.sentiment_score with
    | Except.ok r =>
      Except.ok { l with result := { l.result with sentiment_label := r.1, sentiment_score := r.2 } }
    | Except.error e => Except.error e
  else if startsWith "sorted:".toList token then
    let sentences := getlines '~' (token.drop 7)
    Except.ok { l with sentences_by_length := insertSentences l.sentences_by_length sentences }
  else if startsWith "processed_text:".toList token then
    Except.ok { l with result := { l.result with processed_text := token.drop 15 } }
  else Except.ok l

/-- The token loop of `parseResult` over the tokens that are left: the locals
at the end of the loop, or at the token whose number does not parse, with the
exception thrown there. -/
def parseTokens (stod : Str → Except StdExcept Double) : Locals → List Str → Locals × Option StdExcept
  | l, [] => (l, none)
  | l, token :: tokens =>
    match parseToken stod l token with
    | Except.ok l1 => parseTokens stod l1 tokens
    | Except.error e => (l, some e)

/-- The locals at the start of the token loop of `parseResult`. -/
def startLocals (a : Aggregator) : Locals :=
  { total_words := a.total_words, sentences_by_length := a.sentences_by_length,
    result := {}, section_id := [] }

/-- The object when the token loop of `parseResult` has stopped with the
locals `l`: the members that the loop writes. -/
def afterLoop (a : Aggregator) (l : Locals) : Aggregator :=
  { a with total_words := l.total_words, sentences_by_length := l.sentences_by_length }

/-- The end of `parseResult` after the token loop:
`results[section_id] = result; total_sections_processed++;` and the completion
test. -/
def storeResult (a : Aggregator) (l : Locals) : Aggregator :=
  let a2 := { afterLoop a l with
    results := StdMap.modify l.section_id {} (fun _ => l.result) a.results,
    total_sections_processed := a.total_sections_processed + 1 }
  if 0 < a2.total_sections_expected ∧ a2.total_sections_expected ≤ a2.total_sections_processed
  then { a2 with all_results_received := true }
  else a2

/-- The member function `Aggregator::parseResult`: the object after the call, and the exception
that left the function, if any. -/
def parseResult (stod : Str → Except StdExcept Double) (a : Aggregator) (message : Str) :
    Aggregator × Option StdExcept :=
  if startsWith "TOTAL_SECTIONS:".toList message then
    match stoi (message.drop 15) with
    | Except.ok n => ({ a with total_sections_expected := n }, none)
    | Except.error e => (a, some e)
  else
    match parseTokens stod (startLocals a) (getlines '|' message) with
    | (l, some e) => (afterLoop a l, some e)
    | (l, none) => (storeResult a l, none)

/-- The map `global_freq` of `getGlobalTopWords`, filled from the pairs of the
stored results in iteration order. -/
def globalFreq (results : StdMap SectionResult) : StdMap Int :=
  (results.flatMap (fun r => r.2.word_frequencies)).foldl
    (fun m p => StdMap.modify p.1 0 (fun c => c + p.2) m) []

/-- The call `std::sort(words.begin(), words.end(), a.second > b.second)`. -/
def sortByCountDesc (words : List (Str × Int)) : List (Str × Int) :=
  stdSort (fun a b => decide (a.2 > b.2)) words

/-- The member function `Aggregator::getGlobalTopWords`: the returned vector and the object after
the call (the member `top_word_count` is lowered to the number of words). The
comparison `top_word_count > words.size()` is made in `size_t`. -/
def getGlobalTopWords (a : Aggregator) : List (Str × Int) × Aggregator :=
  let words := sortByCountDesc (globalFreq a.results)
  let k : Int :=
    if words.length < (a.top_word_count % 18446744073709551616).toNat then (words.length : Int)
    else a.top_word_count
  (words.take k.toNat, { a with top_word_count := k })

/-- How the loop of `collectResults` ends on a given sequence of deliveries. -/
inductive Collected where
  | completed (a : Aggregator) (unread : List Str)
  | waiting (a : Aggregator)
  | aborted (e : StdExcept) (a : Aggregator)
  deriving DecidableEq, Repr

/-- The loop `while (!all_results_received)` of `collectResults` on the
messages delivered by the queue: it leaves the loop when the flag is set
(`completed`, the reports are written next), goes on waiting when the queue
has nothing more (`waiting`), and is left by the exception of `parseResult`,
which no handler in the loop catches (`aborted`; `main` prints it and returns 1). -/
def collectResults (stod : Str → Except StdExcept Double) : Aggregator → List Str → Collected
  | a, [] => if a.all_results_received then Collected.completed a [] else Collected.waiting a
  | a, message :: messages =>
    if a.all_results_received then Collected.completed a (message :: messages)
    else
      match parseResult stod a message with
      | (a1, none) => collectResults stod a1 messages
      | (a1, some e) => Collected.aborted e a1

/-- The object after `parseResult` has been called on each message in turn,
while no call throws: the state and the exception of the first call that
throws, if any. -/
def parseAll (stod : Str → Except StdExcept Double) : Aggregator → List Str → Aggregator × Option StdExcept
  | a, [] => (a, none)
  | a, message :: messages =>
    match parseResult stod a message with
    | (a1, none) => parseAll stod a1 messages
    | (a1, some e) => (a1, some e)

end Aggregator

namespace Producer

open Cpp

/-- The first loop of `readFileBySentences`: the non-empty lines, with a space
between two of them unless the text so far ends in a space. -/
def accumulateLines (lines : List Str) : Str :=
  lines.foldl
    (fun accumulated_text line =>
      if !line.isEmpty then
        (if !accumulated_text.isEmpty && accumulated_text.getLast? != some ' '
         then accumulated_text ++ [' '] else accumulated_text) ++ line
      else accumulated_text)
    []

/-- The variables of the second loop of `readFileBySentences`. -/
structure Scan where
  sections : List Str
  current_section : Str
  sentence_count : Int
  current_sentence : Str
  deriving DecidableEq, Repr

/-- The body of the second loop of `readFileBySentences` for the character `c`. -/
def scanChar (sentences_per_section : Int) (st : Scan) (c : Char) : Scan :=
  let current_sentence := st.current_sentence ++ [c]
  if isTerminator c then
    match cleanSentence current_sentence with
    | some clean_sentence =>
      if !clean_sentence.isEmpty then
        let current_section := st.current_section ++ (clean_sentence ++ [' '])
        let sentence_count := st.sentence_count + 1
        if sentences_per_section ≤ sentence_count then
          { sections := st.sections ++ [current_section], current_section := [],
            sentence_count := 0, current_sentence := [] }
        else
          { sections := st.sections, current_section := current_section,
            sentence_count := sentence_count, current_sentence := [] }
      else { st with current_sentence := [] }
    | none => { st with current_sentence := [] }
  else { st with current_sentence := current_sentence }

/-- The function `readFileBySentences`, on the lines that `std::getline` reads from the
file. -/
def readFileBySentences (lines : List Str) (sentences_per_section : Int) : List Str :=
  let st := (accumulateLines lines).foldl (scanChar sentences_per_section)
    { sections := [], current_section := [], sentence_count := 0, current_sentence := [] }
  if !st.current_section.isEmpty then st.sections ++ [st.current_section] else st.sections

/-- The task messages `"SECTION_" + std::to_string(i) + "|" + sections[i]` that
`main` sends, from index `i` on. -/
def taskMessages : Nat → List Str → List Str
  | _, [] => []
  | i, sec :: rest => ("SECTION_".toList ++ natToString i ++ ['|'] ++ sec) :: taskMessages (i + 1) rest

/-- The count message `"TOTAL_SECTIONS:" + std::to_string(sections.size())`. -/
def countMessage (n : Nat) : Str := "TOTAL_SECTIONS:".toList ++ natToString n

end Producer

/-- A reading of `std::stod` on plain decimal numerals (optional sign, digits,
optional fraction; the exact value), used where an example needs a concrete
conversion for the parameter `stod`. -/
def stodDecimal (s : Str) : Except StdExcept Double :=
  let s1 := s.dropWhile isspace
  let neg := s1.head? == some '-'
  let s2 := if s1.head? == some '-' || s1.head? == some '+' then s1.tail else s1
  let ip := s2.takeWhile Char.isDigit
  let r := s2.dropWhile Char.isDigit
  let fp := if r.head? == some '.' then r.tail.takeWhile Char.isDigit else []
  if ip.isEmpty && fp.isEmpty then Except.error StdExcept.invalid_argument
  else
    let v : ℚ := (digitsValue ip : ℚ) + (digitsValue fp : ℚ) / (10 : ℚ) ^ fp.length
    Except.ok (if neg then -v else v)

namespace Spec

open Cpp

/-- The text cut after every terminator: the pieces that end at a terminator
(each runs from the end of the piece before it to the first `.`, `!` or `?`,
inclusive), and the fragment after the last terminator. -/
def terminatedPieces : Str → List Str × Str
  | [] => ([], [])
  | c :: rest =>
    if isTerminator c then ([c] :: (terminatedPieces rest).1, (terminatedPieces rest).2)
    else
      match (terminatedPieces rest).1 with
      | [] => ([], c :: (terminatedPieces rest).2)
      | p :: ps => ((c :: p) :: ps, (terminatedPieces rest).2)

/-- A string without its leading and trailing white space (space, tab, CR, LF). -/
def trim (s : Str) : Str :=
  ((s.dropWhile isTrimChar).reverse.dropWhile isTrimChar).reverse

/-- The sentences of a text: its terminator-bounded pieces, trimmed, the empty
ones dropped, in the order of the text. -/
def sentences (text : Str) : List Str :=
  ((terminatedPieces text).1.map trim).filter (fun s => !s.isEmpty)

end Spec

namespace Spec

/-- The sum of the counts that the pairs `pairs` give to the word `w`. -/
def countIn (w : Str) (pairs : List (Str × Int)) : Int :=
  ((pairs.filter (fun p => p.1 = w)).map Prod.snd).sum

/-- The sum of the counts of the word `w` over all stored results. -/
def summedCount (results : StdMap Aggregator.SectionResult) (w : Str) : Int :=
  (results.map (fun r => countIn w r.2.word_frequencies)).sum

/-- The distinct words over all stored results. -/
def distinctWords (results : StdMap Aggregator.SectionResult) : List Str :=
  (results.flatMap (fun r => r.2.word_frequencies.map Prod.fst)).dedup

end Spec

namespace Spec

open Cpp

/-- A conversion has failed. -/
def failed {α : Type} (x : Except StdExcept α) : Bool :=
  match x with
  | Except.ok _ => false
  | Except.error _ => true

/-- A field of a result message holds a required number that cannot be parsed:
the value after `words:`, the count of a `word:count` pair inside `top:`, or the
score after the label inside `sentiment:`. -/
def fieldMalformed (stod : Str → Except StdExcept Double) (token : Str) : Bool :=
  (startsWith "words:".toList token && failed (stoi (token.drop 6))) ||
  (startsWith "top:".toList token &&
    (getlines ';' (token.drop 4)).any (fun pair =>
      pair.contains ':' && failed (stoi (pair.dropWhile (fun c => c != ':')).tail))) ||
  (startsWith "sentiment:".toList token && (token.drop 10).contains ':' &&
    failed (stod ((token.drop 10).dropWhile (fun c => c != ':')).tail))

/-- A message holds a required number that cannot be parsed: the number after
`TOTAL_SECTIONS:`, or one of the numbers of a field of a result message. -/
def messageMalformed (stod : Str → Except StdExcept Double) (message : Str) : Bool :=
  if startsWith "TOTAL_SECTIONS:".toList message then failed (stoi (message.drop 15))
  else (getlines '|' message).any (fieldMalformed stod)

end Spec

namespace Cpp

/-- The integer nearest to a rational number, the even one of the two when the
number lies halfway between them. -/
def roundTiesEven (y : ℚ) : Int :=
  let f := ⌊y⌋
  if y - f < 1 / 2 then f
  else if 1 / 2 < y - f then f + 1
  else if f % 2 = 0 then f else f + 1

/-- The exponent of the binary64 numbers around a rational `x`: the `e` with
`2^e ≤ |x| < 2^(e+1)`, and `-1022` for the smaller `x`, where the subnormal
numbers lie. -/
def binade (x : ℚ) : Int := max (Int.log 2 |x|) (-1022)

/-- The binary64 number nearest to a rational `x`, the one with an even
significand when `x` lies halfway between two of them (the default rounding of
IEEE 754): `x` is rounded to a multiple of `2^(e-52)`, the spacing of the
binary64 numbers with the exponent `e` of `x`. The exponent is not bounded
upwards here. -/
def roundBinary64 (x : ℚ) : ℚ :=
  (roundTiesEven (x / 2 ^ (binade x - 52)) : ℚ) * 2 ^ (binade x - 52)

/-- The sum `a + b` of two finite `double`s: the exact sum rounded to binary64;
`none` when the rounded sum is not finite (`2^1024` or more in magnitude). -/
def doubleAdd (a b : Double) : Option Double :=
  if |roundBinary64 (a + b)| < 2 ^ 1024 then some (roundBinary64 (a + b)) else none

/-- The quotient `a / b` of two finite `double`s: the exact quotient rounded to
binary64; `none` when the result is not a finite number (`b` is zero, or the
rounded quotient is `2^1024` or more in magnitude). -/
def doubleDiv (a b : Double) : Option Double :=
  if b = 0 then none
  else if |roundBinary64 (a / b)| < 2 ^ 1024 then some (roundBinary64 (a / b)) else none

/-- The conversion of a `size_t` to `double`. -/
def sizeToDouble (n : Nat) : Double := roundBinary64 (n : ℚ)

end Cpp

namespace Aggregator

open Cpp

/-- The locals `(total_score, positive_count, negative_count, neutral_count)`
of `getAggregatedSentiment` after one more turn of its loop, for the stored
result `r`: `total_score += result.sentiment_score` is an addition of
`double`s. The sum is `none` once a score has been read that was never assigned,
or once the sum is no longer finite. -/
def sentimentStep (acc : Option Double × Int × Int × Int) (r : SectionResult) :
    Option Double × Int × Int × Int :=
  let total_score :=
    match acc.1, r.sentiment_score with
    | some t, some s => doubleAdd t s
    | _, _ => none
  if r.sentiment_label = "positive".toList then (total_score, acc.2.1 + 1, acc.2.2.1, acc.2.2.2)
  else if r.sentiment_label = "negative".toList then
    (total_score, acc.2.1, acc.2.2.1 + 1, acc.2.2.2)
  else (total_score, acc.2.1, acc.2.2.1, acc.2.2.2 + 1)

/-- The locals `(total_score, positive_count, negative_count, neutral_count)`
at the end of the loop of `getAggregatedSentiment`. -/
def sentimentTotals (results : StdMap SectionResult) : Option Double × Int × Int × Int :=
  (results.map Prod.snd).foldl sentimentStep (some 0, 0, 0, 0)

/-- The local `avg_sentiment = total_score / results.size()` of
`getAggregatedSentiment`: the size is converted to `double` and the division is
one of `double`s. The result is `none` when a score was never assigned or when
the quotient is not a finite number (as `0.0 / 0` when there is no stored
result). -/
def averageSentiment (results : StdMap SectionResult) : Option Double :=
  match (sentimentTotals results).1 with
  | some total_score => doubleDiv total_score (sizeToDouble results.length)
  | none => none

/-- The member function `Aggregator::getAggregatedSentiment`; `showDouble` is
the insertion `ss << avg_sentiment` of a `double` into the stream. -/
def getAggregatedSentiment (showDouble : Double → Str) (a : Aggregator) : Option Str :=
  match averageSentiment a.results with
  | some avg_sentiment =>
    some ("Average: ".toList ++ showDouble avg_sentiment ++
      " (Positive: ".toList ++ to_string (sentimentTotals a.results).2.1 ++
      ", Negative: ".toList ++ to_string (sentimentTotals a.results).2.2.1 ++
      ", Neutral: ".toList ++ to_string (sentimentTotals a.results).2.2.2 ++ ")".toList)
  | none => none

end Aggregator

namespace Spec

open Cpp

/-- The whitespace-separated tokens of a text: the text cut at every white
space character, the empty pieces dropped. -/
def tokens (text : Str) : List Str :=
  (text.splitOnP isspace).filter (fun t => !t.isEmpty)

/-- A token with all its non-alphabetic characters removed, lower-cased. -/
def normalize (token : Str) : Str :=
  (token.filter (fun c => c.isAlpha)).map Char.toLower

/-- The normalized words of a text: its tokens normalized, the empty ones
discarded. -/
def normalizedWords (text : Str) : List Str :=
  ((tokens text).map normalize).filter (fun w => !w.isEmpty)

/-- A token that `countWords` leaves out: one or two characters, none of them
alphabetic. -/
def uncounted (token : Str) : Bool :=
  decide (token.length ≤ 2) && token.all (fun c => !c.isAlpha)

/-- The sum of the sentiment scores of the stored results. -/
def scoreSum (results : StdMap Aggregator.SectionResult) : ℚ :=
  (results.map (fun r => r.2.sentiment_score.getD 0)).sum

/-- The number of stored results with the label `label`. -/
def labelled (label : Str) (results : StdMap Aggregator.SectionResult) : Nat :=
  results.countP (fun r => r.2.sentiment_label = label)

/-- The scores of the stored results, in the order of the section ids. -/
def scoresOf (results : StdMap Aggregator.SectionResult) : List ℚ :=
  results.map (fun r => r.2.sentiment_score.getD 0)

/-- The binary64 sum of a list of scores: they are added to `t` one after the
other, every sum rounded to binary64; `none` when a sum is not finite. -/
def binary64SumFrom : ℚ → List ℚ → Option ℚ
  | t, [] => some t
  | t, s :: ss =>
    match Cpp.doubleAdd t s with
    | some t1 => binary64SumFrom t1 ss
    | none => none

/-- The binary64 mean of a list of scores: their binary64 sum from `0.0` on,
divided in binary64 by their number. -/
def binary64Mean (scores : List ℚ) : Option ℚ :=
  match binary64SumFrom 0 scores with
  | some t => Cpp.doubleDiv t (Cpp.sizeToDouble scores.length)
  | none => none

/-- A rational is a finite binary64 number: an integer of less than 53 bits
times a power of two within the exponent range. -/
def IsBinary64 (x : ℚ) : Prop :=
  ∃ m e : Int, |m| < 2 ^ 53 ∧ -1074 ≤ e ∧ e ≤ 971 ∧ x = (m : ℚ) * 2 ^ e

end Spec

namespace Producer

open Cpp

/-- The branch of the second loop of `readFileBySentences` that is taken when a
sentence is complete and not empty: the sentence and a space are appended to
the section, and the section is flushed when it has enough sentences. -/
def pushSentence (sentences_per_section : Int) (st : Scan) (clean_sentence : Str) : Scan :=
  if sentences_per_section ≤ st.sentence_count + 1 then
    { sections := st.sections ++ [st.current_section ++ (clean_sentence ++ [' '])],
      current_section := [], sentence_count := 0, current_sentence := [] }
  else
    { sections := st.sections, current_section := st.current_section ++ (clean_sentence ++ [' ']),
      sentence_count := st.sentence_count + 1, current_sentence := [] }

/-- The end of `readFileBySentences`: the sections, with the section being
filled when it is not empty. -/
def finishScan (st : Scan) : List Str :=
  if !st.current_section.isEmpty then st.sections ++ [st.current_section] else st.sections

end Producer

namespace Spec

/-- The text of a section that holds the sentences `ss`: each sentence followed
by one space. -/
def sectionText (ss : List Str) : Str :=
  (ss.map (fun s => s ++ [' '])).flatten

/-- A list cut into consecutive groups of `n`: group `i` holds the elements
`i * n, ..., i * n + n - 1` that exist; there are `ceil(length / n)` groups. -/
def groupsOf {α : Type} (n : Nat) (l : List α) : List (List α) :=
  (List.range ((l.length + n - 1) / n)).map (fun i => (l.drop (i * n)).take n)

/-- The sentence that the trailing fragment of a text makes: the fragment after
the last terminator, trimmed, when it is not blank. -/
def fragmentSentence (text : Str) : List Str :=
  if (trim (terminatedPieces text).2).isEmpty then [] else [trim (terminatedPieces text).2]

end Spec

namespace Spec

/-- The whole words of a text and the characters between them, in order: each
maximal run of word characters (letters, digits, underscore) is one piece, and
every other character is a piece by itself. -/
def wholeWords : Str → List Str
  | [] => []
  | c :: rest =>
    match wholeWords rest with
    | [] => [[c]]
    | p :: ps =>
      if Worker.isWordChar c && Worker.isWordChar (p.head?.getD ' ') then (c :: p) :: ps
      else [c] :: p :: ps

/-- A name: one upper-case ASCII letter followed by one or more lower-case
ASCII letters. -/
def isName (w : Str) : Bool :=
  match w with
  | [] => false
  | c :: run => c.isUpper && !run.isEmpty && run.all Char.isLower

/-- A piece with the placeholder in the place of a name. -/
def redactWord (w : Str) : Str :=
  if isName w then "FFFFF".toList else w

/-- The text with every whole word that is a name replaced by the placeholder
and every other character left in place. -/
def redact (text : Str) : Str :=
  ((wholeWords text).map redactWord).flatten

/-- A non-empty run of word characters. -/
def isWordRun (p : Str) : Bool := !p.isEmpty && p.all Worker.isWordChar

/-- A single character that is not a word character. -/
def isSeparator (p : Str) : Bool :=
  match p with
  | [c] => !Worker.isWordChar c
  | _ => false

/-- A list of pieces in which every piece is a word run or a separator and no
two word runs are adjacent: the shape of the result of `wholeWords`. -/
def WordPieces (ps : List Str) : Prop :=
  (∀ p ∈ ps, isWordRun p = true ∨ isSeparator p = true) ∧
    List.Chain' (fun p q => ¬ (isWordRun p = true ∧ isWordRun q = true)) ps

end Spec

namespace Spec

/-- The number of tokens of the text that normalize to the word `w`. -/
def occurrences (w : Str) (text : Str) : Nat :=
  (normalizedWords text).count w

/-- The distinct normalized words of the text. -/
def distinctNormalized (text : Str) : List Str :=
  (normalizedWords text).dedup

end Spec

namespace Spec

open Cpp

/-- The distinct keys of a list in ascending order. -/
def sortedKeys (ws : List Str) : List Str :=
  ws.dedup.insertionSort (fun a b => strLt a b = true ∨ a = b)

/-- The word-frequency map that merges the given word frequencies directly:
every word that occurs, in ascending order, with the sum of its counts. -/
def mergeFrequencies (sections : List (List (Str × Int))) : StdMap Int :=
  (sortedKeys (sections.flatten.map Prod.fst)).map (fun w => (w, countIn w sections.flatten))

/-- The list `top` is a top `K` of the word frequencies `m`: `K` of the pairs of
`m` (all of them when there are fewer), each word once, in descending order of
count, and no pair that is left out has a greater count than one that is
taken. -/
def IsTopK (K : Nat) (m top : List (Str × Int)) : Prop :=
  top.length = min K m.length ∧ (top.map Prod.fst).Nodup ∧ (∀ p ∈ top, p ∈ m) ∧
    top.Pairwise (fun p q => q.2 ≤ p.2) ∧ ∀ p ∈ m, p ∉ top → ∀ q ∈ top, p.2 ≤ q.2

instance (K : Nat) (m top : List (Str × Int)) : Decidable (IsTopK K m top) := by
  unfold IsTopK
  infer_instance

/-- The word frequencies of a text: every distinct normalized word of the text
with the number of its occurrences. -/
def wordFrequencies (text : Str) : List (Str × Int) :=
  (distinctNormalized text).map (fun w => (w, (occurrences w text : Int)))

/-- The result message that a Worker with the setting `Kw` sends for the section
with the number `s.1` and the text `s.2`. -/
def resultMessage (Kw : Int) (s : Nat × Str) : Str :=
  Worker.buildResult Kw ("SECTION_".toList ++ natToString s.1) s.2

end Spec

namespace Spec

/-- The number `T` of normalized words of the text. -/
def totalCount (text : Str) : Nat := (normalizedWords text).length

/-- The number `P` of normalized words of the text that are in the positive
lexicon. -/
def positiveCount (text : Str) : Nat :=
  (normalizedWords text).countP (fun w => Worker.positive_words.contains w)

/-- The number `N` of normalized words of the text that are in the negative
lexicon. -/
def negativeCount (text : Str) : Nat :=
  (normalizedWords text).countP (fun w => Worker.negative_words.contains w)

/-- The label of the sentiment rule for `P`, `N` and `T`: positive when
`(P - N) / T > 1/10`, negative when `(P - N) / T < -1/10`, else neutral. -/
def ruleLabel (P N T : Nat) : Str :=
  if (T : Int) < 10 * ((P : Int) - N) then "positive".toList
  else if 10 * ((P : Int) - N) < -(T : Int) then "negative".toList
  else "neutral".toList

end Spec

namespace Producer

open Cpp

/-- How `main` of the Producer ends: the task messages and the count message
have been sent (`return 0`), or an exception was caught (`return 1`). -/
inductive Outcome where
  | sent (tasks : List Str) (count_message : Str)
  | error
  deriving DecidableEq, Repr

/-- The function `main` of the Producer: `arg2` is `argv[2]`, and `file` holds the
lines of the file `argv[1]`, `none` when the file cannot be opened. The
connection to the queue is not modelled. -/
def main (file : Option (List Str)) (arg2 : Str) : Outcome :=
  match stoi arg2 with
  | Except.error _ => Outcome.error
  | Except.ok sentences_per_section =>
    match file with
    | none => Outcome.error
    | some lines =>
      let sections := readFileBySentences lines sentences_per_section
      Outcome.sent (taskMessages 0 sections) (countMessage sections.length)

end Producer

namespace Spec

open Cpp

/-- A sentence as the Sectionizer writes it into a section: it ends in a
terminator, holds no other terminator and does not begin with white space of
the trim set. -/
def CleanSentence (s : Str) : Prop :=
  ∃ (q : Str) (c : Char), s = q ++ [c] ∧ isTerminator c = true ∧
    (∀ x ∈ q, isTerminator x = false) ∧ (∀ x ∈ q.head?, isTrimChar x = false)

end Spec

namespace Spec

open Cpp

/-- The kinds of field that the token loop of `parseResult` recognises. -/
inductive FieldKind where
  | section_id
  | words
  | top
  | sentiment
  | sorted
  | processed_text
  deriving DecidableEq, Repr

/-- The kind under which a `|`-separated field is recognised, by its literal
prefix; `none` for a field with an unrecognised prefix. -/
def fieldKind (token : Str) : Option FieldKind :=
  if startsWith "SECTION_".toList token then some FieldKind.section_id
  else if startsWith "words:".toList token then some FieldKind.words
  else if startsWith "top:".toList token then some FieldKind.top
  else if startsWith "sentiment:".toList token then some FieldKind.sentiment
  else if startsWith "sorted:".toList token then some FieldKind.sorted
  else if startsWith "processed_text:".toList token then some FieldKind.processed_text
  else none

/-- The recognised fields of a result message, in the order of the message. -/
def recognisedFields (message : Str) : List Str :=
  (getlines '|' message).filter (fun t => (fieldKind t).isSome)

/-- The part of the locals of `parseResult` that a field of a kind writes. -/
@[reducible] def Slot : FieldKind → Type
  | FieldKind.section_id => Str
  | FieldKind.words => Option Int × Int
  | FieldKind.top => StdMap Int
  | FieldKind.sentiment => Str × Option Double
  | FieldKind.sorted => MultiMap
  | FieldKind.processed_text => Str

/-- The value of the part that a field of the kind `k` writes. -/
def getSlot : (k : FieldKind) → Aggregator.Locals → Slot k
  | FieldKind.section_id, l => l.section_id
  | FieldKind.words, l => (l.result.word_count, l.total_words)
  | FieldKind.top, l => l.result.word_frequencies
  | FieldKind.sentiment, l => (l.result.sentiment_label, l.result.sentiment_score)
  | FieldKind.sorted, l => l.sentences_by_length
  | FieldKind.processed_text, l => l.result.processed_text

/-- The locals with a new value of the part that a field of the kind `k` writes. -/
def setSlot : (k : FieldKind) → Slot k → Aggregator.Locals → Aggregator.Locals
  | FieldKind.section_id, v, l => { l with section_id := v }
  | FieldKind.words, v, l =>
    { l with result := { l.result with word_count := v.1 }, total_words := v.2 }
  | FieldKind.top, v, l => { l with result := { l.result with word_frequencies := v } }
  | FieldKind.sentiment, v, l =>
    { l with result := { l.result with sentiment_label := v.1, sentiment_score := v.2 } }
  | FieldKind.sorted, v, l => { l with sentences_by_length := v }
  | FieldKind.processed_text, v, l => { l with result := { l.result with processed_text := v } }

/-- What a field of the kind `k` makes of the part it writes, or the exception
of the conversion of its number. -/
def decodeField (stod : Str → Except StdExcept Double) :
    (k : FieldKind) → Str → Slot k → Except StdExcept (Slot k)
  | FieldKind.section_id, token, _ => Except.ok token
  | FieldKind.words, token, v =>
    match stoi (token.drop 6) with
    | Except.ok n => Except.ok (some n, v.2 + n)
    | Except.error e => Except.error e
  | FieldKind.top, token, v => Aggregator.parseTopWords (token.drop 4) v
  | FieldKind.sentiment, token, v => Aggregator.parseSentiment stod (token.drop 10) v.1 v.2
  | FieldKind.sorted, token, v =>
    Except.ok (Aggregator.insertSentences v (getlines '~' (token.drop 7)))
  | FieldKind.processed_text, token, _ => Except.ok (token.drop 15)

end Spec

namespace Spec

open Cpp

/-- The fields of a result message that are recognised under the kind `k`, in
the order of the message. -/
def fieldsOfKind (k : FieldKind) (message : Str) : List Str :=
  (getlines '|' message).filter (fun t => decide (fieldKind t = some k))

/-- The part of the kind `k` once the fields `ts` of that kind have been
decoded one after the other, from the value `v` on; or the exception of the
first number that does not parse. -/
def decodeFields (stod : Str → Except StdExcept Double) (k : FieldKind) :
    Slot k → List Str → Except StdExcept (Slot k)
  | v, [] => Except.ok v
  | v, t :: ts =>
    match decodeField stod k t v with
    | Except.ok v1 => decodeFields stod k v1 ts
    | Except.error e => Except.error e

end Spec

/-! ## Theorems -/

namespace Cpp

theorem set_perm_cons {α : Type} (x b : α) :
    ∀ (l : List α) (j : Nat), l.get? j = some b → (b :: l.set j x).Perm (x :: l) := by
  intro l
  induction l with
  | nil => intro j h; cases j <;> cases h
  | cons y l ih =>
    intro j h
    cases j with
    | zero =>
      have : y = b := by simpa using h
      subst this
      exact List.Perm.swap _ _ _
    | succ k =>
      have hk : l.get? k = some b := by simpa using h
      rw [List.set_cons_succ]
      exact ((List.Perm.swap y b _).trans ((ih k hk).cons y)).trans (List.Perm.swap x y _)

theorem set_set_perm {α : Type} :
    ∀ (l : List α) (i j : Nat) (a b : α), l.get? i = some a → l.get? j = some b →
      ((l.set i b).set j a).Perm l := by
  intro l
  induction l with
  | nil => intro i j a b h; cases i <;> cases h
  | cons x l ih =>
    intro i j a b hi hj
    cases i with
    | zero =>
      have hx : x = a := by simpa using hi
      subst hx
      cases j with
      | zero =>
        have : x = b := by simpa using hj
        subst this
        exact List.Perm.refl _
      | succ k =>
        have hk : l.get? k = some b := by simpa using hj
        rw [List.set_cons_zero, List.set_cons_succ]
        exact set_perm_cons x b l k hk
    | succ m =>
      have hm : l.get? m = some a := by simpa using hi
      cases j with
      | zero =>
        have hx : x = b := by simpa using hj
        subst hx
        rw [List.set_cons_succ, List.set_cons_zero]
        exact set_perm_cons x a l m hm
      | succ k =>
        have hk : l.get? k = some b := by simpa using hj
        rw [List.set_cons_succ, List.set_cons_succ]
        exact (ih m k a b hm hk).cons x

theorem swapAt_perm {α : Type} (l : List α) (i j : Nat) : (swapAt l i j).Perm l := by
  unfold swapAt
  cases hi : l.get? i with
  | none => exact List.Perm.refl _
  | some a =>
    cases hj : l.get? j with
    | none => exact List.Perm.refl _
    | some b => exact set_set_perm l i j a b hi hj

theorem moveMedianToFirst_perm {α : Type} (comp : α → α → Bool) (l : List α)
    (result a b c : Nat) : (moveMedianToFirst comp l result a b c).Perm l := by
  unfold moveMedianToFirst
  repeat' split
  all_goals exact swapAt_perm _ _ _

theorem unguardedPartition_perm {α : Type} (comp : α → α → Bool) (pivot : Nat) :
    ∀ (fuel : Nat) (l : List α) (first last : Nat),
      (unguardedPartition comp pivot fuel l first last).1.Perm l := by
  intro fuel
  induction fuel with
  | zero => intro l first last; exact List.Perm.refl _
  | succ fuel ih =>
    intro l first last
    rw [unguardedPartition]
    split
    · exact (ih _ _ _).trans (swapAt_perm _ _ _)
    · exact List.Perm.refl _

theorem unguardedPartitionPivot_perm {α : Type} (comp : α → α → Bool) (l : List α)
    (first last : Nat) : (unguardedPartitionPivot comp l first last).1.Perm l := by
  unfold unguardedPartitionPivot
  exact (unguardedPartition_perm comp first _ _ _ _).trans (moveMedianToFirst_perm _ _ _ _ _ _)

theorem pushHeap_perm {α : Type} (comp : α → α → Bool) (first topIndex : Nat) :
    ∀ (fuel : Nat) (l : List α) (holeIndex : Nat),
      (pushHeap comp first topIndex fuel l holeIndex).Perm l := by
  intro fuel
  induction fuel with
  | zero => intro l holeIndex; exact List.Perm.refl _
  | succ fuel ih =>
    intro l holeIndex
    rw [pushHeap]
    split
    · exact (ih _ _).trans (swapAt_perm _ _ _)
    · exact List.Perm.refl _

theorem siftDown_perm {α : Type} (comp : α → α → Bool) (first len : Nat) :
    ∀ (fuel : Nat) (l : List α) (holeIndex : Nat),
      (siftDown comp first len fuel l holeIndex).1.Perm l := by
  intro fuel
  induction fuel with
  | zero => intro l holeIndex; exact List.Perm.refl _
  | succ fuel ih =>
    intro l holeIndex
    rw [siftDown]
    simp only []
    split
    · exact (ih _ _).trans (swapAt_perm _ _ _)
    · exact List.Perm.refl _

theorem adjustHeap_perm {α : Type} (comp : α → α → Bool) (first holeIndex len : Nat)
    (l : List α) : (adjustHeap comp first holeIndex len l).Perm l := by
  unfold adjustHeap
  simp only []
  refine (pushHeap_perm comp first holeIndex len _ _).trans ?_
  split
  · exact (swapAt_perm _ _ _).trans (siftDown_perm comp first len len l holeIndex)
  · exact siftDown_perm comp first len len l holeIndex

theorem makeHeapLoop_perm {α : Type} (comp : α → α → Bool) (first len : Nat) :
    ∀ (parent : Nat) (l : List α), (makeHeapLoop comp first len parent l).Perm l := by
  intro parent
  induction parent with
  | zero => intro l; exact adjustHeap_perm _ _ _ _ _
  | succ parent ih =>
    intro l
    rw [makeHeapLoop]
    exact (ih _).trans (adjustHeap_perm _ _ _ _ _)

theorem makeHeap_perm {α : Type} (comp : α → α → Bool) (first last : Nat) (l : List α) :
    (makeHeap comp first last l).Perm l := by
  unfold makeHeap
  split
  · exact List.Perm.refl _
  · exact makeHeapLoop_perm _ _ _ _ _

theorem popHeap_perm {α : Type} (comp : α → α → Bool) (first last result : Nat) (l : List α) :
    (popHeap comp first last result l).Perm l :=
  (adjustHeap_perm _ _ _ _ _).trans (swapAt_perm _ _ _)

theorem sortHeap_perm {α : Type} (comp : α → α → Bool) (first : Nat) :
    ∀ (fuel : Nat) (l : List α) (last : Nat), (sortHeap comp first fuel l last).Perm l := by
  intro fuel
  induction fuel with
  | zero => intro l last; exact List.Perm.refl _
  | succ fuel ih =>
    intro l last
    rw [sortHeap]
    split
    · exact (ih _ _).trans (popHeap_perm _ _ _ _ _)
    · exact List.Perm.refl _

theorem partialSort_perm {α : Type} (comp : α → α → Bool) (first last : Nat) (l : List α) :
    (partialSort comp first last l).Perm l :=
  (sortHeap_perm _ _ _ _ _).trans (makeHeap_perm _ _ _ _)

theorem introsortLoop_perm {α : Type} (comp : α → α → Bool) :
    ∀ (depth_limit : Nat) (l : List α) (first last : Nat),
      (introsortLoop comp depth_limit l first last).Perm l := by
  intro depth_limit
  induction depth_limit with
  | zero =>
    intro l first last
    rw [introsortLoop]
    split
    · exact partialSort_perm _ _ _ _
    · exact List.Perm.refl _
  | succ d ih =>
    intro l first last
    rw [introsortLoop]
    split
    · exact ((ih _ _ _).trans (ih _ _ _)).trans (unguardedPartitionPivot_perm _ _ _ _)
    · exact List.Perm.refl _

/-- A range of at most 16 elements is left to the final insertion sort. -/
theorem introsortLoop_short {α : Type} (comp : α → α → Bool) (depth_limit : Nat) (l : List α)
    (first last : Nat) (h : last - first ≤ 16) :
    introsortLoop comp depth_limit l first last = l := by
  cases depth_limit with
  | zero => rw [introsortLoop, if_neg (by omega)]
  | succ d => rw [introsortLoop, if_neg (by omega)]

/-- The result of `std::sort` is a permutation of the sequence. -/
theorem stdSort_perm {α : Type} (comp : α → α → Bool) (l : List α) :
    (stdSort comp l).Perm l :=
  (List.perm_insertionSort _ _).trans (introsortLoop_perm _ _ _ _ _)

/-- The result of `std::sort` is ordered: no element precedes, by `comp`, an
element placed before it. -/
theorem stdSort_sorted {α : Type} (comp : α → α → Bool)
    (htotal : ∀ a b, comp b a = false ∨ comp a b = false)
    (htrans : ∀ a b c, comp b a = false → comp c b = false → comp c a = false) (l : List α) :
    (stdSort comp l).Pairwise (fun a b => comp b a = false) := by
  haveI : IsTotal α (fun a b => comp b a = false) := ⟨htotal⟩
  haveI : IsTrans α (fun a b => comp b a = false) := ⟨htrans⟩
  exact List.sorted_insertionSort (fun a b : α => comp b a = false) _

/-- On at most 16 elements `std::sort` is the insertion sort alone, which keeps
equivalent elements in their order. -/
theorem stdSort_short {α : Type} (comp : α → α → Bool) (l : List α) (h : l.length ≤ 16) :
    stdSort comp l = l.insertionSort (fun a b => comp b a = false) := by
  unfold stdSort
  rw [introsortLoop_short comp _ l 0 l.length (by omega)]

end Cpp

namespace Cpp

theorem startsWith_append (p x : Str) : startsWith p (p ++ x) = true := by
  induction p with
  | nil => simp [startsWith]
  | cons c p ih => simp [startsWith]

theorem digitsValue_foldl (cs : Str) (init : Nat) :
    cs.foldl (fun acc c => acc * 10 + (c.toNat - 48)) init
      = init * 10 ^ cs.length + digitsValue cs := by
  induction cs generalizing init with
  | nil => simp [digitsValue]
  | cons c cs ih =>
    simp only [List.foldl_cons, digitsValue, List.length_cons]
    rw [ih, ih (0 * 10 + (c.toNat - 48))]
    ring

theorem digitsValue_cons (c : Char) (cs : Str) :
    digitsValue (c :: cs) = (c.toNat - 48) * 10 ^ cs.length + digitsValue cs := by
  have h := digitsValue_foldl cs (0 * 10 + (c.toNat - 48))
  simp only [digitsValue, List.foldl_cons] at h ⊢
  rw [h]; simp

theorem digitChar_isDigit (d : Nat) (h : d < 10) : (Nat.digitChar d).isDigit = true := by
  interval_cases d <;> decide

theorem digitChar_value (d : Nat) (h : d < 10) : (Nat.digitChar d).toNat - 48 = d := by
  interval_cases d <;> decide

theorem toDigitsCore_all_digits (fuel n : Nat) (acc : Str)
    (hacc : ∀ c ∈ acc, c.isDigit = true) :
    ∀ c ∈ Nat.toDigitsCore 10 fuel n acc, c.isDigit = true := by
  induction fuel generalizing n acc with
  | zero => simpa [Nat.toDigitsCore] using hacc
  | succ fuel ih =>
    have hd : (Nat.digitChar (n % 10)).isDigit = true :=
      digitChar_isDigit _ (Nat.mod_lt _ (by decide))
    have hacc1 : ∀ c ∈ Nat.digitChar (n % 10) :: acc, c.isDigit = true := by
      intro c hc
      rcases List.mem_cons.mp hc with h | h
      · rw [h]; exact hd
      · exact hacc c h
    simp only [Nat.toDigitsCore]
    split
    · exact hacc1
    · exact ih _ _ hacc1

theorem toDigitsCore_value (fuel n : Nat) (acc : Str) (h : n < fuel) :
    digitsValue (Nat.toDigitsCore 10 fuel n acc) = n * 10 ^ acc.length + digitsValue acc := by
  induction fuel generalizing n acc with
  | zero => omega
  | succ fuel ih =>
    simp only [Nat.toDigitsCore]
    split
    · rename_i h0
      rw [digitsValue_cons, digitChar_value _ (Nat.mod_lt _ (by decide))]
      have : n % 10 = n := by omega
      rw [this]
    · rename_i h0
      rw [ih (n / 10) _ (by omega), digitsValue_cons,
        digitChar_value _ (Nat.mod_lt _ (by decide)), List.length_cons, pow_succ]
      conv_rhs => rw [← Nat.div_add_mod n 10]
      ring

theorem toDigitsCore_ne_nil (fuel n : Nat) (acc : Str) (h : 0 < fuel) :
    Nat.toDigitsCore 10 fuel n acc ≠ [] := by
  induction fuel generalizing n acc with
  | zero => omega
  | succ fuel ih =>
    simp only [Nat.toDigitsCore]
    split
    · simp
    · rename_i h0
      cases fuel with
      | zero => simp [Nat.toDigitsCore]
      | succ f => exact ih _ _ (by omega)

theorem natToString_all_digits (n : Nat) : ∀ c ∈ natToString n, c.isDigit = true :=
  toDigitsCore_all_digits _ _ _ (by simp)

theorem natToString_value (n : Nat) : digitsValue (natToString n) = n := by
  have := toDigitsCore_value (n + 1) n [] (by omega)
  simpa [natToString, Nat.toDigits, digitsValue] using this

theorem natToString_ne_nil (n : Nat) : natToString n ≠ [] :=
  toDigitsCore_ne_nil _ _ _ (by omega)

theorem takeWhile_of_all {p : Char → Bool} (s : Str) (h : ∀ c ∈ s, p c = true) :
    s.takeWhile p = s := by
  induction s with
  | nil => rfl
  | cons c s ih =>
    have hc : p c = true := h c (List.mem_cons_self _ _)
    simp only [List.takeWhile_cons, hc, if_true]
    rw [ih (fun x hx => h x (List.mem_cons_of_mem _ hx))]

theorem isDigit_not_isspace (c : Char) (h : c.isDigit = true) : isspace c = false := by
  cases hs : isspace c with
  | false => rfl
  | true =>
    simp only [isspace, Bool.or_eq_true, beq_iff_eq] at hs
    rcases hs with ((((rfl | rfl) | rfl) | rfl) | rfl) | rfl <;> exact absurd h (by decide)

theorem stoi_natToString (n : Nat) (h : n ≤ 2147483647) :
    stoi (natToString n) = Except.ok (n : Int) := by
  have hd := natToString_all_digits n
  have hne := natToString_ne_nil n
  have hv := natToString_value n
  cases hs : natToString n with
  | nil => exact absurd hs hne
  | cons c cs =>
    rw [hs] at hd hv
    have hc : c.isDigit = true := hd c (List.mem_cons_self _ _)
    have hsp : isspace c = false := isDigit_not_isspace c hc
    have hm : c ≠ '-' := by intro e; subst e; exact absurd hc (by decide)
    have hp : c ≠ '+' := by intro e; subst e; exact absurd hc (by decide)
    have htw : (c :: cs).takeWhile Char.isDigit = c :: cs := takeWhile_of_all _ hd
    simp only [stoi, List.dropWhile_cons, hsp, List.head?_cons]
    simp [hm, hp, htw, hv]
    omega

theorem stoi_to_string (i : Int) (h1 : -2147483648 ≤ i) (h2 : i ≤ 2147483647) :
    stoi (to_string i) = Except.ok i := by
  by_cases hneg : i < 0
  · have hd := natToString_all_digits i.natAbs
    have hne := natToString_ne_nil i.natAbs
    have hv := natToString_value i.natAbs
    have htw : (natToString i.natAbs).takeWhile Char.isDigit = natToString i.natAbs :=
      takeWhile_of_all _ hd
    have hsp : isspace '-' = false := by decide
    simp only [to_string, hneg, if_true, stoi, List.dropWhile_cons, hsp, List.head?_cons]
    simp [htw, hv, hne]
    have habs : |i| = -i := abs_of_neg hneg
    rw [habs, if_neg (by omega)]
    simp
  · have e : to_string i = natToString i.natAbs := by simp [to_string, hneg]
    rw [e, stoi_natToString _ (by omega)]
    congr 1
    omega

end Cpp

namespace Aggregator

open Cpp

theorem parseResult_count_ok (stod : Str → Except StdExcept Double) (a : Aggregator)
    (message : Str) (n : Int) (h : startsWith "TOTAL_SECTIONS:".toList message = true)
    (hn : stoi (message.drop 15) = Except.ok n) :
    parseResult stod a message = ({ a with total_sections_expected := n }, none) := by
  rw [parseResult, if_pos h, hn]

theorem parseResult_count_error (stod : Str → Except StdExcept Double) (a : Aggregator)
    (message : Str) (e : StdExcept) (h : startsWith "TOTAL_SECTIONS:".toList message = true)
    (hn : stoi (message.drop 15) = Except.error e) :
    parseResult stod a message = (a, some e) := by
  rw [parseResult, if_pos h, hn]

theorem parseResult_result (stod : Str → Except StdExcept Double) (a : Aggregator)
    (message : Str) (h : startsWith "TOTAL_SECTIONS:".toList message = false) :
    parseResult stod a message =
      match parseTokens stod (startLocals a) (getlines '|' message) with
      | (l, some e) => (afterLoop a l, some e)
      | (l, none) => (storeResult a l, none) := by
  rw [parseResult, if_neg (by rw [h]; exact Bool.false_ne_true)]

theorem storeResult_expected (a : Aggregator) (l : Locals) :
    (storeResult a l).total_sections_expected = a.total_sections_expected := by
  unfold storeResult afterLoop
  dsimp only
  split <;> rfl

theorem storeResult_processed (a : Aggregator) (l : Locals) :
    (storeResult a l).total_sections_processed = a.total_sections_processed + 1 := by
  unfold storeResult afterLoop
  dsimp only
  split <;> rfl

theorem storeResult_results (a : Aggregator) (l : Locals) :
    (storeResult a l).results = StdMap.modify l.section_id {} (fun _ => l.result) a.results := by
  unfold storeResult afterLoop
  dsimp only
  split <;> rfl

theorem storeResult_flag (a : Aggregator) (l : Locals) :
    (storeResult a l).all_results_received =
      (a.all_results_received ||
        decide (0 < a.total_sections_expected ∧
          a.total_sections_expected ≤ a.total_sections_processed + 1)) := by
  unfold storeResult afterLoop
  dsimp only
  split
  · rename_i h; simp [h]
  · rename_i h; simp [h]

/-- What a call of `parseResult` that returns normally on a result message
does to the counters and to the flag. -/
theorem parseResult_result_ok (stod : Str → Except StdExcept Double) (a b : Aggregator)
    (message : Str) (h : startsWith "TOTAL_SECTIONS:".toList message = false)
    (hb : parseResult stod a message = (b, none)) :
    ∃ l : Locals, b = storeResult a l := by
  rw [parseResult_result stod a message h] at hb
  rcases hp : parseTokens stod (startLocals a) (getlines '|' message) with ⟨l, o⟩
  rw [hp] at hb
  cases o with
  | none => exact ⟨l, (Prod.mk.inj hb).1.symm⟩
  | some e => simp at hb

/-- A call of `parseResult` that throws leaves `results`, the two section
counters and the flag as they were. -/
theorem parseResult_threw (stod : Str → Except StdExcept Double) (a b : Aggregator)
    (message : Str) (e : StdExcept) (hb : parseResult stod a message = (b, some e)) :
    b.results = a.results ∧ b.total_sections_processed = a.total_sections_processed ∧
    b.total_sections_expected = a.total_sections_expected ∧
    b.all_results_received = a.all_results_received ∧ b.top_word_count = a.top_word_count := by
  cases h : startsWith "TOTAL_SECTIONS:".toList message with
  | true =>
    cases hn : stoi (message.drop 15) with
    | ok n => rw [parseResult_count_ok stod a message n h hn] at hb; simp at hb
    | error e1 =>
      rw [parseResult_count_error stod a message e1 h hn] at hb
      have := (Prod.mk.inj hb).1
      subst this
      simp
  | false =>
    rw [parseResult_result stod a message h] at hb
    rcases hp : parseTokens stod (startLocals a) (getlines '|' message) with ⟨l, o⟩
    rw [hp] at hb
    cases o with
    | none => simp at hb
    | some e1 =>
      have := (Prod.mk.inj hb).1
      subst this
      simp [afterLoop]

theorem parseResult_flag_mono (stod : Str → Except StdExcept Double) (a : Aggregator)
    (message : Str) (h : a.all_results_received = true) :
    (parseResult stod a message).1.all_results_received = true := by
  rcases hr : parseResult stod a message with ⟨b, o⟩
  cases o with
  | some e => rw [(parseResult_threw stod a b message e hr).2.2.2.1]; exact h
  | none =>
    cases ht : startsWith "TOTAL_SECTIONS:".toList message with
    | true =>
      cases hn : stoi (message.drop 15) with
      | ok n =>
        rw [parseResult_count_ok stod a message n ht hn] at hr
        have := (Prod.mk.inj hr).1
        subst this
        exact h
      | error e1 => rw [parseResult_count_error stod a message e1 ht hn] at hr; simp at hr
    | false =>
      obtain ⟨l, hl⟩ := parseResult_result_ok stod a b message ht hr
      show b.all_results_received = true
      rw [hl, storeResult_flag, h]; rfl

end Aggregator

namespace Cpp

theorem char_eq_of_toNat_eq (a b : Char) (h : a.toNat = b.toNat) : a = b := by
  apply Char.ext
  apply UInt32.eq_of_val_eq
  apply Fin.ext
  exact h

theorem strLt_irrefl (a : Str) : strLt a a = false := by
  induction a with
  | nil => rfl
  | cons c a ih => simp [strLt, ih]

theorem strLt_trans (a b c : Str) (h1 : strLt a b = true) (h2 : strLt b c = true) :
    strLt a c = true := by
  induction a generalizing b c with
  | nil =>
    cases b with
    | nil => simp [strLt] at h1
    | cons y b =>
      cases c with
      | nil => simp [strLt] at h2
      | cons z c => rfl
  | cons x a ih =>
    cases b with
    | nil => simp [strLt] at h1
    | cons y b =>
      cases c with
      | nil => simp [strLt] at h2
      | cons z c =>
        simp only [strLt] at h1 h2 ⊢
        by_cases hxy : x.toNat < y.toNat
        · by_cases hyz : y.toNat < z.toNat
          · rw [if_pos (by omega)]
          · rw [if_neg hyz] at h2
            by_cases hzy : z.toNat < y.toNat
            · rw [if_pos hzy] at h2; exact absurd h2 (by decide)
            · rw [if_pos (by omega)]
        · rw [if_neg hxy] at h1
          by_cases hyx : y.toNat < x.toNat
          · rw [if_pos hyx] at h1; exact absurd h1 (by decide)
          · rw [if_neg hyx] at h1
            by_cases hyz : y.toNat < z.toNat
            · rw [if_pos (by omega)]
            · rw [if_neg hyz] at h2
              by_cases hzy : z.toNat < y.toNat
              · rw [if_pos hzy] at h2; exact absurd h2 (by decide)
              · rw [if_neg hzy] at h2
                rw [if_neg (by omega), if_neg (by omega)]
                exact ih b c h1 h2

theorem strLt_total (a b : Str) (h1 : strLt a b = false) (h2 : a ≠ b) : strLt b a = true := by
  induction a generalizing b with
  | nil =>
    cases b with
    | nil => exact absurd rfl h2
    | cons y b => simp [strLt] at h1
  | cons x a ih =>
    cases b with
    | nil => rfl
    | cons y b =>
      simp only [strLt] at h1 ⊢
      by_cases hxy : x.toNat < y.toNat
      · rw [if_pos hxy] at h1; exact absurd h1 (by decide)
      · rw [if_neg hxy] at h1
        by_cases hyx : y.toNat < x.toNat
        · rw [if_pos hyx]
        · rw [if_neg hyx] at h1
          rw [if_neg hyx, if_neg hxy]
          have hc : x = y := char_eq_of_toNat_eq x y (by omega)
          apply ih b h1
          intro hab
          exact h2 (by rw [hc, hab])

theorem StdMap.modify_keys {V : Type} (k : Str) (dflt : V) (f : V → V) (m : StdMap V) :
    ∀ p ∈ StdMap.modify k dflt f m, p.1 = k ∨ ∃ q ∈ m, q.1 = p.1 := by
  induction m with
  | nil => intro p hp; left; simp [StdMap.modify] at hp; rw [hp]
  | cons kv rest ih =>
    obtain ⟨k1, v⟩ := kv
    intro p hp
    simp only [StdMap.modify] at hp
    split at hp
    · rename_i hk
      rcases List.mem_cons.mp hp with h | h
      · left; rw [h]; exact hk.symm
      · right; exact ⟨p, List.mem_cons_of_mem _ h, rfl⟩
    · split at hp
      · rcases List.mem_cons.mp hp with h | h
        · left; rw [h]
        · right; exact ⟨p, h, rfl⟩
      · rcases List.mem_cons.mp hp with h | h
        · right; exact ⟨(k1, v), List.mem_cons_self _ _, by rw [h]⟩
        · rcases ih p h with h3 | ⟨q, hq, hq2⟩
          · left; exact h3
          · right; exact ⟨q, List.mem_cons_of_mem _ hq, hq2⟩

theorem StdMap.modify_ordered {V : Type} (k : Str) (dflt : V) (f : V → V) (m : StdMap V)
    (h : StdMap.Ordered m) : StdMap.Ordered (StdMap.modify k dflt f m) := by
  induction m with
  | nil => simp [StdMap.modify, StdMap.Ordered]
  | cons kv rest ih =>
    obtain ⟨k1, v⟩ := kv
    have hrest : StdMap.Ordered rest := (List.pairwise_cons.mp h).2
    have hhead : ∀ q ∈ rest, strLt k1 q.1 = true := (List.pairwise_cons.mp h).1
    simp only [StdMap.modify]
    split
    · exact List.pairwise_cons.mpr ⟨fun q hq => hhead q hq, hrest⟩
    · rename_i hne
      split
      · rename_i hlt
        refine List.pairwise_cons.mpr ⟨?_, h⟩
        intro q hq
        rcases List.mem_cons.mp hq with e | e
        · rw [e]; exact hlt
        · exact strLt_trans _ _ _ hlt (hhead q e)
      · rename_i hnlt
        have hgt : strLt k1 k = true :=
          strLt_total k k1 (by simpa using hnlt) hne
        refine List.pairwise_cons.mpr ⟨?_, ih hrest⟩
        intro q hq
        rcases StdMap.modify_keys k dflt f rest q hq with e | ⟨r, hr, e⟩
        · rw [e]; exact hgt
        · rw [← e]; exact hhead r hr

theorem StdMap.ordered_nodup {V : Type} (m : StdMap V) (h : StdMap.Ordered m) :
    (m.map Prod.fst).Nodup := by
  induction m with
  | nil => simp
  | cons kv rest ih =>
    have hrest : StdMap.Ordered rest := (List.pairwise_cons.mp h).2
    have hhead : ∀ q ∈ rest, strLt kv.1 q.1 = true := (List.pairwise_cons.mp h).1
    rw [List.map_cons, List.nodup_cons]
    refine ⟨?_, ih hrest⟩
    intro hmem
    obtain ⟨q, hq, e⟩ := List.mem_map.mp hmem
    have := hhead q hq
    rw [e, strLt_irrefl] at this
    exact absurd this (by decide)

theorem StdMap.modify_length_le {V : Type} (k : Str) (dflt : V) (f : V → V) (m : StdMap V) :
    (StdMap.modify k dflt f m).length ≤ m.length + 1 := by
  induction m with
  | nil => simp [StdMap.modify]
  | cons kv rest ih =>
    obtain ⟨k1, v⟩ := kv
    simp only [StdMap.modify]
    split
    · simp
    · split
      · simp
      · simp only [List.length_cons]; omega

/-- Storing under a key that is already present keeps the number of entries. -/
theorem StdMap.modify_length_of_mem {V : Type} (k : Str) (dflt : V) (f : V → V) (m : StdMap V)
    (h : StdMap.Ordered m) (hk : k ∈ m.map Prod.fst) :
    (StdMap.modify k dflt f m).length = m.length := by
  induction m with
  | nil => simp at hk
  | cons kv rest ih =>
    obtain ⟨k1, v⟩ := kv
    have hrest : StdMap.Ordered rest := (List.pairwise_cons.mp h).2
    have hhead : ∀ q ∈ rest, strLt k1 q.1 = true := (List.pairwise_cons.mp h).1
    simp only [StdMap.modify]
    split
    · simp
    · rename_i hne
      have hk2 : k ∈ rest.map Prod.fst := by
        rcases List.mem_cons.mp hk with e | e
        · exact absurd e hne
        · exact e
      split
      · rename_i hlt
        obtain ⟨q, hq, e⟩ := List.mem_map.mp hk2
        have h1 := hhead q hq
        rw [e] at h1
        have := strLt_trans _ _ _ hlt h1
        rw [strLt_irrefl] at this
        exact absurd this (by decide)
      · simp only [List.length_cons]
        rw [ih hrest hk2]

theorem StdMap.find_modify_self {V : Type} (k : Str) (dflt : V) (f : V → V) (m : StdMap V)
    (h : StdMap.Ordered m) :
    StdMap.find k (StdMap.modify k dflt f m) = some (f ((StdMap.find k m).getD dflt)) := by
  induction m with
  | nil => simp [StdMap.modify, StdMap.find]
  | cons kv rest ih =>
    obtain ⟨k1, v⟩ := kv
    have hrest : StdMap.Ordered rest := (List.pairwise_cons.mp h).2
    have hhead : ∀ q ∈ rest, strLt k1 q.1 = true := (List.pairwise_cons.mp h).1
    simp only [StdMap.modify]
    split
    · rename_i hk; simp [StdMap.find, hk]
    · rename_i hne
      split
      · rename_i hlt
        have hnot : StdMap.find k rest = none := by
          clear ih
          induction rest with
          | nil => rfl
          | cons q rest ih2 =>
            have h1 := hhead q (List.mem_cons_self _ _)
            have hkq : k ≠ q.1 := by
              intro e
              have := strLt_trans _ _ _ hlt h1
              rw [e, strLt_irrefl] at this
              exact absurd this (by decide)
            simp only [StdMap.find, if_neg hkq]
            exact ih2 (List.pairwise_cons.mpr
                ⟨fun r hr => hhead r (List.mem_cons_of_mem _ hr), (List.pairwise_cons.mp hrest).2⟩)
              (List.pairwise_cons.mp hrest).2 (fun r hr => hhead r (List.mem_cons_of_mem _ hr))
        simp [StdMap.find, hne, hnot]
      · simp only [StdMap.find, if_neg hne]
        exact ih hrest

theorem StdMap.find_modify_other {V : Type} (k k2 : Str) (dflt : V) (f : V → V) (m : StdMap V)
    (hne : k2 ≠ k) :
    StdMap.find k2 (StdMap.modify k dflt f m) = StdMap.find k2 m := by
  induction m with
  | nil => simp [StdMap.modify, StdMap.find, hne]
  | cons kv rest ih =>
    obtain ⟨k1, v⟩ := kv
    simp only [StdMap.modify]
    split
    · rename_i hk
      have : k2 ≠ k1 := by rw [← hk]; exact hne
      simp [StdMap.find, this]
    · split
      · simp [StdMap.find, hne]
      · simp only [StdMap.find]
        rw [ih]

end Cpp

namespace Aggregator

open Cpp

theorem parseResult_expected (stod : Str → Except StdExcept Double) (a : Aggregator)
    (message : Str) :
    (parseResult stod a message).1.total_sections_expected =
      if startsWith "TOTAL_SECTIONS:".toList message = true then
        match stoi (message.drop 15) with
        | Except.ok m => m
        | Except.error _ => a.total_sections_expected
      else a.total_sections_expected := by
  cases h : startsWith "TOTAL_SECTIONS:".toList message with
  | true =>
    rw [if_pos rfl]
    cases hn : stoi (message.drop 15) with
    | ok n => rw [parseResult_count_ok stod a message n h hn]
    | error e1 => rw [parseResult_count_error stod a message e1 h hn]
  | false =>
    rw [if_neg (by decide)]
    rcases hr : parseResult stod a message with ⟨b, o⟩
    cases o with
    | some e => exact (parseResult_threw stod a b message e hr).2.2.1
    | none =>
      obtain ⟨l, hl⟩ := parseResult_result_ok stod a b message h hr
      show b.total_sections_expected = _
      rw [hl, storeResult_expected]

theorem storeResult_ordered (a : Aggregator) (l : Locals) (h : StdMap.Ordered a.results) :
    StdMap.Ordered (storeResult a l).results := by
  rw [storeResult_results]
  exact StdMap.modify_ordered _ _ _ _ h

/-- The state after a run of result messages none of which throws. -/
theorem parseAll_results (stod : Str → Except StdExcept Double) (rs : List Str) :
    ∀ a : Aggregator,
      (∀ m ∈ rs, startsWith "TOTAL_SECTIONS:".toList m = false) →
      (parseAll stod a rs).2 = none →
      (parseAll stod a rs).1.total_sections_expected = a.total_sections_expected ∧
      (parseAll stod a rs).1.total_sections_processed
        = a.total_sections_processed + (rs.length : Int) ∧
      ((parseAll stod a rs).1.all_results_received = true ↔
        (a.all_results_received = true ∨
          (0 < a.total_sections_expected ∧ 1 ≤ rs.length ∧
            a.total_sections_expected ≤ a.total_sections_processed + (rs.length : Int)))) ∧
      (StdMap.Ordered a.results → StdMap.Ordered (parseAll stod a rs).1.results) ∧
      (parseAll stod a rs).1.results.length ≤ a.results.length + rs.length := by
  induction rs with
  | nil => intro a _ _; simp [parseAll]
  | cons m rs ih =>
    intro a hrs hok
    have hm : startsWith "TOTAL_SECTIONS:".toList m = false := hrs m (List.mem_cons_self _ _)
    rcases hr : parseResult stod a m with ⟨b, o⟩
    cases o with
    | some e => simp [parseAll, hr] at hok
    | none =>
      have hstep : parseAll stod a (m :: rs) = parseAll stod b rs := by
        simp [parseAll, hr]
      rw [hstep] at hok ⊢
      obtain ⟨l, hl⟩ := parseResult_result_ok stod a b m hm hr
      obtain ⟨h1, h2, h3, h4, h5⟩ := ih b (fun x hx => hrs x (List.mem_cons_of_mem _ hx)) hok
      have e1 : b.total_sections_expected = a.total_sections_expected := by
        rw [hl, storeResult_expected]
      have e2 : b.total_sections_processed = a.total_sections_processed + 1 := by
        rw [hl, storeResult_processed]
      have e3 : b.all_results_received = true ↔
          (a.all_results_received = true ∨ (0 < a.total_sections_expected ∧
            a.total_sections_expected ≤ a.total_sections_processed + 1)) := by
        rw [hl, storeResult_flag]; simp
      have e5 : b.results.length ≤ a.results.length + 1 := by
        rw [hl, storeResult_results]; exact StdMap.modify_length_le _ _ _ _
      have hlen : ((m :: rs).length : Int) = (rs.length : Int) + 1 := by
        simp [List.length_cons]
      refine ⟨by rw [h1, e1], by rw [h2, e2, hlen]; ring, ?_, ?_, ?_⟩
      · rw [h3, e3, e1, e2, hlen]
        have hl1 : 1 ≤ (m :: rs).length := by simp [List.length_cons]
        constructor
        · rintro ((h | h) | h)
          · left; exact h
          · right; exact ⟨h.1, hl1, by omega⟩
          · right; exact ⟨h.1, hl1, by omega⟩
        · rintro (h | h)
          · left; left; exact h
          · by_cases hle : a.total_sections_expected ≤ a.total_sections_processed + 1
            · left; right; exact ⟨h.1, hle⟩
            · right
              refine ⟨h.1, ?_, by omega⟩
              have : (0 : Int) < (rs.length : Int) := by omega
              omega
      · intro ho
        exact h4 (by rw [hl]; exact storeResult_ordered a l ho)
      · simp only [List.length_cons]; omega

end Aggregator

namespace Aggregator

open Cpp

theorem parseResult_countMessage (stod : Str → Except StdExcept Double) (a : Aggregator)
    (n : Int) (h1 : -2147483648 ≤ n) (h2 : n ≤ 2147483647) :
    parseResult stod a ("TOTAL_SECTIONS:".toList ++ to_string n)
      = ({ a with total_sections_expected := n }, none) := by
  apply parseResult_count_ok stod a _ n (startsWith_append _ _)
  have : ("TOTAL_SECTIONS:".toList ++ to_string n).drop 15 = to_string n := by
    show (("TOTAL_SECTIONS:".toList ++ to_string n).drop "TOTAL_SECTIONS:".toList.length) = _
    rw [List.drop_left]
  rw [this]
  exact stoi_to_string n h1 h2

end Aggregator

/-- Counterexample to C3 as stated: after `TOTAL_SECTIONS:2` the same section
`SECTION_0` is delivered twice; one section id is stored, fewer than the two
expected, and the Aggregator is complete. -/
theorem C3_counterexample :
    (Aggregator.parseAll stodDecimal (Aggregator.init 10)
      ["TOTAL_SECTIONS:2".toList, "SECTION_0|words:3".toList,
        "SECTION_0|words:3".toList]).1.all_results_received = true ∧
    (Aggregator.parseAll stodDecimal (Aggregator.init 10)
      ["TOTAL_SECTIONS:2".toList, "SECTION_0|words:3".toList,
        "SECTION_0|words:3".toList]).1.results.map Prod.fst = ["SECTION_0".toList] ∧
    (Aggregator.parseAll stodDecimal (Aggregator.init 10)
      ["TOTAL_SECTIONS:2".toList, "SECTION_0|words:3".toList,
        "SECTION_0|words:3".toList]).1.total_sections_expected = 2 := by
  decide

/-- C4 (the code at the failing input). One result is processed and then the
announcement `TOTAL_SECTIONS:1`: the result is recorded, the expected count is
1 and one section has been processed, but the Aggregator is not complete and
the collection loop goes on waiting; with the announcement first it is
complete. -/
theorem C4_count_after_results_not_complete :
    Aggregator.collectResults stodDecimal (Aggregator.init 10)
        ["SECTION_0|words:3|top:job:1|sorted:Good job.".toList, "TOTAL_SECTIONS:1".toList]
      = Aggregator.Collected.waiting
          { top_word_count := 10
            results := [("SECTION_0".toList,
              { word_count := some 3, word_frequencies := [("job".toList, 1)] })]
            total_sections_expected := 1
            total_sections_processed := 1
            total_words := 3
            all_results_received := false
            sentences_by_length := [(9, "Good job.".toList)] } ∧
    (Aggregator.parseAll stodDecimal (Aggregator.init 10)
        ["TOTAL_SECTIONS:1".toList,
          "SECTION_0|words:3|top:job:1|sorted:Good job.".toList]).1.all_results_received = true := by
  decide

/-- Counterexample to C5 as stated: the count inside `top:` does not parse; the
failure leaves the collection loop (`aborted`), and `total_words` has already
been raised by the `words:` field of the same message. -/
theorem C5_counterexample :
    Aggregator.collectResults stodDecimal (Aggregator.init 10)
        ["SECTION_0|words:5|top:a:x".toList, "TOTAL_SECTIONS:1".toList]
      = Aggregator.Collected.aborted StdExcept.invalid_argument
          { Aggregator.init 10 with total_words := 5 } := by
  decide



namespace Aggregator

open Cpp

theorem parseToken_section_id (stod : Str → Except StdExcept Double) (l l1 : Locals)
    (token : Str) (h : startsWith "SECTION_".toList token = false)
    (hok : parseToken stod l token = Except.ok l1) : l1.section_id = l.section_id := by
  unfold parseToken at hok
  rw [if_neg (by rw [h]; exact Bool.false_ne_true)] at hok
  split at hok
  · split at hok
    · cases hok; rfl
    · cases hok
  · split at hok
    · split at hok
      · cases hok; rfl
      · cases hok
    · split at hok
      · split at hok
        · cases hok; rfl
        · cases hok
      · split at hok
        · cases hok; rfl
        · split at hok
          · cases hok; rfl
          · cases hok; rfl

theorem parseTokens_section_id (stod : Str → Except StdExcept Double) (tokens : List Str) :
    ∀ l : Locals, (∀ t ∈ tokens, startsWith "SECTION_".toList t = false) →
      (parseTokens stod l tokens).1.section_id = l.section_id := by
  induction tokens with
  | nil => intro l _; rfl
  | cons t ts ih =>
    intro l h
    simp only [parseTokens]
    cases hp : parseToken stod l t with
    | error e => rfl
    | ok l1 =>
      simp only []
      rw [ih l1 (fun x hx => h x (List.mem_cons_of_mem _ hx))]
      exact parseToken_section_id stod l l1 t (h t (List.mem_cons_self _ _)) hp

end Aggregator

/-- Counterexample to C6 as stated: after `TOTAL_SECTIONS:1`, the message
`words:3` without a section id adds an entry (under the empty id), raises the
processed-section count to 1 and completes the Aggregator. -/
theorem C6_counterexample :
    Aggregator.parseAll stodDecimal (Aggregator.init 10)
        ["TOTAL_SECTIONS:1".toList, "words:3".toList]
      = ({ top_word_count := 10
           results := [([], { word_count := some 3 })]
           total_sections_expected := 1
           total_sections_processed := 1
           total_words := 3
           all_results_received := true
           sentences_by_length := [] }, none) := by
  decide

/-- C7 (as amended). From the initial state, `TOTAL_SECTIONS:0` records the
expected count 0 and does not complete the Aggregator, and while the expected
count is 0 no sequence of result messages completes it either: the completion
test asks for a positive expected count. -/
theorem C7_zero_sections_never_complete (stod : Str → Except StdExcept Double) (top : Int)
    (rs : List Str)
    (hrs : ∀ m ∈ rs, Cpp.startsWith "TOTAL_SECTIONS:".toList m = false) :
    (Aggregator.parseAll stod (Aggregator.init top)
      ("TOTAL_SECTIONS:0".toList :: rs)).1.all_results_received = false ∧
    (Aggregator.parseAll stod (Aggregator.init top)
      ("TOTAL_SECTIONS:0".toList :: rs)).1.total_sections_expected = 0 := by
  have h0 : Aggregator.parseResult stod (Aggregator.init top) "TOTAL_SECTIONS:0".toList
      = ({ Aggregator.init top with total_sections_expected := 0 }, none) :=
    Aggregator.parseResult_count_ok stod _ _ 0 (by decide) rfl
  have hstep : Aggregator.parseAll stod (Aggregator.init top) ("TOTAL_SECTIONS:0".toList :: rs)
      = Aggregator.parseAll stod { Aggregator.init top with total_sections_expected := 0 } rs := by
    simp only [Aggregator.parseAll, h0]
  rw [hstep]
  have key : ∀ (l : List Str) (a : Aggregator),
      (∀ m ∈ l, Cpp.startsWith "TOTAL_SECTIONS:".toList m = false) →
      a.all_results_received = false → a.total_sections_expected = 0 →
      (Aggregator.parseAll stod a l).1.all_results_received = false ∧
      (Aggregator.parseAll stod a l).1.total_sections_expected = 0 := by
    intro l
    induction l with
    | nil => intro a _ h1 h2; exact ⟨h1, h2⟩
    | cons m l ih =>
      intro a hl h1 h2
      have hm := hl m (List.mem_cons_self _ _)
      rcases hr : Aggregator.parseResult stod a m with ⟨b, o⟩
      cases o with
      | some e =>
        obtain ⟨_, _, h5, h6, _⟩ := Aggregator.parseResult_threw stod a b m e hr
        simp only [Aggregator.parseAll, hr]
        exact ⟨by rw [h6, h1], by rw [h5, h2]⟩
      | none =>
        obtain ⟨loc, hloc⟩ := Aggregator.parseResult_result_ok stod a b m hm hr
        simp only [Aggregator.parseAll, hr]
        apply ih b (fun x hx => hl x (List.mem_cons_of_mem _ hx))
        · rw [hloc, Aggregator.storeResult_flag, h1, h2]; simp
        · rw [hloc, Aggregator.storeResult_expected, h2]
  exact key rs _ hrs rfl rfl

/-- Witness of C7: the announcement of zero sections, then one result. -/
theorem C7_zero_sections_never_complete_witness :
    (Aggregator.parseAll stodDecimal (Aggregator.init 10)
      ("TOTAL_SECTIONS:0".toList :: ["SECTION_0|words:3".toList])).1.all_results_received = false ∧
    (Aggregator.parseAll stodDecimal (Aggregator.init 10)
      ("TOTAL_SECTIONS:0".toList :: ["SECTION_0|words:3".toList])).1.total_sections_expected = 0 :=
  C7_zero_sections_never_complete stodDecimal 10 ["SECTION_0|words:3".toList] (by decide)

/-- Counterexample to C7 as stated: from the initial state the single message
`TOTAL_SECTIONS:0` leaves the Aggregator not complete, and the collection loop
goes on waiting. -/
theorem C7_counterexample :
    Aggregator.collectResults stodDecimal (Aggregator.init 10) ["TOTAL_SECTIONS:0".toList]
      = Aggregator.Collected.waiting (Aggregator.init 10) ∧
    (Aggregator.parseResult stodDecimal (Aggregator.init 10)
      "TOTAL_SECTIONS:0".toList).1.all_results_received = false := by
  decide

/-- C8. Completion is monotonic: when the Aggregator is complete, it is still
complete after `parseResult` has processed any further message (a result, an
announcement, or a message that fails to decode), and so after any sequence of
further messages. -/
theorem C8_completion_monotonic (stod : Str → Except StdExcept Double) (a : Aggregator)
    (message : Str) (h : a.all_results_received = true) :
    (Aggregator.parseResult stod a message).1.all_results_received = true ∧
    ∀ messages : List Str,
      (Aggregator.parseAll stod a messages).1.all_results_received = true := by
  refine ⟨Aggregator.parseResult_flag_mono stod a message h, ?_⟩
  intro messages
  induction messages generalizing a with
  | nil => exact h
  | cons m ms ih =>
    have hm := Aggregator.parseResult_flag_mono stod a m h
    rcases hr : Aggregator.parseResult stod a m with ⟨b, o⟩
    rw [hr] at hm
    cases o with
    | none => simp only [Aggregator.parseAll, hr]; exact ih b hm
    | some e => simp only [Aggregator.parseAll, hr]; exact hm

/-- Witness of C8: a complete Aggregator receives a larger announcement. -/
theorem C8_completion_monotonic_witness :
    (Aggregator.parseAll stodDecimal (Aggregator.init 10)
      ["TOTAL_SECTIONS:1".toList, "SECTION_0|words:3".toList]).1.all_results_received = true ∧
    (Aggregator.parseResult stodDecimal
      (Aggregator.parseAll stodDecimal (Aggregator.init 10)
        ["TOTAL_SECTIONS:1".toList, "SECTION_0|words:3".toList]).1
      "TOTAL_SECTIONS:5".toList).1.all_results_received = true :=
  ⟨by decide, (C8_completion_monotonic stodDecimal _ "TOTAL_SECTIONS:5".toList (by decide)).1⟩

/-- C9 (as amended). The expected count after `parseResult`: a message that is
not a `TOTAL_SECTIONS` announcement leaves it as it was, and so does an
announcement whose number does not parse; every announcement `TOTAL_SECTIONS:<m>`
whose number parses sets it to `m`, also when a count had been set before (the
last announcement wins). -/
theorem C9_expected_count_last_announcement_wins (stod : Str → Except StdExcept Double)
    (a : Aggregator) (message : Str) :
    (Aggregator.parseResult stod a message).1.total_sections_expected =
      if Cpp.startsWith "TOTAL_SECTIONS:".toList message = true then
        match Cpp.stoi (message.drop 15) with
        | Except.ok m => m
        | Except.error _ => a.total_sections_expected
      else a.total_sections_expected :=
  Aggregator.parseResult_expected stod a message

/-- Counterexample to C9 as stated: after `TOTAL_SECTIONS:2` has set the
expected count to 2, the message `TOTAL_SECTIONS:3` changes it to 3. -/
theorem C9_counterexample :
    (Aggregator.parseResult stodDecimal (Aggregator.init 10)
      "TOTAL_SECTIONS:2".toList).1.total_sections_expected = 2 ∧
    (Aggregator.parseResult stodDecimal
      (Aggregator.parseResult stodDecimal (Aggregator.init 10) "TOTAL_SECTIONS:2".toList).1
      "TOTAL_SECTIONS:3".toList).1.total_sections_expected = 3 := by
  decide

namespace Spec

open Cpp

/-- The pieces of `cur ++ t` from the pieces of `t`, for a `cur` without
terminator: `cur` goes in front of the first piece, or of the fragment. -/
theorem terminatedPieces_cons_of_not_terminator (c : Char) (rest : Str)
    (h : isTerminator c = false) :
    terminatedPieces (c :: rest) =
      match (terminatedPieces rest).1 with
      | [] => ([], c :: (terminatedPieces rest).2)
      | p :: ps => ((c :: p) :: ps, (terminatedPieces rest).2) := by
  rw [terminatedPieces, if_neg (by rw [h]; exact Bool.false_ne_true)]

theorem terminatedPieces_cons_of_terminator (c : Char) (rest : Str)
    (h : isTerminator c = true) :
    terminatedPieces (c :: rest) = ([c] :: (terminatedPieces rest).1, (terminatedPieces rest).2) := by
  rw [terminatedPieces, if_pos h]

theorem terminatedPieces_flatten (text : Str) :
    (terminatedPieces text).1.flatten ++ (terminatedPieces text).2 = text := by
  induction text with
  | nil => rfl
  | cons c rest ih =>
    cases hc : isTerminator c with
    | true =>
      rw [terminatedPieces_cons_of_terminator c rest hc]
      simp only [List.flatten_cons, List.singleton_append, List.cons_append, List.nil_append]
      rw [ih]
    | false =>
      rw [terminatedPieces_cons_of_not_terminator c rest hc]
      cases hp : (terminatedPieces rest).1 with
      | nil =>
        rw [hp] at ih
        simp only [List.flatten_nil, List.nil_append] at ih ⊢
        rw [ih]
      | cons p ps =>
        rw [hp] at ih
        simp only [List.flatten_cons, List.cons_append] at ih ⊢
        rw [ih]

theorem terminatedPieces_fragment (text : Str) :
    ∀ c ∈ (terminatedPieces text).2, isTerminator c = false := by
  induction text with
  | nil => intro c hc; simp [terminatedPieces] at hc
  | cons x rest ih =>
    cases hx : isTerminator x with
    | true => rw [terminatedPieces_cons_of_terminator x rest hx]; exact ih
    | false =>
      rw [terminatedPieces_cons_of_not_terminator x rest hx]
      cases hp : (terminatedPieces rest).1 with
      | nil =>
        intro c hc
        rcases List.mem_cons.mp hc with e | e
        · rw [e]; exact hx
        · exact ih c e
      | cons p ps => exact ih

theorem terminatedPieces_ends (text : Str) :
    ∀ p ∈ (terminatedPieces text).1, ∃ q c, p = q ++ [c] ∧ isTerminator c = true := by
  induction text with
  | nil => intro p hp; simp [terminatedPieces] at hp
  | cons x rest ih =>
    cases hx : isTerminator x with
    | true =>
      rw [terminatedPieces_cons_of_terminator x rest hx]
      intro p hp
      rcases List.mem_cons.mp hp with e | e
      · exact ⟨[], x, by rw [e]; rfl, hx⟩
      · exact ih p e
    | false =>
      rw [terminatedPieces_cons_of_not_terminator x rest hx]
      cases hp : (terminatedPieces rest).1 with
      | nil => intro p h; simp at h
      | cons p0 ps =>
        rw [hp] at ih
        intro p h
        rcases List.mem_cons.mp h with e | e
        · obtain ⟨q, c, hq, hc⟩ := ih p0 (List.mem_cons_self _ _)
          exact ⟨x :: q, c, by rw [e, hq]; rfl, hc⟩
        · exact ih p (List.mem_cons_of_mem _ e)

theorem isTerminator_not_trim (c : Char) (h : isTerminator c = true) : isTrimChar c = false := by
  simp only [isTerminator, Bool.or_eq_true, beq_iff_eq] at h
  rcases h with (rfl | rfl) | rfl <;> decide

theorem dropWhile_append_last (f : Char → Bool) (q : Str) (c : Char) (h : f c = false) :
    (q ++ [c]).dropWhile f = q.dropWhile f ++ [c] := by
  induction q with
  | nil => simp [List.dropWhile, h]
  | cons x q ih =>
    simp only [List.cons_append, List.dropWhile_cons]
    split
    · exact ih
    · rfl

/-- A piece that ends in a terminator is its leading white space followed by
its trimmed form, which is not empty. -/
theorem trim_of_ends (q : Str) (c : Char) (h : isTerminator c = true) :
    q ++ [c] = (q ++ [c]).takeWhile isTrimChar ++ trim (q ++ [c]) ∧ trim (q ++ [c]) ≠ [] := by
  have hc := isTerminator_not_trim c h
  have ht : trim (q ++ [c]) = (q ++ [c]).dropWhile isTrimChar := by
    unfold trim
    rw [dropWhile_append_last _ _ _ hc, List.reverse_append]
    simp [List.dropWhile, hc]
  rw [ht]
  constructor
  · exact (List.takeWhile_append_dropWhile _ _).symm
  · rw [dropWhile_append_last _ _ _ hc]; simp

end Spec

namespace Producer

open Cpp

theorem cleanSentence_eq (s : Str) :
    cleanSentence s = if (s.dropWhile isTrimChar).isEmpty then none else some (Spec.trim s) := by
  rfl

theorem trim_eq_nil_of_dropWhile (s : Str) (h : (s.dropWhile isTrimChar).isEmpty = true) :
    Spec.trim s = [] := by
  have : s.dropWhile isTrimChar = [] := by simpa using h
  simp [Spec.trim, this]

/-- One step of the scan adds to the concatenated output the trimmed sentence
and a space when the character is a terminator and the sentence is not empty,
and nothing otherwise. -/
theorem scanChar_flat (n : Int) (st : Scan) (c : Char) :
    (scanChar n st c).sections.flatten ++ (scanChar n st c).current_section =
      st.sections.flatten ++ st.current_section ++
        (if isTerminator c = true ∧ Spec.trim (st.current_sentence ++ [c]) ≠ []
         then Spec.trim (st.current_sentence ++ [c]) ++ [' '] else []) := by
  unfold scanChar
  cases hc : isTerminator c with
  | false => simp
  | true =>
    simp only [if_true, cleanSentence_eq]
    by_cases hd : ((st.current_sentence ++ [c]).dropWhile isTrimChar).isEmpty = true
    · rw [if_pos hd]
      simp [trim_eq_nil_of_dropWhile _ hd]
    · rw [if_neg hd]
      simp only []
      by_cases he : Spec.trim (st.current_sentence ++ [c]) = []
      · simp [he]
      · have he2 : (Spec.trim (st.current_sentence ++ [c])).isEmpty = false := by
          cases h : Spec.trim (st.current_sentence ++ [c]) with
          | nil => exact absurd h he
          | cons _ _ => rfl
        simp only [he2, Bool.not_false, if_true]
        split <;> simp [he]

theorem scanChar_current_sentence (n : Int) (st : Scan) (c : Char) :
    (scanChar n st c).current_sentence =
      if isTerminator c = true then [] else st.current_sentence ++ [c] := by
  unfold scanChar
  cases hc : isTerminator c with
  | false => simp
  | true =>
    simp only [if_true]
    split
    · split
      · split <;> rfl
      · rfl
    · rfl

end Producer

namespace Spec

open Cpp

theorem terminatedPieces_append_terminator (cur : Str) (c : Char) (rest : Str)
    (hcur : ∀ x ∈ cur, isTerminator x = false) (hc : isTerminator c = true) :
    terminatedPieces (cur ++ c :: rest) =
      ((cur ++ [c]) :: (terminatedPieces rest).1, (terminatedPieces rest).2) := by
  induction cur with
  | nil => exact terminatedPieces_cons_of_terminator c rest hc
  | cons x cur ih =>
    have hx : isTerminator x = false := hcur x (List.mem_cons_self _ _)
    have ih2 := ih (fun y hy => hcur y (List.mem_cons_of_mem _ hy))
    rw [List.cons_append, terminatedPieces_cons_of_not_terminator x _ hx, ih2]
    rfl

theorem sentences_append_terminator (cur : Str) (c : Char) (rest : Str)
    (hcur : ∀ x ∈ cur, isTerminator x = false) (hc : isTerminator c = true) :
    sentences (cur ++ c :: rest) =
      (if trim (cur ++ [c]) ≠ [] then [trim (cur ++ [c])] else []) ++ sentences rest := by
  unfold sentences
  rw [terminatedPieces_append_terminator cur c rest hcur hc]
  simp only [List.map_cons, List.filter_cons]
  by_cases he : trim (cur ++ [c]) = []
  · simp [he]
  · have he2 : (trim (cur ++ [c])).isEmpty = false := by
      cases h : trim (cur ++ [c]) with
      | nil => exact absurd h he
      | cons _ _ => rfl
    simp [he, he2]

end Spec

namespace Producer

open Cpp

theorem scan_flat (n : Int) (t : Str) :
    ∀ st : Scan, (∀ x ∈ st.current_sentence, isTerminator x = false) →
      (t.foldl (scanChar n) st).sections.flatten ++ (t.foldl (scanChar n) st).current_section =
        st.sections.flatten ++ st.current_section ++
          ((Spec.sentences (st.current_sentence ++ t)).map (fun s => s ++ [' '])).flatten := by
  induction t with
  | nil =>
    intro st hst
    have h0 : Spec.sentences st.current_sentence = [] := by
      have hfrag : ∀ (s : Str), (∀ x ∈ s, isTerminator x = false) →
          (Spec.terminatedPieces s).1 = [] := by
        intro s
        induction s with
        | nil => intro _; rfl
        | cons x s ih =>
          intro hs
          rw [Spec.terminatedPieces_cons_of_not_terminator x s (hs x (List.mem_cons_self _ _)),
            ih (fun y hy => hs y (List.mem_cons_of_mem _ hy))]
      simp [Spec.sentences, hfrag _ hst]
    simp [h0]
  | cons c rest ih =>
    intro st hst
    rw [List.foldl_cons]
    have hcs := scanChar_current_sentence n st c
    have hfl := scanChar_flat n st c
    cases hc : isTerminator c with
    | true =>
      rw [hc] at hcs hfl
      simp only [if_true, true_and] at hcs hfl
      rw [ih (scanChar n st c) (by rw [hcs]; intro x hx; simp at hx), hfl, hcs,
        Spec.sentences_append_terminator _ c rest hst hc]
      by_cases he : Spec.trim (st.current_sentence ++ [c]) = []
      · simp [he]
      · simp [he]
    | false =>
      rw [hc] at hcs hfl
      simp only [Bool.false_eq_true, if_false, false_and, List.append_nil] at hcs hfl
      have hst2 : ∀ x ∈ (scanChar n st c).current_sentence, isTerminator x = false := by
        rw [hcs]
        intro x hx
        rcases List.mem_append.mp hx with h | h
        · exact hst x h
        · simp at h; rw [h]; exact hc
      rw [ih (scanChar n st c) hst2, hfl, hcs]
      simp

theorem readFileBySentences_flatten (lines : List Str) (n : Int) :
    (readFileBySentences lines n).flatten =
      ((Spec.sentences (accumulateLines lines)).map (fun s => s ++ [' '])).flatten := by
  have h := scan_flat n (accumulateLines lines)
    { sections := [], current_section := [], sentence_count := 0, current_sentence := [] }
    (by intro x hx; simp at hx)
  simp only [List.flatten_nil, List.nil_append] at h
  rw [← h]
  unfold readFileBySentences
  simp only []
  split
  · simp
  · rename_i hempty
    have : ((accumulateLines lines).foldl (scanChar n)
        { sections := [], current_section := [], sentence_count := 0,
          current_sentence := [] }).current_section = [] := by
      simpa using hempty
    rw [this]; simp

end Producer

namespace Producer

open Cpp

theorem accumulateLines_keeps (lines : List Str) :
    ∀ acc : Str,
      (acc ++ lines.flatten).Sublist
        (lines.foldl
          (fun accumulated_text line =>
            if !line.isEmpty then
              (if !accumulated_text.isEmpty && accumulated_text.getLast? != some ' '
               then accumulated_text ++ [' '] else accumulated_text) ++ line
            else accumulated_text)
          acc) := by
  induction lines with
  | nil => intro acc; simp
  | cons line lines ih =>
    intro acc
    rw [List.foldl_cons, List.flatten_cons]
    split
    · refine List.Sublist.trans ?_ (ih _)
      rw [← List.append_assoc]
      apply List.Sublist.append_right
      apply List.Sublist.append_right
      split
      · exact List.sublist_append_left _ _
      · exact List.Sublist.refl _
    · rename_i hline
      have : line = [] := by
        cases line with
        | nil => rfl
        | cons _ _ => simp at hline
      rw [this, List.nil_append]
      exact ih acc

end Producer

/-- C2. The Sectionizer preserves sentences: for every sequence of input lines
and every `sentences_per_section ≥ 1`, the section texts returned by
`readFileBySentences`, concatenated in order, are exactly the sentences of the
line-joined text (its pieces up to the first terminator, white space trimmed,
empty ones dropped), each once, in the order of the text, each followed by one
space. Joining the lines drops none of their characters; the line-joined text
is the concatenation of its terminated pieces followed by a fragment without
terminator, and every piece is a run of white space followed by its non-empty
sentence: the characters dropped are that white space and the final fragment. -/
theorem C2_sectionizer_preserves_sentences (lines : List Str) (sentences_per_section : Int)
    (_hn : 1 ≤ sentences_per_section) :
    (Producer.readFileBySentences lines sentences_per_section).flatten =
      ((Spec.sentences (Producer.accumulateLines lines)).map (fun s => s ++ [' '])).flatten ∧
    (lines.flatten).Sublist (Producer.accumulateLines lines) ∧
    (Spec.terminatedPieces (Producer.accumulateLines lines)).1.flatten ++
      (Spec.terminatedPieces (Producer.accumulateLines lines)).2 = Producer.accumulateLines lines ∧
    (∀ c ∈ (Spec.terminatedPieces (Producer.accumulateLines lines)).2,
      Cpp.isTerminator c = false) ∧
    (∀ p ∈ (Spec.terminatedPieces (Producer.accumulateLines lines)).1,
      p = p.takeWhile Cpp.isTrimChar ++ Spec.trim p ∧ Spec.trim p ≠ []) := by
  refine ⟨Producer.readFileBySentences_flatten lines sentences_per_section, ?_,
    Spec.terminatedPieces_flatten _, Spec.terminatedPieces_fragment _, ?_⟩
  · have h := Producer.accumulateLines_keeps lines []
    rw [List.nil_append] at h
    exact h
  · intro p hp
    obtain ⟨q, c, hq, hc⟩ := Spec.terminatedPieces_ends _ p hp
    rw [hq]
    exact Spec.trim_of_ends q c hc

/-- Witness of C2: two lines with three terminated sentences and a trailing
fragment, two sentences per section. -/
theorem C2_sectionizer_preserves_sentences_witness :
    (Producer.readFileBySentences ["Great job today.  The team".toList,
        "failed badly! Why? and then".toList] 2).flatten =
      "Great job today. The team failed badly! Why? ".toList ∧
    ((Spec.sentences (Producer.accumulateLines ["Great job today.  The team".toList,
        "failed badly! Why? and then".toList])).map (fun s => s ++ [' '])).flatten =
      "Great job today. The team failed badly! Why? ".toList :=
  ⟨by decide,
   (C2_sectionizer_preserves_sentences ["Great job today.  The team".toList,
      "failed badly! Why? and then".toList] 2 (by decide)).1 ▸ by decide⟩

namespace Cpp

theorem StdMap.find_of_mem {V : Type} (m : StdMap V) (h : StdMap.Ordered m) (p : Str × V)
    (hp : p ∈ m) : StdMap.find p.1 m = some p.2 := by
  induction m with
  | nil => simp at hp
  | cons kv rest ih =>
    obtain ⟨k1, v⟩ := kv
    have hrest : StdMap.Ordered rest := (List.pairwise_cons.mp h).2
    have hhead : ∀ q ∈ rest, strLt k1 q.1 = true := (List.pairwise_cons.mp h).1
    rcases List.mem_cons.mp hp with e | e
    · rw [e]; simp [StdMap.find]
    · have hne : p.1 ≠ k1 := by
        intro hk
        have := hhead p e
        rw [hk, strLt_irrefl] at this
        exact absurd this (by decide)
      simp only [StdMap.find, if_neg hne]
      exact ih hrest e

theorem StdMap.mem_of_find {V : Type} (m : StdMap V) (k : Str) (v : V)
    (h : StdMap.find k m = some v) : (k, v) ∈ m := by
  induction m with
  | nil => simp [StdMap.find] at h
  | cons kv rest ih =>
    obtain ⟨k1, v1⟩ := kv
    simp only [StdMap.find] at h
    split at h
    · rename_i hk
      cases h
      rw [hk]; exact List.mem_cons_self _ _
    · exact List.mem_cons_of_mem _ (ih h)

theorem StdMap.find_eq_none {V : Type} (m : StdMap V) (k : Str) :
    StdMap.find k m = none ↔ k ∉ m.map Prod.fst := by
  induction m with
  | nil => simp [StdMap.find]
  | cons kv rest ih =>
    obtain ⟨k1, v1⟩ := kv
    simp only [StdMap.find, List.map_cons, List.mem_cons, not_or]
    by_cases hk : k = k1
    · rw [if_pos hk]
      constructor
      · intro h; cases h
      · intro h; exact absurd hk h.1
    · rw [if_neg hk, ih]
      exact ⟨fun h => ⟨hk, h⟩, fun h => h.2⟩

end Cpp

namespace Aggregator

open Cpp

theorem foldl_modify_ordered (pairs : List (Str × Int)) :
    ∀ m : StdMap Int, StdMap.Ordered m →
      StdMap.Ordered (pairs.foldl (fun m p => StdMap.modify p.1 0 (fun c => c + p.2) m) m) := by
  induction pairs with
  | nil => intro m h; exact h
  | cons p pairs ih =>
    intro m h
    exact ih _ (StdMap.modify_ordered _ _ _ _ h)

theorem foldl_modify_find (w : Str) (pairs : List (Str × Int)) :
    ∀ m : StdMap Int, StdMap.Ordered m →
      StdMap.find w (pairs.foldl (fun m p => StdMap.modify p.1 0 (fun c => c + p.2) m) m) =
        if w ∈ pairs.map Prod.fst then some ((StdMap.find w m).getD 0 + Spec.countIn w pairs)
        else StdMap.find w m := by
  induction pairs with
  | nil => intro m _; simp
  | cons p pairs ih =>
    intro m h
    rw [List.foldl_cons, ih _ (StdMap.modify_ordered _ _ _ _ h)]
    by_cases hw : w = p.1
    · subst hw
      rw [StdMap.find_modify_self _ _ _ _ h]
      have hc : Spec.countIn p.1 (p :: pairs) = p.2 + Spec.countIn p.1 pairs := by
        simp [Spec.countIn, List.filter_cons]
      by_cases hmem : p.1 ∈ pairs.map Prod.fst
      · rw [if_pos hmem, if_pos (by simp), hc]
        simp only [Option.getD_some]
        congr 1; ring
      · rw [if_neg hmem, if_pos (by simp), hc]
        have h0 : Spec.countIn p.1 pairs = 0 := by
          unfold Spec.countIn
          have : pairs.filter (fun q => decide (q.1 = p.1)) = [] := by
            rw [List.filter_eq_nil_iff]
            intro q hq hq1
            exact hmem (List.mem_map.mpr ⟨q, hq, by simpa using hq1⟩)
          rw [this]; rfl
        rw [h0]; simp
    · rw [StdMap.find_modify_other _ _ _ _ _ hw]
      have hc : Spec.countIn w (p :: pairs) = Spec.countIn w pairs := by
        have : ¬ (p.1 = w) := fun e => hw e.symm
        simp [Spec.countIn, List.filter_cons, this]
      have hm : (w ∈ (p :: pairs).map Prod.fst) ↔ (w ∈ pairs.map Prod.fst) := by
        simp [hw]
      by_cases hmem : w ∈ pairs.map Prod.fst
      · rw [if_pos hmem, if_pos (hm.mpr hmem), hc]
      · rw [if_neg hmem, if_neg (fun h => hmem (hm.mp h))]

theorem countIn_append (w : Str) (xs ys : List (Str × Int)) :
    Spec.countIn w (xs ++ ys) = Spec.countIn w xs + Spec.countIn w ys := by
  simp [Spec.countIn, List.filter_append]

theorem countIn_flatMap (w : Str) (results : StdMap SectionResult) :
    Spec.countIn w (results.flatMap (fun r => r.2.word_frequencies)) = Spec.summedCount results w := by
  induction results with
  | nil => rfl
  | cons r rs ih =>
    rw [List.flatMap_cons, countIn_append, ih]
    simp [Spec.summedCount]

theorem globalFreq_ordered (results : StdMap SectionResult) :
    StdMap.Ordered (globalFreq results) :=
  foldl_modify_ordered _ [] (by simp [StdMap.Ordered])

theorem globalFreq_find (results : StdMap SectionResult) (w : Str) :
    StdMap.find w (globalFreq results) =
      if w ∈ Spec.distinctWords results then some (Spec.summedCount results w) else none := by
  unfold globalFreq
  rw [foldl_modify_find w _ [] (by simp [StdMap.Ordered]), countIn_flatMap]
  have hm : (w ∈ (results.flatMap (fun r => r.2.word_frequencies)).map Prod.fst) ↔
      w ∈ Spec.distinctWords results := by
    have hmap : ∀ rs : StdMap SectionResult,
        (rs.flatMap (fun r => r.2.word_frequencies)).map Prod.fst =
          rs.flatMap (fun r => r.2.word_frequencies.map Prod.fst) := by
      intro rs
      induction rs with
      | nil => rfl
      | cons r rs ih => rw [List.flatMap_cons, List.flatMap_cons, List.map_append, ih]
    rw [hmap]
    unfold Spec.distinctWords
    exact List.mem_dedup.symm
  by_cases h : w ∈ Spec.distinctWords results
  · rw [if_pos h, if_pos (hm.mpr h)]; simp [StdMap.find]
  · rw [if_neg h, if_neg (fun x => h (hm.mp x))]; rfl

theorem globalFreq_mem (results : StdMap SectionResult) (p : Str × Int)
    (hp : p ∈ globalFreq results) :
    p.1 ∈ Spec.distinctWords results ∧ p.2 = Spec.summedCount results p.1 := by
  have h := StdMap.find_of_mem _ (globalFreq_ordered results) p hp
  rw [globalFreq_find] at h
  by_cases hm : p.1 ∈ Spec.distinctWords results
  · rw [if_pos hm] at h
    exact ⟨hm, (Option.some.inj h).symm⟩
  · rw [if_neg hm] at h; cases h

theorem globalFreq_keys (results : StdMap SectionResult) :
    ((globalFreq results).map Prod.fst).Perm (Spec.distinctWords results) := by
  apply (List.perm_ext_iff_of_nodup (StdMap.ordered_nodup _ (globalFreq_ordered results))
    (List.nodup_dedup _)).mpr
  intro w
  constructor
  · intro hw
    obtain ⟨p, hp, e⟩ := List.mem_map.mp hw
    rw [← e]; exact (globalFreq_mem results p hp).1
  · intro hw
    have hw2 : w ∈ Spec.distinctWords results := hw
    by_contra hn
    have h1 := (StdMap.find_eq_none (globalFreq results) w).mpr hn
    rw [globalFreq_find, if_pos hw2] at h1
    cases h1

end Aggregator

namespace Aggregator

open Cpp

theorem sortByCountDesc_perm (words : List (Str × Int)) :
    (sortByCountDesc words).Perm words :=
  stdSort_perm _ _

theorem sortByCountDesc_sorted (words : List (Str × Int)) :
    (sortByCountDesc words).Pairwise (fun a b => b.2 ≤ a.2) := by
  have h := stdSort_sorted (fun a b : Str × Int => decide (a.2 > b.2))
    (fun a b => by
      simp only [decide_eq_false_iff_not, not_lt, gt_iff_lt]
      exact le_total b.2 a.2)
    (fun a b c h1 h2 => by
      simp only [decide_eq_false_iff_not, not_lt, gt_iff_lt] at h1 h2 ⊢
      exact le_trans h2 h1)
    words
  refine List.Pairwise.imp ?_ h
  intro a b hab
  simpa using hab

theorem take_min_length {α : Type} (n : Nat) (l : List α) :
    l.take (min n l.length) = l.take n := by
  by_cases h : n ≤ l.length
  · rw [Nat.min_eq_left h]
  · rw [Nat.min_eq_right (by omega), List.take_of_length_le (le_refl _),
      List.take_of_length_le (by omega)]

theorem getGlobalTopWords_eq_take (a : Aggregator) (h : 0 ≤ a.top_word_count) :
    (getGlobalTopWords a).1 =
      (sortByCountDesc (globalFreq a.results)).take a.top_word_count.toNat := by
  unfold getGlobalTopWords
  simp only []
  split
  · rename_i hlt
    have hmod : a.top_word_count % 18446744073709551616 ≤ a.top_word_count := by omega
    have hle : (sortByCountDesc (globalFreq a.results)).length ≤ a.top_word_count.toNat := by
      omega
    rw [List.take_of_length_le hle, Int.toNat_ofNat, List.take_of_length_le (le_refl _)]
  · rfl

end Aggregator

/-- C10. Global top words: for every stored state and every configured
`N ≥ 0`, `getGlobalTopWords` returns exactly `min(N, D)` pairs, `D` being the
number of distinct words over all stored results; the returned words are
distinct words of the stored results and each comes with the sum of its counts
over all stored results; the pairs are in non-increasing count order; and no
word left out has a summed count strictly larger than that of a returned
word. -/
theorem C10_global_top_words (a : Aggregator) (hN : 0 ≤ a.top_word_count) :
    (Aggregator.getGlobalTopWords a).1.length
      = min a.top_word_count.toNat (Spec.distinctWords a.results).length ∧
    ((Aggregator.getGlobalTopWords a).1.map Prod.fst).Nodup ∧
    (∀ p ∈ (Aggregator.getGlobalTopWords a).1,
      p.1 ∈ Spec.distinctWords a.results ∧ p.2 = Spec.summedCount a.results p.1) ∧
    (Aggregator.getGlobalTopWords a).1.Pairwise (fun p q => q.2 ≤ p.2) ∧
    (∀ w ∈ Spec.distinctWords a.results,
      w ∉ (Aggregator.getGlobalTopWords a).1.map Prod.fst →
      ∀ p ∈ (Aggregator.getGlobalTopWords a).1, Spec.summedCount a.results w ≤ p.2) := by
  rw [Aggregator.getGlobalTopWords_eq_take a hN]
  have hperm := Aggregator.sortByCountDesc_perm (Aggregator.globalFreq a.results)
  have hsorted := Aggregator.sortByCountDesc_sorted (Aggregator.globalFreq a.results)
  have hkeys := Aggregator.globalFreq_keys a.results
  have hlen : (Aggregator.sortByCountDesc (Aggregator.globalFreq a.results)).length
      = (Spec.distinctWords a.results).length := by
    rw [hperm.length_eq, ← hkeys.length_eq, List.length_map]
  have hnodup : ((Aggregator.sortByCountDesc (Aggregator.globalFreq a.results)).map
      Prod.fst).Nodup :=
    ((hperm.map Prod.fst).nodup_iff).mpr
      (Cpp.StdMap.ordered_nodup _ (Aggregator.globalFreq_ordered a.results))
  refine ⟨?_, ?_, ?_, ?_, ?_⟩
  · rw [List.length_take, hlen]
  · rw [List.map_take]
    exact hnodup.sublist (List.take_sublist _ _)
  · intro p hp
    exact Aggregator.globalFreq_mem a.results p (hperm.subset (List.mem_of_mem_take hp))
  · exact hsorted.sublist (List.take_sublist _ _)
  · intro w hw hout p hp
    have hfind := Aggregator.globalFreq_find a.results w
    rw [if_pos hw] at hfind
    have hmem : (w, Spec.summedCount a.results w) ∈
        Aggregator.sortByCountDesc (Aggregator.globalFreq a.results) :=
      hperm.symm.subset (Cpp.StdMap.mem_of_find _ _ _ hfind)
    rw [← List.take_append_drop a.top_word_count.toNat
      (Aggregator.sortByCountDesc (Aggregator.globalFreq a.results))] at hmem hsorted
    rcases List.mem_append.mp hmem with h1 | h1
    · exact absurd (List.mem_map.mpr ⟨_, h1, rfl⟩) hout
    · exact (List.pairwise_append.mp hsorted).2.2 p hp _ h1

/-- Witness of C10: two stored sections, top 2 of three distinct words. -/
theorem C10_global_top_words_witness :
    (Aggregator.getGlobalTopWords
      { Aggregator.init 2 with results :=
          [("SECTION_0".toList, { word_frequencies := [("a".toList, 3), ("c".toList, 9)] }),
           ("SECTION_1".toList, { word_frequencies := [("a".toList, 3), ("b".toList, 4)] })] }).1
      = [("c".toList, 9), ("a".toList, 6)] ∧
    (Aggregator.getGlobalTopWords
      { Aggregator.init 2 with results :=
          [("SECTION_0".toList, { word_frequencies := [("a".toList, 3), ("c".toList, 9)] }),
           ("SECTION_1".toList, { word_frequencies := [("a".toList, 3), ("b".toList, 4)] })] }).1.length
      = min (2 : Int).toNat (Spec.distinctWords
          [("SECTION_0".toList, { word_frequencies := [("a".toList, 3), ("c".toList, 9)] }),
           ("SECTION_1".toList, { word_frequencies := [("a".toList, 3), ("b".toList, 4)] })]).length :=
  ⟨by decide,
   (C10_global_top_words
      { Aggregator.init 2 with results :=
          [("SECTION_0".toList, { word_frequencies := [("a".toList, 3), ("c".toList, 9)] }),
           ("SECTION_1".toList, { word_frequencies := [("a".toList, 3), ("b".toList, 4)] })] }
      (by decide)).1⟩

namespace Cpp

theorem getlines_append_sep (d : Char) (x rest : Str) (h : d ∉ x) :
    getlines d (x ++ d :: rest) = x :: getlines d rest := by
  induction x with
  | nil => simp [getlines]
  | cons c x ih =>
    have hc : c ≠ d := fun e => h (by rw [e]; exact List.mem_cons_self _ _)
    have hx : d ∉ x := fun e => h (List.mem_cons_of_mem _ e)
    rw [List.cons_append, getlines, if_neg hc, ih hx]

theorem getlines_single (d : Char) (x : Str) (h : d ∉ x) (hne : x ≠ []) :
    getlines d x = [x] := by
  induction x with
  | nil => exact absurd rfl hne
  | cons c x ih =>
    have hc : c ≠ d := fun e => h (by rw [e]; exact List.mem_cons_self _ _)
    have hx : d ∉ x := fun e => h (List.mem_cons_of_mem _ e)
    rw [getlines, if_neg hc]
    cases x with
    | nil => rfl
    | cons y x => rw [ih hx (by simp)]

theorem getlines_joinWith (d : Char) (ss : List Str)
    (h : ∀ s ∈ ss, d ∉ s ∧ s ≠ []) : getlines d (joinWith [d] ss) = ss := by
  induction ss with
  | nil => rfl
  | cons p rest ih =>
    have hp := h p (List.mem_cons_self _ _)
    cases rest with
    | nil => exact getlines_single d p hp.1 hp.2
    | cons q rest =>
      have e : joinWith [d] (p :: q :: rest) = p ++ d :: joinWith [d] (q :: rest) := by
        simp [joinWith]
      rw [e, getlines_append_sep d p _ hp.1, ih (fun s hs => h s (List.mem_cons_of_mem _ hs))]

theorem mem_joinWith (sep : Str) (ss : List Str) (c : Char) (hc : c ∈ joinWith sep ss) :
    c ∈ sep ∨ ∃ s ∈ ss, c ∈ s := by
  induction ss with
  | nil => simp [joinWith] at hc
  | cons p rest ih =>
    cases rest with
    | nil => right; exact ⟨p, List.mem_cons_self _ _, by simpa [joinWith] using hc⟩
    | cons q rest =>
      have e : joinWith sep (p :: q :: rest) = p ++ sep ++ joinWith sep (q :: rest) := rfl
      rw [e] at hc
      rcases List.mem_append.mp hc with h1 | h1
      · rcases List.mem_append.mp h1 with h2 | h2
        · right; exact ⟨p, List.mem_cons_self _ _, h2⟩
        · left; exact h2
      · rcases ih h1 with h2 | ⟨s, hs, h2⟩
        · left; exact h2
        · right; exact ⟨s, List.mem_cons_of_mem _ hs, h2⟩

theorem takeWhile_ne_append (d : Char) (x rest : Str) (h : d ∉ x) :
    (x ++ d :: rest).takeWhile (fun c => c != d) = x := by
  induction x with
  | nil => simp [List.takeWhile]
  | cons c x ih =>
    have hc : c ≠ d := fun e => h (by rw [e]; exact List.mem_cons_self _ _)
    have hx : d ∉ x := fun e => h (List.mem_cons_of_mem _ e)
    rw [List.cons_append, List.takeWhile_cons]
    simp only [bne_iff_ne, ne_eq, hc, not_false_eq_true, decide_True, if_true, ih hx]

theorem dropWhile_ne_append (d : Char) (x rest : Str) (h : d ∉ x) :
    (x ++ d :: rest).dropWhile (fun c => c != d) = d :: rest := by
  induction x with
  | nil => simp [List.dropWhile]
  | cons c x ih =>
    have hc : c ≠ d := fun e => h (by rw [e]; exact List.mem_cons_self _ _)
    have hx : d ∉ x := fun e => h (List.mem_cons_of_mem _ e)
    rw [List.cons_append, List.dropWhile_cons]
    simp only [bne_iff_ne, ne_eq, hc, not_false_eq_true, decide_True, if_true, ih hx]

theorem contains_append_sep (d : Char) (x rest : Str) : (x ++ d :: rest).contains d = true := by
  simp

theorem mem_to_string (i : Int) (c : Char) (hc : c ∈ to_string i) :
    c.isDigit = true ∨ c = '-' := by
  unfold to_string at hc
  split at hc
  · rcases List.mem_cons.mp hc with e | e
    · right; exact e
    · left; exact natToString_all_digits _ c e
  · left; exact natToString_all_digits _ c hc

theorem isAlpha_cases (c : Char) (h : c.isAlpha = true) :
    (65 ≤ c.toNat ∧ c.toNat ≤ 90) ∨ (97 ≤ c.toNat ∧ c.toNat ≤ 122) := by
  simp only [Char.isAlpha, Char.isUpper, Char.isLower, Bool.or_eq_true, Bool.and_eq_true,
    decide_eq_true_eq] at h
  exact h

theorem tolower_isLower (c : Char) (h : isalpha c = true) : (tolower c).isLower = true := by
  have hc : c = Char.ofNat c.toNat := (Char.ofNat_toNat c).symm
  rcases isAlpha_cases c h with ⟨h1, h2⟩ | ⟨h1, h2⟩
  · generalize c.toNat = k at hc h1 h2
    subst hc
    interval_cases k <;> decide
  · generalize c.toNat = k at hc h1 h2
    subst hc
    interval_cases k <;> decide

end Cpp

namespace Worker

open Cpp

theorem mem_to_string_double (d : Binary64) (c : Char) (hc : c ∈ to_string_double d) :
    c.isDigit = true ∨ c = '-' ∨ c = '.' := by
  unfold to_string_double sixDigits at hc
  simp only [List.mem_append, List.mem_replicate, List.mem_singleton] at hc
  rcases hc with ((h | h) | h) | h | h
  · split at h
    · right; left; simpa using h
    · simp at h
  · left; exact natToString_all_digits _ c h
  · right; right; exact h
  · left; rw [h.2]; decide
  · left; exact natToString_all_digits _ c h

theorem sentimentLabel_cases (d : Binary64) :
    sentimentLabel d = "positive".toList ∨ sentimentLabel d = "negative".toList ∨
      sentimentLabel d = "neutral".toList := by
  unfold sentimentLabel
  split
  · left; rfl
  · split
    · right; left; rfl
    · right; right; rfl

/-- The label that `analyzeSentiment` returns is one of the three labels. -/
theorem sentimentParts_label (text : Str) :
    (sentimentParts text).1 = "positive".toList ∨ (sentimentParts text).1 = "negative".toList ∨
      (sentimentParts text).1 = "neutral".toList := by
  unfold sentimentParts
  simp only []
  split
  · right; right; rfl
  · exact sentimentLabel_cases _

theorem sentimentParts_label_lower (text : Str) :
    ∀ c ∈ (sentimentParts text).1, c.isLower = true := by
  rcases sentimentParts_label text with h | h | h <;> rw [h] <;> decide

theorem sentimentParts_score_chars (text : Str) :
    ∀ c ∈ (sentimentParts text).2, c.isDigit = true ∨ c = '-' ∨ c = '.' := by
  unfold sentimentParts
  simp only []
  split
  · intro c hc
    left
    have : c = '0' := by simpa using hc
    rw [this]; decide
  · intro c hc; exact mem_to_string_double _ c hc

theorem mem_replaceNamesAux (replacement : Str) (text : Str) :
    ∀ (prevWord : Bool) (skip : Nat) (c : Char),
      c ∈ replaceNamesAux replacement prevWord skip text → c ∈ replacement ∨ c ∈ text := by
  induction text with
  | nil => intro _ _ c hc; simp [replaceNamesAux] at hc
  | cons x rest ih =>
    intro prevWord skip c hc
    cases skip with
    | succ k =>
      rw [replaceNamesAux] at hc
      rcases ih _ _ c hc with h | h
      · left; exact h
      · right; exact List.mem_cons_of_mem _ h
    | zero =>
      rw [replaceNamesAux] at hc
      split at hc
      · rcases List.mem_append.mp hc with h | h
        · left; exact h
        · rcases ih _ _ c h with h2 | h2
          · left; exact h2
          · right; exact List.mem_cons_of_mem _ h2
      · rcases List.mem_cons.mp hc with h | h
        · right; rw [h]; exact List.mem_cons_self _ _
        · rcases ih _ _ c h with h2 | h2
          · left; exact h2
          · right; exact List.mem_cons_of_mem _ h2

theorem mem_replaceNames (text : Str) (c : Char) (hc : c ∈ replaceNames text) :
    c = 'F' ∨ c ∈ text := by
  rcases mem_replaceNamesAux _ text false 0 c hc with h | h
  · left
    have : c ∈ ['F', 'F', 'F', 'F', 'F'] := h
    simpa using this
  · right; exact h

theorem mem_cleanSentence (s t : Str) (h : cleanSentence s = some t) : ∀ c ∈ t, c ∈ s := by
  unfold cleanSentence at h
  simp only [] at h
  split at h
  · cases h
  · cases h
    intro c hc
    have h1 : c ∈ (s.dropWhile isTrimChar).reverse.dropWhile isTrimChar :=
      List.mem_reverse.mp hc
    have h2 : c ∈ (s.dropWhile isTrimChar).reverse :=
      (List.dropWhile_suffix _).subset h1
    exact (List.dropWhile_suffix _).subset (List.mem_reverse.mp h2)

theorem scanSentences_mem (t : Str) :
    ∀ cur : Str,
      (∀ s ∈ (scanSentences t cur).1, s ≠ [] ∧ ∀ c ∈ s, c ∈ cur ∨ c ∈ t) ∧
      (∀ c ∈ (scanSentences t cur).2, c ∈ cur ∨ c ∈ t) := by
  induction t with
  | nil =>
    intro cur
    simp [scanSentences]
  | cons x rest ih =>
    intro cur
    rw [scanSentences]
    simp only []
    have hweak : ∀ (cur2 : Str), (∀ c ∈ cur2, c ∈ cur ∨ c ∈ x :: rest) →
        (∀ s ∈ (scanSentences rest cur2).1, s ≠ [] ∧ ∀ c ∈ s, c ∈ cur ∨ c ∈ x :: rest) ∧
        (∀ c ∈ (scanSentences rest cur2).2, c ∈ cur ∨ c ∈ x :: rest) := by
      intro cur2 h2
      obtain ⟨i1, i2⟩ := ih cur2
      constructor
      · intro s hs
        refine ⟨(i1 s hs).1, ?_⟩
        intro c hc
        rcases (i1 s hs).2 c hc with h | h
        · exact h2 c h
        · right; exact List.mem_cons_of_mem _ h
      · intro c hc
        rcases i2 c hc with h | h
        · exact h2 c h
        · right; exact List.mem_cons_of_mem _ h
    have hcur1 : ∀ c ∈ cur ++ [x], c ∈ cur ∨ c ∈ x :: rest := by
      intro c hc
      rcases List.mem_append.mp hc with h | h
      · left; exact h
      · right; simp at h; rw [h]; exact List.mem_cons_self _ _
    split
    · obtain ⟨i1, i2⟩ := hweak [] (by intro c hc; simp at hc)
      split
      · rename_i clean hclean
        split
        · rename_i hne
          refine ⟨?_, i2⟩
          intro s hs
          rcases List.mem_cons.mp hs with e | e
          · rw [e]
            refine ⟨?_, fun c hc => hcur1 c (mem_cleanSentence _ _ hclean c hc)⟩
            intro h0; rw [h0] at hne; simp at hne
          · exact i1 s e
        · exact ⟨i1, i2⟩
      · exact ⟨i1, i2⟩
    · exact hweak (cur ++ [x]) hcur1

/-- Every sentence that `sortSentencesByLength` ranks is not empty and is made
of characters of the text. -/
theorem extractSentences_mem (text : Str) :
    ∀ s ∈ extractSentences text, s ≠ [] ∧ ∀ c ∈ s, c ∈ text := by
  obtain ⟨i1, i2⟩ := scanSentences_mem text []
  intro s hs
  unfold extractSentences at hs
  simp only [] at hs
  rcases List.mem_append.mp hs with h | h
  · refine ⟨(i1 s h).1, fun c hc => ?_⟩
    rcases (i1 s h).2 c hc with h2 | h2
    · simp at h2
    · exact h2
  · split at h
    · split at h
      · rename_i clean hclean
        split at h
        · rename_i hne
          have e : s = clean := by simpa using h
          rw [e]
          refine ⟨?_, fun c hc => ?_⟩
          · intro h0; rw [h0] at hne; simp at hne
          · rcases i2 c (mem_cleanSentence _ _ hclean c hc) with h2 | h2
            · simp at h2
            · exact h2
        · simp at h
      · simp at h
    · simp at h

theorem rankedSentences_perm (text : Str) :
    (rankedSentences text).Perm (extractSentences text) :=
  stdSort_perm _ _

theorem rankedSentences_mem (text : Str) :
    ∀ s ∈ rankedSentences text, s ≠ [] ∧ ∀ c ∈ s, c ∈ text := by
  intro s hs
  exact extractSentences_mem text s ((rankedSentences_perm text).subset hs)

end Worker

namespace Cpp

theorem extractWordsAux_length (t : Str) :
    ∀ cur : Str, (extractWordsAux t cur).length ≤ t.length + (if cur.isEmpty then 0 else 1) := by
  induction t with
  | nil =>
    intro cur
    rw [extractWordsAux]
    split <;> simp
  | cons c rest ih =>
    intro cur
    rw [extractWordsAux]
    have h0 := ih []
    simp only [List.isEmpty_nil, if_true, Nat.add_zero] at h0
    split
    · split
      · simp only [List.length_cons]; omega
      · simp only [List.length_cons]; omega
    · have h1 := ih (c :: cur)
      simp only [List.isEmpty_cons, Bool.false_eq_true, if_false] at h1
      simp only [List.length_cons]
      split <;> omega

theorem extractWords_length (text : Str) : (extractWords text).length ≤ text.length := by
  have := extractWordsAux_length text []
  simpa [extractWords] using this

theorem StdMap.modify_add_sum (k : Str) (c : Int) (m : StdMap Int) :
    ((StdMap.modify k 0 (fun v => v + c) m).map Prod.snd).sum = (m.map Prod.snd).sum + c := by
  induction m with
  | nil => simp [StdMap.modify]
  | cons kv rest ih =>
    obtain ⟨k1, v⟩ := kv
    simp only [StdMap.modify]
    split
    · simp only [List.map_cons, List.sum_cons]; ring
    · split
      · simp only [List.map_cons, List.sum_cons]; ring
      · simp only [List.map_cons, List.sum_cons, ih]; ring

theorem StdMap.modify_add_mem (k : Str) (c : Int) (m : StdMap Int) (p : Str × Int)
    (hp : p ∈ StdMap.modify k 0 (fun v => v + c) m) :
    (p.1 = k ∧ (p.2 = c ∨ ∃ q ∈ m, p.2 = q.2 + c)) ∨ p ∈ m := by
  induction m with
  | nil =>
    left
    have : p = (k, 0 + c) := by simpa [StdMap.modify] using hp
    rw [this]; simp
  | cons kv rest ih =>
    obtain ⟨k1, v⟩ := kv
    simp only [StdMap.modify] at hp
    split at hp
    · rename_i hk
      rcases List.mem_cons.mp hp with e | e
      · left
        rw [e]
        exact ⟨hk.symm, Or.inr ⟨(k1, v), List.mem_cons_self _ _, rfl⟩⟩
      · right; exact List.mem_cons_of_mem _ e
    · split at hp
      · rcases List.mem_cons.mp hp with e | e
        · left; rw [e]; simp
        · right; exact e
      · rcases List.mem_cons.mp hp with e | e
        · right; rw [e]; exact List.mem_cons_self _ _
        · rcases ih e with ⟨h1, h2⟩ | h
          · left
            refine ⟨h1, ?_⟩
            rcases h2 with h2 | ⟨q, hq, h2⟩
            · left; exact h2
            · right; exact ⟨q, List.mem_cons_of_mem _ hq, h2⟩
          · right; exact List.mem_cons_of_mem _ h

theorem le_sum_of_mem (l : List Int) (h : ∀ x ∈ l, 0 ≤ x) : ∀ x ∈ l, x ≤ l.sum := by
  induction l with
  | nil => intro x hx; simp at hx
  | cons y l ih =>
    intro x hx
    have hy : 0 ≤ y := h y (List.mem_cons_self _ _)
    have hl : ∀ z ∈ l, 0 ≤ z := fun z hz => h z (List.mem_cons_of_mem _ hz)
    have hs : 0 ≤ l.sum := List.sum_nonneg hl
    rw [List.sum_cons]
    rcases List.mem_cons.mp hx with e | e
    · rw [e]; omega
    · have := ih hl x e
      omega

end Cpp

namespace Worker

open Cpp

theorem normalizeWord_lower (word : Str) : ∀ c ∈ normalizeWord word, c.isLower = true := by
  intro c hc
  unfold normalizeWord at hc
  obtain ⟨x, hx, e⟩ := List.mem_map.mp hc
  rw [← e]
  exact tolower_isLower x (List.mem_filter.mp hx).2

theorem countWords_bounds (text : Str) :
    0 ≤ countWords text ∧ countWords text ≤ (text.length : Int) := by
  have key : ∀ (ws : List Str) (i : Int),
      i ≤ ws.foldl (fun count word => if countsAsWord word then count + 1 else count) i ∧
      ws.foldl (fun count word => if countsAsWord word then count + 1 else count) i
        ≤ i + (ws.length : Int) := by
    intro ws
    induction ws with
    | nil => intro i; simp
    | cons w ws ih =>
      intro i
      rw [List.foldl_cons]
      have hlen : ((w :: ws).length : Int) = (ws.length : Int) + 1 := by simp
      rw [hlen]
      split
      · have := ih (i + 1); omega
      · have := ih i; omega
  have h := key (extractWords text) 0
  have hl := extractWords_length text
  unfold countWords
  omega

/-- The invariant of the loop that fills `word_count` in `findTopWords`. -/
theorem wordCount_loop_invariant (ws : List Str) :
    ∀ (m : StdMap Int) (n : Int),
      StdMap.Ordered m →
      (∀ p ∈ m, (∀ c ∈ p.1, c.isLower = true) ∧ 1 ≤ p.2) →
      (m.map Prod.snd).sum ≤ n →
      StdMap.Ordered (ws.foldl (fun m word =>
          if !(normalizeWord word).isEmpty
          then StdMap.modify (normalizeWord word) 0 (fun c => c + 1) m else m) m) ∧
      (∀ p ∈ ws.foldl (fun m word =>
          if !(normalizeWord word).isEmpty
          then StdMap.modify (normalizeWord word) 0 (fun c => c + 1) m else m) m,
        (∀ c ∈ p.1, c.isLower = true) ∧ 1 ≤ p.2) ∧
      ((ws.foldl (fun m word =>
          if !(normalizeWord word).isEmpty
          then StdMap.modify (normalizeWord word) 0 (fun c => c + 1) m else m) m).map
            Prod.snd).sum ≤ n + (ws.length : Int) := by
  induction ws with
  | nil => intro m n h1 h2 h3; exact ⟨h1, h2, by simpa using h3⟩
  | cons w ws ih =>
    intro m n h1 h2 h3
    rw [List.foldl_cons]
    have hlen : ((w :: ws).length : Int) = (ws.length : Int) + 1 := by simp
    rw [hlen]
    split
    · have i1 := StdMap.modify_ordered (normalizeWord w) 0 (fun c => c + 1) m h1
      have i2 : ∀ p ∈ StdMap.modify (normalizeWord w) 0 (fun c => c + 1) m,
          (∀ c ∈ p.1, c.isLower = true) ∧ 1 ≤ p.2 := by
        intro p hp
        rcases StdMap.modify_add_mem _ _ _ p hp with ⟨e1, e2⟩ | e
        · refine ⟨by rw [e1]; exact normalizeWord_lower w, ?_⟩
          rcases e2 with e2 | ⟨q, hq, e2⟩
          · omega
          · have := (h2 q hq).2; omega
        · exact h2 p e
      have i3 : ((StdMap.modify (normalizeWord w) 0 (fun c => c + 1) m).map Prod.snd).sum
          ≤ n + 1 := by
        rw [StdMap.modify_add_sum]; omega
      obtain ⟨j1, j2, j3⟩ := ih _ (n + 1) i1 i2 i3
      exact ⟨j1, j2, by omega⟩
    · obtain ⟨j1, j2, j3⟩ := ih m n h1 h2 h3
      exact ⟨j1, j2, by omega⟩

theorem wordCountMap_facts (text : Str) :
    StdMap.Ordered (wordCountMap text) ∧
    (∀ p ∈ wordCountMap text,
      (∀ c ∈ p.1, c.isLower = true) ∧ 1 ≤ p.2 ∧ p.2 ≤ (text.length : Int)) := by
  obtain ⟨h1, h2, h3⟩ := wordCount_loop_invariant (extractWords text) [] 0
    (by simp [StdMap.Ordered]) (by intro p hp; simp at hp) (by simp)
  have hl := extractWords_length text
  refine ⟨h1, ?_⟩
  intro p hp
  have hp2 : p ∈ (extractWords text).foldl (fun m word =>
      if !(normalizeWord word).isEmpty
      then StdMap.modify (normalizeWord word) 0 (fun c => c + 1) m else m) [] := hp
  refine ⟨(h2 p hp2).1, (h2 p hp2).2, ?_⟩
  have hnn : ∀ x ∈ ((extractWords text).foldl (fun m word =>
      if !(normalizeWord word).isEmpty
      then StdMap.modify (normalizeWord word) 0 (fun c => c + 1) m else m) []).map Prod.snd,
      (0 : Int) ≤ x := by
    intro x hx
    obtain ⟨q, hq, e⟩ := List.mem_map.mp hx
    have := (h2 q hq).2
    omega
  have := le_sum_of_mem _ hnn p.2 (List.mem_map.mpr ⟨p, hp2, rfl⟩)
  omega

theorem topWordPairs_sublist (K : Int) (text : Str) :
    (topWordPairs K text).Sublist (sortByCountDesc (wordCountMap text)) :=
  List.take_sublist _ _

theorem topWordPairs_mem (K : Int) (text : Str) :
    ∀ p ∈ topWordPairs K text,
      (∀ c ∈ p.1, c.isLower = true) ∧ 1 ≤ p.2 ∧ p.2 ≤ (text.length : Int) := by
  intro p hp
  have h1 : p ∈ sortByCountDesc (wordCountMap text) := (topWordPairs_sublist K text).subset hp
  have h2 : p ∈ wordCountMap text := (stdSort_perm _ _).subset h1
  exact (wordCountMap_facts text).2 p h2

theorem topWordPairs_nodup (K : Int) (text : Str) :
    ((topWordPairs K text).map Prod.fst).Nodup := by
  have h1 : ((sortByCountDesc (wordCountMap text)).map Prod.fst).Nodup :=
    (((stdSort_perm _ _).map Prod.fst).nodup_iff).mpr
      (StdMap.ordered_nodup _ (wordCountMap_facts text).1)
  exact h1.sublist ((topWordPairs_sublist K text).map Prod.fst)

end Worker

namespace Cpp

theorem StdMap.modify_add_perm (k : Str) (c : Int) (m : StdMap Int) (h : k ∉ m.map Prod.fst) :
    (StdMap.modify k 0 (fun v => v + c) m).Perm ((k, c) :: m) := by
  induction m with
  | nil => simp [StdMap.modify]
  | cons kv rest ih =>
    obtain ⟨k1, v⟩ := kv
    have hne : k ≠ k1 := fun e => h (by rw [e]; exact List.mem_cons_self _ _)
    have hrest : k ∉ rest.map Prod.fst := fun e => h (List.mem_cons_of_mem _ e)
    simp only [StdMap.modify, if_neg hne]
    split
    · rw [Int.zero_add]
    · exact ((ih hrest).cons (k1, v)).trans (List.Perm.swap _ _ _)

theorem MultiMap.insert_perm (k : Int) (v : Str) (m : MultiMap) :
    (MultiMap.insert k v m).Perm ((k, v) :: m) := by
  induction m with
  | nil => simp [MultiMap.insert]
  | cons kv rest ih =>
    obtain ⟨k1, v1⟩ := kv
    simp only [MultiMap.insert]
    split
    · exact List.Perm.refl _
    · exact (ih.cons (k1, v1)).trans (List.Perm.swap _ _ _)

end Cpp

namespace Aggregator

open Cpp

theorem foldl_modify_perm (pairs : List (Str × Int)) :
    ∀ m : StdMap Int, (pairs.map Prod.fst).Nodup →
      (∀ p ∈ pairs, p.1 ∉ m.map Prod.fst) →
      (pairs.foldl (fun m p => StdMap.modify p.1 0 (fun c => c + p.2) m) m).Perm (m ++ pairs) := by
  induction pairs with
  | nil => intro m _ _; simp
  | cons p pairs ih =>
    intro m hnd hdis
    rw [List.foldl_cons]
    have hp : p.1 ∉ m.map Prod.fst := hdis p (List.mem_cons_self _ _)
    have hperm := StdMap.modify_add_perm p.1 p.2 m hp
    have hnd2 : (pairs.map Prod.fst).Nodup := (List.nodup_cons.mp hnd).2
    have hpn : p.1 ∉ pairs.map Prod.fst := (List.nodup_cons.mp hnd).1
    have hdis2 : ∀ q ∈ pairs,
        q.1 ∉ (StdMap.modify p.1 0 (fun c => c + p.2) m).map Prod.fst := by
      intro q hq hmem
      have h1 : q.1 ∈ ((p.1, p.2) :: m).map Prod.fst := (hperm.map Prod.fst).subset hmem
      rcases List.mem_cons.mp h1 with e | e
      · exact hpn (List.mem_map.mpr ⟨q, hq, e⟩)
      · exact hdis q (List.mem_cons_of_mem _ hq) e
    refine (ih _ hnd2 hdis2).trans ?_
    refine (List.Perm.append_right pairs hperm).trans ?_
    have : (p.1, p.2) = p := rfl
    rw [this]
    simp only [List.cons_append]
    exact (List.perm_middle).symm

theorem parseTopWordsPair_formatted (frequencies : StdMap Int) (p : Str × Int)
    (hw : ':' ∉ p.1) (h1 : -2147483648 ≤ p.2) (h2 : p.2 ≤ 2147483647) :
    parseTopWordsPair frequencies (p.1 ++ [':'] ++ to_string p.2) =
      Except.ok (StdMap.modify p.1 0 (fun c => c + p.2) frequencies) := by
  have e : p.1 ++ [':'] ++ to_string p.2 = p.1 ++ ':' :: to_string p.2 := by simp
  rw [e]
  unfold parseTopWordsPair
  rw [if_pos (contains_append_sep _ _ _), dropWhile_ne_append _ _ _ hw,
    takeWhile_ne_append _ _ _ hw, List.tail_cons, stoi_to_string _ h1 h2]

theorem parseTopWordsLoop_formatted (pairs : List (Str × Int)) :
    ∀ frequencies : StdMap Int,
      (∀ p ∈ pairs, ':' ∉ p.1 ∧ -2147483648 ≤ p.2 ∧ p.2 ≤ 2147483647) →
      parseTopWordsLoop frequencies (pairs.map (fun p => p.1 ++ [':'] ++ to_string p.2)) =
        Except.ok (pairs.foldl (fun m p => StdMap.modify p.1 0 (fun c => c + p.2) m)
          frequencies) := by
  induction pairs with
  | nil => intro f _; rfl
  | cons p pairs ih =>
    intro f h
    obtain ⟨a1, a2, a3⟩ := h p (List.mem_cons_self _ _)
    rw [List.map_cons, parseTopWordsLoop, parseTopWordsPair_formatted f p a1 a2 a3]
    exact ih _ (fun q hq => h q (List.mem_cons_of_mem _ hq))

theorem insertSentences_nonempty (ss : List Str) (h : ∀ s ∈ ss, s ≠ []) :
    ∀ m : MultiMap,
      insertSentences m ss =
        ss.foldl (fun acc s => MultiMap.insert (s.length : Int) s acc) m := by
  induction ss with
  | nil => intro m; rfl
  | cons s ss ih =>
    intro m
    have hs : s.isEmpty = false := by
      cases s with
      | nil => exact absurd rfl (h [] (List.mem_cons_self _ _))
      | cons _ _ => rfl
    have ih2 := ih (fun x hx => h x (List.mem_cons_of_mem _ hx))
    unfold insertSentences at ih2 ⊢
    rw [List.foldl_cons, List.foldl_cons]
    simp only [hs, Bool.not_false, if_true]
    exact ih2 _

theorem foldl_insert_perm (ss : List Str) :
    ∀ m : MultiMap,
      ((ss.foldl (fun acc s => MultiMap.insert (s.length : Int) s acc) m).map Prod.snd).Perm
        (m.map Prod.snd ++ ss) := by
  induction ss with
  | nil => intro m; simp
  | cons s ss ih =>
    intro m
    rw [List.foldl_cons]
    refine (ih _).trans ?_
    have h1 := (MultiMap.insert_perm (s.length : Int) s m).map Prod.snd
    refine (List.Perm.append_right ss h1).trans ?_
    simp only [List.map_cons, List.cons_append]
    exact (List.perm_middle).symm

end Aggregator

namespace Aggregator

open Cpp

theorem parseToken_section (stod : Str → Except StdExcept Double) (l : Locals) (x : Str) :
    parseToken stod l ("SECTION_".toList ++ x) =
      Except.ok { l with section_id := "SECTION_".toList ++ x } := by
  rw [parseToken, if_pos (startsWith_append _ _)]

theorem parseToken_words (stod : Str → Except StdExcept Double) (l : Locals) (x : Str) (n : Int)
    (h : stoi x = Except.ok n) :
    parseToken stod l ("words:".toList ++ x) =
      Except.ok { l with result := { l.result with word_count := some n },
                         total_words := l.total_words + n } := by
  have c1 : startsWith "SECTION_".toList ("words:".toList ++ x) = false := rfl
  have d : ("words:".toList ++ x).drop 6 = x := rfl
  rw [parseToken, if_neg (by rw [c1]; decide), if_pos (startsWith_append _ _), d, h]

theorem parseToken_top (stod : Str → Except StdExcept Double) (l : Locals) (x : Str)
    (f : StdMap Int) (h : parseTopWords x l.result.word_frequencies = Except.ok f) :
    parseToken stod l ("top:".toList ++ x) =
      Except.ok { l with result := { l.result with word_frequencies := f } } := by
  have c1 : startsWith "SECTION_".toList ("top:".toList ++ x) = false := rfl
  have c2 : startsWith "words:".toList ("top:".toList ++ x) = false := rfl
  have d : ("top:".toList ++ x).drop 4 = x := rfl
  rw [parseToken, if_neg (by rw [c1]; decide), if_neg (by rw [c2]; decide),
    if_pos (startsWith_append _ _), d, h]

theorem parseToken_sentiment (stod : Str → Except StdExcept Double) (l : Locals) (x : Str)
    (r : Str × Option Double)
    (h : parseSentiment stod x l.result.sentiment_label l.result.sentiment_score = Except.ok r) :
    parseToken stod l ("sentiment:".toList ++ x) =
      Except.ok { l with result :=
        { l.result with sentiment_label := r.1, sentiment_score := r.2 } } := by
  have c1 : startsWith "SECTION_".toList ("sentiment:".toList ++ x) = false := rfl
  have c2 : startsWith "words:".toList ("sentiment:".toList ++ x) = false := rfl
  have c3 : startsWith "top:".toList ("sentiment:".toList ++ x) = false := rfl
  have d : ("sentiment:".toList ++ x).drop 10 = x := rfl
  rw [parseToken, if_neg (by rw [c1]; decide), if_neg (by rw [c2]; decide),
    if_neg (by rw [c3]; decide), if_pos (startsWith_append _ _), d, h]

theorem parseToken_names_replaced (stod : Str → Except StdExcept Double) (l : Locals) (x : Str) :
    parseToken stod l ("names_replaced:".toList ++ x) = Except.ok l := by
  have c1 : startsWith "SECTION_".toList ("names_replaced:".toList ++ x) = false := rfl
  have c2 : startsWith "words:".toList ("names_replaced:".toList ++ x) = false := rfl
  have c3 : startsWith "top:".toList ("names_replaced:".toList ++ x) = false := rfl
  have c4 : startsWith "sentiment:".toList ("names_replaced:".toList ++ x) = false := rfl
  have c5 : startsWith "sorted:".toList ("names_replaced:".toList ++ x) = false := rfl
  have c6 : startsWith "processed_text:".toList ("names_replaced:".toList ++ x) = false := rfl
  rw [parseToken, if_neg (by rw [c1]; decide), if_neg (by rw [c2]; decide),
    if_neg (by rw [c3]; decide), if_neg (by rw [c4]; decide), if_neg (by rw [c5]; decide),
    if_neg (by rw [c6]; decide)]

theorem parseToken_processed_text (stod : Str → Except StdExcept Double) (l : Locals) (x : Str) :
    parseToken stod l ("processed_text:".toList ++ x) =
      Except.ok { l with result := { l.result with processed_text := x } } := by
  have c1 : startsWith "SECTION_".toList ("processed_text:".toList ++ x) = false := rfl
  have c2 : startsWith "words:".toList ("processed_text:".toList ++ x) = false := rfl
  have c3 : startsWith "top:".toList ("processed_text:".toList ++ x) = false := rfl
  have c4 : startsWith "sentiment:".toList ("processed_text:".toList ++ x) = false := rfl
  have c5 : startsWith "sorted:".toList ("processed_text:".toList ++ x) = false := rfl
  have d : ("processed_text:".toList ++ x).drop 15 = x := rfl
  rw [parseToken, if_neg (by rw [c1]; decide), if_neg (by rw [c2]; decide),
    if_neg (by rw [c3]; decide), if_neg (by rw [c4]; decide), if_neg (by rw [c5]; decide),
    if_pos (startsWith_append _ _), d]

theorem parseToken_sorted (stod : Str → Except StdExcept Double) (l : Locals) (x : Str) :
    parseToken stod l ("sorted:".toList ++ x) =
      Except.ok
        { l with
          sentences_by_length := insertSentences l.sentences_by_length (getlines '~' x) } := by
  have c1 : startsWith "SECTION_".toList ("sorted:".toList ++ x) = false := rfl
  have c2 : startsWith "words:".toList ("sorted:".toList ++ x) = false := rfl
  have c3 : startsWith "top:".toList ("sorted:".toList ++ x) = false := rfl
  have c4 : startsWith "sentiment:".toList ("sorted:".toList ++ x) = false := rfl
  have d : ("sorted:".toList ++ x).drop 7 = x := rfl
  rw [parseToken, if_neg (by rw [c1]; decide), if_neg (by rw [c2]; decide),
    if_neg (by rw [c3]; decide), if_neg (by rw [c4]; decide),
    if_pos (startsWith_append _ _), d]

theorem parseSentiment_formatted (stod : Str → Except StdExcept Double) (label score : Str)
    (v : Double) (l0 : Str) (s0 : Option Double) (hl : ':' ∉ label)
    (hv : stod score = Except.ok v) :
    parseSentiment stod (label ++ [':'] ++ score) l0 s0 = Except.ok (label, some v) := by
  have e : label ++ [':'] ++ score = label ++ ':' :: score := by simp
  rw [e]
  unfold parseSentiment
  rw [if_pos (contains_append_sep _ _ _), dropWhile_ne_append _ _ _ hl,
    takeWhile_ne_append _ _ _ hl, List.tail_cons, hv]

end Aggregator

namespace Worker

open Cpp

theorem findTopWords_chars (K : Int) (text : Str) :
    ∀ c ∈ findTopWords K text,
      c = ';' ∨ c = ':' ∨ c = '-' ∨ c.isDigit = true ∨ c.isLower = true := by
  intro c hc
  unfold findTopWords at hc
  rcases mem_joinWith _ _ c hc with h | ⟨s, hs, h⟩
  · left; simpa using h
  · obtain ⟨p, hp, e⟩ := List.mem_map.mp hs
    rw [← e] at h
    rcases List.mem_append.mp h with h1 | h1
    · rcases List.mem_append.mp h1 with h2 | h2
      · right; right; right; right
        exact (topWordPairs_mem K text p hp).1 c h2
      · right; left; simpa using h2
    · rcases mem_to_string _ c h1 with h2 | h2
      · right; right; right; left; exact h2
      · right; right; left; exact h2

theorem analyzeSentiment_chars (text : Str) :
    ∀ c ∈ analyzeSentiment text,
      c = ':' ∨ c = '-' ∨ c = '.' ∨ c.isDigit = true ∨ c.isLower = true := by
  intro c hc
  unfold analyzeSentiment at hc
  rcases List.mem_append.mp hc with h1 | h1
  · rcases List.mem_append.mp h1 with h2 | h2
    · right; right; right; right; exact sentimentParts_label_lower text c h2
    · left; simpa using h2
  · rcases sentimentParts_score_chars text c h1 with h | h | h
    · right; right; right; left; exact h
    · right; left; exact h
    · right; right; left; exact h

theorem sortSentencesByLength_chars (text : Str) :
    ∀ c ∈ sortSentencesByLength text, c = '~' ∨ c ∈ text := by
  intro c hc
  unfold sortSentencesByLength at hc
  rcases mem_joinWith _ _ c hc with h | ⟨s, hs, h⟩
  · left; simpa using h
  · right; exact (rankedSentences_mem text s hs).2 c h

/-- The result string of the Worker, cut at the field separators. -/
theorem buildResult_eq (K : Int) (section_id text : Str) :
    buildResult K section_id text =
      section_id ++ '|' :: (("words:".toList ++ to_string (countWords text)) ++ '|' ::
        (("top:".toList ++ findTopWords K text) ++ '|' ::
          (("sentiment:".toList ++ analyzeSentiment text) ++ '|' ::
            (("names_replaced:".toList ++ natToString (replaceNames text).length) ++ '|' ::
              (("processed_text:".toList ++ replaceNames text) ++ '|' ::
                ("sorted:".toList ++ sortSentencesByLength text)))))) := by
  simp [buildResult]

/-- When the text has no `|`, the result string splits at `|` into the section
id and the six fields. -/
theorem getlines_buildResult (K : Int) (n : Nat) (text : Str) (hpipe : '|' ∉ text) :
    getlines '|' (buildResult K ("SECTION_".toList ++ natToString n) text) =
      ["SECTION_".toList ++ natToString n,
       "words:".toList ++ to_string (countWords text),
       "top:".toList ++ findTopWords K text,
       "sentiment:".toList ++ analyzeSentiment text,
       "names_replaced:".toList ++ natToString (replaceNames text).length,
       "processed_text:".toList ++ replaceNames text,
       "sorted:".toList ++ sortSentencesByLength text] := by
  have digit_ne : ∀ c : Char, c.isDigit = true → c ≠ '|' := by
    intro c h e; rw [e] at h; exact absurd h (by decide)
  have lower_ne : ∀ c : Char, c.isLower = true → c ≠ '|' := by
    intro c h e; rw [e] at h; exact absurd h (by decide)
  have h0 : '|' ∉ "SECTION_".toList ++ natToString n := by
    intro h
    rcases List.mem_append.mp h with h1 | h1
    · exact absurd h1 (by decide)
    · exact digit_ne _ (natToString_all_digits n _ h1) rfl
  have h1 : '|' ∉ "words:".toList ++ to_string (countWords text) := by
    intro h
    rcases List.mem_append.mp h with h1 | h1
    · exact absurd h1 (by decide)
    · rcases mem_to_string _ _ h1 with h2 | h2
      · exact digit_ne _ h2 rfl
      · exact absurd h2 (by decide)
  have h2 : '|' ∉ "top:".toList ++ findTopWords K text := by
    intro h
    rcases List.mem_append.mp h with h1 | h1
    · exact absurd h1 (by decide)
    · rcases findTopWords_chars K text _ h1 with h2 | h2 | h2 | h2 | h2
      · exact absurd h2 (by decide)
      · exact absurd h2 (by decide)
      · exact absurd h2 (by decide)
      · exact digit_ne _ h2 rfl
      · exact lower_ne _ h2 rfl
  have h3 : '|' ∉ "sentiment:".toList ++ analyzeSentiment text := by
    intro h
    rcases List.mem_append.mp h with h1 | h1
    · exact absurd h1 (by decide)
    · rcases analyzeSentiment_chars text _ h1 with h2 | h2 | h2 | h2 | h2
      · exact absurd h2 (by decide)
      · exact absurd h2 (by decide)
      · exact absurd h2 (by decide)
      · exact digit_ne _ h2 rfl
      · exact lower_ne _ h2 rfl
  have h4 : '|' ∉ "names_replaced:".toList ++ natToString (replaceNames text).length := by
    intro h
    rcases List.mem_append.mp h with h1 | h1
    · exact absurd h1 (by decide)
    · exact digit_ne _ (natToString_all_digits _ _ h1) rfl
  have h5 : '|' ∉ "processed_text:".toList ++ replaceNames text := by
    intro h
    rcases List.mem_append.mp h with h1 | h1
    · exact absurd h1 (by decide)
    · rcases mem_replaceNames text _ h1 with h2 | h2
      · exact absurd h2 (by decide)
      · exact hpipe h2
  have h6 : '|' ∉ "sorted:".toList ++ sortSentencesByLength text := by
    intro h
    rcases List.mem_append.mp h with h1 | h1
    · exact absurd h1 (by decide)
    · rcases sortSentencesByLength_chars text _ h1 with h2 | h2
      · exact absurd h2 (by decide)
      · exact hpipe h2
  have h6ne : "sorted:".toList ++ sortSentencesByLength text ≠ [] := by
    intro h
    have : ("sorted:".toList ++ sortSentencesByLength text).length = 0 := by rw [h]; rfl
    rw [List.length_append] at this
    have h7 : "sorted:".toList.length = 7 := rfl
    omega
  rw [buildResult_eq, getlines_append_sep _ _ _ h0, getlines_append_sep _ _ _ h1,
    getlines_append_sep _ _ _ h2, getlines_append_sep _ _ _ h3, getlines_append_sep _ _ _ h4,
    getlines_append_sep _ _ _ h5, getlines_single _ _ h6 h6ne]

end Worker

namespace Aggregator

open Cpp Worker

/-- Decoding the `top:` field that the Worker writes gives back its pairs. -/
theorem parseTopWords_findTopWords (K : Int) (text : Str) (hlen : text.length ≤ 2147483647) :
    ∃ freq : StdMap Int,
      parseTopWords (findTopWords K text) [] = Except.ok freq ∧
      freq.Perm (topWordPairs K text) := by
  have hitems : ∀ s ∈ (topWordPairs K text).map (fun p => p.1 ++ [':'] ++ to_string p.2),
      ';' ∉ s ∧ s ≠ [] := by
    intro s hs
    obtain ⟨p, hp, e⟩ := List.mem_map.mp hs
    rw [← e]
    constructor
    · intro h
      rcases List.mem_append.mp h with h1 | h1
      · rcases List.mem_append.mp h1 with h2 | h2
        · exact absurd ((topWordPairs_mem K text p hp).1 _ h2) (by decide)
        · exact absurd h2 (by decide)
      · rcases mem_to_string _ _ h1 with h2 | h2
        · exact absurd h2 (by decide)
        · exact absurd h2 (by decide)
    · simp
  have hpairs : ∀ p ∈ topWordPairs K text,
      ':' ∉ p.1 ∧ -2147483648 ≤ p.2 ∧ p.2 ≤ 2147483647 := by
    intro p hp
    obtain ⟨a1, a2, a3⟩ := topWordPairs_mem K text p hp
    refine ⟨fun h => absurd (a1 _ h) (by decide), by omega, by omega⟩
  refine ⟨(topWordPairs K text).foldl
    (fun m p => StdMap.modify p.1 0 (fun c => c + p.2) m) [], ?_, ?_⟩
  · unfold parseTopWords findTopWords
    rw [getlines_joinWith ';' _ hitems]
    exact parseTopWordsLoop_formatted _ [] hpairs
  · have := foldl_modify_perm (topWordPairs K text) [] (topWordPairs_nodup K text)
      (by intro p _ h; simp at h)
    simpa using this

/-- Splitting the `sorted:` field that the Worker writes gives back its
sentences, when the text has no `~`. -/
theorem getlines_sortSentencesByLength (text : Str) (htilde : '~' ∉ text) :
    getlines '~' (sortSentencesByLength text) = rankedSentences text := by
  unfold sortSentencesByLength
  apply getlines_joinWith
  intro s hs
  obtain ⟨h1, h2⟩ := rankedSentences_mem text s hs
  exact ⟨fun h => htilde (h2 _ h), h1⟩

theorem storeResult_total_words (a : Aggregator) (l : Locals) :
    (storeResult a l).total_words = l.total_words := by
  unfold storeResult afterLoop
  dsimp only
  split <;> rfl

theorem storeResult_sentences (a : Aggregator) (l : Locals) :
    (storeResult a l).sentences_by_length = l.sentences_by_length := by
  unfold storeResult afterLoop
  dsimp only
  split <;> rfl

/-- The token loop of `parseResult` on the result string that the Worker
builds for a section. -/
theorem parseTokens_buildResult (stod : Str → Except StdExcept Double) (l : Locals) (K : Int)
    (n : Nat) (text : Str) (v : Double) (freq : StdMap Int)
    (hpipe : '|' ∉ text) (htilde : '~' ∉ text) (hlen : text.length ≤ 2147483647)
    (hstod : stod (sentimentParts text).2 = Except.ok v)
    (hfreq : parseTopWords (findTopWords K text) l.result.word_frequencies = Except.ok freq) :
    parseTokens stod l
        (getlines '|' (buildResult K ("SECTION_".toList ++ natToString n) text)) =
      ({ total_words := l.total_words + countWords text
         sentences_by_length := insertSentences l.sentences_by_length (rankedSentences text)
         result :=
           { word_count := some (countWords text)
             word_frequencies := freq
             sentiment_score := some v
             sentiment_label := (sentimentParts text).1
             processed_text := replaceNames text }
         section_id := "SECTION_".toList ++ natToString n }, none) := by
  have hwc := countWords_bounds text
  have hstoi : stoi (to_string (countWords text)) = Except.ok (countWords text) :=
    stoi_to_string _ (by omega) (by omega)
  have hlabel : ':' ∉ (sentimentParts text).1 :=
    fun h => absurd (sentimentParts_label_lower text _ h) (by decide)
  have hsent : parseSentiment stod (analyzeSentiment text) l.result.sentiment_label
      l.result.sentiment_score = Except.ok ((sentimentParts text).1, some v) :=
    parseSentiment_formatted stod _ _ v _ _ hlabel hstod
  rw [getlines_buildResult K n text hpipe]
  have e0 := parseToken_section stod l (natToString n)
  have e1 := parseToken_words stod { l with section_id := "SECTION_".toList ++ natToString n }
    _ _ hstoi
  have e2 := parseToken_top stod
    { total_words := l.total_words + countWords text
      sentences_by_length := l.sentences_by_length
      result := { l.result with word_count := some (countWords text) }
      section_id := "SECTION_".toList ++ natToString n } _ freq hfreq
  have e3 := parseToken_sentiment stod
    { total_words := l.total_words + countWords text
      sentences_by_length := l.sentences_by_length
      result := { l.result with word_count := some (countWords text), word_frequencies := freq }
      section_id := "SECTION_".toList ++ natToString n } _ _ hsent
  have e4 := parseToken_names_replaced stod
    { total_words := l.total_words + countWords text
      sentences_by_length := l.sentences_by_length
      result := { l.result with word_count := some (countWords text), word_frequencies := freq,
                                sentiment_label := (sentimentParts text).1,
                                sentiment_score := some v }
      section_id := "SECTION_".toList ++ natToString n }
    (natToString (replaceNames text).length)
  have e5 := parseToken_processed_text stod
    { total_words := l.total_words + countWords text
      sentences_by_length := l.sentences_by_length
      result := { l.result with word_count := some (countWords text), word_frequencies := freq,
                                sentiment_label := (sentimentParts text).1,
                                sentiment_score := some v }
      section_id := "SECTION_".toList ++ natToString n }
    (replaceNames text)
  have e6 := parseToken_sorted stod
    { total_words := l.total_words + countWords text
      sentences_by_length := l.sentences_by_length
      result := { word_count := some (countWords text), word_frequencies := freq,
                  sentiment_label := (sentimentParts text).1,
                  sentiment_score := some v, processed_text := replaceNames text }
      section_id := "SECTION_".toList ++ natToString n }
    (sortSentencesByLength text)
  rw [getlines_sortSentencesByLength text htilde] at e6
  simp only [parseTokens, e0, e1, e2, e3, e4, e5, e6]

end Aggregator

/-- C1. Result round trip: for every section id `SECTION_<n>`, every worker
setting `K` and every section text without `|` and `~` (short enough for the
`int` counters, and whose score numeral `std::stod` reads as `v`), `parseResult`
decodes the result string that the Worker builds for the section without an
exception and stores under that id (`results[id] = r`) a result `r` whose
`word_count` is `countWords(text)`, whose word map holds exactly the pairs of
`findTopWords(text)`, whose label and score are those of
`analyzeSentiment(text)` and whose `processed_text` is `replaceNames(text)`;
and it inserts into the global sentence ranking exactly the sentences of
`sortSentencesByLength(text)`, in their ranked order. -/
theorem C1_result_round_trip (stod : Str → Except StdExcept Double) (a : Aggregator)
    (K : Int) (n : Nat) (text : Str) (v : Double)
    (hpipe : '|' ∉ text) (htilde : '~' ∉ text) (hlen : text.length ≤ 2147483647)
    (hstod : stod (Worker.sentimentParts text).2 = Except.ok v) :
    ∃ r : Aggregator.SectionResult,
      (Aggregator.parseResult stod a
        (Worker.buildResult K ("SECTION_".toList ++ Cpp.natToString n) text)).2 = none ∧
      (Aggregator.parseResult stod a
        (Worker.buildResult K ("SECTION_".toList ++ Cpp.natToString n) text)).1.results =
          Cpp.StdMap.modify ("SECTION_".toList ++ Cpp.natToString n) {} (fun _ => r) a.results ∧
      (Cpp.StdMap.Ordered a.results →
        Cpp.StdMap.find ("SECTION_".toList ++ Cpp.natToString n)
          (Aggregator.parseResult stod a
            (Worker.buildResult K ("SECTION_".toList ++ Cpp.natToString n) text)).1.results
          = some r) ∧
      r.word_count = some (Worker.countWords text) ∧
      r.word_frequencies.Perm (Worker.topWordPairs K text) ∧
      r.sentiment_label = (Worker.sentimentParts text).1 ∧
      r.sentiment_score = some v ∧
      r.processed_text = Worker.replaceNames text ∧
      (Aggregator.parseResult stod a
        (Worker.buildResult K ("SECTION_".toList ++ Cpp.natToString n) text)).1.sentences_by_length
          = (Worker.rankedSentences text).foldl
              (fun acc s => Cpp.MultiMap.insert (s.length : Int) s acc) a.sentences_by_length ∧
      ((Aggregator.parseResult stod a
        (Worker.buildResult K ("SECTION_".toList ++ Cpp.natToString n)
          text)).1.sentences_by_length.map Prod.snd).Perm
        (a.sentences_by_length.map Prod.snd ++ Worker.rankedSentences text) := by
  obtain ⟨freq, hfreq, hperm⟩ := Aggregator.parseTopWords_findTopWords K text hlen
  have hcount : Cpp.startsWith "TOTAL_SECTIONS:".toList
      (Worker.buildResult K ("SECTION_".toList ++ Cpp.natToString n) text) = false := by
    rw [Worker.buildResult_eq]; rfl
  have htok := Aggregator.parseTokens_buildResult stod (Aggregator.startLocals a) K n text v freq
    hpipe htilde hlen hstod hfreq
  have hres := Aggregator.parseResult_result stod a _ hcount
  rw [htok] at hres
  simp only [] at hres
  have hins := Aggregator.insertSentences_nonempty (Worker.rankedSentences text)
    (fun s hs => (Worker.rankedSentences_mem text s hs).1) a.sentences_by_length
  refine ⟨{ word_count := some (Worker.countWords text)
            word_frequencies := freq
            sentiment_score := some v
            sentiment_label := (Worker.sentimentParts text).1
            processed_text := Worker.replaceNames text }, ?_, ?_, ?_, rfl, hperm, rfl, rfl, rfl,
    ?_, ?_⟩
  · rw [hres]
  · rw [hres]
    exact Aggregator.storeResult_results _ _
  · intro hord
    rw [hres]
    simp only []
    rw [Aggregator.storeResult_results, Cpp.StdMap.find_modify_self _ _ _ _ hord]
  · rw [hres]
    simp only []
    rw [Aggregator.storeResult_sentences]
    exact hins
  · rw [hres]
    simp only []
    rw [Aggregator.storeResult_sentences]
    show ((Aggregator.insertSentences a.sentences_by_length
      (Worker.rankedSentences text)).map Prod.snd).Perm _
    rw [hins]
    exact Aggregator.foldl_insert_perm _ _

set_option maxRecDepth 100000 in
/-- Witness of C1: the section `SECTION_0` with two sentences, top 3 words. -/
theorem C1_result_round_trip_witness :
    ∃ r : Aggregator.SectionResult,
      (Aggregator.parseResult stodDecimal (Aggregator.init 3)
        (Worker.buildResult 3 ("SECTION_".toList ++ Cpp.natToString 0)
          "Great job today. The team failed badly. ".toList)).1.results =
          Cpp.StdMap.modify ("SECTION_".toList ++ Cpp.natToString 0) {} (fun _ => r)
            (Aggregator.init 3).results ∧
      r.word_count = some 7 ∧
      r.sentiment_label = "positive".toList ∧
      r.processed_text = "FFFFF job today. FFFFF team failed badly. ".toList :=
  match C1_result_round_trip stodDecimal (Aggregator.init 3) 3 0
      "Great job today. The team failed badly. ".toList
      ((142857 : ℚ) / 1000000) (by decide) (by decide) (by decide)
      (by
        have e : (Worker.sentimentParts "Great job today. The team failed badly. ".toList).2
            = "0.142857".toList := by decide
        have h : stodDecimal "0.142857".toList
            = Except.ok (((0 : Nat) : ℚ) + ((142857 : Nat) : ℚ) / (10 : ℚ) ^ 6) := rfl
        rw [e, h]
        norm_num) with
  | ⟨r, _, h2, _, h4, _, h6, _, h8, _, _⟩ =>
    ⟨r, h2, h4.trans (by decide), h6.trans (by decide), h8.trans (by decide)⟩

namespace Aggregator

open Cpp

theorem startsWith_head (a b : Char) (p q s : Str) (h1 : startsWith (a :: p) s = true)
    (h2 : startsWith (b :: q) s = true) : a = b := by
  cases s with
  | nil => simp [startsWith] at h1
  | cons c s =>
    simp only [startsWith, List.isPrefixOf, Bool.and_eq_true, beq_iff_eq] at h1 h2
    rw [h1.1, h2.1]

theorem startsWith_exclusive (a b : Char) (p q s : Str) (hab : a ≠ b)
    (h1 : startsWith (a :: p) s = true) : startsWith (b :: q) s = false := by
  cases h2 : startsWith (b :: q) s with
  | false => rfl
  | true => exact absurd (startsWith_head a b p q s h1 h2) hab

theorem failed_iff {α : Type} (x : Except StdExcept α) :
    Spec.failed x = true ↔ ∃ e, x = Except.error e := by
  cases x with
  | ok v => simp [Spec.failed]
  | error e => simp [Spec.failed]

theorem parseTopWordsPair_error (frequencies : StdMap Int) (pair : Str) :
    (∃ e, parseTopWordsPair frequencies pair = Except.error e) ↔
      (pair.contains ':' && Spec.failed (stoi (pair.dropWhile (fun c => c != ':')).tail)) = true := by
  unfold parseTopWordsPair
  cases hc : pair.contains ':' with
  | false => simp
  | true =>
    simp only [if_true, Bool.true_and]
    cases hs : stoi (pair.dropWhile (fun c => c != ':')).tail with
    | ok n => simp [Spec.failed]
    | error e => simp [Spec.failed]

theorem parseTopWordsLoop_error (pairs : List Str) :
    ∀ frequencies : StdMap Int,
      (∃ e, parseTopWordsLoop frequencies pairs = Except.error e) ↔
        pairs.any (fun pair =>
          pair.contains ':' && Spec.failed (stoi (pair.dropWhile (fun c => c != ':')).tail)) = true := by
  induction pairs with
  | nil => intro f; simp [parseTopWordsLoop]
  | cons pair pairs ih =>
    intro f
    rw [List.any_cons, Bool.or_eq_true, ← parseTopWordsPair_error f pair]
    rw [parseTopWordsLoop]
    cases hp : parseTopWordsPair f pair with
    | ok f1 =>
      simp only []
      rw [ih f1]
      constructor
      · intro h; right; exact h
      · rintro (⟨e, he⟩ | h)
        · cases he
        · exact h
    | error e =>
      simp only []
      constructor
      · intro _; left; exact ⟨e, rfl⟩
      · intro _; exact ⟨e, rfl⟩

theorem parseSentiment_error (stod : Str → Except StdExcept Double) (s label : Str)
    (score : Option Double) :
    (∃ e, parseSentiment stod s label score = Except.error e) ↔
      (s.contains ':' && Spec.failed (stod (s.dropWhile (fun c => c != ':')).tail)) = true := by
  unfold parseSentiment
  cases hc : s.contains ':' with
  | false => simp
  | true =>
    simp only [if_true, Bool.true_and]
    cases hs : stod (s.dropWhile (fun c => c != ':')).tail with
    | ok n => simp [Spec.failed]
    | error e => simp [Spec.failed]

/-- A token makes `parseToken` throw exactly when it is a field with a number
that cannot be parsed. -/
theorem parseToken_error (stod : Str → Except StdExcept Double) (l : Locals) (token : Str) :
    (∃ e, parseToken stod l token = Except.error e) ↔ Spec.fieldMalformed stod token = true := by
  unfold Spec.fieldMalformed
  rw [parseToken]
  by_cases h0 : startsWith "SECTION_".toList token = true
  · have w := startsWith_exclusive 'S' 'w' _ "ords:".toList token (by decide) h0
    have t := startsWith_exclusive 'S' 't' _ "op:".toList token (by decide) h0
    have s := startsWith_exclusive 'S' 's' _ "entiment:".toList token (by decide) h0
    have w2 : startsWith "words:".toList token = false := w
    have t2 : startsWith "top:".toList token = false := t
    have s2 : startsWith "sentiment:".toList token = false := s
    rw [if_pos h0, w2, t2, s2]
    simp
  · rw [if_neg h0]
    by_cases h1 : startsWith "words:".toList token = true
    · have t := startsWith_exclusive 'w' 't' _ "op:".toList token (by decide) h1
      have s := startsWith_exclusive 'w' 's' _ "entiment:".toList token (by decide) h1
      have t2 : startsWith "top:".toList token = false := t
      have s2 : startsWith "sentiment:".toList token = false := s
      rw [if_pos h1, h1, t2, s2]
      cases hs : stoi (token.drop 6) with
      | ok n => simp [Spec.failed]
      | error e => simp [Spec.failed]
    · rw [if_neg h1]
      have h1f : startsWith "words:".toList token = false := by simpa using h1
      by_cases h2 : startsWith "top:".toList token = true
      · have s := startsWith_exclusive 't' 's' _ "entiment:".toList token (by decide) h2
        have s2 : startsWith "sentiment:".toList token = false := s
        rw [if_pos h2, h1f, h2, s2]
        simp only [Bool.false_and, Bool.true_and, Bool.false_or, Bool.or_false]
        rw [← parseTopWordsLoop_error _ l.result.word_frequencies]
        unfold parseTopWords
        cases hp : parseTopWordsLoop l.result.word_frequencies (getlines ';' (token.drop 4)) with
        | ok f => simp
        | error e => simp
      · rw [if_neg h2]
        have h2f : startsWith "top:".toList token = false := by simpa using h2
        by_cases h3 : startsWith "sentiment:".toList token = true
        · rw [if_pos h3, h1f, h2f, h3]
          simp only [Bool.false_and, Bool.true_and, Bool.false_or]
          rw [← parseSentiment_error stod _ l.result.sentiment_label l.result.sentiment_score]
          cases hp : parseSentiment stod (token.drop 10) l.result.sentiment_label
              l.result.sentiment_score with
          | ok r => simp
          | error e => simp
        · rw [if_neg h3]
          have h3f : startsWith "sentiment:".toList token = false := by simpa using h3
          rw [h1f, h2f, h3f]
          simp only [Bool.false_and, Bool.or_false]
          constructor
          · rintro ⟨e, he⟩
            split at he
            · cases he
            · split at he <;> cases he
          · intro h; cases h

theorem parseTokens_error (stod : Str → Except StdExcept Double) (tokens : List Str) :
    ∀ l : Locals,
      (∃ e, (parseTokens stod l tokens).2 = some e) ↔
        tokens.any (Spec.fieldMalformed stod) = true := by
  induction tokens with
  | nil => intro l; simp [parseTokens]
  | cons t ts ih =>
    intro l
    rw [List.any_cons, Bool.or_eq_true, ← parseToken_error stod l t, parseTokens]
    cases hp : parseToken stod l t with
    | ok l1 =>
      simp only []
      rw [ih l1]
      constructor
      · intro h; right; exact h
      · rintro (⟨e, he⟩ | h)
        · cases he
        · exact h
    | error e =>
      simp only []
      constructor
      · intro _; left; exact ⟨e, rfl⟩
      · intro _; exact ⟨e, rfl⟩

/-- The function `parseResult` throws exactly on the messages that hold a required number
that cannot be parsed. -/
theorem parseResult_throws_iff (stod : Str → Except StdExcept Double) (a : Aggregator)
    (message : Str) :
    (∃ e, (parseResult stod a message).2 = some e) ↔
      Spec.messageMalformed stod message = true := by
  unfold Spec.messageMalformed
  cases h : startsWith "TOTAL_SECTIONS:".toList message with
  | true =>
    rw [if_pos rfl]
    cases hn : stoi (message.drop 15) with
    | ok n => rw [parseResult_count_ok stod a message n h hn]; simp [Spec.failed]
    | error e => rw [parseResult_count_error stod a message e h hn]; simp [Spec.failed]
  | false =>
    rw [if_neg (by decide), ← parseTokens_error stod _ (startLocals a),
      parseResult_result stod a message h]
    rcases hp : parseTokens stod (startLocals a) (getlines '|' message) with ⟨l, o⟩
    cases o with
    | none => simp
    | some e => simp

end Aggregator

/-- C5 (as amended). For every Aggregator state that is not complete and every
message that holds a required number that cannot be parsed (the value after
`words:`, a count inside `top:`, the score inside `sentiment:`, or the number
after `TOTAL_SECTIONS:`), `parseResult` throws the exception of `std::stoi` /
`std::stod`; the exception leaves the collection loop as well, whatever
messages follow; `results`, the processed-section count, the expected count and
the completion flag are the same as before the message. -/
theorem C5_malformed_number_aborts_collection (stod : Str → Except StdExcept Double)
    (a : Aggregator) (message : Str)
    (hbad : Spec.messageMalformed stod message = true)
    (hwait : a.all_results_received = false) :
    ∃ e : StdExcept,
      (Aggregator.parseResult stod a message).2 = some e ∧
      (∀ later : List Str,
        Aggregator.collectResults stod a (message :: later)
          = Aggregator.Collected.aborted e (Aggregator.parseResult stod a message).1) ∧
      (Aggregator.parseResult stod a message).1.results = a.results ∧
      (Aggregator.parseResult stod a message).1.total_sections_processed
        = a.total_sections_processed ∧
      (Aggregator.parseResult stod a message).1.total_sections_expected
        = a.total_sections_expected ∧
      (Aggregator.parseResult stod a message).1.all_results_received
        = a.all_results_received := by
  obtain ⟨e, he⟩ := (Aggregator.parseResult_throws_iff stod a message).mpr hbad
  rcases hr : Aggregator.parseResult stod a message with ⟨b, o⟩
  rw [hr] at he
  have ho : o = some e := he
  subst ho
  obtain ⟨h1, h2, h3, h4, _⟩ := Aggregator.parseResult_threw stod a b message e hr
  refine ⟨e, rfl, ?_, h1, h2, h3, h4⟩
  intro later
  simp [Aggregator.collectResults, hwait, hr]

/-- Witness of C5: a `words:` field whose value is not a number. -/
theorem C5_malformed_number_aborts_collection_witness :
    ∃ e : StdExcept,
      (Aggregator.parseResult stodDecimal (Aggregator.init 10)
        "SECTION_0|words:many".toList).2 = some e ∧
      Aggregator.collectResults stodDecimal (Aggregator.init 10)
          ("SECTION_0|words:many".toList :: ["TOTAL_SECTIONS:1".toList])
        = Aggregator.Collected.aborted e
            (Aggregator.parseResult stodDecimal (Aggregator.init 10)
              "SECTION_0|words:many".toList).1 :=
  match C5_malformed_number_aborts_collection stodDecimal (Aggregator.init 10)
      "SECTION_0|words:many".toList (by decide) (by decide) with
  | ⟨e, h1, h2, _⟩ => ⟨e, h1, h2 ["TOTAL_SECTIONS:1".toList]⟩

namespace Aggregator

open Cpp

theorem parseResult_ok_of_wellFormed (stod : Str → Except StdExcept Double) (a : Aggregator)
    (message : Str) (h : Spec.messageMalformed stod message = false) :
    (parseResult stod a message).2 = none := by
  cases ho : (parseResult stod a message).2 with
  | none => rfl
  | some e =>
    have := (parseResult_throws_iff stod a message).mp ⟨e, ho⟩
    rw [h] at this
    exact absurd this (by decide)

theorem parseAll_ok_of_wellFormed (stod : Str → Except StdExcept Double) (messages : List Str) :
    ∀ a : Aggregator, (∀ m ∈ messages, Spec.messageMalformed stod m = false) →
      (parseAll stod a messages).2 = none := by
  induction messages with
  | nil => intro a _; rfl
  | cons m ms ih =>
    intro a h
    have hm := parseResult_ok_of_wellFormed stod a m (h m (List.mem_cons_self _ _))
    rcases hr : parseResult stod a m with ⟨b, o⟩
    rw [hr] at hm
    have ho : o = none := hm
    subst ho
    simp only [parseAll, hr]
    exact ih b (fun x hx => h x (List.mem_cons_of_mem _ hx))

end Aggregator

/-- C3 (as amended). After the announcement `TOTAL_SECTIONS:n` with `n ≥ 1` and
then any sequence `rs` of well-formed result messages (none holds a number that
cannot be parsed), the Aggregator that started in its initial state is complete
if and only if the number of result messages processed, re-deliveries
included, is at least `n`: the processed-section counter equals the number of
result messages, the expected count is `n`, the stored section ids are pairwise
distinct (a re-delivered id overwrites its entry) and there are at most as many
of them as messages. -/
theorem C3_completion_counts_processed_messages (stod : Str → Except StdExcept Double)
    (top n : Int) (rs : List Str) (hn : 1 ≤ n) (hmax : n ≤ 2147483647)
    (hrs : ∀ m ∈ rs, Cpp.startsWith "TOTAL_SECTIONS:".toList m = false ∧
      Spec.messageMalformed stod m = false) :
    ((Aggregator.parseAll stod (Aggregator.init top)
        (("TOTAL_SECTIONS:".toList ++ Cpp.to_string n) :: rs)).1.all_results_received = true
      ↔ n ≤ (rs.length : Int)) ∧
    (Aggregator.parseAll stod (Aggregator.init top)
        (("TOTAL_SECTIONS:".toList ++ Cpp.to_string n) :: rs)).1.total_sections_processed
      = (rs.length : Int) ∧
    (Aggregator.parseAll stod (Aggregator.init top)
        (("TOTAL_SECTIONS:".toList ++ Cpp.to_string n) :: rs)).1.total_sections_expected = n ∧
    ((Aggregator.parseAll stod (Aggregator.init top)
        (("TOTAL_SECTIONS:".toList ++ Cpp.to_string n) :: rs)).1.results.map Prod.fst).Nodup ∧
    (Aggregator.parseAll stod (Aggregator.init top)
        (("TOTAL_SECTIONS:".toList ++ Cpp.to_string n) :: rs)).1.results.length ≤ rs.length := by
  have hstep : Aggregator.parseAll stod (Aggregator.init top)
      (("TOTAL_SECTIONS:".toList ++ Cpp.to_string n) :: rs)
      = Aggregator.parseAll stod { Aggregator.init top with total_sections_expected := n } rs := by
    simp only [Aggregator.parseAll,
      Aggregator.parseResult_countMessage stod (Aggregator.init top) n (by omega) hmax]
  rw [hstep]
  have hok := Aggregator.parseAll_ok_of_wellFormed stod rs
    { Aggregator.init top with total_sections_expected := n } (fun m hm => (hrs m hm).2)
  obtain ⟨h1, h2, h3, h4, h5⟩ := Aggregator.parseAll_results stod rs
    { Aggregator.init top with total_sections_expected := n } (fun m hm => (hrs m hm).1) hok
  refine ⟨?_, ?_, ?_, ?_, ?_⟩
  · rw [h3]
    simp only [Aggregator.init, Bool.false_eq_true, false_or, zero_add]
    constructor
    · intro h; exact h.2.2
    · intro h; exact ⟨by omega, by omega, h⟩
  · rw [h2]; simp [Aggregator.init]
  · rw [h1]
  · exact Cpp.StdMap.ordered_nodup _ (h4 (by simp [Aggregator.init, Cpp.StdMap.Ordered]))
  · simpa [Aggregator.init] using h5

/-- Witness of C3: the announcement for two sections followed by two results. -/
theorem C3_completion_counts_processed_messages_witness :
    ((Aggregator.parseAll stodDecimal (Aggregator.init 10)
        (("TOTAL_SECTIONS:".toList ++ Cpp.to_string 2) ::
          ["SECTION_0|words:3".toList, "SECTION_1|words:4".toList])).1.all_results_received = true
      ↔ (2 : Int) ≤
        (([("SECTION_0|words:3".toList : Str), "SECTION_1|words:4".toList]).length : Int)) :=
  (C3_completion_counts_processed_messages stodDecimal 10 2
    ["SECTION_0|words:3".toList, "SECTION_1|words:4".toList]
    (by decide) (by decide) (by decide)).1

namespace Cpp

theorem extractWordsAux_eq (t : Str) :
    ∀ cur : Str,
      extractWordsAux t cur =
        ((t.splitOnP isspace).modifyHead (fun x => cur.reverse ++ x)).filter
          (fun w => !w.isEmpty) := by
  induction t with
  | nil =>
    intro cur
    rw [extractWordsAux, List.splitOnP_nil]
    cases cur with
    | nil => rfl
    | cons c cur => simp [List.modifyHead]
  | cons c t ih =>
    intro cur
    rw [extractWordsAux, List.splitOnP_cons]
    cases hc : isspace c with
    | true =>
      simp only [if_true]
      have h0 := ih []
      have hid : (List.splitOnP isspace t).modifyHead (fun x => ([] : Str).reverse ++ x)
          = List.splitOnP isspace t := by
        cases List.splitOnP isspace t with
        | nil => rfl
        | cons a as => simp [List.modifyHead]
      rw [hid] at h0
      cases cur with
      | nil => simp [List.modifyHead, h0]
      | cons x cur => simp [List.modifyHead, h0]
    | false =>
      simp only [Bool.false_eq_true, if_false]
      rw [ih (c :: cur)]
      cases List.splitOnP isspace t with
      | nil => rfl
      | cons a as => simp [List.modifyHead]

/-- The words that `iss >> word` reads are the whitespace-separated tokens of
the text. -/
theorem extractWords_eq_tokens (text : Str) : extractWords text = Spec.tokens text := by
  unfold extractWords Spec.tokens
  rw [extractWordsAux_eq]
  cases List.splitOnP isspace text with
  | nil => rfl
  | cons a as => simp [List.modifyHead]

end Cpp

namespace Worker

open Cpp

theorem countsAsWord_eq (token : Str) : countsAsWord token = !Spec.uncounted token := by
  cases token with
  | nil => rfl
  | cons a t =>
    cases t with
    | nil =>
      cases ha : a.isAlpha <;> simp [countsAsWord, Spec.uncounted, isalpha, ha]
    | cons b t =>
      cases t with
      | nil =>
        cases ha : a.isAlpha <;> cases hb : b.isAlpha <;>
          simp [countsAsWord, Spec.uncounted, isalpha, ha, hb]
      | cons c t =>
        have hu : Spec.uncounted (a :: b :: c :: t) = false := by
          simp [Spec.uncounted]
        rw [hu]
        unfold countsAsWord
        simp only []
        split <;> split <;> simp [List.dropLast]

theorem foldl_count (f : Str → Bool) (ws : List Str) :
    ∀ i : Int, ws.foldl (fun count word => if f word then count + 1 else count) i
      = i + ((ws.filter f).length : Int) := by
  induction ws with
  | nil => intro i; simp
  | cons w ws ih =>
    intro i
    rw [List.foldl_cons, List.filter_cons]
    cases hf : f w with
    | true => simp only [if_true]; rw [ih]; simp only [List.length_cons]; push_cast; ring
    | false => simp only [Bool.false_eq_true, if_false]; rw [ih]

end Worker

/-- C16. Word count: for every text, `countWords` returns the number of
whitespace-separated tokens that are still non-empty after the removal of at
most one non-alphabetic character from the end and then at most one from the
front (`countsAsWord`); such a token is exactly one that is not made of one or
two non-alphabetic characters, so `countWords` counts every token except
those. The text "Great job today. The team failed badly." gives 7, and the
tokens `123` and `--a` are counted. -/
theorem C16_word_count :
    (∀ text : Str,
      Worker.countWords text
        = (((Spec.tokens text).filter Worker.countsAsWord).length : Int) ∧
      Worker.countWords text
        = (((Spec.tokens text).filter (fun t => !Spec.uncounted t)).length : Int)) ∧
    (∀ token : Str, Worker.countsAsWord token = !Spec.uncounted token) ∧
    Worker.countWords "Great job today. The team failed badly.".toList = 7 ∧
    Worker.countWords "123 --a - -- a. .".toList = 3 := by
  refine ⟨?_, Worker.countsAsWord_eq, by decide, by decide⟩
  intro text
  have h1 : Worker.countWords text
      = (((Spec.tokens text).filter Worker.countsAsWord).length : Int) := by
    unfold Worker.countWords
    rw [Worker.foldl_count, Cpp.extractWords_eq_tokens]
    simp
  refine ⟨h1, ?_⟩
  rw [h1]
  have : Worker.countsAsWord = (fun t => !Spec.uncounted t) := by
    funext t; exact Worker.countsAsWord_eq t
  rw [this]

/-- C15 (as amended). For the text "Great job today. The team failed badly."
`analyzeSentiment` finds one positive word (`great`) and no negative word among
seven words (`failed` and `badly` are not in the negative lexicon), so the
score is 1/7 and the returned value is "positive:0.142857". -/
theorem C15_sentiment_example_positive :
    Worker.sentimentCounts "Great job today. The team failed badly.".toList = (1, 0, 7) ∧
    Spec.normalizedWords "Great job today. The team failed badly.".toList
      = ["great".toList, "job".toList, "today".toList, "the".toList, "team".toList,
         "failed".toList, "badly".toList] ∧
    Worker.negative_words.contains "failed".toList = false ∧
    Worker.negative_words.contains "badly".toList = false ∧
    Worker.analyzeSentiment "Great job today. The team failed badly.".toList
      = "positive:0.142857".toList := by
  decide

/-- Counterexample to C15 as stated: on the text of the example the value
returned by `analyzeSentiment` is not "neutral:0", and the count of negative
words is 0, not 1. -/
theorem C15_counterexample :
    Worker.analyzeSentiment "Great job today. The team failed badly.".toList
      ≠ "neutral:0".toList ∧
    (Worker.sentimentCounts "Great job today. The team failed badly.".toList).2.1 = 0 := by
  decide

namespace Aggregator

open Cpp

theorem countP_three (results : StdMap SectionResult) :
    results.countP (fun r => r.2.sentiment_label = "positive".toList) +
      results.countP (fun r => r.2.sentiment_label = "negative".toList) +
      results.countP (fun r => ¬ r.2.sentiment_label = "positive".toList ∧
                               ¬ r.2.sentiment_label = "negative".toList) = results.length := by
  have hpn : "positive".toList ≠ "negative".toList := by decide
  induction results with
  | nil => rfl
  | cons r rs ih =>
    simp only [List.countP_cons, List.length_cons]
    by_cases h1 : r.2.sentiment_label = "positive".toList
    · have h2 : ¬ r.2.sentiment_label = "negative".toList := by rw [h1]; exact hpn
      simp only [h1, hpn, decide_True, decide_False, if_true, not_true_eq_false, false_and,
        Bool.false_eq_true, if_false, not_false_eq_true, and_true, Nat.add_zero]
      omega
    · by_cases h2 : r.2.sentiment_label = "negative".toList
      · simp only [h2, hpn.symm, decide_True, decide_False, if_true, not_true_eq_false,
          and_false, Bool.false_eq_true, if_false, not_false_eq_true, true_and, Nat.add_zero]
        omega
      · simp only [h1, h2, decide_True, decide_False, if_true,
          Bool.false_eq_true, if_false, not_false_eq_true, and_self, Nat.add_zero]
        omega

theorem countP_neutral (results : StdMap SectionResult)
    (h : ∀ r ∈ results, r.2.sentiment_label = "positive".toList ∨
      r.2.sentiment_label = "negative".toList ∨ r.2.sentiment_label = "neutral".toList) :
    results.countP (fun r => ¬ r.2.sentiment_label = "positive".toList ∧
                             ¬ r.2.sentiment_label = "negative".toList)
      = Spec.labelled "neutral".toList results := by
  unfold Spec.labelled
  apply List.countP_congr
  intro r hr
  have h1 : "neutral".toList ≠ "positive".toList := by decide
  have h2 : "neutral".toList ≠ "negative".toList := by decide
  rcases h r hr with e | e | e
  · simp [e, h1.symm]
  · simp [e, h2.symm]
  · simp [e, h1, h2]

end Aggregator

namespace Spec

open Cpp

theorem groupsOf_nil {α : Type} (n : Nat) (hn : 1 ≤ n) : groupsOf n ([] : List α) = [] := by
  unfold groupsOf
  have : (([] : List α).length + n - 1) / n = 0 := by
    simp only [List.length_nil, Nat.zero_add]
    exact Nat.div_eq_of_lt (by omega)
  rw [this]; rfl

theorem groupsOf_append {α : Type} (n : Nat) (hn : 1 ≤ n) (g rest : List α)
    (hg : g.length = n) : groupsOf n (g ++ rest) = g :: groupsOf n rest := by
  unfold groupsOf
  have hcount : ((g ++ rest).length + n - 1) / n = (rest.length + n - 1) / n + 1 := by
    rw [List.length_append, hg]
    have : n + rest.length + n - 1 = (rest.length + n - 1) + n := by omega
    rw [this, Nat.add_div_right _ (by omega)]
  rw [hcount, List.range_succ_eq_map, List.map_cons, List.map_map]
  congr 1
  · simp only [Nat.zero_mul, List.drop_zero]
    rw [← hg, List.take_left]
  · apply List.map_congr_left
    intro i _
    simp only [Function.comp]
    have : (i + 1) * n = g.length + i * n := by rw [hg]; ring
    rw [this, List.drop_append]

theorem groupsOf_small {α : Type} (n : Nat) (l : List α) (h1 : 1 ≤ l.length)
    (h2 : l.length ≤ n) : groupsOf n l = [l] := by
  unfold groupsOf
  have hcount : (l.length + n - 1) / n = 1 := by
    have : l.length + n - 1 = (l.length - 1) + n := by omega
    rw [this, Nat.add_div_right _ (by omega), Nat.div_eq_of_lt (by omega)]
  rw [hcount]
  show [(l.drop (0 * n)).take n] = [l]
  rw [Nat.zero_mul, List.drop_zero, List.take_of_length_le h2]

theorem groupsOf_one {α : Type} (l : List α) : groupsOf 1 l = l.map (fun x => [x]) := by
  induction l with
  | nil => exact groupsOf_nil 1 (le_refl _)
  | cons x xs ih =>
    have := groupsOf_append 1 (le_refl _) [x] xs rfl
    simp only [List.singleton_append] at this
    rw [this, ih]; rfl

theorem groupsOf_length {α : Type} (n : Nat) (l : List α) :
    (groupsOf n l).length = (l.length + n - 1) / n := by
  simp [groupsOf]

/-- The size of group `i`: `n` for every group but the last, and between 1 and
`n` for the last. -/
theorem groupsOf_sizes {α : Type} (n : Nat) (hn : 1 ≤ n) (l : List α) (i : Nat)
    (g : List α) (hg : (groupsOf n l).get? i = some g) :
    (i + 1 < (groupsOf n l).length → g.length = n) ∧ 1 ≤ g.length ∧ g.length ≤ n := by
  have hlen := groupsOf_length n l
  unfold groupsOf at hg
  rw [List.get?_eq_getElem?, List.getElem?_map] at hg
  cases hr : (List.range ((l.length + n - 1) / n))[i]? with
  | none => rw [hr] at hg; cases hg
  | some j =>
    rw [hr] at hg
    have hj : j = i ∧ i < (l.length + n - 1) / n := by
      rw [List.getElem?_eq_some_iff] at hr
      obtain ⟨hi, e⟩ := hr
      rw [List.getElem_range] at e
      rw [List.length_range] at hi
      exact ⟨e.symm, hi⟩
    obtain ⟨hji, hi⟩ := hj
    subst hji
    have hgv : g = (l.drop (j * n)).take n := by
      simpa using hg.symm
    have hgl : g.length = min n (l.length - j * n) := by
      rw [hgv, List.length_take, List.length_drop]
    have hmul : (j + 1) * n ≤ l.length + n - 1 := by
      have := Nat.div_mul_le_self (l.length + n - 1) n
      calc (j + 1) * n ≤ ((l.length + n - 1) / n) * n := Nat.mul_le_mul_right n hi
        _ ≤ l.length + n - 1 := this
    have hexp : (j + 1) * n = j * n + n := by ring
    refine ⟨?_, ?_, ?_⟩
    · intro hlast
      rw [hlen] at hlast
      have hmul2 : (j + 2) * n ≤ l.length + n - 1 := by
        have := Nat.div_mul_le_self (l.length + n - 1) n
        calc (j + 2) * n ≤ ((l.length + n - 1) / n) * n := Nat.mul_le_mul_right n hlast
          _ ≤ l.length + n - 1 := this
      have hexp2 : (j + 2) * n = j * n + n + n := by ring
      rw [hgl]; omega
    · rw [hgl]; omega
    · rw [hgl]; omega

theorem sectionText_append (xs ys : List Str) :
    sectionText (xs ++ ys) = sectionText xs ++ sectionText ys := by
  simp [sectionText]

theorem sectionText_eq_nil (xs : List Str) : sectionText xs = [] ↔ xs = [] := by
  cases xs with
  | nil => simp [sectionText]
  | cons x xs => simp [sectionText]

end Spec

namespace Spec

open Cpp

theorem terminatedPieces_of_no_terminator (s : Str) (h : ∀ x ∈ s, isTerminator x = false) :
    terminatedPieces s = ([], s) := by
  induction s with
  | nil => rfl
  | cons x rest ih =>
    rw [terminatedPieces_cons_of_not_terminator x rest (h x (List.mem_cons_self _ _)),
      ih (fun y hy => h y (List.mem_cons_of_mem _ hy))]

theorem sentences_of_no_terminator (s : Str) (h : ∀ x ∈ s, isTerminator x = false) :
    sentences s = [] := by
  unfold sentences
  rw [terminatedPieces_of_no_terminator s h]
  rfl

theorem groupsOf_flatten {α : Type} (n : Nat) (hn : 1 ≤ n) :
    ∀ (k : Nat) (l : List α), l.length ≤ k → (groupsOf n l).flatten = l := by
  intro k
  induction k with
  | zero =>
    intro l hl
    have : l = [] := List.eq_nil_of_length_eq_zero (by omega)
    rw [this, groupsOf_nil n hn]; rfl
  | succ k ih =>
    intro l hl
    by_cases h0 : l.length = 0
    · have : l = [] := List.eq_nil_of_length_eq_zero h0
      rw [this, groupsOf_nil n hn]; rfl
    · by_cases hs : l.length ≤ n
      · rw [groupsOf_small n l (by omega) hs]; simp
      · have hsplit : l = l.take n ++ l.drop n := (List.take_append_drop n l).symm
        have htl : (l.take n).length = n := by rw [List.length_take]; omega
        have hdl : (l.drop n).length ≤ k := by rw [List.length_drop]; omega
        have hg := groupsOf_append n hn (l.take n) (l.drop n) htl
        rw [List.take_append_drop] at hg
        rw [hg, List.flatten_cons, ih (l.drop n) hdl, List.take_append_drop]

end Spec

namespace Producer

open Cpp

theorem scanChar_terminator (n : Int) (st : Scan) (c : Char) (hc : isTerminator c = true) :
    scanChar n st c = pushSentence n st (Spec.trim (st.current_sentence ++ [c])) := by
  obtain ⟨_, hne⟩ := Spec.trim_of_ends st.current_sentence c hc
  have hd : ((st.current_sentence ++ [c]).dropWhile isTrimChar).isEmpty = false := by
    cases hx : ((st.current_sentence ++ [c]).dropWhile isTrimChar).isEmpty with
    | false => rfl
    | true => exact absurd (trim_eq_nil_of_dropWhile _ hx) hne
  have hne2 : (Spec.trim (st.current_sentence ++ [c])).isEmpty = false := by
    cases hx : Spec.trim (st.current_sentence ++ [c]) with
    | nil => exact absurd hx hne
    | cons _ _ => rfl
  unfold scanChar pushSentence
  simp only [hc, if_true, cleanSentence_eq, hd, Bool.false_eq_true, if_false, hne2, Bool.not_false]

theorem scanChar_not_terminator (n : Int) (st : Scan) (c : Char) (hc : isTerminator c = false) :
    scanChar n st c = { st with current_sentence := st.current_sentence ++ [c] } := by
  unfold scanChar
  simp only [hc, Bool.false_eq_true, if_false]

theorem pushSentence_congr (n : Int) (st st2 : Scan) (s : Str)
    (h1 : st.sections = st2.sections) (h2 : st.current_section = st2.current_section)
    (h3 : st.sentence_count = st2.sentence_count) :
    pushSentence n st s = pushSentence n st2 s := by
  unfold pushSentence
  rw [h1, h2, h3]

/-- The scan of the characters does to the sections what pushing the sentences
of the text one after the other does. -/
theorem scan_push (n : Int) (t : Str) :
    ∀ st st2 : Scan, (∀ x ∈ st.current_sentence, isTerminator x = false) →
      st.sections = st2.sections → st.current_section = st2.current_section →
      st.sentence_count = st2.sentence_count →
      (t.foldl (scanChar n) st).sections =
        ((Spec.sentences (st.current_sentence ++ t)).foldl (pushSentence n) st2).sections ∧
      (t.foldl (scanChar n) st).current_section =
        ((Spec.sentences (st.current_sentence ++ t)).foldl (pushSentence n) st2).current_section := by
  induction t with
  | nil =>
    intro st st2 hst h1 h2 h3
    rw [List.append_nil, Spec.sentences_of_no_terminator _ hst]
    exact ⟨h1, h2⟩
  | cons c rest ih =>
    intro st st2 hst h1 h2 h3
    rw [List.foldl_cons]
    cases hc : isTerminator c with
    | true =>
      have hs := Spec.sentences_append_terminator st.current_sentence c rest hst hc
      rw [if_pos (Spec.trim_of_ends st.current_sentence c hc).2] at hs
      rw [hs, List.singleton_append, List.foldl_cons, scanChar_terminator n st c hc,
        ← pushSentence_congr n st st2 _ h1 h2 h3]
      have hcur : (pushSentence n st (Spec.trim (st.current_sentence ++ [c]))).current_sentence = [] := by
        unfold pushSentence; split <;> rfl
      have := ih (pushSentence n st (Spec.trim (st.current_sentence ++ [c])))
        (pushSentence n st (Spec.trim (st.current_sentence ++ [c])))
        (by rw [hcur]; intro x hx; cases hx) rfl rfl rfl
      rw [hcur, List.nil_append] at this
      exact this
    | false =>
      rw [scanChar_not_terminator n st c hc]
      have := ih { st with current_sentence := st.current_sentence ++ [c] } st2
        (by
          intro x hx
          rcases List.mem_append.mp hx with h | h
          · exact hst x h
          · rw [List.mem_singleton.mp h]; exact hc)
        h1 h2 h3
      simp only [List.append_assoc, List.singleton_append] at this
      exact this

theorem foldl_push_groups (n : Nat) (hn : 1 ≤ n) (ss : List Str) :
    ∀ (st : Scan) (pend : List Str), st.current_section = Spec.sectionText pend →
      st.sentence_count = (pend.length : Int) → pend.length < n →
      finishScan (ss.foldl (pushSentence (n : Int)) st) =
        st.sections ++ (Spec.groupsOf n (pend ++ ss)).map Spec.sectionText := by
  induction ss with
  | nil =>
    intro st pend h1 h2 h3
    rw [List.foldl_nil, List.append_nil]
    unfold finishScan
    cases pend with
    | nil =>
      rw [Spec.groupsOf_nil n hn, h1]
      simp [Spec.sectionText]
    | cons p ps =>
      rw [Spec.groupsOf_small n (p :: ps) (by simp) (by omega), h1]
      have : Spec.sectionText (p :: ps) ≠ [] := by
        rw [Ne, Spec.sectionText_eq_nil]; simp
      cases hx : Spec.sectionText (p :: ps) with
      | nil => exact absurd hx this
      | cons _ _ => simp [hx]
  | cons s ss ih =>
    intro st pend h1 h2 h3
    rw [List.foldl_cons]
    have happ : pend ++ s :: ss = (pend ++ [s]) ++ ss := by simp
    have htext : st.current_section ++ (s ++ [' ']) = Spec.sectionText (pend ++ [s]) := by
      rw [Spec.sectionText_append, h1]
      simp [Spec.sectionText]
    by_cases hfull : (n : Int) ≤ st.sentence_count + 1
    · have hp : pushSentence (n : Int) st s =
          { sections := st.sections ++ [st.current_section ++ (s ++ [' '])],
            current_section := [], sentence_count := 0, current_sentence := [] } := by
        unfold pushSentence; rw [if_pos hfull]
      have hlen : (pend ++ [s]).length = n := by
        rw [List.length_append, List.length_singleton]; omega
      rw [hp, ih _ [] rfl rfl (by simp; omega), happ,
        Spec.groupsOf_append n hn (pend ++ [s]) ss hlen, htext]
      simp
    · have hp : pushSentence (n : Int) st s =
          { sections := st.sections, current_section := st.current_section ++ (s ++ [' ']),
            sentence_count := st.sentence_count + 1, current_sentence := [] } := by
        unfold pushSentence; rw [if_neg hfull]
      rw [hp, ih _ (pend ++ [s]) htext
        (by simp only [List.length_append, List.length_singleton]; rw [h2]; push_cast; rfl)
        (by rw [List.length_append, List.length_singleton]; omega), happ]

/-- The sections are the sentences of the accumulated text in groups of
`sentences_per_section`, each sentence followed by a space. -/
theorem readFileBySentences_eq_groups (lines : List Str) (n : Int) (hn : 1 ≤ n) :
    readFileBySentences lines n =
      (Spec.groupsOf n.toNat (Spec.sentences (accumulateLines lines))).map Spec.sectionText := by
  have hcast : ((n.toNat : Nat) : Int) = n := Int.toNat_of_nonneg (by omega)
  have h := scan_push n (accumulateLines lines)
    { sections := [], current_section := [], sentence_count := 0, current_sentence := [] }
    { sections := [], current_section := [], sentence_count := 0, current_sentence := [] }
    (by intro x hx; cases hx) rfl rfl rfl
  simp only [List.nil_append] at h
  have hg := foldl_push_groups n.toNat (by omega) (Spec.sentences (accumulateLines lines))
    { sections := [], current_section := [], sentence_count := 0, current_sentence := [] } []
    rfl rfl (by simp; omega)
  rw [hcast] at hg
  simp only [List.nil_append] at hg
  rw [← hg]
  show finishScan ((accumulateLines lines).foldl (scanChar n) _) = _
  unfold finishScan
  rw [h.1, h.2]

end Producer

namespace Worker

open Cpp

theorem scanSentences_eq (t : Str) :
    ∀ cur : Str, (∀ x ∈ cur, isTerminator x = false) →
      scanSentences t cur = (Spec.sentences (cur ++ t), (Spec.terminatedPieces (cur ++ t)).2) := by
  induction t with
  | nil =>
    intro cur hcur
    rw [List.append_nil, Spec.sentences_of_no_terminator cur hcur,
      Spec.terminatedPieces_of_no_terminator cur hcur]
    rfl
  | cons c rest ih =>
    intro cur hcur
    rw [scanSentences]
    cases hc : isTerminator c with
    | true =>
      obtain ⟨_, hne⟩ := Spec.trim_of_ends cur c hc
      have hd : ((cur ++ [c]).dropWhile isTrimChar).isEmpty = false := by
        cases hx : ((cur ++ [c]).dropWhile isTrimChar).isEmpty with
        | false => rfl
        | true => exact absurd (Producer.trim_eq_nil_of_dropWhile _ hx) hne
      have hne2 : (Spec.trim (cur ++ [c])).isEmpty = false := by
        cases hx : Spec.trim (cur ++ [c]) with
        | nil => exact absurd hx hne
        | cons _ _ => rfl
      have hr := ih [] (by intro x hx; cases hx)
      rw [List.nil_append] at hr
      have hs := Spec.sentences_append_terminator cur c rest hcur hc
      rw [if_pos hne] at hs
      rw [hs, Spec.terminatedPieces_append_terminator cur c rest hcur hc]
      simp only [if_true, Producer.cleanSentence_eq, hd, Bool.false_eq_true, if_false, hne2,
        Bool.not_false, hr, List.singleton_append]
    | false =>
      simp only [Bool.false_eq_true, if_false]
      rw [ih (cur ++ [c]) (by
        intro x hx
        rcases List.mem_append.mp hx with h | h
        · exact hcur x h
        · rw [List.mem_singleton.mp h]; exact hc)]
      simp only [List.append_assoc, List.singleton_append]

/-- The sentences that the Worker ranks: the terminated sentences of the text,
then the trimmed trailing fragment when it is not blank. -/
theorem extractSentences_eq (text : Str) :
    extractSentences text = Spec.sentences text ++ Spec.fragmentSentence text := by
  unfold extractSentences
  simp only []
  rw [scanSentences_eq text [] (by intro x hx; cases hx), List.nil_append]
  congr 1
  unfold Spec.fragmentSentence
  simp only [Producer.cleanSentence_eq]
  cases hf : (Spec.terminatedPieces text).2 with
  | nil => rfl
  | cons x xs =>
    simp only [List.isEmpty_cons, Bool.not_false, if_true]
    by_cases hd : ((x :: xs).dropWhile isTrimChar).isEmpty = true
    · rw [if_pos hd, Producer.trim_eq_nil_of_dropWhile _ hd]; rfl
    · rw [if_neg hd]
      simp only []
      cases ht : Spec.trim (x :: xs) with
      | nil => rfl
      | cons _ _ => rfl

end Worker

namespace Producer

open Cpp

theorem accumulateLines_single (text : Str) : accumulateLines [text] = text := by
  cases text with
  | nil => rfl
  | cons c cs => simp [accumulateLines]

theorem sectionText_single (s : Str) : Spec.sectionText [s] = s ++ [' '] := by
  simp [Spec.sectionText]

end Producer

/-- C20: for `sentences_per_section = n ≥ 1`, the sections returned by
`readFileBySentences` are the sentences of the input (terminated, trimmed, not
empty) taken `n` at a time in order, each followed by a space: every section but
the last holds exactly `n` sentences and the last between 1 and `n`; with `S`
sentences there are `ceil(S / n)` sections; and an input without a terminated
sentence, the empty input included, gives no section. The text
"Great job today. The team failed badly." with `n = 2` gives one section with
both sentences. -/
theorem C20_sections_hold_n_sentences (lines : List Str) (n : Int) (hn : 1 ≤ n) :
    Producer.readFileBySentences lines n =
        (Spec.groupsOf n.toNat (Spec.sentences (Producer.accumulateLines lines))).map
          Spec.sectionText ∧
      (Spec.groupsOf n.toNat (Spec.sentences (Producer.accumulateLines lines))).flatten =
        Spec.sentences (Producer.accumulateLines lines) ∧
      (∀ (i : Nat) (g : List Str),
        (Spec.groupsOf n.toNat (Spec.sentences (Producer.accumulateLines lines))).get? i = some g →
        (i + 1 < (Producer.readFileBySentences lines n).length → (g.length : Int) = n) ∧
          1 ≤ g.length ∧ (g.length : Int) ≤ n) ∧
      (Producer.readFileBySentences lines n).length =
        ((Spec.sentences (Producer.accumulateLines lines)).length + n.toNat - 1) / n.toNat ∧
      (Spec.sentences (Producer.accumulateLines lines)).length ≤
        (Producer.readFileBySentences lines n).length * n.toNat ∧
      (Producer.readFileBySentences lines n).length * n.toNat <
        (Spec.sentences (Producer.accumulateLines lines)).length + n.toNat ∧
      ((∀ c ∈ Producer.accumulateLines lines, Cpp.isTerminator c = false) →
        Producer.readFileBySentences lines n = []) ∧
      Producer.readFileBySentences [] n = [] ∧
      Producer.readFileBySentences ["Great job today. The team failed badly.".toList] 2 =
        ["Great job today. The team failed badly. ".toList] ∧
      Spec.sentences "Great job today. The team failed badly.".toList =
        ["Great job today.".toList, "The team failed badly.".toList] := by
  have hcast : ((n.toNat : Nat) : Int) = n := Int.toNat_of_nonneg (by omega)
  have hn1 : 1 ≤ n.toNat := by omega
  have heq := Producer.readFileBySentences_eq_groups lines n hn
  have hlen : (Producer.readFileBySentences lines n).length =
      ((Spec.sentences (Producer.accumulateLines lines)).length + n.toNat - 1) / n.toNat := by
    rw [heq, List.length_map, Spec.groupsOf_length]
  have hpos : 0 < n.toNat := by omega
  refine ⟨heq, Spec.groupsOf_flatten n.toNat hn1 _ _ (le_refl _), ?_, hlen, ?_, ?_, ?_, ?_, ?_, ?_⟩
  · intro i g hg
    have := Spec.groupsOf_sizes n.toNat hn1 _ i g hg
    rw [heq, List.length_map]
    refine ⟨fun h => ?_, this.2.1, ?_⟩
    · rw [← hcast, this.1 h]
    · rw [← hcast]; exact_mod_cast this.2.2
  · rw [hlen]
    have h1 := Nat.lt_div_mul_add hpos (a := (Spec.sentences (Producer.accumulateLines lines)).length + n.toNat - 1)
    omega
  · rw [hlen]
    have h1 := Nat.div_mul_le_self ((Spec.sentences (Producer.accumulateLines lines)).length + n.toNat - 1) n.toNat
    omega
  · intro h
    rw [heq, Spec.sentences_of_no_terminator _ h, Spec.groupsOf_nil n.toNat hn1]
    rfl
  · rfl
  · decide
  · decide

theorem C20_sections_hold_n_sentences_witness :
    (1 : Int) ≤ 2 ∧
      Producer.readFileBySentences ["A. B! C?".toList, "D. E.".toList] 2 =
        (Spec.groupsOf 2 (Spec.sentences "A. B! C? D. E.".toList)).map Spec.sectionText ∧
      Producer.readFileBySentences ["A. B! C?".toList, "D. E.".toList] 2 =
        ["A. B! ".toList, "C? D. ".toList, "E. ".toList] :=
  ⟨by decide, (C20_sections_hold_n_sentences ["A. B! C?".toList, "D. E.".toList] 2 (by decide)).1,
    by decide⟩

/-- C18 (amended): the sentences that `sortSentencesByLength` ranks are the
sentences that the Sectionizer's scan extracts from the same text (terminated at
'.', '!' or '?', trimmed, empty ones dropped), followed by the trimmed
un-terminated trailing fragment when that fragment is not blank. The
Sectionizer drops the fragment, so the two agree when the trailing fragment is
blank. -/
theorem C18_ranked_sentences_keep_fragment (text : Str) :
    Worker.extractSentences text = Spec.sentences text ++ Spec.fragmentSentence text ∧
      (Worker.rankedSentences text).Perm (Spec.sentences text ++ Spec.fragmentSentence text) ∧
      Producer.readFileBySentences [text] 1 = (Spec.sentences text).map (fun s => s ++ [' ']) ∧
      (Spec.fragmentSentence text = [] → Worker.extractSentences text = Spec.sentences text) ∧
      (Spec.fragmentSentence text ≠ [] →
        (Worker.extractSentences text).length = (Spec.sentences text).length + 1) := by
  have he := Worker.extractSentences_eq text
  refine ⟨he, ?_, ?_, ?_, ?_⟩
  · rw [← he]; exact Worker.rankedSentences_perm text
  · rw [Producer.readFileBySentences_eq_groups [text] 1 (le_refl _),
      Producer.accumulateLines_single]
    show (Spec.groupsOf 1 (Spec.sentences text)).map Spec.sectionText = _
    rw [Spec.groupsOf_one, List.map_map]
    apply List.map_congr_left
    intro s _
    exact Producer.sectionText_single s
  · intro h; rw [he, h, List.append_nil]
  · intro h
    rw [he, List.length_append]
    unfold Spec.fragmentSentence at h ⊢
    split
    · rename_i hb; rw [if_pos hb] at h; exact absurd rfl h
    · rfl

/-- C18 as stated fails: in "Hello. world" the un-terminated fragment "world"
is ranked by the Worker as a sentence, and the Sectionizer's scan of the same
text extracts "Hello." only. -/
theorem C18_counterexample :
    Worker.extractSentences "Hello. world".toList = ["Hello.".toList, "world".toList] ∧
      Worker.sortSentencesByLength "Hello. world".toList = "Hello.~world".toList ∧
      Producer.readFileBySentences ["Hello. world".toList] 1 = ["Hello. ".toList] ∧
      Spec.sentences "Hello. world".toList = ["Hello.".toList] := by
  decide

namespace Spec

open Cpp Worker

theorem isWordChar_of_isUpper (c : Char) (h : c.isUpper = true) : isWordChar c = true := by
  simp [isWordChar, Char.isAlphanum, Char.isAlpha, h]

theorem isWordChar_of_isLower (c : Char) (h : c.isLower = true) : isWordChar c = true := by
  simp [isWordChar, Char.isAlphanum, Char.isAlpha, h]

theorem wholeWords_flatten (text : Str) : (wholeWords text).flatten = text := by
  induction text with
  | nil => rfl
  | cons c rest ih =>
    rw [wholeWords]
    cases hw : wholeWords rest with
    | nil =>
      rw [hw] at ih
      simp only [List.flatten_nil] at ih
      simp [← ih]
    | cons p ps =>
      rw [hw] at ih
      simp only []
      split
      · rw [← ih]; simp
      · rw [← ih]; simp

theorem wholeWords_head (c : Char) (rest : Str) :
    ∃ p ps, wholeWords (c :: rest) = (c :: p) :: ps := by
  rw [wholeWords]
  cases wholeWords rest with
  | nil => exact ⟨[], [], rfl⟩
  | cons p ps =>
    simp only []
    split
    · exact ⟨p, ps, rfl⟩
    · exact ⟨[], p :: ps, rfl⟩

theorem wholeWords_cons_separator (c : Char) (rest : Str) (hc : isWordChar c = false) :
    wholeWords (c :: rest) = [c] :: wholeWords rest := by
  rw [wholeWords]
  cases wholeWords rest with
  | nil => rfl
  | cons p ps => simp only [hc, Bool.false_and, Bool.false_eq_true, if_false]

theorem wholeWords_cons_word (rest : Str) :
    ∀ c : Char, isWordChar c = true →
      wholeWords (c :: rest) =
        (c :: rest.takeWhile isWordChar) :: wholeWords (rest.dropWhile isWordChar) := by
  induction rest with
  | nil => intro c _; rfl
  | cons d r ih =>
    intro c hc
    rw [wholeWords]
    cases hd : isWordChar d with
    | true =>
      rw [ih d hd]
      simp only [hc, Bool.true_and, List.head?_cons, Option.getD_some, hd, if_true,
        List.takeWhile_cons, List.dropWhile_cons]
    | false =>
      obtain ⟨p, ps, hp⟩ := wholeWords_head d r
      rw [hp]
      simp only [hc, Bool.true_and, List.head?_cons, Option.getD_some, hd, Bool.false_eq_true,
        if_false, List.takeWhile_cons, List.dropWhile_cons]
      rw [← hp]

theorem isWordRun_head (p : Str) (h : isWordRun p = true) :
    ∃ c q, p = c :: q ∧ isWordChar c = true ∧ ∀ x ∈ q, isWordChar x = true := by
  cases p with
  | nil => simp [isWordRun] at h
  | cons c q =>
    simp only [isWordRun, List.isEmpty_cons, Bool.not_false, Bool.true_and, List.all_cons,
      Bool.and_eq_true, List.all_eq_true] at h
    exact ⟨c, q, rfl, h.1, h.2⟩

theorem isSeparator_eq (p : Str) (h : isSeparator p = true) :
    ∃ c, p = [c] ∧ isWordChar c = false := by
  match p, h with
  | [c], h =>
    refine ⟨c, rfl, ?_⟩
    simpa [isSeparator] using h

theorem not_wordRun_of_separator (p : Str) (h : isSeparator p = true) : isWordRun p = false := by
  obtain ⟨c, rfl, hc⟩ := isSeparator_eq p h
  simp [isWordRun, hc]

/-- The text of pieces that do not begin with a word run begins with a
character that is not a word character, or is empty. -/
theorem flatten_head_not_word (ps : List Str) (hps : WordPieces ps)
    (hh : ∀ p ∈ ps.head?, isWordRun p = false) :
    isWordChar (ps.flatten.head?.getD ' ') = false := by
  cases ps with
  | nil => decide
  | cons p ps =>
    have hp := hh p (by simp)
    rcases hps.1 p (List.mem_cons_self _ _) with h | h
    · rw [hp] at h; cases h
    · obtain ⟨c, rfl, hc⟩ := isSeparator_eq p h
      simpa using hc

theorem WordPieces_tail (p : Str) (ps : List Str) (h : WordPieces (p :: ps)) :
    WordPieces ps :=
  ⟨fun q hq => h.1 q (List.mem_cons_of_mem _ hq), (List.chain'_cons'.mp h.2).2⟩

theorem WordPieces_next (p : Str) (ps : List Str) (h : WordPieces (p :: ps))
    (hp : isWordRun p = true) : ∀ q ∈ ps.head?, isWordRun q = false := by
  intro q hq
  have := (List.chain'_cons'.mp h.2).1 q hq
  cases hq2 : isWordRun q with
  | false => rfl
  | true => exact absurd ⟨hp, hq2⟩ this

theorem takeWhile_append_of_all (p : Char → Bool) (q F : Str) (hq : ∀ x ∈ q, p x = true)
    (hF : p (F.head?.getD ' ') = false) :
    (q ++ F).takeWhile p = q ∧ (q ++ F).dropWhile p = F := by
  induction q with
  | nil =>
    cases F with
    | nil => exact ⟨rfl, rfl⟩
    | cons a F =>
      have : p a = false := by simpa using hF
      simp [List.takeWhile_cons, List.dropWhile_cons, this]
  | cons x q ih =>
    have hx := hq x (List.mem_cons_self _ _)
    have := ih (fun y hy => hq y (List.mem_cons_of_mem _ hy))
    simp [List.takeWhile_cons, List.dropWhile_cons, hx, this.1, this.2]

theorem wholeWords_of_pieces (ps : List Str) (hps : WordPieces ps) :
    wholeWords ps.flatten = ps := by
  induction ps with
  | nil => rfl
  | cons p ps ih =>
    have htail := WordPieces_tail p ps hps
    rcases hps.1 p (List.mem_cons_self _ _) with h | h
    · obtain ⟨c, q, rfl, hc, hq⟩ := isWordRun_head p h
      have hF := flatten_head_not_word ps htail (WordPieces_next _ ps hps h)
      obtain ⟨e1, e2⟩ := takeWhile_append_of_all isWordChar q ps.flatten hq hF
      rw [List.flatten_cons, List.cons_append, wholeWords_cons_word _ c hc, e1, e2, ih htail]
    · obtain ⟨c, rfl, hc⟩ := isSeparator_eq p h
      rw [List.flatten_cons, List.singleton_append, wholeWords_cons_separator c _ hc, ih htail]

theorem wholeWords_pieces (text : Str) : WordPieces (wholeWords text) := by
  induction text with
  | nil => exact ⟨fun p hp => absurd hp (List.not_mem_nil p), List.chain'_nil⟩
  | cons c rest ih =>
    rw [wholeWords]
    cases hw : wholeWords rest with
    | nil =>
      refine ⟨fun p hp => ?_, List.chain'_singleton _⟩
      rw [List.mem_singleton.mp hp]
      cases hc : isWordChar c with
      | true => left; simp [isWordRun, hc]
      | false => right; simp [isSeparator, hc]
    | cons p ps =>
      rw [hw] at ih
      simp only []
      have hp := ih.1 p (List.mem_cons_self _ _)
      split
      · rename_i hcond
        simp only [Bool.and_eq_true] at hcond
        have hpr : isWordRun p = true := by
          rcases hp with h | h
          · exact h
          · obtain ⟨d, rfl, hd⟩ := isSeparator_eq p h
            simp [hd] at hcond
        have hcp : isWordRun (c :: p) = true := by
          obtain ⟨d, q, rfl, hd, hq⟩ := isWordRun_head p hpr
          simp only [isWordRun, List.isEmpty_cons, Bool.not_false, Bool.true_and, List.all_cons,
            Bool.and_eq_true, List.all_eq_true]
          exact ⟨hcond.1, hd, hq⟩
        refine ⟨fun x hx => ?_, ?_⟩
        · rcases List.mem_cons.mp hx with e | e
          · rw [e]; exact Or.inl hcp
          · exact ih.1 x (List.mem_cons_of_mem _ e)
        · rw [List.chain'_cons']
          refine ⟨fun y hy => ?_, (List.chain'_cons'.mp ih.2).2⟩
          intro hboth
          exact (List.chain'_cons'.mp ih.2).1 y hy ⟨hpr, hboth.2⟩
      · rename_i hcond
        refine ⟨fun x hx => ?_, ?_⟩
        · rcases List.mem_cons.mp hx with e | e
          · rw [e]
            cases hc : isWordChar c with
            | true => left; simp [isWordRun, hc]
            | false => right; simp [isSeparator, hc]
          · exact ih.1 x e
        · rw [List.chain'_cons']
          refine ⟨fun y hy => ?_, ih.2⟩
          have hy2 : y = p := by simpa using hy.symm
          subst hy2
          intro hboth
          apply hcond
          obtain ⟨d, q, rfl, hd, _⟩ := isWordRun_head y hboth.2
          have hc : isWordChar c = true := by
            have := hboth.1
            simpa [isWordRun] using this
          simp [hc, hd]

end Spec

namespace Worker

open Cpp

/-- After a word character no match starts: a run of word characters is copied. -/
theorem replaceNamesAux_copy (R : Str) (a b : Str) (ha : ∀ x ∈ a, isWordChar x = true) :
    replaceNamesAux R true 0 (a ++ b) = a ++ replaceNamesAux R true 0 b := by
  induction a with
  | nil => rfl
  | cons x a ih =>
    rw [List.cons_append, replaceNamesAux]
    simp only [Bool.not_true, Bool.false_and, Bool.false_eq_true, if_false,
      ha x (List.mem_cons_self _ _), List.cons_append]
    rw [ih (fun y hy => ha y (List.mem_cons_of_mem _ hy))]

/-- The characters of a match are passed over. -/
theorem replaceNamesAux_skip (R : Str) (a b : Str) (ha : ∀ x ∈ a, isWordChar x = true) :
    replaceNamesAux R true a.length (a ++ b) = replaceNamesAux R true 0 b := by
  induction a with
  | nil => rfl
  | cons x a ih =>
    rw [List.cons_append, List.length_cons, replaceNamesAux, ha x (List.mem_cons_self _ _)]
    exact ih (fun y hy => ha y (List.mem_cons_of_mem _ hy))

theorem all_lower_of_after (q F : Str) (hq : ∀ x ∈ q, isWordChar x = true)
    (h : isWordChar (((q ++ F).dropWhile Char.isLower).head?.getD ' ') = false) :
    ∀ x ∈ q, x.isLower = true := by
  induction q with
  | nil => intro x hx; cases hx
  | cons y q ih =>
    cases hy : y.isLower with
    | true =>
      rw [List.cons_append, List.dropWhile_cons, if_pos hy] at h
      intro x hx
      rcases List.mem_cons.mp hx with e | e
      · rw [e]; exact hy
      · exact ih (fun z hz => hq z (List.mem_cons_of_mem _ hz)) h x e
    | false =>
      rw [List.cons_append, List.dropWhile_cons, if_neg (by rw [hy]; exact Bool.false_ne_true)] at h
      simp only [List.head?_cons, Option.getD_some] at h
      rw [hq y (List.mem_cons_self _ _)] at h
      cases h

theorem isLower_head_false (F : Str) (hF : isWordChar (F.head?.getD ' ') = false) :
    Char.isLower (F.head?.getD ' ') = false := by
  cases h : Char.isLower (F.head?.getD ' ') with
  | false => rfl
  | true => rw [Spec.isWordChar_of_isLower _ h] at hF; cases hF

/-- The scan over the text of well-formed pieces replaces the pieces that are
names and copies the others. -/
theorem replaceNamesAux_pieces (ps : List Str) :
    Spec.WordPieces ps → ∀ prev : Bool,
      (prev = true → ∀ p ∈ ps.head?, Spec.isWordRun p = false) →
      replaceNamesAux "FFFFF".toList prev 0 ps.flatten = (ps.map Spec.redactWord).flatten := by
  induction ps with
  | nil => intro _ _ _; rfl
  | cons p ps ih =>
    intro hps prev hprev
    have htail := Spec.WordPieces_tail p ps hps
    rcases hps.1 p (List.mem_cons_self _ _) with h | h
    · have hpf : prev = false := by
        cases prev with
        | false => rfl
        | true =>
          have := hprev rfl p (by simp)
          rw [h] at this; cases this
      subst hpf
      obtain ⟨c, q, rfl, hc, hq⟩ := Spec.isWordRun_head p h
      have hnext := Spec.WordPieces_next _ ps hps h
      have hF := Spec.flatten_head_not_word ps htail hnext
      have hrest := ih htail true (fun _ => hnext)
      rw [List.flatten_cons, List.cons_append, List.map_cons, List.flatten_cons, replaceNamesAux]
      simp only [Bool.not_false, Bool.true_and]
      by_cases hname : Spec.isName (c :: q) = true
      · have hn := hname
        simp only [Spec.isName, Bool.and_eq_true, List.all_eq_true, Bool.not_eq_true',
          List.isEmpty_eq_false] at hn
        obtain ⟨⟨hup, hne⟩, hlow⟩ := hn
        obtain ⟨e1, e2⟩ := Spec.takeWhile_append_of_all Char.isLower q ps.flatten hlow
          (isLower_head_false _ hF)
        have hqe : q.isEmpty = false := by
          cases q with
          | nil => exact absurd rfl hne
          | cons _ _ => rfl
        rw [e1, e2, if_pos (by simp [hup, hqe, hF]), replaceNamesAux_skip _ q _ hq, hrest]
        simp only [Spec.redactWord, hname, if_true]
      · have hcond : ¬ ((c.isUpper && !((q ++ ps.flatten).takeWhile Char.isLower).isEmpty &&
            !isWordChar ((((q ++ ps.flatten).dropWhile Char.isLower).head?.getD ' '))) = true) := by
          intro hcond
          simp only [Bool.and_eq_true, Bool.not_eq_true'] at hcond
          obtain ⟨⟨hup, hne⟩, hafter⟩ := hcond
          have hlow := all_lower_of_after q ps.flatten hq hafter
          obtain ⟨e1, _⟩ := Spec.takeWhile_append_of_all Char.isLower q ps.flatten hlow
            (isLower_head_false _ hF)
          rw [e1] at hne
          apply hname
          simp only [Spec.isName, Bool.and_eq_true, List.all_eq_true, Bool.not_eq_true']
          exact ⟨⟨hup, hne⟩, hlow⟩
        rw [if_neg hcond, hc, replaceNamesAux_copy _ q _ hq, hrest]
        simp only [Spec.redactWord, hname, Bool.false_eq_true, if_false, List.cons_append]
    · obtain ⟨c, rfl, hc⟩ := Spec.isSeparator_eq p h
      have hup : c.isUpper = false := by
        cases hu : c.isUpper with
        | false => rfl
        | true => rw [Spec.isWordChar_of_isUpper c hu] at hc; cases hc
      rw [List.flatten_cons, List.singleton_append, List.map_cons, List.flatten_cons,
        replaceNamesAux]
      simp only [hup, Bool.and_false, Bool.false_and, Bool.false_eq_true, if_false, hc]
      rw [ih htail false (fun h => by cases h)]
      have : Spec.isName [c] = false := by simp [Spec.isName]
      simp only [Spec.redactWord, this, Bool.false_eq_true, if_false, List.singleton_append]

theorem replaceNames_eq_redact (text : Str) : replaceNames text = Spec.redact text := by
  have h := replaceNamesAux_pieces (Spec.wholeWords text) (Spec.wholeWords_pieces text) false
    (fun h => by cases h)
  rw [Spec.wholeWords_flatten] at h
  exact h

end Worker

namespace Spec

open Cpp Worker

theorem isWordRun_redactWord (p : Str) (hp : isWordRun p = true ∨ isSeparator p = true) :
    isWordRun (redactWord p) = isWordRun p ∧
      (isSeparator p = true → redactWord p = p) := by
  unfold redactWord
  by_cases hn : isName p = true
  · rw [if_pos hn]
    rcases hp with h | h
    · exact ⟨by rw [h]; decide, fun hs => by rw [not_wordRun_of_separator p hs] at h; cases h⟩
    · obtain ⟨c, rfl, _⟩ := isSeparator_eq p h
      simp [isName] at hn
  · rw [if_neg hn]
    exact ⟨rfl, fun _ => rfl⟩

theorem redact_pieces (ps : List Str) (hps : WordPieces ps) :
    WordPieces (ps.map redactWord) := by
  refine ⟨fun p hp => ?_, ?_⟩
  · obtain ⟨q, hq, rfl⟩ := List.mem_map.mp hp
    have hq2 := hps.1 q hq
    obtain ⟨e1, e2⟩ := isWordRun_redactWord q hq2
    rcases hq2 with h | h
    · left; rw [e1]; exact h
    · right; rw [e2 h]; exact h
  · rw [List.chain'_map]
    refine List.Chain'.imp ?_ (List.Chain'.iff_mem.mp hps.2)
    intro a b hab
    rw [(isWordRun_redactWord a (hps.1 a hab.1)).1, (isWordRun_redactWord b (hps.1 b hab.2.1)).1]
    exact hab.2.2

theorem isName_redactWord (p : Str) : isName (redactWord p) = false := by
  unfold redactWord
  by_cases hn : isName p = true
  · rw [if_pos hn]; decide
  · rw [if_neg hn]; simpa using hn

end Spec

/-- C17: `replaceNames` returns the text in which every whole word (maximal run
of letters, digits and underscore) that is one upper-case ASCII letter followed
by one or more lower-case ASCII letters is replaced by "FFFFF", every other
character staying in place; the whole words of the output are the whole words
of the text with the names replaced, so no whole word of the output is a name;
and a text without such a word is returned unchanged. -/
theorem C17_names_replaced (text : Str) :
    Worker.replaceNames text = Spec.redact text ∧
      (Spec.wholeWords text).flatten = text ∧
      Spec.wholeWords (Worker.replaceNames text) = (Spec.wholeWords text).map Spec.redactWord ∧
      (∀ w ∈ Spec.wholeWords (Worker.replaceNames text), Spec.isName w = false) ∧
      ((∀ w ∈ Spec.wholeWords text, Spec.isName w = false) → Worker.replaceNames text = text) ∧
      Worker.replaceNames "Anna met bob, McCoy and Al1 in Paris. X Yz".toList =
        "FFFFF met bob, McCoy and Al1 in FFFFF. X FFFFF".toList := by
  have heq := Worker.replaceNames_eq_redact text
  have hw : Spec.wholeWords (Worker.replaceNames text) =
      (Spec.wholeWords text).map Spec.redactWord := by
    rw [heq]
    exact Spec.wholeWords_of_pieces _ (Spec.redact_pieces _ (Spec.wholeWords_pieces text))
  refine ⟨heq, Spec.wholeWords_flatten text, hw, ?_, ?_, ?_⟩
  · intro w hw2
    rw [hw] at hw2
    obtain ⟨p, _, rfl⟩ := List.mem_map.mp hw2
    exact Spec.isName_redactWord p
  · intro h
    rw [heq]
    unfold Spec.redact
    have : (Spec.wholeWords text).map Spec.redactWord = Spec.wholeWords text := by
      conv_rhs => rw [← List.map_id (Spec.wholeWords text)]
      apply List.map_congr_left
      intro p hp
      unfold Spec.redactWord
      rw [if_neg (by rw [h p hp]; exact Bool.false_ne_true)]
      rfl
    rw [this, Spec.wholeWords_flatten]
  · decide

namespace Cpp

/-- Insertion into a sorted list keeps the order of the elements of a class of
equivalent elements. -/
theorem orderedInsert_filter {α : Type} (r : α → α → Prop) [DecidableRel r] (p : α → Bool)
    (hp : ∀ a b, p a = true → p b = true → r a b) (a : α) (t : List α) :
    (t.orderedInsert r a).filter p = if p a = true then a :: t.filter p else t.filter p := by
  induction t with
  | nil =>
    simp only [List.orderedInsert, List.filter_cons, List.filter_nil]
  | cons b t ih =>
    rw [List.orderedInsert]
    by_cases hr : r a b
    · rw [if_pos hr, List.filter_cons]
    · rw [if_neg hr, List.filter_cons, ih]
      by_cases ha : p a = true
      · have hb : ¬ p b = true := fun hb => hr (hp a b ha hb)
        rw [if_pos ha, if_neg hb, if_pos ha, List.filter_cons, if_neg hb]
      · rw [if_neg ha, if_neg ha, List.filter_cons]

theorem insertionSort_filter {α : Type} (r : α → α → Prop) [DecidableRel r] (p : α → Bool)
    (hp : ∀ a b, p a = true → p b = true → r a b) (l : List α) :
    (l.insertionSort r).filter p = l.filter p := by
  induction l with
  | nil => rfl
  | cons a l ih =>
    rw [List.insertionSort, orderedInsert_filter r p hp, ih, List.filter_cons]

/-- Insertion sort of a list that is in the order `S`: equivalent elements stay
in the order `S`. -/
theorem insertionSort_lex {α : Type} (r : α → α → Prop) [DecidableRel r] (S : α → α → Prop)
    (htotal : ∀ a b, r a b ∨ r b a) (htrans : ∀ a b c, r a b → r b c → r a c) (l : List α) :
    l.Pairwise S → (l.insertionSort r).Pairwise (fun a b => r a b ∧ (r b a → S a b)) := by
  have hins : ∀ (a : α) (t : List α), (∀ b ∈ t, S a b) →
      t.Pairwise (fun a b => r a b ∧ (r b a → S a b)) →
      (t.orderedInsert r a).Pairwise (fun a b => r a b ∧ (r b a → S a b)) := by
    intro a t
    induction t with
    | nil => intro _ _; simp [List.orderedInsert]
    | cons b t ih =>
      intro hS ht
      rw [List.orderedInsert]
      by_cases hr : r a b
      · rw [if_pos hr]
        refine List.Pairwise.cons ?_ ht
        intro x hx
        refine ⟨?_, fun _ => hS x hx⟩
        rcases List.mem_cons.mp hx with e | e
        · rw [e]; exact hr
        · exact htrans a b x hr ((List.pairwise_cons.mp ht).1 x e).1
      · rw [if_neg hr]
        refine List.Pairwise.cons ?_
          (ih (fun x hx => hS x (List.mem_cons_of_mem _ hx)) (List.pairwise_cons.mp ht).2)
        intro y hy
        rcases (List.mem_orderedInsert r).mp hy with e | e
        · rw [e]
          refine ⟨?_, fun h => absurd h hr⟩
          rcases htotal a b with h | h
          · exact absurd h hr
          · exact h
        · exact (List.pairwise_cons.mp ht).1 y e
  induction l with
  | nil => intro _; exact List.Pairwise.nil
  | cons a l ih =>
    intro hl
    rw [List.insertionSort]
    refine hins a _ ?_ (ih (List.pairwise_cons.mp hl).2)
    intro b hb
    exact (List.pairwise_cons.mp hl).1 b ((List.perm_insertionSort r l).subset hb)

end Cpp

namespace Worker

open Cpp

theorem foldl_filter_map {β : Type} (f : Str → Str) (g : Str → β → β) (ws : List Str) :
    ∀ m : β, ws.foldl (fun m word => if !(f word).isEmpty then g (f word) m else m) m =
      ((ws.map f).filter (fun w => !w.isEmpty)).foldl (fun m w => g w m) m := by
  induction ws with
  | nil => intro m; rfl
  | cons w ws ih =>
    intro m
    rw [List.foldl_cons, List.map_cons, List.filter_cons]
    by_cases h : (!(f w).isEmpty) = true
    · rw [if_pos h, if_pos h, List.foldl_cons, ih]
    · rw [if_neg h, if_neg h, ih]

/-- The map `word_count` is filled with one occurrence for every normalized
word of the text, in the order of the text. -/
theorem wordCountMap_eq (text : Str) :
    wordCountMap text =
      ((Spec.normalizedWords text).map (fun w => (w, (1 : Int)))).foldl
        (fun m p => StdMap.modify p.1 0 (fun c => c + p.2) m) [] := by
  unfold wordCountMap
  rw [extractWords_eq_tokens]
  have h := foldl_filter_map normalizeWord
    (fun w (m : StdMap Int) => StdMap.modify w 0 (fun c => c + 1) m) (Spec.tokens text) []
  rw [List.foldl_map]
  exact h.trans rfl

theorem countIn_ones (w : Str) (ws : List Str) :
    Spec.countIn w (ws.map (fun w => (w, (1 : Int)))) = (ws.count w : Int) := by
  unfold Spec.countIn
  induction ws with
  | nil => rfl
  | cons x ws ih =>
    rw [List.map_cons, List.filter_cons, List.count_cons]
    by_cases h : x = w
    · subst h
      simp only [decide_True, if_true, List.map_cons, List.sum_cons, ih, beq_self_eq_true]
      push_cast
      ring
    · have h2 : (x == w) = false := by simpa using h
      simp only [h, decide_False, Bool.false_eq_true, if_false, ih, h2, Nat.add_zero]

/-- The count stored for a word is the number of tokens that normalize to it. -/
theorem wordCountMap_find (text : Str) (w : Str) :
    StdMap.find w (wordCountMap text) =
      if w ∈ Spec.normalizedWords text then some (Spec.occurrences w text : Int) else none := by
  rw [wordCountMap_eq, Aggregator.foldl_modify_find w _ [] (by simp [StdMap.Ordered]),
    countIn_ones]
  have hm : (w ∈ ((Spec.normalizedWords text).map (fun w => (w, (1 : Int)))).map Prod.fst) ↔
      w ∈ Spec.normalizedWords text := by
    rw [List.map_map]
    have : (Prod.fst ∘ fun w : Str => (w, (1 : Int))) = id := rfl
    rw [this, List.map_id]
  by_cases h : w ∈ Spec.normalizedWords text
  · rw [if_pos (hm.mpr h), if_pos h]
    simp [StdMap.find, Spec.occurrences]
  · rw [if_neg (fun h2 => h (hm.mp h2)), if_neg h]
    rfl

theorem wordCountMap_mem (text : Str) (p : Str × Int) (hp : p ∈ wordCountMap text) :
    p.1 ∈ Spec.normalizedWords text ∧ p.2 = (Spec.occurrences p.1 text : Int) := by
  have h := StdMap.find_of_mem _ (wordCountMap_facts text).1 p hp
  rw [wordCountMap_find] at h
  by_cases hm : p.1 ∈ Spec.normalizedWords text
  · rw [if_pos hm] at h
    exact ⟨hm, (Option.some.inj h).symm⟩
  · rw [if_neg hm] at h; cases h

theorem wordCountMap_keys (text : Str) :
    ((wordCountMap text).map Prod.fst).Perm (Spec.distinctNormalized text) := by
  apply (List.perm_ext_iff_of_nodup (StdMap.ordered_nodup _ (wordCountMap_facts text).1)
    (List.nodup_dedup _)).mpr
  intro w
  rw [List.mem_dedup]
  constructor
  · intro hw
    obtain ⟨p, hp, rfl⟩ := List.mem_map.mp hw
    exact (wordCountMap_mem text p hp).1
  · intro hw
    have h := wordCountMap_find text w
    rw [if_pos hw] at h
    exact List.mem_map.mpr ⟨_, StdMap.mem_of_find _ _ _ h, rfl⟩

theorem wordSort_perm (words : List (Str × Int)) :
    (sortByCountDesc words).Perm words :=
  stdSort_perm _ _

theorem wordSort_sorted (words : List (Str × Int)) :
    (sortByCountDesc words).Pairwise (fun a b => b.2 ≤ a.2) :=
  Aggregator.sortByCountDesc_sorted words

/-- With at most 16 words the sort keeps the key order of the map among equal
counts. -/
theorem wordSort_ties (words : List (Str × Int)) (hlen : words.length ≤ 16)
    (hord : StdMap.Ordered words) :
    (sortByCountDesc words).Pairwise
      (fun p q => q.2 < p.2 ∨ (q.2 = p.2 ∧ strLt p.1 q.1 = true)) := by
  unfold sortByCountDesc
  rw [stdSort_short _ _ hlen]
  have h := insertionSort_lex
    (fun a b : Str × Int => decide (b.2 > a.2) = false)
    (fun p q : Str × Int => strLt p.1 q.1 = true)
    (fun a b => by
      simp only [decide_eq_false_iff_not, not_lt, gt_iff_lt]
      exact le_total b.2 a.2)
    (fun a b c h1 h2 => by
      simp only [decide_eq_false_iff_not, not_lt, gt_iff_lt] at h1 h2 ⊢
      exact le_trans h2 h1)
    words hord
  refine List.Pairwise.imp ?_ h
  intro a b hab
  simp only [decide_eq_false_iff_not, not_lt, gt_iff_lt] at hab
  rcases lt_or_eq_of_le hab.1 with h1 | h1
  · exact Or.inl h1
  · exact Or.inr ⟨h1, hab.2 (le_of_eq h1.symm)⟩

end Worker

/-- C13 (amended): for every text and every `K ≥ 0`, `findTopWords` writes out
`min(K, D)` pairs `word:count` joined by ';', `D` being the number of distinct
normalized words; the words are distinct, each count is the number of tokens
that normalize to the word, the pairs are in non-increasing count order, and a
word left out has a count no greater than every returned count. Among equal
counts the order is ascending word key when there are at most 16 distinct
words; with more distinct words the sort does not keep the key order. -/
theorem C13_top_words (text : Str) (K : Int) (hK : 0 ≤ K) :
    Worker.findTopWords K text =
        Cpp.joinWith [';']
          ((Worker.topWordPairs K text).map (fun p => p.1 ++ [':'] ++ Cpp.to_string p.2)) ∧
      (Worker.topWordPairs K text).length = min K.toNat (Spec.distinctNormalized text).length ∧
      ((Worker.topWordPairs K text).map Prod.fst).Nodup ∧
      (∀ p ∈ Worker.topWordPairs K text,
        p.1 ∈ Spec.normalizedWords text ∧ p.2 = (Spec.occurrences p.1 text : Int)) ∧
      (Worker.topWordPairs K text).Pairwise (fun p q => q.2 ≤ p.2) ∧
      (∀ w ∈ Spec.normalizedWords text, w ∉ (Worker.topWordPairs K text).map Prod.fst →
        ∀ p ∈ Worker.topWordPairs K text, (Spec.occurrences w text : Int) ≤ p.2) ∧
      ((Spec.distinctNormalized text).length ≤ 16 →
        (Worker.topWordPairs K text).Pairwise
            (fun p q => q.2 < p.2 ∨ (q.2 = p.2 ∧ Cpp.strLt p.1 q.1 = true)) ∧
          (∀ w ∈ Spec.normalizedWords text, w ∉ (Worker.topWordPairs K text).map Prod.fst →
            ∀ p ∈ Worker.topWordPairs K text,
              (Spec.occurrences w text : Int) < p.2 ∨
                ((Spec.occurrences w text : Int) = p.2 ∧ Cpp.strLt p.1 w = true))) := by
  have hperm := Worker.wordSort_perm (Worker.wordCountMap text)
  have hsorted := Worker.wordSort_sorted (Worker.wordCountMap text)
  have hkeys := Worker.wordCountMap_keys text
  have hlen : (Worker.sortByCountDesc (Worker.wordCountMap text)).length =
      (Spec.distinctNormalized text).length := by
    rw [hperm.length_eq, ← hkeys.length_eq, List.length_map]
  have htake : Worker.topWordPairs K text =
      (Worker.sortByCountDesc (Worker.wordCountMap text)).take
        (min K.toNat (Spec.distinctNormalized text).length) := by
    unfold Worker.topWordPairs
    simp only []
    rw [hlen]
    congr 1
    omega
  have hmem : ∀ w ∈ Spec.normalizedWords text,
      (w, (Spec.occurrences w text : Int)) ∈ Worker.sortByCountDesc (Worker.wordCountMap text) := by
    intro w hw
    have hfind := Worker.wordCountMap_find text w
    rw [if_pos hw] at hfind
    exact hperm.symm.subset (Cpp.StdMap.mem_of_find _ _ _ hfind)
  refine ⟨rfl, ?_, Worker.topWordPairs_nodup K text, ?_, ?_, ?_, ?_⟩
  · rw [htake, List.length_take, hlen]
    omega
  · intro p hp
    exact Worker.wordCountMap_mem text p
      (hperm.subset ((Worker.topWordPairs_sublist K text).subset hp))
  · exact hsorted.sublist (Worker.topWordPairs_sublist K text)
  · intro w hw hout p hp
    have hm := hmem w hw
    rw [htake] at hout hp
    rw [← List.take_append_drop (min K.toNat (Spec.distinctNormalized text).length)
      (Worker.sortByCountDesc (Worker.wordCountMap text))] at hm hsorted
    rcases List.mem_append.mp hm with h1 | h1
    · exact absurd (List.mem_map.mpr ⟨_, h1, rfl⟩) hout
    · exact (List.pairwise_append.mp hsorted).2.2 p hp _ h1
  · intro hD
    have hties := Worker.wordSort_ties (Worker.wordCountMap text)
      (by rw [← hperm.length_eq, hlen]; exact hD) (Worker.wordCountMap_facts text).1
    refine ⟨hties.sublist (Worker.topWordPairs_sublist K text), ?_⟩
    intro w hw hout p hp
    have hm := hmem w hw
    rw [htake] at hout hp
    rw [← List.take_append_drop (min K.toNat (Spec.distinctNormalized text).length)
      (Worker.sortByCountDesc (Worker.wordCountMap text))] at hm hties
    rcases List.mem_append.mp hm with h1 | h1
    · exact absurd (List.mem_map.mpr ⟨_, h1, rfl⟩) hout
    · exact (List.pairwise_append.mp hties).2.2 p hp _ h1

set_option maxRecDepth 100000 in
/-- Witness of C13: the three most frequent of six distinct words; the tie
between "a", "and", "cat" and "dog" is resolved by the key. -/
theorem C13_top_words_witness :
    (0 : Int) ≤ 3 ∧
      Worker.findTopWords 3 "The dog, the cat; THE bird and a dog and a cat.".toList =
        "the:3;a:2;and:2".toList ∧
      (Worker.topWordPairs 3 "The dog, the cat; THE bird and a dog and a cat.".toList).length =
        min (3 : Int).toNat
          (Spec.distinctNormalized "The dog, the cat; THE bird and a dog and a cat.".toList).length :=
  ⟨by decide, by decide,
    (C13_top_words "The dog, the cat; THE bird and a dog and a cat.".toList 3 (by decide)).2.1⟩

set_option maxRecDepth 100000 in
/-- C13 as stated fails: with 17 distinct words that all occur once, the three
pairs written out are not the three smallest keys "a", "b", "c". -/
theorem C13_counterexample :
    Worker.wordCountMap "a b c d e f g h i j k l m n o p q".toList =
        [("a".toList, 1), ("b".toList, 1), ("c".toList, 1), ("d".toList, 1), ("e".toList, 1),
         ("f".toList, 1), ("g".toList, 1), ("h".toList, 1), ("i".toList, 1), ("j".toList, 1),
         ("k".toList, 1), ("l".toList, 1), ("m".toList, 1), ("n".toList, 1), ("o".toList, 1),
         ("p".toList, 1), ("q".toList, 1)] ∧
      Worker.findTopWords 3 "a b c d e f g h i j k l m n o p q".toList = "i:1;q:1;p:1".toList ∧
      Worker.findTopWords 3 "a b c d e f g h i j k l m n o p q".toList ≠ "a:1;b:1;c:1".toList := by
  decide

namespace Worker

open Cpp

theorem rankedSentences_sorted (text : Str) :
    (rankedSentences text).Pairwise (fun a b => b.length ≤ a.length) := by
  have h := stdSort_sorted (fun a b : Str => decide (a.length > b.length))
    (fun a b => by
      simp only [decide_eq_false_iff_not, not_lt, gt_iff_lt]
      exact le_total b.length a.length)
    (fun a b c h1 h2 => by
      simp only [decide_eq_false_iff_not, not_lt, gt_iff_lt] at h1 h2 ⊢
      exact le_trans h2 h1)
    (extractSentences text)
  refine List.Pairwise.imp ?_ h
  intro a b hab
  simpa using hab

/-- With at most 16 sentences the sort keeps the sentences of one length in the
order of the text. -/
theorem rankedSentences_stable (text : Str) (h : (extractSentences text).length ≤ 16) (n : Nat) :
    (rankedSentences text).filter (fun s => decide (s.length = n)) =
      (extractSentences text).filter (fun s => decide (s.length = n)) := by
  unfold rankedSentences sortByLengthDesc
  rw [stdSort_short _ _ h]
  apply insertionSort_filter
  intro a b ha hb
  simp only [decide_eq_true_eq] at ha hb
  simp only [decide_eq_false_iff_not, not_lt, gt_iff_lt]
  omega

end Worker

/-- C19 (amended): the output of `sortSentencesByLength` is the sentences
extracted from the text, joined by '~', in a permuted order in which the
lengths do not increase. Sentences of equal length keep the order of the text
when at most 16 sentences are extracted; with more sentences the sort does not
keep that order. -/
theorem C19_ranking_order (text : Str) :
    Worker.sortSentencesByLength text = Cpp.joinWith ['~'] (Worker.rankedSentences text) ∧
      (Worker.rankedSentences text).Perm (Worker.extractSentences text) ∧
      (Worker.rankedSentences text).Pairwise (fun a b => b.length ≤ a.length) ∧
      ((Worker.extractSentences text).length ≤ 16 →
        ∀ n : Nat, (Worker.rankedSentences text).filter (fun s => decide (s.length = n)) =
          (Worker.extractSentences text).filter (fun s => decide (s.length = n))) ∧
      Worker.sortSentencesByLength "Hi. How are you? I am fine! Ok.".toList =
        "How are you?~I am fine!~Hi.~Ok.".toList :=
  ⟨rfl, Worker.rankedSentences_perm text, Worker.rankedSentences_sorted text,
    fun h n => Worker.rankedSentences_stable text h n, by decide⟩

set_option maxRecDepth 100000 in
/-- C19 as stated fails: 17 sentences of one length do not come out in the
order of the text. -/
theorem C19_counterexample :
    Worker.extractSentences "a. b. c. d. e. f. g. h. i. j. k. l. m. n. o. p. q.".toList =
        ["a.".toList, "b.".toList, "c.".toList, "d.".toList, "e.".toList, "f.".toList,
         "g.".toList, "h.".toList, "i.".toList, "j.".toList, "k.".toList, "l.".toList,
         "m.".toList, "n.".toList, "o.".toList, "p.".toList, "q.".toList] ∧
      Worker.sortSentencesByLength "a. b. c. d. e. f. g. h. i. j. k. l. m. n. o. p. q.".toList =
        "i.~q.~p.~o.~n.~m.~l.~k.~j.~a.~h.~g.~f.~e.~d.~c.~b.".toList := by
  decide

namespace Cpp

/-- Two maps in key order with the same look-ups are equal. -/
theorem StdMap.ext_of_ordered {V : Type} :
    ∀ (m1 m2 : StdMap V), StdMap.Ordered m1 → StdMap.Ordered m2 →
      (∀ w, StdMap.find w m1 = StdMap.find w m2) → m1 = m2 := by
  have hmin : ∀ (k : Str) (v : V) (rest : StdMap V), StdMap.Ordered ((k, v) :: rest) →
      ∀ w, strLt w k = true → StdMap.find w ((k, v) :: rest) = none := by
    intro k v rest h w hw
    rw [StdMap.find_eq_none]
    intro hmem
    rcases List.mem_map.mp hmem with ⟨p, hp, rfl⟩
    rcases List.mem_cons.mp hp with e | e
    · rw [e, strLt_irrefl] at hw; cases hw
    · have h1 := (List.pairwise_cons.mp h).1 p e
      have h2 := strLt_trans _ _ _ hw h1
      rw [strLt_irrefl] at h2; cases h2
  have hself : ∀ (k : Str) (v : V) (rest : StdMap V),
      StdMap.find k ((k, v) :: rest) = some v := by
    intro k v rest
    simp [StdMap.find]
  have hrest : ∀ (k : Str) (v : V) (rest : StdMap V), StdMap.Ordered ((k, v) :: rest) →
      ∀ w, StdMap.find w rest = if w = k then none else StdMap.find w ((k, v) :: rest) := by
    intro k v rest h w
    by_cases hw : w = k
    · rw [if_pos hw, StdMap.find_eq_none, hw]
      intro hmem
      rcases List.mem_map.mp hmem with ⟨p, hp, e⟩
      have h1 := (List.pairwise_cons.mp h).1 p hp
      rw [e, strLt_irrefl] at h1; cases h1
    · rw [if_neg hw]
      simp [StdMap.find, hw]
  intro m1
  induction m1 with
  | nil =>
    intro m2 _ _ hfind
    cases m2 with
    | nil => rfl
    | cons kv rest =>
      have := hfind kv.1
      rw [hself kv.1 kv.2 rest] at this
      cases this
  | cons kv r1 ih =>
    obtain ⟨k, v⟩ := kv
    intro m2 h1 h2 hfind
    cases m2 with
    | nil =>
      have := hfind k
      rw [hself k v r1] at this
      cases this
    | cons kv2 r2 =>
      obtain ⟨k2, v2⟩ := kv2
      have hk : k = k2 := by
        by_contra hne
        cases hlt : strLt k k2 with
        | true =>
          have := hfind k
          rw [hself, hmin k2 v2 r2 h2 k hlt] at this
          cases this
        | false =>
          have hlt2 := strLt_total k k2 hlt hne
          have := hfind k2
          rw [hself, hmin k v r1 h1 k2 hlt2] at this
          cases this
      subst hk
      have hv : v = v2 := by
        have := hfind k
        rw [hself, hself] at this
        exact Option.some.inj this
      subst hv
      have hr : r1 = r2 := by
        apply ih r2 (List.pairwise_cons.mp h1).2 (List.pairwise_cons.mp h2).2
        intro w
        rw [hrest k v r1 h1 w, hrest k v r2 h2 w, hfind w]
      rw [hr]

theorem StdMap.modify_new_perm {V : Type} (k : Str) (dflt : V) (f : V → V) (m : StdMap V)
    (h : k ∉ m.map Prod.fst) : (StdMap.modify k dflt f m).Perm ((k, f dflt) :: m) := by
  induction m with
  | nil => simp [StdMap.modify]
  | cons kv rest ih =>
    obtain ⟨k1, v⟩ := kv
    have hne : k ≠ k1 := fun e => h (by
      rw [List.map_cons, e]; exact List.mem_cons_self _ _)
    have hrest : k ∉ rest.map Prod.fst := fun e => h (by
      rw [List.map_cons]; exact List.mem_cons_of_mem _ e)
    simp only [StdMap.modify, if_neg hne]
    split
    · exact List.Perm.refl _
    · exact ((ih hrest).cons (k1, v)).trans (List.Perm.swap _ _ _)

end Cpp

namespace Spec

open Cpp

theorem sortedKeys_perm (ws : List Str) : (sortedKeys ws).Perm ws.dedup :=
  List.perm_insertionSort _ _

theorem sortedKeys_mem (ws : List Str) (w : Str) : w ∈ sortedKeys ws ↔ w ∈ ws := by
  rw [(sortedKeys_perm ws).mem_iff, List.mem_dedup]

theorem sortedKeys_sorted (ws : List Str) :
    (sortedKeys ws).Pairwise (fun a b => strLt a b = true) := by
  haveI : IsTotal Str (fun a b => strLt a b = true ∨ a = b) := ⟨fun a b => by
    by_cases e : a = b
    · exact Or.inl (Or.inr e)
    · cases h : strLt a b with
      | true => exact Or.inl (Or.inl rfl)
      | false => exact Or.inr (Or.inl (strLt_total a b h e))⟩
  haveI : IsTrans Str (fun a b => strLt a b = true ∨ a = b) := ⟨fun a b c h1 h2 => by
    rcases h1 with h1 | h1
    · rcases h2 with h2 | h2
      · exact Or.inl (strLt_trans a b c h1 h2)
      · rw [← h2]; exact Or.inl h1
    · rw [h1]; exact h2⟩
  have hs : (sortedKeys ws).Pairwise (fun a b => strLt a b = true ∨ a = b) :=
    List.sorted_insertionSort (fun a b : Str => strLt a b = true ∨ a = b) ws.dedup
  have hn : (sortedKeys ws).Nodup := ((sortedKeys_perm ws).nodup_iff).mpr (List.nodup_dedup ws)
  exact (hs.and hn).imp (fun h => h.1.resolve_right h.2)

theorem mergeFrequencies_ordered (sections : List (List (Str × Int))) :
    StdMap.Ordered (mergeFrequencies sections) := by
  unfold mergeFrequencies StdMap.Ordered
  rw [List.pairwise_map]
  exact sortedKeys_sorted _

theorem find_map_keys (f : Str → Int) (w : Str) (keys : List Str) :
    StdMap.find w (keys.map (fun k => (k, f k))) = if w ∈ keys then some (f w) else none := by
  induction keys with
  | nil => rfl
  | cons k keys ih =>
    rw [List.map_cons, StdMap.find]
    by_cases h : w = k
    · rw [if_pos h, if_pos (by rw [h]; exact List.mem_cons_self _ _), h]
    · rw [if_neg h, ih]
      by_cases hm : w ∈ keys
      · rw [if_pos hm, if_pos (List.mem_cons_of_mem _ hm)]
      · rw [if_neg hm, if_neg (fun e => by
          rcases List.mem_cons.mp e with e1 | e1
          · exact h e1
          · exact hm e1)]

theorem mergeFrequencies_find (sections : List (List (Str × Int))) (w : Str) :
    StdMap.find w (mergeFrequencies sections) =
      if w ∈ sections.flatten.map Prod.fst then some (countIn w sections.flatten) else none := by
  unfold mergeFrequencies
  rw [find_map_keys]
  by_cases h : w ∈ sections.flatten.map Prod.fst
  · rw [if_pos h, if_pos ((sortedKeys_mem _ w).mpr h)]
  · rw [if_neg h, if_neg (fun e => h ((sortedKeys_mem _ w).mp e))]

theorem countIn_eq_zero (w : Str) (pairs : List (Str × Int)) (h : w ∉ pairs.map Prod.fst) :
    countIn w pairs = 0 := by
  unfold countIn
  have : pairs.filter (fun p => decide (p.1 = w)) = [] := by
    rw [List.filter_eq_nil_iff]
    intro p hp hpw
    exact h (List.mem_map.mpr ⟨p, hp, by simpa using hpw⟩)
  rw [this]; rfl

theorem countIn_of_ordered (w : Str) (m : StdMap Int) (h : StdMap.Ordered m) :
    countIn w m = (StdMap.find w m).getD 0 := by
  induction m with
  | nil => rfl
  | cons kv rest ih =>
    obtain ⟨k, v⟩ := kv
    have hrest := (List.pairwise_cons.mp h).2
    have e : countIn w ((k, v) :: rest) = countIn w [(k, v)] + countIn w rest :=
      Aggregator.countIn_append w [(k, v)] rest
    rw [e, StdMap.find]
    by_cases hw : w = k
    · subst hw
      have hnot : w ∉ rest.map Prod.fst := by
        intro hmem
        rcases List.mem_map.mp hmem with ⟨p, hp, e2⟩
        have h1 := (List.pairwise_cons.mp h).1 p hp
        rw [e2, strLt_irrefl] at h1; cases h1
      rw [countIn_eq_zero w rest hnot, if_pos rfl]
      simp [countIn]
    · rw [if_neg hw, ← ih hrest]
      have : countIn w [(k, v)] = 0 :=
        countIn_eq_zero w _ (by simpa using hw)
      rw [this, zero_add]

/-- Merging the merged frequencies of two groups of sections gives the merge of
all the sections. -/
theorem mergeFrequencies_assoc (A B : List (List (Str × Int))) :
    mergeFrequencies [mergeFrequencies A, mergeFrequencies B] = mergeFrequencies (A ++ B) := by
  apply StdMap.ext_of_ordered _ _ (mergeFrequencies_ordered _) (mergeFrequencies_ordered _)
  intro w
  rw [mergeFrequencies_find, mergeFrequencies_find]
  have hflat : [mergeFrequencies A, mergeFrequencies B].flatten =
      mergeFrequencies A ++ mergeFrequencies B := by simp
  have hkeys : ∀ S : List (List (Str × Int)),
      w ∈ (mergeFrequencies S).map Prod.fst ↔ w ∈ S.flatten.map Prod.fst := by
    intro S
    rw [← not_iff_not, ← StdMap.find_eq_none, mergeFrequencies_find]
    by_cases h : w ∈ S.flatten.map Prod.fst
    · rw [if_pos h]
      exact ⟨fun e => Option.noConfusion e, fun e => absurd h e⟩
    · rw [if_neg h]
      exact ⟨fun _ => h, fun _ => rfl⟩
  have hcount : ∀ S : List (List (Str × Int)),
      countIn w (mergeFrequencies S) = countIn w S.flatten := by
    intro S
    rw [countIn_of_ordered w _ (mergeFrequencies_ordered S), mergeFrequencies_find]
    by_cases h : w ∈ S.flatten.map Prod.fst
    · rw [if_pos h]; rfl
    · rw [if_neg h, countIn_eq_zero w _ h]; rfl
  rw [hflat, List.flatten_append, Aggregator.countIn_append, Aggregator.countIn_append,
    hcount A, hcount B]
  simp only [List.map_append, List.mem_append, hkeys A, hkeys B]

end Spec

namespace Aggregator

open Cpp

theorem storeResult_fields (a : Aggregator) (l : Locals) :
    (storeResult a l).results = StdMap.modify l.section_id {} (fun _ => l.result) a.results ∧
      (storeResult a l).top_word_count = a.top_word_count := by
  unfold storeResult
  simp only []
  split <;> exact ⟨rfl, rfl⟩

/-- Results with fresh, pairwise different section ids are all kept by the
store, in key order. -/
theorem store_perm (arrived : List (Str × SectionResult)) :
    ∀ m : StdMap SectionResult, StdMap.Ordered m →
      (∀ r ∈ arrived, r.1 ∉ m.map Prod.fst) → (arrived.map Prod.fst).Nodup →
      StdMap.Ordered (arrived.foldl (fun m r => StdMap.modify r.1 {} (fun _ => r.2) m) m) ∧
        (arrived.foldl (fun m r => StdMap.modify r.1 {} (fun _ => r.2) m) m).Perm
          (m ++ arrived) := by
  induction arrived with
  | nil =>
    intro m hm _ _
    rw [List.append_nil]
    exact ⟨hm, List.Perm.refl _⟩
  | cons r rest ih =>
    intro m hm hfresh hnodup
    rw [List.foldl_cons]
    have hr : r.1 ∉ m.map Prod.fst := hfresh r (List.mem_cons_self _ _)
    have hp := StdMap.modify_new_perm r.1 ({} : SectionResult) (fun _ => r.2) m hr
    have hnd := List.nodup_cons.mp (by rw [List.map_cons] at hnodup; exact hnodup)
    have hfresh2 : ∀ q ∈ rest,
        q.1 ∉ (StdMap.modify r.1 ({} : SectionResult) (fun _ => r.2) m).map Prod.fst := by
      intro q hq hmem
      have hmem2 := ((hp.map Prod.fst).mem_iff).mp hmem
      rw [List.map_cons] at hmem2
      rcases List.mem_cons.mp hmem2 with e | e
      · exact hnd.1 (by rw [← e]; exact List.mem_map.mpr ⟨q, hq, rfl⟩)
      · exact hfresh q (List.mem_cons_of_mem _ hq) e
    obtain ⟨h1, h2⟩ := ih _ (StdMap.modify_ordered _ _ _ m hm) hfresh2 hnd.2
    refine ⟨h1, h2.trans ?_⟩
    have e : (r.1, (fun _ : SectionResult => r.2) ({} : SectionResult)) = r := rfl
    rw [e] at hp
    exact (hp.append_right rest).trans List.perm_middle.symm

/-- The map `global_freq` is the direct merge of the word frequencies of the
stored results, whatever the order of the results. -/
theorem globalFreq_eq_merge (results R : List (Str × SectionResult)) (h : results.Perm R) :
    globalFreq results = Spec.mergeFrequencies (R.map (fun r => r.2.word_frequencies)) := by
  apply StdMap.ext_of_ordered _ _ (globalFreq_ordered results) (Spec.mergeFrequencies_ordered _)
  intro w
  rw [globalFreq_find, Spec.mergeFrequencies_find]
  have hflat : (R.map (fun r => r.2.word_frequencies)).flatten =
      R.flatMap (fun r => r.2.word_frequencies) := rfl
  have hmem : w ∈ Spec.distinctWords results ↔
      w ∈ ((R.map (fun r => r.2.word_frequencies)).flatten).map Prod.fst := by
    unfold Spec.distinctWords
    rw [List.mem_dedup, hflat, List.mem_flatMap, List.mem_map]
    constructor
    · rintro ⟨r, hr, hw⟩
      obtain ⟨p, hp, e⟩ := List.mem_map.mp hw
      exact ⟨p, List.mem_flatMap.mpr ⟨r, h.subset hr, hp⟩, e⟩
    · rintro ⟨p, hp, e⟩
      obtain ⟨r, hr, hp2⟩ := List.mem_flatMap.mp hp
      exact ⟨r, h.symm.subset hr, List.mem_map.mpr ⟨p, hp2, e⟩⟩
  have hsum : Spec.summedCount results w =
      Spec.countIn w (R.map (fun r => r.2.word_frequencies)).flatten := by
    rw [hflat, countIn_flatMap]
    unfold Spec.summedCount
    exact (h.map _).sum_eq
  by_cases hw : w ∈ Spec.distinctWords results
  · rw [if_pos hw, if_pos (hmem.mp hw), hsum]
  · rw [if_neg hw, if_neg (fun e => hw (hmem.mpr e))]

end Aggregator

namespace Worker

open Cpp

theorem roundHalfEven_bounds (num den : Nat) (hden : 0 < den) :
    2 * (den * roundHalfEven num den) ≤ 2 * num + den ∧
      2 * num ≤ 2 * (den * roundHalfEven num den) + den := by
  unfold roundHalfEven
  have h1 := Nat.div_add_mod num den
  have h2 := Nat.mod_lt num hden
  have h3 : den * (num / den + 1) = den * (num / den) + den := by ring
  simp only []
  split
  · omega
  · split
    · rw [h3]; omega
    · split
      · omega
      · rw [h3]; omega

theorem roundHalfEven_le (num den E : Nat) (hden : 0 < den) (h : num ≤ den * E) :
    roundHalfEven num den ≤ E := by
  have hb := (roundHalfEven_bounds num den hden).1
  by_contra hc
  have hc2 : E + 1 ≤ roundHalfEven num den := by omega
  have h4 : den * (E + 1) ≤ den * roundHalfEven num den := Nat.mul_le_mul_left den hc2
  have h5 : den * (E + 1) = den * E + den := by ring
  omega

theorem normShift_spec (a t : Nat) :
    ∀ (fuel k0 : Nat), t ≤ a * 2 ^ (k0 + fuel) → t ≤ a * 2 ^ normShift fuel a t k0 := by
  intro fuel
  induction fuel with
  | zero => intro k0 h; exact h
  | succ fuel ih =>
    intro k0 h
    rw [normShift]
    split
    · assumption
    · apply ih
      have : k0 + 1 + fuel = k0 + (fuel + 1) := by omega
      rw [this]; exact h

theorem normShift_reaches (a t : Nat) (ha : 0 < a) : t ≤ a * 2 ^ normShift t a t 0 := by
  apply normShift_spec
  rw [Nat.zero_add]
  have h1 : t < 2 ^ t := Nat.lt_two_pow t
  have h2 : 2 ^ t ≤ a * 2 ^ t := Nat.le_mul_of_pos_left _ ha
  omega

/-- The comparison of the rounded quotient with the binary64 literal `0.1`
decides whether `A / t > 1/10`. -/
theorem tenth_core (A t : Nat) (hA : 0 < A) (htpos : 0 < t) (ht : t ≤ 2147483647) :
    3602879701896397 * 2 ^ (52 + normShift t A t 0) <
        roundHalfEven (A * 2 ^ (52 + normShift t A t 0)) t * 2 ^ 55 ↔ t < 10 * A := by
  have hreach := normShift_reaches A t hA
  generalize hk : normShift t A t 0 = k at hreach
  obtain ⟨hb1, hb2⟩ := roundHalfEven_bounds (A * 2 ^ (52 + k)) t htpos
  generalize hm : roundHalfEven (A * 2 ^ (52 + k)) t = m at hb1 hb2
  have hE52 : 2 ^ 52 ≤ 2 ^ (52 + k) := Nat.pow_le_pow_right (by norm_num) (by omega)
  generalize hE : 2 ^ (52 + k) = E at hb1 hb2 hE52
  have hQ : (2 : Nat) ^ 55 = 36028797018963968 := by norm_num
  have h52 : (2 : Nat) ^ 52 = 4503599627370496 := by norm_num
  rw [hQ]
  rw [h52] at hE52
  constructor
  · intro hlt
    by_contra hge
    have h10 : 10 * A ≤ t := by omega
    have hk4 : 4 ≤ k := by
      by_contra hk3
      have : 2 ^ k ≤ 2 ^ 3 := Nat.pow_le_pow_right (by norm_num) (by omega)
      have h8 : A * 2 ^ k ≤ A * 2 ^ 3 := Nat.mul_le_mul_left A this
      omega
    have hAE : 10 * A * E ≤ t * E := Nat.mul_le_mul_right E h10
    have e1 : 2 * t * (10 * m) = 20 * (t * m) := by ring
    have e2 : 2 * t * (E + 5) = 2 * (t * E) + 10 * t := by ring
    have e3 : 10 * A * E = 10 * (A * E) := by ring
    have h10m : 10 * m ≤ E + 5 := by
      apply Nat.le_of_mul_le_mul_left _ (by omega : 0 < 2 * t)
      rw [e1, e2]
      omega
    have hE56 : 2 ^ 56 ≤ 2 ^ (52 + k) := Nat.pow_le_pow_right (by norm_num) (by omega)
    rw [hE] at hE56
    have h56 : (2 : Nat) ^ 56 = 72057594037927936 := by norm_num
    rw [h56] at hE56
    by_cases hk5 : k = 4
    · subst hk5
      have : E = 72057594037927936 := by rw [← hE]; norm_num
      omega
    · have hE57 : 2 ^ 57 ≤ 2 ^ (52 + k) := Nat.pow_le_pow_right (by norm_num) (by omega)
      rw [hE] at hE57
      have h57 : (2 : Nat) ^ 57 = 144115188075855872 := by norm_num
      rw [h57] at hE57
      omega
  · intro hlt
    by_contra hc
    have hc2 : m * 36028797018963968 ≤ 3602879701896397 * E := by omega
    have h1 : (t + 1) * E ≤ 10 * A * E := Nat.mul_le_mul_right E (by omega)
    have e1 : (t + 1) * E = t * E + E := by ring
    have e2 : 10 * A * E = 10 * (A * E) := by ring
    have h3 : 2 * t * (m * 36028797018963968) ≤ 2 * t * (3602879701896397 * E) :=
      Nat.mul_le_mul_left _ hc2
    have e3 : 2 * t * (m * 36028797018963968) = 72057594037927936 * (t * m) := by ring
    have e4 : 2 * t * (3602879701896397 * E) = 7205759403792794 * (t * E) := by ring
    have h4 : t * E ≤ 2147483647 * E := Nat.mul_le_mul_right E ht
    rw [e1, e2] at h1
    rw [e3, e4] at h3
    omega

end Worker

namespace Worker

open Cpp

/-- The label of the rounded quotient `a / t` follows the exact rule on `a` and
`t`, as long as `t` is in the range of `int`. -/
theorem sentimentLabel_divDouble (a : Int) (t : Nat) (htpos : 0 < t) (ht : t ≤ 2147483647) :
    sentimentLabel (divDouble a t) =
      if (t : Int) < 10 * a then "positive".toList
      else if 10 * a < -(t : Int) then "negative".toList
      else "neutral".toList := by
  by_cases h0 : a = 0
  · subst h0
    have h1 : ¬ ((t : Int) < 10 * 0) := by omega
    have h2 : ¬ (10 * (0 : Int) < -(t : Int)) := by omega
    rw [if_neg h1, if_neg h2]
    unfold sentimentLabel gtTenth ltMinusTenth divDouble
    simp
  · have hA : 0 < a.natAbs := Int.natAbs_pos.mpr h0
    have hcore := tenth_core a.natAbs t hA htpos ht
    unfold sentimentLabel gtTenth ltMinusTenth divDouble
    rw [if_neg h0]
    simp only []
    by_cases hneg : a < 0
    · have h1 : ¬ ((t : Int) < 10 * a) := by omega
      have h2 : (10 * a < -(t : Int)) ↔ t < 10 * a.natAbs := by omega
      rw [if_neg h1]
      simp only [hneg, decide_True, Bool.not_true, Bool.false_and, Bool.false_eq_true,
        if_false, Bool.true_and, decide_eq_true_eq, hcore, h2]
    · have h2 : ¬ (10 * a < -(t : Int)) := by omega
      have h1 : ((t : Int) < 10 * a) ↔ t < 10 * a.natAbs := by omega
      rw [if_neg h2]
      simp only [hneg, decide_False, Bool.not_false, Bool.true_and, Bool.false_and,
        Bool.false_eq_true, if_false, decide_eq_true_eq, hcore, h1]

theorem lexicons_disjoint (w : Str) (h : positive_words.contains w = true) :
    negative_words.contains w = false := by
  have hall : ∀ v ∈ positive_words, negative_words.contains v = false := by decide
  exact hall w (List.mem_of_elem_eq_true h)

theorem sentiment_foldl (ws : List Str) :
    ∀ (p n t : Int),
      ws.foldl
        (fun (acc : Int × Int × Int) w =>
          if positive_words.contains w then (acc.1 + 1, acc.2.1, acc.2.2 + 1)
          else if negative_words.contains w then (acc.1, acc.2.1 + 1, acc.2.2 + 1)
          else (acc.1, acc.2.1, acc.2.2 + 1))
        (p, n, t) =
      (p + (ws.countP (fun w => positive_words.contains w) : Int),
       n + (ws.countP (fun w => negative_words.contains w) : Int),
       t + (ws.length : Int)) := by
  induction ws with
  | nil => intro p n t; simp
  | cons w ws ih =>
    intro p n t
    rw [List.foldl_cons, List.countP_cons, List.countP_cons, List.length_cons]
    by_cases hp : positive_words.contains w = true
    · have hn := lexicons_disjoint w hp
      simp only [hp, if_true, hn, Bool.false_eq_true, if_false, ih]
      push_cast
      refine Prod.ext ?_ (Prod.ext ?_ ?_) <;> simp only [] <;> ring
    · by_cases hn : negative_words.contains w = true
      · simp only [hp, if_false, hn, if_true, ih]
        push_cast
        refine Prod.ext ?_ (Prod.ext ?_ ?_) <;> simp only [] <;> ring
      · simp only [hp, if_false, hn, ih]
        push_cast
        refine Prod.ext ?_ (Prod.ext ?_ ?_) <;> simp only [] <;> ring

/-- The counters of `analyzeSentiment` are `P`, `N` and `T`. -/
theorem sentimentCounts_eq (text : Str) :
    sentimentCounts text =
      ((Spec.positiveCount text : Int), (Spec.negativeCount text : Int),
       (Spec.totalCount text : Int)) := by
  unfold sentimentCounts
  rw [extractWords_eq_tokens]
  have h := foldl_filter_map normalizeWord
    (fun w (acc : Int × Int × Int) =>
      if positive_words.contains w then (acc.1 + 1, acc.2.1, acc.2.2 + 1)
      else if negative_words.contains w then (acc.1, acc.2.1 + 1, acc.2.2 + 1)
      else (acc.1, acc.2.1, acc.2.2 + 1))
    (Spec.tokens text) (0, 0, 0)
  have h2 := sentiment_foldl (Spec.normalizedWords text) 0 0 0
  simp only [zero_add] at h2
  exact (h.trans rfl).trans h2

theorem counts_le (text : Str) :
    Spec.positiveCount text + Spec.negativeCount text ≤ Spec.totalCount text := by
  unfold Spec.positiveCount Spec.negativeCount Spec.totalCount
  induction Spec.normalizedWords text with
  | nil => simp
  | cons w ws ih =>
    rw [List.countP_cons, List.countP_cons, List.length_cons]
    by_cases hp : positive_words.contains w = true
    · have hn := lexicons_disjoint w hp
      simp only [hp, if_true, hn, Bool.false_eq_true, if_false]
      omega
    · by_cases hn : negative_words.contains w = true
      · simp only [hp, Bool.false_eq_true, if_false, hn, if_true]
        omega
      · simp only [hp, Bool.false_eq_true, if_false, hn]
        omega

/-- The binary64 quotient is within `2^-53` of the exact quotient and lies in
`[-1, 1]` when `|a| ≤ t`. -/
theorem divDouble_value (a : Int) (t : Nat) (htpos : 0 < t) (hat : a.natAbs ≤ t) :
    |(divDouble a t).toRat - (a : ℚ) / (t : ℚ)| ≤ 1 / 2 ^ 53 ∧
      -1 ≤ (divDouble a t).toRat ∧ (divDouble a t).toRat ≤ 1 := by
  by_cases h0 : a = 0
  · subst h0
    have : (divDouble 0 t).toRat = 0 := by
      simp [divDouble, Binary64.toRat]
    rw [this]
    norm_num
  · have hA : 0 < a.natAbs := Int.natAbs_pos.mpr h0
    have hreach := normShift_reaches a.natAbs t hA
    generalize hk : normShift t a.natAbs t 0 = k at hreach
    obtain ⟨hb1, hb2⟩ := roundHalfEven_bounds (a.natAbs * 2 ^ (52 + k)) t htpos
    have hle := roundHalfEven_le (a.natAbs * 2 ^ (52 + k)) t (2 ^ (52 + k)) htpos
      (Nat.mul_le_mul_right _ hat)
    generalize hm : roundHalfEven (a.natAbs * 2 ^ (52 + k)) t = m at hb1 hb2 hle
    have hval : (divDouble a t).toRat =
        (if a < 0 then -1 else 1) * (m : ℚ) / (2 : ℚ) ^ (52 + k) := by
      unfold divDouble Binary64.toRat
      rw [if_neg h0]
      simp only [hk, hm, decide_eq_true_eq]
    have hE : (0 : ℚ) < (2 : ℚ) ^ (52 + k) := by positivity
    have hT : (0 : ℚ) < (t : ℚ) := by exact_mod_cast htpos
    have hE53 : (2 : ℚ) ^ 53 ≤ 2 * (2 : ℚ) ^ (52 + k) := by
      have : (2 : ℚ) ^ 52 ≤ (2 : ℚ) ^ (52 + k) :=
        pow_le_pow_right₀ (by norm_num) (by omega)
      have e : (2 : ℚ) ^ 53 = 2 * (2 : ℚ) ^ 52 := by norm_num
      rw [e]; linarith
    have hb1q : 2 * ((t : ℚ) * m) ≤ 2 * ((a.natAbs : ℚ) * (2 : ℚ) ^ (52 + k)) + t := by
      exact_mod_cast hb1
    have hb2q : 2 * ((a.natAbs : ℚ) * (2 : ℚ) ^ (52 + k)) ≤ 2 * ((t : ℚ) * m) + t := by
      exact_mod_cast hb2
    have hleq : (m : ℚ) ≤ (2 : ℚ) ^ (52 + k) := by exact_mod_cast hle
    have hm0 : (0 : ℚ) ≤ (m : ℚ) := Nat.cast_nonneg m
    have habs : |(m : ℚ) / (2 : ℚ) ^ (52 + k) - (a.natAbs : ℚ) / (t : ℚ)| ≤ 1 / 2 ^ 53 := by
      rw [div_sub_div _ _ (ne_of_gt hE) (ne_of_gt hT), abs_le]
      constructor
      · rw [neg_le, ← neg_div, div_le_div_iff₀ (by positivity) (by positivity)]
        nlinarith
      · rw [div_le_div_iff₀ (by positivity) (by positivity)]
        nlinarith
    have hunit : (m : ℚ) / (2 : ℚ) ^ (52 + k) ≤ 1 := (div_le_one hE).mpr hleq
    have hnn : (0 : ℚ) ≤ (m : ℚ) / (2 : ℚ) ^ (52 + k) := div_nonneg hm0 (le_of_lt hE)
    rw [hval]
    by_cases hneg : a < 0
    · have ha : (a : ℚ) = -(a.natAbs : ℚ) := by
        have hi : a = -(a.natAbs : Int) := by omega
        exact (congrArg Int.cast hi).trans (by rw [Int.cast_neg, Int.cast_natCast])
      rw [if_pos hneg, ha]
      have e : -1 * (m : ℚ) / (2 : ℚ) ^ (52 + k) - -(a.natAbs : ℚ) / (t : ℚ) =
          -((m : ℚ) / (2 : ℚ) ^ (52 + k) - (a.natAbs : ℚ) / (t : ℚ)) := by ring
      have e2 : -1 * (m : ℚ) / (2 : ℚ) ^ (52 + k) = -((m : ℚ) / (2 : ℚ) ^ (52 + k)) := by ring
      rw [e, abs_neg, e2]
      exact ⟨habs, by linarith, by linarith⟩
    · have ha : (a : ℚ) = (a.natAbs : ℚ) := by
        have hi : a = (a.natAbs : Int) := by omega
        exact (congrArg Int.cast hi).trans (Int.cast_natCast _)
      rw [if_neg hneg, ha, one_mul]
      exact ⟨habs, by linarith, hunit⟩

end Worker

namespace Spec

theorem ruleLabel_positive (P N T : Nat) :
    ruleLabel P N T = "positive".toList ↔ (T : Int) < 10 * ((P : Int) - N) := by
  unfold ruleLabel
  by_cases h1 : (T : Int) < 10 * ((P : Int) - N)
  · rw [if_pos h1]; exact ⟨fun _ => h1, fun _ => rfl⟩
  · rw [if_neg h1]
    by_cases h2 : 10 * ((P : Int) - N) < -(T : Int)
    · rw [if_pos h2]; exact ⟨fun e => absurd e (by decide), fun e => absurd e h1⟩
    · rw [if_neg h2]; exact ⟨fun e => absurd e (by decide), fun e => absurd e h1⟩

theorem ruleLabel_negative (P N T : Nat) :
    ruleLabel P N T = "negative".toList ↔ 10 * ((P : Int) - N) < -(T : Int) := by
  unfold ruleLabel
  by_cases h1 : (T : Int) < 10 * ((P : Int) - N)
  · rw [if_pos h1]
    exact ⟨fun e => absurd e (by decide), fun e => by omega⟩
  · rw [if_neg h1]
    by_cases h2 : 10 * ((P : Int) - N) < -(T : Int)
    · rw [if_pos h2]; exact ⟨fun _ => h2, fun _ => rfl⟩
    · rw [if_neg h2]; exact ⟨fun e => absurd e (by decide), fun e => absurd e h2⟩

theorem ruleLabel_neutral (P N T : Nat) :
    ruleLabel P N T = "neutral".toList ↔
      ¬ ((T : Int) < 10 * ((P : Int) - N)) ∧ ¬ (10 * ((P : Int) - N) < -(T : Int)) := by
  unfold ruleLabel
  by_cases h1 : (T : Int) < 10 * ((P : Int) - N)
  · rw [if_pos h1]
    exact ⟨fun e => absurd e (by decide), fun e => absurd h1 e.1⟩
  · rw [if_neg h1]
    by_cases h2 : 10 * ((P : Int) - N) < -(T : Int)
    · rw [if_pos h2]; exact ⟨fun e => absurd e (by decide), fun e => absurd h2 e.2⟩
    · rw [if_neg h2]; exact ⟨fun _ => ⟨h1, h2⟩, fun _ => rfl⟩

theorem tenth_lt_iff (P N T : Nat) (hT : 0 < T) :
    (1 : ℚ) / 10 < ((P : ℚ) - N) / T ↔ (T : Int) < 10 * ((P : Int) - N) := by
  have hTq : (0 : ℚ) < (T : ℚ) := by exact_mod_cast hT
  rw [div_lt_div_iff₀ (by norm_num) hTq]
  constructor
  · intro h
    have h2 : ((T : Int) : ℚ) < ((10 * ((P : Int) - N) : Int) : ℚ) := by
      push_cast; linarith
    exact_mod_cast h2
  · intro h
    have h2 : ((T : Int) : ℚ) < ((10 * ((P : Int) - N) : Int) : ℚ) := by exact_mod_cast h
    push_cast at h2
    linarith

theorem lt_minus_tenth_iff (P N T : Nat) (hT : 0 < T) :
    ((P : ℚ) - N) / T < -(1 / 10) ↔ 10 * ((P : Int) - N) < -(T : Int) := by
  have hTq : (0 : ℚ) < (T : ℚ) := by exact_mod_cast hT
  rw [div_lt_iff₀ hTq]
  constructor
  · intro h
    have h2 : ((10 * ((P : Int) - N) : Int) : ℚ) < ((-(T : Int) : Int) : ℚ) := by
      push_cast; linarith
    exact_mod_cast h2
  · intro h
    have h2 : ((10 * ((P : Int) - N) : Int) : ℚ) < ((-(T : Int) : Int) : ℚ) := by
      exact_mod_cast h
    push_cast at h2
    linarith

end Spec

/-- C14: for a text with `T` normalized words (`T` in the range of `int`), `P`
of them in the positive and `N` in the negative lexicon, `analyzeSentiment`
returns "neutral:0" when `T = 0`; otherwise it returns the label, a colon and
the score printed by `std::to_string`, where the score is the binary64 quotient
of `P - N` by `T` (within `2^-53` of `(P - N) / T`, and in `[-1, 1]`), and the
label is positive exactly when `(P - N) / T > 1/10`, that is `10 (P - N) > T`,
negative exactly when `(P - N) / T < -1/10`, and neutral otherwise, also at
exactly `1/10` and `-1/10`. -/
theorem C14_sentiment_rule (text : Str) (hT : Spec.totalCount text ≤ 2147483647) :
    Worker.sentimentCounts text =
        ((Spec.positiveCount text : Int), (Spec.negativeCount text : Int),
         (Spec.totalCount text : Int)) ∧
      Spec.positiveCount text + Spec.negativeCount text ≤ Spec.totalCount text ∧
      (Spec.totalCount text = 0 → Worker.analyzeSentiment text = "neutral:0".toList) ∧
      (0 < Spec.totalCount text →
        Worker.analyzeSentiment text =
            Spec.ruleLabel (Spec.positiveCount text) (Spec.negativeCount text)
                (Spec.totalCount text) ++ [':'] ++
              Worker.to_string_double
                (Worker.divDouble ((Spec.positiveCount text : Int) - Spec.negativeCount text)
                  (Spec.totalCount text)) ∧
          |(Worker.divDouble ((Spec.positiveCount text : Int) - Spec.negativeCount text)
                (Spec.totalCount text)).toRat -
              ((Spec.positiveCount text : ℚ) - Spec.negativeCount text) /
                Spec.totalCount text| ≤ 1 / 2 ^ 53 ∧
          -1 ≤ (Worker.divDouble ((Spec.positiveCount text : Int) - Spec.negativeCount text)
                (Spec.totalCount text)).toRat ∧
          (Worker.divDouble ((Spec.positiveCount text : Int) - Spec.negativeCount text)
                (Spec.totalCount text)).toRat ≤ 1 ∧
          (Spec.ruleLabel (Spec.positiveCount text) (Spec.negativeCount text)
                (Spec.totalCount text) = "positive".toList ↔
              (1 : ℚ) / 10 < ((Spec.positiveCount text : ℚ) - Spec.negativeCount text) /
                Spec.totalCount text) ∧
          (Spec.ruleLabel (Spec.positiveCount text) (Spec.negativeCount text)
                (Spec.totalCount text) = "negative".toList ↔
              ((Spec.positiveCount text : ℚ) - Spec.negativeCount text) /
                Spec.totalCount text < -(1 / 10)) ∧
          (Spec.ruleLabel (Spec.positiveCount text) (Spec.negativeCount text)
                (Spec.totalCount text) = "neutral".toList ↔
              ¬ ((1 : ℚ) / 10 < ((Spec.positiveCount text : ℚ) - Spec.negativeCount text) /
                Spec.totalCount text) ∧
              ¬ (((Spec.positiveCount text : ℚ) - Spec.negativeCount text) /
                Spec.totalCount text < -(1 / 10)))) := by
  have hc := Worker.sentimentCounts_eq text
  have hle := Worker.counts_le text
  refine ⟨hc, hle, ?_, ?_⟩
  · intro h0
    unfold Worker.analyzeSentiment Worker.sentimentParts
    simp only [hc, h0, Nat.cast_zero, if_true]
    rfl
  · intro hpos
    have hne : ¬ ((Spec.totalCount text : Int) = 0) := by omega
    have hlabel := Worker.sentimentLabel_divDouble
      ((Spec.positiveCount text : Int) - Spec.negativeCount text) (Spec.totalCount text) hpos hT
    have hval := Worker.divDouble_value
      ((Spec.positiveCount text : Int) - Spec.negativeCount text) (Spec.totalCount text) hpos
      (by omega)
    have hcast : (((Spec.positiveCount text : Int) - (Spec.negativeCount text : Int) : Int) : ℚ) =
        (Spec.positiveCount text : ℚ) - (Spec.negativeCount text : ℚ) := by push_cast; rfl
    rw [hcast] at hval
    refine ⟨?_, hval.1, hval.2.1, hval.2.2, ?_, ?_, ?_⟩
    · unfold Worker.analyzeSentiment Worker.sentimentParts
      simp only [hc, hne, if_false, Int.toNat_ofNat]
      rw [hlabel]
      rfl
    · rw [Spec.ruleLabel_positive, Spec.tenth_lt_iff _ _ _ hpos]
    · rw [Spec.ruleLabel_negative, Spec.lt_minus_tenth_iff _ _ _ hpos]
    · rw [Spec.ruleLabel_neutral, Spec.tenth_lt_iff _ _ _ hpos,
        Spec.lt_minus_tenth_iff _ _ _ hpos]

set_option maxRecDepth 100000 in
/-- Witness of C14: one positive word among ten gives the score `1/10`
exactly, which is neutral; one among nine is positive. -/
theorem C14_sentiment_rule_witness :
    Spec.totalCount "Good a b c d e f g h i".toList ≤ 2147483647 ∧
      Worker.sentimentCounts "Good a b c d e f g h i".toList =
        ((Spec.positiveCount "Good a b c d e f g h i".toList : Int),
         (Spec.negativeCount "Good a b c d e f g h i".toList : Int),
         (Spec.totalCount "Good a b c d e f g h i".toList : Int)) ∧
      Worker.analyzeSentiment "Good a b c d e f g h i".toList = "neutral:0.100000".toList ∧
      Worker.analyzeSentiment "Good a b c d e f g h".toList = "positive:0.111111".toList ∧
      Worker.analyzeSentiment "bad a b c d e f g h".toList = "negative:-0.111111".toList ∧
      Worker.analyzeSentiment "12 -- 34".toList = "neutral:0".toList :=
  ⟨by decide, (C14_sentiment_rule "Good a b c d e f g h i".toList (by decide)).1,
    by decide, by decide, by decide, by decide⟩

namespace Producer

open Cpp

/-- With `sentences_per_section ≤ 1` every completed sentence closes a section. -/
theorem foldl_push_single (n : Int) (hn : n ≤ 1) (ss : List Str) :
    ∀ st : Scan, st.current_section = [] → st.sentence_count = 0 →
      finishScan (ss.foldl (pushSentence n) st) =
        st.sections ++ ss.map (fun s => s ++ [' ']) := by
  induction ss with
  | nil =>
    intro st h1 _
    unfold finishScan
    rw [List.foldl_nil, h1]
    simp
  | cons s ss ih =>
    intro st h1 h2
    rw [List.foldl_cons]
    have hp : pushSentence n st s =
        { sections := st.sections ++ [st.current_section ++ (s ++ [' '])],
          current_section := [], sentence_count := 0, current_sentence := [] } := by
      unfold pushSentence
      rw [if_pos (by rw [h2]; omega)]
    rw [hp, ih _ rfl rfl, h1]
    simp

/-- For `sentences_per_section ≤ 1` the sections are the sentences, one in each. -/
theorem readFileBySentences_single (lines : List Str) (n : Int) (hn : n ≤ 1) :
    readFileBySentences lines n =
      (Spec.sentences (accumulateLines lines)).map (fun s => s ++ [' ']) := by
  have h := scan_push n (accumulateLines lines)
    { sections := [], current_section := [], sentence_count := 0, current_sentence := [] }
    { sections := [], current_section := [], sentence_count := 0, current_sentence := [] }
    (by intro x hx; cases hx) rfl rfl rfl
  simp only [List.nil_append] at h
  have hg := foldl_push_single n hn (Spec.sentences (accumulateLines lines))
    { sections := [], current_section := [], sentence_count := 0, current_sentence := [] }
    rfl rfl
  simp only [List.nil_append] at hg
  rw [← hg]
  show finishScan ((accumulateLines lines).foldl (scanChar n) _) = _
  unfold finishScan
  rw [h.1, h.2]

end Producer

/-- C21 (amended): a non-positive `sentences_per_section` is not rejected. For
every input and every `sentences_per_section ≤ 0` that `argv[2]` spells,
`readFileBySentences` returns one section for every sentence of the input, the
same sections as with `sentences_per_section = 1`, and `main` sends them with
their count; no error is raised. -/
theorem C21_nonpositive_size_gives_single_sentence_sections (lines : List Str) (arg2 : Str)
    (n : Int) (harg : Cpp.stoi arg2 = Except.ok n) (hn : n ≤ 0) :
    Producer.readFileBySentences lines n =
        (Spec.sentences (Producer.accumulateLines lines)).map (fun s => s ++ [' ']) ∧
      Producer.readFileBySentences lines n = Producer.readFileBySentences lines 1 ∧
      Producer.main (some lines) arg2 =
        Producer.Outcome.sent
          (Producer.taskMessages 0
            ((Spec.sentences (Producer.accumulateLines lines)).map (fun s => s ++ [' '])))
          (Producer.countMessage (Spec.sentences (Producer.accumulateLines lines)).length) ∧
      Producer.main (some lines) arg2 ≠ Producer.Outcome.error := by
  have h1 := Producer.readFileBySentences_single lines n (by omega)
  have h2 := Producer.readFileBySentences_single lines 1 (le_refl _)
  have hm : Producer.main (some lines) arg2 =
      Producer.Outcome.sent
        (Producer.taskMessages 0
          ((Spec.sentences (Producer.accumulateLines lines)).map (fun s => s ++ [' '])))
        (Producer.countMessage (Spec.sentences (Producer.accumulateLines lines)).length) := by
    unfold Producer.main
    rw [harg]
    simp only []
    rw [h1, List.length_map]
  refine ⟨h1, by rw [h1, h2], hm, ?_⟩
  rw [hm]
  intro h
  cases h

/-- Witness of C21: the size `-2` on a file with three sentences. -/
theorem C21_nonpositive_size_gives_single_sentence_sections_witness :
    Cpp.stoi "-2".toList = Except.ok (-2) ∧ (-2 : Int) ≤ 0 ∧
      Producer.readFileBySentences ["One. Two!".toList, "Three?".toList] (-2) =
        Producer.readFileBySentences ["One. Two!".toList, "Three?".toList] 1 ∧
      Producer.readFileBySentences ["One. Two!".toList, "Three?".toList] (-2) =
        ["One. ".toList, "Two! ".toList, "Three? ".toList] :=
  ⟨rfl, by decide,
    (C21_nonpositive_size_gives_single_sentence_sections
      ["One. Two!".toList, "Three?".toList] "-2".toList (-2) rfl (by decide)).2.1,
    by decide⟩

/-- C21 as stated fails: with `sentences_per_section = 0` the Producer reports
no error; it sends one task for each of the two sentences and the count 2. -/
theorem C21_counterexample :
    Producer.readFileBySentences ["A. B.".toList] 0 = ["A. ".toList, "B. ".toList] ∧
      Producer.main (some ["A. B.".toList]) "0".toList =
        Producer.Outcome.sent ["SECTION_0|A. ".toList, "SECTION_1|B. ".toList]
          "TOTAL_SECTIONS:2".toList ∧
      Producer.main (some ["A. B.".toList]) "0".toList ≠ Producer.Outcome.error := by
  decide

namespace Spec

open Cpp

theorem terminatedPieces_ends_strict (text : Str) :
    ∀ p ∈ (terminatedPieces text).1,
      ∃ q c, p = q ++ [c] ∧ isTerminator c = true ∧ ∀ x ∈ q, isTerminator x = false := by
  induction text with
  | nil => intro p hp; simp [terminatedPieces] at hp
  | cons x rest ih =>
    cases hx : isTerminator x with
    | true =>
      rw [terminatedPieces_cons_of_terminator x rest hx]
      intro p hp
      rcases List.mem_cons.mp hp with e | e
      · exact ⟨[], x, by rw [e]; rfl, hx, fun y hy => absurd hy (List.not_mem_nil y)⟩
      · exact ih p e
    | false =>
      rw [terminatedPieces_cons_of_not_terminator x rest hx]
      cases hp : (terminatedPieces rest).1 with
      | nil => intro p h; simp at h
      | cons p0 ps =>
        rw [hp] at ih
        intro p h
        rcases List.mem_cons.mp h with e | e
        · obtain ⟨q, c, hq, hc, hfree⟩ := ih p0 (List.mem_cons_self _ _)
          refine ⟨x :: q, c, by rw [e, hq]; rfl, hc, ?_⟩
          intro y hy
          rcases List.mem_cons.mp hy with e2 | e2
          · rw [e2]; exact hx
          · exact hfree y e2
        · exact ih p (List.mem_cons_of_mem _ e)

theorem trim_eq_dropWhile (q : Str) (c : Char) (h : isTerminator c = true) :
    trim (q ++ [c]) = (q ++ [c]).dropWhile isTrimChar := by
  have hc := isTerminator_not_trim c h
  unfold trim
  rw [dropWhile_append_last _ _ _ hc, List.reverse_append]
  simp [List.dropWhile, hc]

theorem dropWhile_blank_prefix (f : Char → Bool) (pre t : Str)
    (hpre : ∀ x ∈ pre, f x = true) (ht : ∀ x ∈ t.head?, f x = false) :
    (pre ++ t).dropWhile f = t := by
  induction pre with
  | nil =>
    cases t with
    | nil => rfl
    | cons a t =>
      have : f a = false := ht a (by simp)
      simp [List.dropWhile_cons, this]
  | cons x pre ih =>
    rw [List.cons_append, List.dropWhile_cons, if_pos (hpre x (List.mem_cons_self _ _))]
    exact ih (fun y hy => hpre y (List.mem_cons_of_mem _ hy))

theorem head_append_last (q : Str) (c : Char) (f : Char → Bool) (hc : f c = false)
    (hq : ∀ x ∈ q.head?, f x = false) : ∀ x ∈ (q ++ [c]).head?, f x = false := by
  cases q with
  | nil =>
    intro x hx
    have : x = c := by simpa using hx.symm
    rw [this]; exact hc
  | cons a q =>
    intro x hx
    exact hq x (by simpa using hx)

/-- A clean sentence after blank characters is what trimming gives back. -/
theorem trim_blank_clean (pre q : Str) (c : Char) (hpre : ∀ x ∈ pre, isTrimChar x = true)
    (hc : isTerminator c = true) (hq : ∀ x ∈ q.head?, isTrimChar x = false) :
    trim ((pre ++ q) ++ [c]) = q ++ [c] := by
  rw [trim_eq_dropWhile _ _ hc, List.append_assoc]
  exact dropWhile_blank_prefix _ pre (q ++ [c]) hpre
    (head_append_last q c _ (isTerminator_not_trim c hc) hq)

theorem head_dropWhile (f : Char → Bool) (q : Str) : ∀ x ∈ (q.dropWhile f).head?, f x = false := by
  induction q with
  | nil => intro x hx; simp at hx
  | cons a q ih =>
    rw [List.dropWhile_cons]
    by_cases h : f a = true
    · rw [if_pos h]; exact ih
    · rw [if_neg h]
      intro x hx
      have : x = a := by simpa using hx.symm
      rw [this]; simpa using h

/-- Every sentence of a text is clean. -/
theorem sentences_clean (text : Str) : ∀ s ∈ sentences text, CleanSentence s := by
  intro s hs
  unfold sentences at hs
  obtain ⟨hs1, _⟩ := List.mem_filter.mp hs
  obtain ⟨p, hp, rfl⟩ := List.mem_map.mp hs1
  obtain ⟨q, c, rfl, hc, hfree⟩ := terminatedPieces_ends_strict text p hp
  refine ⟨q.dropWhile isTrimChar, c, ?_, hc, ?_, head_dropWhile _ q⟩
  · rw [trim_eq_dropWhile _ _ hc, dropWhile_append_last _ _ _ (isTerminator_not_trim c hc)]
  · intro x hx
    exact hfree x ((List.dropWhile_sublist _).subset hx)

theorem trimChar_not_terminator (x : Char) (h : isTrimChar x = true) : isTerminator x = false := by
  cases ht : isTerminator x with
  | false => rfl
  | true => rw [isTerminator_not_trim x ht] at h; cases h

/-- Splitting the text of a section gives back its sentences, and the rest
after the last of them is blank. -/
theorem sentences_sectionText (g : List Str) :
    (∀ s ∈ g, CleanSentence s) → ∀ pre : Str, (∀ x ∈ pre, isTrimChar x = true) →
      sentences (pre ++ sectionText g) = g ∧
        trim (terminatedPieces (pre ++ sectionText g)).2 = [] := by
  induction g with
  | nil =>
    intro _ pre hpre
    have hfree : ∀ x ∈ pre, isTerminator x = false :=
      fun x hx => trimChar_not_terminator x (hpre x hx)
    have e : sectionText [] = [] := rfl
    rw [e, List.append_nil, sentences_of_no_terminator pre hfree,
      terminatedPieces_of_no_terminator pre hfree]
    refine ⟨rfl, ?_⟩
    apply Producer.trim_eq_nil_of_dropWhile
    have : pre.dropWhile isTrimChar = [] := by
      rw [List.dropWhile_eq_nil_iff]
      exact hpre
    rw [this]; rfl
  | cons s g ih =>
    intro hclean pre hpre
    obtain ⟨q, c, hs, hc, hfree, hhead⟩ := hclean s (List.mem_cons_self _ _)
    have hrest := ih (fun t ht => hclean t (List.mem_cons_of_mem _ ht)) [' ']
      (by intro x hx; rw [List.mem_singleton.mp hx]; rfl)
    have e : pre ++ sectionText (s :: g) = (pre ++ q) ++ c :: ([' '] ++ sectionText g) := by
      rw [hs]
      simp [sectionText]
    have hcur : ∀ x ∈ pre ++ q, isTerminator x = false := by
      intro x hx
      rcases List.mem_append.mp hx with h | h
      · exact trimChar_not_terminator x (hpre x h)
      · exact hfree x h
    have htrim := trim_blank_clean pre q c hpre hc hhead
    rw [e, sentences_append_terminator _ c _ hcur hc,
      terminatedPieces_append_terminator _ c _ hcur hc, htrim,
      if_pos (by rw [← hs]; intro h0; rw [hs] at h0; simp at h0), hrest.1, ← hs]
    exact ⟨rfl, hrest.2⟩

end Spec

namespace Worker

open Cpp

/-- The Worker extracts from the text of a section the sentences that were put
into it. -/
theorem extractSentences_sectionText (g : List Str) (h : ∀ s ∈ g, Spec.CleanSentence s) :
    extractSentences (Spec.sectionText g) = g := by
  obtain ⟨h1, h2⟩ := Spec.sentences_sectionText g h [] (by intro x hx; cases hx)
  rw [List.nil_append] at h1 h2
  rw [extractSentences_eq, h1]
  unfold Spec.fragmentSentence
  rw [h2]
  simp

end Worker

/-- C24: for `sentences_per_section ≥ 1`, the sections of `readFileBySentences`
are the texts of the groups of sentences, and from the text of each section
the Worker extracts exactly the sentences that the Sectionizer put into it, in
the same order (none lost, split, merged or added; the trailing space gives no
sentence); the ranked sentences of a section are a permutation of them, and
over all sections there are as many ranked sentences as the source text has
sentences. -/
theorem C24_sections_resplit (lines : List Str) (n : Int) (hn : 1 ≤ n) :
    Producer.readFileBySentences lines n =
        (Spec.groupsOf n.toNat (Spec.sentences (Producer.accumulateLines lines))).map
          Spec.sectionText ∧
      (Producer.readFileBySentences lines n).map Worker.extractSentences =
        Spec.groupsOf n.toNat (Spec.sentences (Producer.accumulateLines lines)) ∧
      (∀ sec ∈ Producer.readFileBySentences lines n,
        (Worker.rankedSentences sec).Perm (Worker.extractSentences sec)) ∧
      ((Producer.readFileBySentences lines n).map Worker.extractSentences).flatten =
        Spec.sentences (Producer.accumulateLines lines) ∧
      ((Producer.readFileBySentences lines n).map
          (fun sec => (Worker.rankedSentences sec).length)).sum =
        (Spec.sentences (Producer.accumulateLines lines)).length := by
  have hn1 : 1 ≤ n.toNat := by omega
  have heq := Producer.readFileBySentences_eq_groups lines n hn
  have hflat := Spec.groupsOf_flatten n.toNat hn1 _
    (Spec.sentences (Producer.accumulateLines lines)) (le_refl _)
  have hclean : ∀ g ∈ Spec.groupsOf n.toNat (Spec.sentences (Producer.accumulateLines lines)),
      ∀ s ∈ g, Spec.CleanSentence s := by
    intro g hg s hs
    apply Spec.sentences_clean (Producer.accumulateLines lines)
    rw [← hflat]
    exact List.mem_flatten.mpr ⟨g, hg, hs⟩
  have hmap : (Producer.readFileBySentences lines n).map Worker.extractSentences =
      Spec.groupsOf n.toNat (Spec.sentences (Producer.accumulateLines lines)) := by
    rw [heq, List.map_map]
    conv_rhs => rw [← List.map_id (Spec.groupsOf n.toNat _)]
    apply List.map_congr_left
    intro g hg
    exact Worker.extractSentences_sectionText g (hclean g hg)
  refine ⟨heq, hmap, fun sec _ => Worker.rankedSentences_perm sec, ?_, ?_⟩
  · rw [hmap, hflat]
  · have hlen : (Producer.readFileBySentences lines n).map
          (fun sec => (Worker.rankedSentences sec).length) =
        ((Producer.readFileBySentences lines n).map Worker.extractSentences).map List.length := by
      rw [List.map_map]
      apply List.map_congr_left
      intro sec _
      exact (Worker.rankedSentences_perm sec).length_eq
    rw [hlen, hmap, ← List.length_flatten, hflat]

set_option maxRecDepth 100000 in
/-- Witness of C24: five sentences on two lines, two in a section. -/
theorem C24_sections_resplit_witness :
    (1 : Int) ≤ 2 ∧
      (Producer.readFileBySentences ["Hi there.  Go!".toList, "Why? Ok. Bye.".toList] 2).map
          Worker.extractSentences =
        Spec.groupsOf (2 : Int).toNat
          (Spec.sentences
            (Producer.accumulateLines ["Hi there.  Go!".toList, "Why? Ok. Bye.".toList])) ∧
      (Producer.readFileBySentences ["Hi there.  Go!".toList, "Why? Ok. Bye.".toList] 2).map
          Worker.sortSentencesByLength =
        ["Hi there.~Go!".toList, "Why?~Ok.".toList, "Bye.".toList] :=
  ⟨by decide,
    (C24_sections_resplit ["Hi there.  Go!".toList, "Why? Ok. Bye.".toList] 2 (by decide)).2.1,
    by decide⟩

namespace Aggregator

open Cpp Worker

/-- The token loop of `parseResult` on the result string that the Worker
builds for a section whose text has no `|`; the `sorted:` field is cut at
every `~`, also at one inside a sentence. -/
theorem parseTokens_buildResult_cut (stod : Str → Except StdExcept Double) (l : Locals) (K : Int)
    (n : Nat) (text : Str) (v : Double) (freq : StdMap Int)
    (hpipe : '|' ∉ text) (hlen : text.length ≤ 2147483647)
    (hstod : stod (sentimentParts text).2 = Except.ok v)
    (hfreq : parseTopWords (findTopWords K text) l.result.word_frequencies = Except.ok freq) :
    parseTokens stod l
        (getlines '|' (buildResult K ("SECTION_".toList ++ natToString n) text)) =
      ({ total_words := l.total_words + countWords text
         sentences_by_length :=
           insertSentences l.sentences_by_length (getlines '~' (sortSentencesByLength text))
         result :=
           { word_count := some (countWords text)
             word_frequencies := freq
             sentiment_score := some v
             sentiment_label := (sentimentParts text).1
             processed_text := replaceNames text }
         section_id := "SECTION_".toList ++ natToString n }, none) := by
  have hwc := countWords_bounds text
  have hstoi : stoi (to_string (countWords text)) = Except.ok (countWords text) :=
    stoi_to_string _ (by omega) (by omega)
  have hlabel : ':' ∉ (sentimentParts text).1 :=
    fun h => absurd (sentimentParts_label_lower text _ h) (by decide)
  have hsent : parseSentiment stod (analyzeSentiment text) l.result.sentiment_label
      l.result.sentiment_score = Except.ok ((sentimentParts text).1, some v) :=
    parseSentiment_formatted stod _ _ v _ _ hlabel hstod
  rw [getlines_buildResult K n text hpipe]
  have e0 := parseToken_section stod l (natToString n)
  have e1 := parseToken_words stod { l with section_id := "SECTION_".toList ++ natToString n }
    _ _ hstoi
  have e2 := parseToken_top stod
    { total_words := l.total_words + countWords text
      sentences_by_length := l.sentences_by_length
      result := { l.result with word_count := some (countWords text) }
      section_id := "SECTION_".toList ++ natToString n } _ freq hfreq
  have e3 := parseToken_sentiment stod
    { total_words := l.total_words + countWords text
      sentences_by_length := l.sentences_by_length
      result := { l.result with word_count := some (countWords text), word_frequencies := freq }
      section_id := "SECTION_".toList ++ natToString n } _ _ hsent
  have e4 := parseToken_names_replaced stod
    { total_words := l.total_words + countWords text
      sentences_by_length := l.sentences_by_length
      result := { l.result with word_count := some (countWords text), word_frequencies := freq,
                                sentiment_label := (sentimentParts text).1,
                                sentiment_score := some v }
      section_id := "SECTION_".toList ++ natToString n }
    (natToString (replaceNames text).length)
  have e5 := parseToken_processed_text stod
    { total_words := l.total_words + countWords text
      sentences_by_length := l.sentences_by_length
      result := { l.result with word_count := some (countWords text), word_frequencies := freq,
                                sentiment_label := (sentimentParts text).1,
                                sentiment_score := some v }
      section_id := "SECTION_".toList ++ natToString n }
    (replaceNames text)
  have e6 := parseToken_sorted stod
    { total_words := l.total_words + countWords text
      sentences_by_length := l.sentences_by_length
      result := { word_count := some (countWords text), word_frequencies := freq,
                  sentiment_label := (sentimentParts text).1,
                  sentiment_score := some v, processed_text := replaceNames text }
      section_id := "SECTION_".toList ++ natToString n }
    (sortSentencesByLength text)
  simp only [parseTokens, e0, e1, e2, e3, e4, e5, e6]

end Aggregator

/-- C23 (amended): for every section id `SECTION_<n>` and every section text
without `|` (it may contain `:`, `;` and `~`), `parseResult` decodes the result
string of the Worker without an exception and recovers the section id, the
word count (which it adds to `total_words`), the top-word pairs, the sentiment
label and score, and the processed text as well. The sentence ranking receives
the non-empty pieces of the `sorted:` field cut at every `~`: these are the
ranked sentences when the text has no `~`. -/
theorem C23_round_trip_without_pipe (stod : Str → Except StdExcept Double) (a : Aggregator)
    (K : Int) (n : Nat) (text : Str) (v : Double)
    (hpipe : '|' ∉ text) (hlen : text.length ≤ 2147483647)
    (hstod : stod (Worker.sentimentParts text).2 = Except.ok v) :
    ∃ r : Aggregator.SectionResult,
      (Aggregator.parseResult stod a
        (Worker.buildResult K ("SECTION_".toList ++ Cpp.natToString n) text)).2 = none ∧
      (Aggregator.parseResult stod a
        (Worker.buildResult K ("SECTION_".toList ++ Cpp.natToString n) text)).1.results =
          Cpp.StdMap.modify ("SECTION_".toList ++ Cpp.natToString n) {} (fun _ => r) a.results ∧
      r.word_count = some (Worker.countWords text) ∧
      (Aggregator.parseResult stod a
        (Worker.buildResult K ("SECTION_".toList ++ Cpp.natToString n) text)).1.total_words =
          a.total_words + Worker.countWords text ∧
      r.word_frequencies.Perm (Worker.topWordPairs K text) ∧
      r.sentiment_label = (Worker.sentimentParts text).1 ∧
      r.sentiment_score = some v ∧
      r.processed_text = Worker.replaceNames text ∧
      (Aggregator.parseResult stod a
        (Worker.buildResult K ("SECTION_".toList ++ Cpp.natToString n) text)).1.sentences_by_length
          = Aggregator.insertSentences a.sentences_by_length
              (Cpp.getlines '~' (Worker.sortSentencesByLength text)) ∧
      ('~' ∉ text →
        (Aggregator.parseResult stod a
          (Worker.buildResult K ("SECTION_".toList ++ Cpp.natToString n)
            text)).1.sentences_by_length =
          (Worker.rankedSentences text).foldl
            (fun acc s => Cpp.MultiMap.insert (s.length : Int) s acc) a.sentences_by_length) := by
  obtain ⟨freq, hfreq, hperm⟩ := Aggregator.parseTopWords_findTopWords K text hlen
  have hcount : Cpp.startsWith "TOTAL_SECTIONS:".toList
      (Worker.buildResult K ("SECTION_".toList ++ Cpp.natToString n) text) = false := by
    rw [Worker.buildResult_eq]; rfl
  have htok := Aggregator.parseTokens_buildResult_cut stod (Aggregator.startLocals a) K n text v
    freq hpipe hlen hstod hfreq
  have hres := Aggregator.parseResult_result stod a _ hcount
  rw [htok] at hres
  simp only [] at hres
  refine ⟨{ word_count := some (Worker.countWords text)
            word_frequencies := freq
            sentiment_score := some v
            sentiment_label := (Worker.sentimentParts text).1
            processed_text := Worker.replaceNames text }, ?_, ?_, rfl, ?_, hperm, rfl, rfl, rfl,
    ?_, ?_⟩
  · rw [hres]
  · rw [hres]
    exact Aggregator.storeResult_results _ _
  · rw [hres]
    simp only []
    rw [Aggregator.storeResult_total_words]
    rfl
  · rw [hres]
    simp only []
    rw [Aggregator.storeResult_sentences]
    rfl
  · intro htilde
    rw [hres]
    simp only []
    rw [Aggregator.storeResult_sentences]
    show Aggregator.insertSentences a.sentences_by_length
      (Cpp.getlines '~' (Worker.sortSentencesByLength text)) = _
    rw [Aggregator.getlines_sortSentencesByLength text htilde]
    exact Aggregator.insertSentences_nonempty (Worker.rankedSentences text)
      (fun s hs => (Worker.rankedSentences_mem text s hs).1) a.sentences_by_length

set_option maxRecDepth 100000 in
/-- Witness of C23: a text with `:`, `;` and `~` and no `|`. -/
theorem C23_round_trip_without_pipe_witness :
    ∃ r : Aggregator.SectionResult,
      (Aggregator.parseResult stodDecimal (Aggregator.init 3)
        (Worker.buildResult 3 ("SECTION_".toList ++ Cpp.natToString 4)
          "Note: good; fine~ok. Bye.".toList)).1.results =
          Cpp.StdMap.modify ("SECTION_".toList ++ Cpp.natToString 4) {} (fun _ => r)
            (Aggregator.init 3).results ∧
      r.word_count = some 4 ∧
      r.sentiment_label = "positive".toList ∧
      r.processed_text = "FFFFF: good; fine~ok. FFFFF.".toList ∧
      (Aggregator.parseResult stodDecimal (Aggregator.init 3)
        (Worker.buildResult 3 ("SECTION_".toList ++ Cpp.natToString 4)
          "Note: good; fine~ok. Bye.".toList)).1.sentences_by_length =
        [(16, "Note: good; fine".toList), (4, "Bye.".toList), (3, "ok.".toList)] :=
  match C23_round_trip_without_pipe stodDecimal (Aggregator.init 3) 3 4
      "Note: good; fine~ok. Bye.".toList
      ((250000 : ℚ) / 1000000) (by decide) (by decide)
      (by
        have e : (Worker.sentimentParts "Note: good; fine~ok. Bye.".toList).2
            = "0.250000".toList := by decide
        have h : stodDecimal "0.250000".toList
            = Except.ok (((0 : Nat) : ℚ) + ((250000 : Nat) : ℚ) / (10 : ℚ) ^ 6) := rfl
        rw [e, h]
        norm_num) with
  | ⟨r, _, h2, h3, _, _, h6, _, h8, h9, _⟩ =>
    ⟨r, h2, h3.trans (by decide), h6.trans (by decide), h8.trans (by decide),
      h9.trans (by decide)⟩

set_option maxRecDepth 100000 in
/-- C23 as stated fails. A `~` inside a sentence cuts the ranked sentence
"Hi~there." into two entries of the ranking. A `|` in the text ends the field
and starts a new one: for "a|words:7 b." the stored word count is 7, not the 2
of `countWords`, and 16 is added to `total_words`; the text
"Good|SECTION_9|sentiment:negative:-1 day." is stored under `SECTION_9` with
the label `negative`. -/
theorem C23_counterexample :
    Worker.rankedSentences "Hi~there. Ok.".toList = ["Hi~there.".toList, "Ok.".toList] ∧
      (Aggregator.parseResult stodDecimal (Aggregator.init 3)
        (Worker.buildResult 3 "SECTION_0".toList "Hi~there. Ok.".toList)).1.sentences_by_length =
        [(6, "there.".toList), (3, "Ok.".toList), (2, "Hi".toList)] ∧
      Worker.countWords "a|words:7 b.".toList = 2 ∧
      (Aggregator.parseResult stodDecimal (Aggregator.init 3)
        (Worker.buildResult 3 "SECTION_0".toList "a|words:7 b.".toList)).1.results.map
          (fun p => (p.1, p.2.word_count)) = [("SECTION_0".toList, some 7)] ∧
      (Aggregator.parseResult stodDecimal (Aggregator.init 3)
        (Worker.buildResult 3 "SECTION_0".toList "a|words:7 b.".toList)).1.total_words = 16 ∧
      (Worker.sentimentParts "Good|SECTION_9|sentiment:negative:-1 day.".toList).1 =
        "neutral".toList ∧
      (Aggregator.parseResult stodDecimal (Aggregator.init 3)
        (Worker.buildResult 3 "SECTION_0".toList
          "Good|SECTION_9|sentiment:negative:-1 day.".toList)).1.results.map
          (fun p => (p.1, p.2.sentiment_label)) = [("SECTION_9".toList, "negative".toList)] := by
  decide

namespace Spec

open Cpp Aggregator

theorem getSlot_setSlot_other (k k2 : FieldKind) (h : k ≠ k2) (v : Slot k) (l : Locals) :
    getSlot k2 (setSlot k v l) = getSlot k2 l := by
  cases k <;> cases k2 <;> first | rfl | exact absurd rfl h

theorem setSlot_comm (k k2 : FieldKind) (h : k ≠ k2) (v : Slot k) (v2 : Slot k2) (l : Locals) :
    setSlot k v (setSlot k2 v2 l) = setSlot k2 v2 (setSlot k v l) := by
  cases k <;> cases k2 <;> first | rfl | exact absurd rfl h

/-- The body of the token loop, by the kind of the field. -/
theorem parseToken_eq (stod : Str → Except StdExcept Double) (l : Locals) (token : Str) :
    parseToken stod l token =
      match fieldKind token with
      | none => Except.ok l
      | some k =>
        match decodeField stod k token (getSlot k l) with
        | Except.ok v => Except.ok (setSlot k v l)
        | Except.error e => Except.error e := by
  unfold parseToken fieldKind
  cases h0 : startsWith "SECTION_".toList token with
  | true =>
    simp only [if_true]
    rfl
  | false =>
    cases h1 : startsWith "words:".toList token with
    | true =>
      simp only [Bool.false_eq_true, if_true, if_false, decodeField, getSlot, setSlot]
      cases stoi (token.drop 6) <;> rfl
    | false =>
      cases h2 : startsWith "top:".toList token with
      | true =>
        simp only [Bool.false_eq_true, if_true, if_false, decodeField, getSlot, setSlot]
        cases parseTopWords (token.drop 4) l.result.word_frequencies <;> rfl
      | false =>
        cases h3 : startsWith "sentiment:".toList token with
        | true =>
          simp only [Bool.false_eq_true, if_true, if_false, decodeField, getSlot, setSlot]
          cases parseSentiment stod (token.drop 10) l.result.sentiment_label
            l.result.sentiment_score <;> rfl
        | false =>
          cases h4 : startsWith "sorted:".toList token with
          | true =>
            simp only [Bool.false_eq_true, if_true, if_false]
            rfl
          | false =>
            cases h5 : startsWith "processed_text:".toList token with
            | true =>
              simp only [Bool.false_eq_true, if_true, if_false]
              rfl
            | false =>
              simp only [Bool.false_eq_true, if_false]

end Spec

namespace Aggregator

open Cpp

/-- Two fields of different kinds can be decoded in either order. -/
theorem parseToken_comm (stod : Str → Except StdExcept Double) (l lx lxy : Locals) (x y : Str)
    (hk : Spec.fieldKind x ≠ Spec.fieldKind y)
    (h1 : parseToken stod l x = Except.ok lx) (h2 : parseToken stod lx y = Except.ok lxy) :
    ∃ ly, parseToken stod l y = Except.ok ly ∧ parseToken stod ly x = Except.ok lxy := by
  cases hx : Spec.fieldKind x with
  | none =>
    have e1 : parseToken stod l x = Except.ok l := by rw [Spec.parseToken_eq, hx]
    have e2 : parseToken stod lxy x = Except.ok lxy := by rw [Spec.parseToken_eq, hx]
    rw [e1] at h1
    have hl : l = lx := Except.ok.inj h1
    subst hl
    exact ⟨lxy, h2, e2⟩
  | some kx =>
    cases hy : Spec.fieldKind y with
    | none =>
      have e1 : parseToken stod l y = Except.ok l := by rw [Spec.parseToken_eq, hy]
      have e2 : parseToken stod lx y = Except.ok lx := by rw [Spec.parseToken_eq, hy]
      rw [e2] at h2
      have hl : lx = lxy := Except.ok.inj h2
      subst hl
      exact ⟨l, e1, h1⟩
    | some ky =>
      have hne : kx ≠ ky := by
        intro e
        apply hk
        rw [hx, hy, e]
      rw [Spec.parseToken_eq, hx] at h1
      rw [Spec.parseToken_eq, hy] at h2
      simp only [] at h1 h2
      cases hd : Spec.decodeField stod kx x (Spec.getSlot kx l) with
      | error e => rw [hd] at h1; cases h1
      | ok v =>
        rw [hd] at h1
        have hlx : Spec.setSlot kx v l = lx := Except.ok.inj h1
        subst hlx
        rw [Spec.getSlot_setSlot_other kx ky hne] at h2
        cases hd2 : Spec.decodeField stod ky y (Spec.getSlot ky l) with
        | error e => rw [hd2] at h2; cases h2
        | ok w =>
          rw [hd2] at h2
          have hlxy : Spec.setSlot ky w (Spec.setSlot kx v l) = lxy := Except.ok.inj h2
          subst hlxy
          refine ⟨Spec.setSlot ky w l, ?_, ?_⟩
          · rw [Spec.parseToken_eq, hy]
            simp only []
            rw [hd2]
          · rw [Spec.parseToken_eq, hx]
            simp only []
            rw [Spec.getSlot_setSlot_other ky kx (Ne.symm hne), hd]
            simp only []
            rw [Spec.setSlot_comm kx ky hne]

theorem parseTokens_cons_ok (stod : Str → Except StdExcept Double) (l lf : Locals) (t : Str)
    (ts : List Str) (h : parseTokens stod l (t :: ts) = (lf, none)) :
    ∃ l1, parseToken stod l t = Except.ok l1 ∧ parseTokens stod l1 ts = (lf, none) := by
  rw [parseTokens] at h
  cases hp : parseToken stod l t with
  | ok l1 => rw [hp] at h; exact ⟨l1, rfl, h⟩
  | error e =>
    rw [hp] at h
    have := (Prod.mk.inj h).2
    cases this

theorem parseTokens_cons_of_ok (stod : Str → Except StdExcept Double) (l l1 : Locals) (t : Str)
    (ts : List Str) (h : parseToken stod l t = Except.ok l1) :
    parseTokens stod l (t :: ts) = parseTokens stod l1 ts := by
  rw [parseTokens, h]

/-- The token loop, when it ends without an exception, gives the same locals on
every order of fields of pairwise different kinds. -/
theorem parseTokens_perm (stod : Str → Except StdExcept Double) (ts1 ts2 : List Str)
    (h : ts1.Perm ts2) :
    ∀ l lf : Locals, (ts1.map Spec.fieldKind).Nodup → parseTokens stod l ts1 = (lf, none) →
      parseTokens stod l ts2 = (lf, none) := by
  induction h with
  | nil => intro l lf _ h; exact h
  | cons x _ ih =>
    intro l lf hnd h
    obtain ⟨l1, h1, h2⟩ := parseTokens_cons_ok stod l lf x _ h
    rw [parseTokens_cons_of_ok stod l l1 x _ h1]
    exact ih l1 lf (List.nodup_cons.mp (by rw [List.map_cons] at hnd; exact hnd)).2 h2
  | swap x y t =>
    intro l lf hnd h
    obtain ⟨ly, h1, h2⟩ := parseTokens_cons_ok stod l lf y _ h
    obtain ⟨lyx, h3, h4⟩ := parseTokens_cons_ok stod ly lf x _ h2
    have hk : Spec.fieldKind y ≠ Spec.fieldKind x := by
      rw [List.map_cons, List.map_cons] at hnd
      intro e
      exact (List.nodup_cons.mp hnd).1 (by rw [e]; exact List.mem_cons_self _ _)
    obtain ⟨lx, h5, h6⟩ := parseToken_comm stod l ly lyx y x hk h1 h3
    rw [parseTokens_cons_of_ok stod l lx x _ h5, parseTokens_cons_of_ok stod lx lyx y _ h6]
    exact h4
  | trans p1 _ ih1 ih2 =>
    intro l lf hnd h
    exact ih2 l lf (((p1.map Spec.fieldKind).nodup_iff).mp hnd) (ih1 l lf hnd h)

/-- The fields with an unrecognised prefix do nothing in the token loop. -/
theorem parseTokens_filter (stod : Str → Except StdExcept Double) (ts : List Str) :
    ∀ l : Locals, parseTokens stod l ts =
      parseTokens stod l (ts.filter (fun t => (Spec.fieldKind t).isSome)) := by
  induction ts with
  | nil => intro l; rfl
  | cons t ts ih =>
    intro l
    cases hk : Spec.fieldKind t with
    | none =>
      have e1 : parseToken stod l t = Except.ok l := by rw [Spec.parseToken_eq, hk]
      rw [parseTokens_cons_of_ok stod l l t ts e1, List.filter_cons, hk]
      exact ih l
    | some k =>
      rw [List.filter_cons, hk]
      simp only [Option.isSome_some, if_true]
      rw [parseTokens, parseTokens]
      cases parseToken stod l t with
      | ok l1 => exact ih l1
      | error e => rfl

theorem parseTokens_throws_perm (stod : Str → Except StdExcept Double) (ts1 ts2 : List Str)
    (h : (ts1.filter (fun t => (Spec.fieldKind t).isSome)).Perm
      (ts2.filter (fun t => (Spec.fieldKind t).isSome))) (l : Locals) :
    (∃ e, (parseTokens stod l ts1).2 = some e) ↔ (∃ e, (parseTokens stod l ts2).2 = some e) := by
  rw [parseTokens_filter stod ts1 l, parseTokens_filter stod ts2 l, parseTokens_error,
    parseTokens_error, List.any_eq_true, List.any_eq_true]
  constructor
  · rintro ⟨t, ht, hm⟩; exact ⟨t, h.subset ht, hm⟩
  · rintro ⟨t, ht, hm⟩; exact ⟨t, h.symm.subset ht, hm⟩

end Aggregator

/-- C22 (amended): for every Aggregator state and every two result messages
(messages that do not begin with `TOTAL_SECTIONS:`) whose recognised fields are
the same up to their order, each kind (`SECTION_` id, `words:`, `top:`,
`sentiment:`, `sorted:`, `processed_text:`) occurring at most once, `parseResult`
throws on the one exactly when it throws on the other, and when no number fails
to parse the two resulting states are equal: the order of the fields and the
fields with an unrecognised prefix make no difference. -/
theorem C22_field_order_irrelevant (stod : Str → Except StdExcept Double) (a : Aggregator)
    (m1 m2 : Str)
    (h1 : Cpp.startsWith "TOTAL_SECTIONS:".toList m1 = false)
    (h2 : Cpp.startsWith "TOTAL_SECTIONS:".toList m2 = false)
    (honce : ((Spec.recognisedFields m1).map Spec.fieldKind).Nodup)
    (hperm : (Spec.recognisedFields m2).Perm (Spec.recognisedFields m1)) :
    ((∃ e, (Aggregator.parseResult stod a m1).2 = some e) ↔
        (∃ e, (Aggregator.parseResult stod a m2).2 = some e)) ∧
      (Spec.messageMalformed stod m1 = Spec.messageMalformed stod m2) ∧
      (Spec.messageMalformed stod m1 = false →
        (Aggregator.parseResult stod a m1).2 = none ∧
          Aggregator.parseResult stod a m2 = Aggregator.parseResult stod a m1) := by
  have hthrow : (∃ e, (Aggregator.parseResult stod a m1).2 = some e) ↔
      (∃ e, (Aggregator.parseResult stod a m2).2 = some e) := by
    have ht := Aggregator.parseTokens_throws_perm stod (Cpp.getlines '|' m1)
      (Cpp.getlines '|' m2) hperm.symm (Aggregator.startLocals a)
    have e1 : ∀ m : Str, Cpp.startsWith "TOTAL_SECTIONS:".toList m = false →
        ((∃ e, (Aggregator.parseResult stod a m).2 = some e) ↔
          (∃ e, (Aggregator.parseTokens stod (Aggregator.startLocals a)
            (Cpp.getlines '|' m)).2 = some e)) := by
      intro m hm
      rw [Aggregator.parseResult_result stod a m hm]
      rcases Aggregator.parseTokens stod (Aggregator.startLocals a) (Cpp.getlines '|' m)
        with ⟨l, o⟩
      cases o with
      | none => exact Iff.rfl
      | some e => exact Iff.rfl
    rw [e1 m1 h1, e1 m2 h2]
    exact ht
  have hmal : Spec.messageMalformed stod m1 = Spec.messageMalformed stod m2 := by
    have i1 := Aggregator.parseResult_throws_iff stod a m1
    have i2 := Aggregator.parseResult_throws_iff stod a m2
    cases hb1 : Spec.messageMalformed stod m1 with
    | true =>
      exact (i2.mp (hthrow.mp (i1.mpr hb1))).symm
    | false =>
      cases hb2 : Spec.messageMalformed stod m2 with
      | false => rfl
      | true =>
        have := i1.mp (hthrow.mpr (i2.mpr hb2))
        rw [hb1] at this
        cases this
  refine ⟨hthrow, hmal, ?_⟩
  intro hok
  have hnone : (Aggregator.parseResult stod a m1).2 = none := by
    cases hr : (Aggregator.parseResult stod a m1).2 with
    | none => rfl
    | some e =>
      have := (Aggregator.parseResult_throws_iff stod a m1).mp ⟨e, hr⟩
      rw [hok] at this
      cases this
  refine ⟨hnone, ?_⟩
  rw [Aggregator.parseResult_result stod a m1 h1] at hnone ⊢
  rw [Aggregator.parseResult_result stod a m2 h2]
  rcases hp : Aggregator.parseTokens stod (Aggregator.startLocals a) (Cpp.getlines '|' m1)
    with ⟨lf, o⟩
  rw [hp] at hnone
  cases o with
  | some e => cases hnone
  | none =>
    have hf := hp
    rw [Aggregator.parseTokens_filter] at hf
    have h3 := Aggregator.parseTokens_perm stod _ _ hperm.symm (Aggregator.startLocals a) lf
      honce hf
    have h4 : Aggregator.parseTokens stod (Aggregator.startLocals a) (Cpp.getlines '|' m2) =
        (lf, none) := by
      rw [Aggregator.parseTokens_filter]
      exact h3
    rw [h4]

set_option maxRecDepth 100000 in
/-- Witness of C22: the fields of a result in another order, with two fields
of unrecognised prefix added. -/
theorem C22_field_order_irrelevant_witness :
    Cpp.startsWith "TOTAL_SECTIONS:".toList
        "SECTION_1|words:3|top:a:2;b:1|sorted:Hi you.~Yo.".toList = false ∧
      Spec.messageMalformed stodDecimal
        "SECTION_1|words:3|top:a:2;b:1|sorted:Hi you.~Yo.".toList = false ∧
      Aggregator.parseResult stodDecimal (Aggregator.init 3)
          "names_replaced:4|sorted:Hi you.~Yo.|top:a:2;b:1|SECTION_1|extra|words:3".toList =
        Aggregator.parseResult stodDecimal (Aggregator.init 3)
          "SECTION_1|words:3|top:a:2;b:1|sorted:Hi you.~Yo.".toList :=
  ⟨by decide, by decide,
    ((C22_field_order_irrelevant stodDecimal (Aggregator.init 3)
      "SECTION_1|words:3|top:a:2;b:1|sorted:Hi you.~Yo.".toList
      "names_replaced:4|sorted:Hi you.~Yo.|top:a:2;b:1|SECTION_1|extra|words:3".toList
      (by decide) (by decide) (by decide) (by decide)).2.2 (by decide)).2⟩

set_option maxRecDepth 100000 in
/-- C22 as stated fails. When the count inside `top:` does not parse, the state
at the throw depends on the order of the fields: the `words:` field before it
has raised `total_words`, the one after it has not. And a field with the prefix
`TOTAL_SECTIONS:`, which is not a recognised field of a result, turns the
message into an announcement when it is moved to the front. -/
theorem C22_counterexample :
    ((Spec.recognisedFields "SECTION_0|words:5|top:a:x".toList).map Spec.fieldKind).Nodup ∧
      (Spec.recognisedFields "SECTION_0|top:a:x|words:5".toList).Perm
        (Spec.recognisedFields "SECTION_0|words:5|top:a:x".toList) ∧
      (Aggregator.parseResult stodDecimal (Aggregator.init 3)
        "SECTION_0|words:5|top:a:x".toList).1.total_words = 5 ∧
      (Aggregator.parseResult stodDecimal (Aggregator.init 3)
        "SECTION_0|top:a:x|words:5".toList).1.total_words = 0 ∧
      Spec.fieldKind "TOTAL_SECTIONS:9".toList = none ∧
      (Aggregator.parseResult stodDecimal (Aggregator.init 3)
        "SECTION_1|TOTAL_SECTIONS:9".toList).1.total_sections_expected = 0 ∧
      (Aggregator.parseResult stodDecimal (Aggregator.init 3)
        "TOTAL_SECTIONS:9|SECTION_1".toList).1.total_sections_expected = 9 := by
  decide

namespace Spec

open Cpp Aggregator

theorem getSlot_setSlot_same (k : FieldKind) (v : Slot k) (l : Locals) :
    getSlot k (setSlot k v l) = v := by
  cases k <;> rfl

end Spec

namespace Aggregator

open Cpp

/-- When the token loop ends without an exception, every part of the locals
holds what the fields of its kind decode to, in the order of the message. -/
theorem parseTokens_slots (stod : Str → Except StdExcept Double) (k : Spec.FieldKind) :
    ∀ (ts : List Str) (l lf : Locals), parseTokens stod l ts = (lf, none) →
      Spec.decodeFields stod k (Spec.getSlot k l)
        (ts.filter (fun t => decide (Spec.fieldKind t = some k))) =
        Except.ok (Spec.getSlot k lf) := by
  intro ts
  induction ts with
  | nil =>
    intro l lf h
    rw [parseTokens] at h
    rw [← (Prod.mk.inj h).1]
    rfl
  | cons t ts ih =>
    intro l lf h
    obtain ⟨l1, h1, h2⟩ := parseTokens_cons_ok stod l lf t ts h
    rw [Spec.parseToken_eq] at h1
    cases hk : Spec.fieldKind t with
    | none =>
      rw [hk] at h1
      have e : l = l1 := Except.ok.inj h1
      subst e
      rw [List.filter_cons, hk]
      have hne : ¬ ((none : Option Spec.FieldKind) = some k) := fun e => Option.noConfusion e
      simp only [hne, decide_False, Bool.false_eq_true, if_false]
      exact ih l lf h2
    | some k2 =>
      rw [hk] at h1
      simp only [] at h1
      cases hd : Spec.decodeField stod k2 t (Spec.getSlot k2 l) with
      | error e => rw [hd] at h1; cases h1
      | ok v =>
        rw [hd] at h1
        have e : Spec.setSlot k2 v l = l1 := Except.ok.inj h1
        subst e
        rw [List.filter_cons, hk]
        by_cases hkk : k2 = k
        · subst hkk
          simp only [decide_True, if_true]
          rw [Spec.decodeFields, hd]
          simp only []
          have := ih _ lf h2
          rw [Spec.getSlot_setSlot_same] at this
          exact this
        · have hne : ¬ (some k2 = some k) := fun e => hkk (Option.some.inj e)
          simp only [hne, decide_False, Bool.false_eq_true, if_false]
          have := ih _ lf h2
          rw [Spec.getSlot_setSlot_other k2 k hkk] at this
          exact this

end Aggregator

/-- C6 (as amended). A message that is not a `TOTAL_SECTIONS` announcement, has
no field beginning with `SECTION_` and holds no number that fails to parse is
accepted by `parseResult` without an exception. The result that it stores is
the decoded one: every part of it (word count, top words, sentiment, processed
text) is what the fields of its kind decode to in the order of the message,
from the default value on, and the total word count and the sentence ranking
of the Aggregator are advanced by the `words:` and `sorted:` fields. It is
stored under the empty section id, the processed-section count goes up by one,
and the Aggregator is complete afterwards if it was before or if the expected
count is positive and at most the new processed count. -/
theorem C6_missing_section_id_stored_under_empty_id (stod : Str → Except StdExcept Double)
    (a : Aggregator) (message : Str)
    (hcount : Cpp.startsWith "TOTAL_SECTIONS:".toList message = false)
    (hid : ∀ t ∈ Cpp.getlines '|' message, Cpp.startsWith "SECTION_".toList t = false)
    (hgood : Spec.messageMalformed stod message = false) :
    (Aggregator.parseResult stod a message).2 = none ∧
    (∃ l : Aggregator.Locals,
      (∀ k : Spec.FieldKind,
        Spec.decodeFields stod k (Spec.getSlot k (Aggregator.startLocals a))
          (Spec.fieldsOfKind k message) = Except.ok (Spec.getSlot k l)) ∧
      l.section_id = [] ∧
      (Aggregator.parseResult stod a message).1.results
        = Cpp.StdMap.modify [] {} (fun _ => l.result) a.results ∧
      (Cpp.StdMap.Ordered a.results →
        Cpp.StdMap.find [] (Aggregator.parseResult stod a message).1.results = some l.result) ∧
      (Aggregator.parseResult stod a message).1.total_words = l.total_words ∧
      (Aggregator.parseResult stod a message).1.sentences_by_length = l.sentences_by_length) ∧
    (Aggregator.parseResult stod a message).1.total_sections_processed
      = a.total_sections_processed + 1 ∧
    (Aggregator.parseResult stod a message).1.total_sections_expected
      = a.total_sections_expected ∧
    ((Aggregator.parseResult stod a message).1.all_results_received = true ↔
      (a.all_results_received = true ∨
        (0 < a.total_sections_expected ∧
          a.total_sections_expected ≤ a.total_sections_processed + 1))) := by
  have hok := Aggregator.parseResult_ok_of_wellFormed stod a message hgood
  refine ⟨hok, ?_⟩
  rw [Aggregator.parseResult_result stod a message hcount] at hok ⊢
  have hsec := Aggregator.parseTokens_section_id stod (Cpp.getlines '|' message)
    (Aggregator.startLocals a) hid
  rcases hp : Aggregator.parseTokens stod (Aggregator.startLocals a)
    (Cpp.getlines '|' message) with ⟨l, o⟩
  rw [hp] at hok hsec
  cases o with
  | some e => simp at hok
  | none =>
    have hs : l.section_id = [] := by simpa [Aggregator.startLocals] using hsec
    refine ⟨⟨l, ?_, hs, ?_, ?_, ?_, ?_⟩, ?_, ?_, ?_⟩
    · intro k
      exact Aggregator.parseTokens_slots stod k _ _ _ hp
    · show (Aggregator.storeResult a l).results = _
      rw [Aggregator.storeResult_results, hs]
    · intro hord
      show Cpp.StdMap.find [] (Aggregator.storeResult a l).results = _
      rw [Aggregator.storeResult_results, hs, Cpp.StdMap.find_modify_self _ _ _ _ hord]
    · exact Aggregator.storeResult_total_words a l
    · exact Aggregator.storeResult_sentences a l
    · exact Aggregator.storeResult_processed a l
    · exact Aggregator.storeResult_expected a l
    · show (Aggregator.storeResult a l).all_results_received = true ↔ _
      rw [Aggregator.storeResult_flag]; simp

set_option maxRecDepth 100000 in
/-- Witness of C6: a message with a word count, one top word and a processed
text but no section id, after the announcement of one section. The stored
result holds the three decoded parts. -/
theorem C6_missing_section_id_stored_under_empty_id_witness :
    (Aggregator.parseResult stodDecimal { Aggregator.init 10 with total_sections_expected := 1 }
      "words:3|top:a:2|processed_text:Hi".toList).1.results =
        [([], { word_count := some 3, word_frequencies := [("a".toList, 2)],
                processed_text := "Hi".toList })] ∧
      (Aggregator.parseResult stodDecimal { Aggregator.init 10 with total_sections_expected := 1 }
        "words:3|top:a:2|processed_text:Hi".toList).1.total_sections_processed = 0 + 1 := by
  obtain ⟨_, ⟨l, hk, _, hres, _, _, _⟩, hproc, _, _⟩ :=
    C6_missing_section_id_stored_under_empty_id stodDecimal
      { Aggregator.init 10 with total_sections_expected := 1 }
      "words:3|top:a:2|processed_text:Hi".toList (by decide) (by decide) (by decide)
  refine ⟨?_, hproc⟩
  have h1 : (some (3 : Int), (0 : Int) + 3) = Spec.getSlot Spec.FieldKind.words l :=
    Except.ok.inj (hk Spec.FieldKind.words)
  have h2 : [("a".toList, (2 : Int))] = Spec.getSlot Spec.FieldKind.top l :=
    Except.ok.inj (hk Spec.FieldKind.top)
  have h3 : (([] : Str), (none : Option Double)) = Spec.getSlot Spec.FieldKind.sentiment l :=
    Except.ok.inj (hk Spec.FieldKind.sentiment)
  have h4 : "Hi".toList = Spec.getSlot Spec.FieldKind.processed_text l :=
    Except.ok.inj (hk Spec.FieldKind.processed_text)
  have e : l.result = { word_count := some 3, word_frequencies := [("a".toList, 2)],
                        processed_text := "Hi".toList } := by
    obtain ⟨tw, sb, ⟨wc, wf, ss, sl, pt⟩, sid⟩ := l
    have a1 := congrArg Prod.fst h1
    have a3 := congrArg Prod.fst h3
    have a4 := congrArg Prod.snd h3
    simp only [Spec.getSlot] at a1 h2 a3 a4 h4
    subst a1 h2 a3 a4 h4
    rfl
  rw [hres, e]
  rfl

namespace Cpp

theorem roundTiesEven_close (y : ℚ) : |(roundTiesEven y : ℚ) - y| ≤ 1 / 2 := by
  unfold roundTiesEven
  have h1 := Int.floor_le y
  have h2 := Int.lt_floor_add_one y
  simp only []
  split_ifs with a b c
  · rw [abs_le]; constructor <;> linarith
  · push_cast; rw [abs_le]; constructor <;> linarith
  · rw [abs_le]; constructor <;> linarith
  · push_cast; rw [abs_le]; constructor <;> linarith

theorem roundTiesEven_intCast (z : Int) : roundTiesEven (z : ℚ) = z := by
  unfold roundTiesEven
  simp only [Int.floor_intCast, sub_self]
  rw [if_pos (by norm_num)]

theorem roundTiesEven_eq (y : ℚ) (z : Int) (h1 : (z : ℚ) - 1 / 2 < y) (h2 : y < z + 1 / 2) :
    roundTiesEven y = z := by
  unfold roundTiesEven
  have f1 := Int.floor_le y
  have f2 := Int.lt_floor_add_one y
  have a1 : ⌊y⌋ < z + 1 := by
    have : ((⌊y⌋ : Int) : ℚ) < ((z + 1 : Int) : ℚ) := by push_cast; linarith
    exact_mod_cast this
  have a2 : z < ⌊y⌋ + 2 := by
    have : ((z : Int) : ℚ) < ((⌊y⌋ + 2 : Int) : ℚ) := by push_cast; linarith
    exact_mod_cast this
  simp only []
  have hcases : ⌊y⌋ = z ∨ ⌊y⌋ = z - 1 := by omega
  rcases hcases with e | e
  · rw [e, if_pos (by linarith)]
  · rw [e]
    have hz : ((z - 1 : Int) : ℚ) = (z : ℚ) - 1 := by push_cast; ring
    rw [if_neg (by rw [hz]; linarith), if_pos (by rw [hz]; linarith)]
    omega

theorem roundTiesEven_tie (f : Int) :
    roundTiesEven ((f : ℚ) + 1 / 2) = if f % 2 = 0 then f else f + 1 := by
  unfold roundTiesEven
  have hf : ⌊(f : ℚ) + 1 / 2⌋ = f := by
    rw [Int.floor_eq_iff]; constructor <;> linarith
  simp only [hf]
  rw [if_neg (by norm_num), if_neg (by norm_num)]

theorem two_zpow_pos (e : Int) : (0 : ℚ) < 2 ^ e := zpow_pos (by norm_num) e

theorem binade_eq (x : ℚ) (e : Int) (h1 : (2 : ℚ) ^ e ≤ |x|) (h2 : |x| < 2 ^ (e + 1))
    (h3 : -1022 ≤ e) : binade x = e := by
  unfold binade
  have hpos : 0 < |x| := lt_of_lt_of_le (two_zpow_pos e) h1
  have a1 : e ≤ Int.log 2 |x| := by
    rw [← Int.zpow_le_iff_le_log (by norm_num) hpos]
    exact_mod_cast h1
  have a2 : Int.log 2 |x| < e + 1 := by
    rw [← Int.lt_zpow_iff_log_lt (by norm_num) hpos]
    exact_mod_cast h2
  omega

theorem roundBinary64_zero : roundBinary64 0 = 0 := by
  unfold roundBinary64
  rw [zero_div]
  have := roundTiesEven_intCast 0
  rw [Int.cast_zero] at this
  rw [this, Int.cast_zero, zero_mul]

/-- Rounding is off by at most half the spacing of the binary64 numbers around `x`. -/
theorem roundBinary64_half_spacing (x : ℚ) :
    |roundBinary64 x - x| ≤ 2 ^ (binade x - 53) := by
  unfold roundBinary64
  have hq := two_zpow_pos (binade x - 52)
  have hc := roundTiesEven_close (x / 2 ^ (binade x - 52))
  have e1 : (roundTiesEven (x / 2 ^ (binade x - 52)) : ℚ) * 2 ^ (binade x - 52) - x =
      ((roundTiesEven (x / 2 ^ (binade x - 52)) : ℚ) - x / 2 ^ (binade x - 52)) *
        2 ^ (binade x - 52) := by
    field_simp
  have e2 : (2 : ℚ) ^ (binade x - 53) = 1 / 2 * 2 ^ (binade x - 52) := by
    have : binade x - 53 = (binade x - 52) - 1 := by ring
    rw [this, zpow_sub_one₀ (by norm_num)]
    ring
  rw [e1, abs_mul, abs_of_pos hq, e2]
  exact mul_le_mul_of_nonneg_right hc (le_of_lt hq)

/-- The relative error of rounding is at most `2^-53`, but for the absolute
error `2^-1075` among the subnormal numbers. -/
theorem roundBinary64_error (x : ℚ) :
    |roundBinary64 x - x| ≤ |x| * (1 / 2 ^ 53) + 1 / 2 ^ 1075 := by
  by_cases hx : x = 0
  · rw [hx, roundBinary64_zero]; norm_num
  have hpos : 0 < |x| := abs_pos.mpr hx
  have h := roundBinary64_half_spacing x
  have hle : (2 : ℚ) ^ (binade x - 53) ≤ |x| * (1 / 2 ^ 53) + 1 / 2 ^ 1075 := by
    unfold binade
    rcases le_total (Int.log 2 |x|) (-1022) with hl | hl
    · rw [max_eq_right hl]
      have : (2 : ℚ) ^ ((-1022 : Int) - 53) = 1 / 2 ^ 1075 := by
        rw [show ((-1022 : Int) - 53) = -((1075 : ℕ) : Int) by norm_num, zpow_neg, zpow_natCast]
        rw [one_div]
      rw [this]
      have : 0 ≤ |x| * (1 / 2 ^ 53) := by positivity
      linarith
    · rw [max_eq_left hl]
      have hlog := Int.zpow_log_le_self (b := 2) (r := |x|) (by norm_num) hpos
      have hlog2 : (2 : ℚ) ^ Int.log 2 |x| ≤ |x| := by exact_mod_cast hlog
      have : (2 : ℚ) ^ (Int.log 2 |x| - 53) = 2 ^ Int.log 2 |x| * (1 / 2 ^ 53) := by
        rw [zpow_sub₀ (by norm_num)]
        rw [show ((53 : Int)) = ((53 : ℕ) : Int) by norm_num, zpow_natCast]
        ring
      rw [this]
      have h53 : (0 : ℚ) ≤ 1 / 2 ^ 53 := by positivity
      have := mul_le_mul_of_nonneg_right hlog2 h53
      have : (0 : ℚ) ≤ 1 / 2 ^ 1075 := by positivity
      linarith
  exact le_trans h hle

/-- A finite binary64 number is left unchanged by rounding, and is finite. -/
theorem roundBinary64_exact (x : ℚ) (h : Spec.IsBinary64 x) :
    roundBinary64 x = x ∧ |x| < 2 ^ 1024 := by
  obtain ⟨m, e, hm, he1, he2, rfl⟩ := h
  have hmq : |(m : ℚ)| < 2 ^ 53 := by
    have : ((|m| : Int) : ℚ) < ((2 ^ 53 : Int) : ℚ) := by exact_mod_cast hm
    rw [Int.cast_abs] at this
    exact_mod_cast this
  have hfin : |(m : ℚ) * 2 ^ e| < 2 ^ 1024 := by
    rw [abs_mul, abs_of_pos (two_zpow_pos e)]
    have h1 : (2 : ℚ) ^ e ≤ 2 ^ (971 : Int) := zpow_le_zpow_right₀ (by norm_num) he2
    have h2 : |(m : ℚ)| * 2 ^ e ≤ |(m : ℚ)| * 2 ^ (971 : Int) :=
      mul_le_mul_of_nonneg_left h1 (abs_nonneg _)
    have h3 : |(m : ℚ)| * 2 ^ (971 : Int) < 2 ^ 53 * 2 ^ (971 : Int) :=
      mul_lt_mul_of_pos_right hmq (two_zpow_pos _)
    have h4 : (2 : ℚ) ^ 53 * 2 ^ (971 : Int) = 2 ^ 1024 := by
      rw [show ((971 : Int)) = ((971 : ℕ) : Int) by norm_num, zpow_natCast, ← pow_add]
    linarith
  refine ⟨?_, hfin⟩
  by_cases hm0 : m = 0
  · subst hm0
    simp only [Int.cast_zero, zero_mul]
    exact roundBinary64_zero
  have hmpos : (0 : ℚ) < |(m : ℚ)| := abs_pos.mpr (by exact_mod_cast hm0)
  have hxpos : 0 < |(m : ℚ) * 2 ^ e| := by
    rw [abs_mul, abs_of_pos (two_zpow_pos e)]
    exact mul_pos hmpos (two_zpow_pos e)
  have hb : binade ((m : ℚ) * 2 ^ e) - 52 ≤ e := by
    unfold binade
    have hlt : |(m : ℚ) * 2 ^ e| < 2 ^ (53 + e) := by
      rw [abs_mul, abs_of_pos (two_zpow_pos e), zpow_add₀ (by norm_num)]
      rw [show ((53 : Int)) = ((53 : ℕ) : Int) by norm_num, zpow_natCast]
      exact mul_lt_mul_of_pos_right hmq (two_zpow_pos e)
    have hlog : Int.log 2 |(m : ℚ) * 2 ^ e| < 53 + e := by
      rw [← Int.lt_zpow_iff_log_lt (by norm_num) hxpos]
      exact_mod_cast hlt
    rcases le_total (Int.log 2 |(m : ℚ) * 2 ^ e|) (-1022) with hl | hl
    · rw [max_eq_right hl]; omega
    · rw [max_eq_left hl]; omega
  unfold roundBinary64
  obtain ⟨k, hk⟩ := Int.eq_ofNat_of_zero_le (sub_nonneg.mpr hb)
  have hdiv : (m : ℚ) * 2 ^ e / 2 ^ (binade ((m : ℚ) * 2 ^ e) - 52) = ((m * 2 ^ k : Int) : ℚ) := by
    rw [mul_div_assoc, ← zpow_sub₀ (by norm_num), hk, zpow_natCast]
    push_cast
    ring
  rw [hdiv, roundTiesEven_intCast]
  push_cast
  rw [mul_assoc, ← zpow_natCast, ← hk, ← zpow_add₀ (by norm_num)]
  congr 2
  ring

end Cpp

namespace Spec

open Cpp

theorem binary64SumFrom_nil (t : ℚ) : binary64SumFrom t [] = some t := rfl

theorem binary64SumFrom_cons (t s : ℚ) (ss : List ℚ) :
    binary64SumFrom t (s :: ss) =
      match Cpp.doubleAdd t s with
      | some t1 => binary64SumFrom t1 ss
      | none => none := rfl

theorem doubleAdd_exact (a b : ℚ) (h : IsBinary64 (a + b)) : doubleAdd a b = some (a + b) := by
  obtain ⟨h1, h2⟩ := roundBinary64_exact _ h
  unfold doubleAdd
  rw [h1, if_pos h2]

/-- When no partial sum needs rounding, the binary64 sum is the exact sum. -/
theorem binary64SumFrom_exact :
    ∀ (ss : List ℚ) (t : ℚ),
      (∀ k, 1 ≤ k → k ≤ ss.length → IsBinary64 (t + (ss.take k).sum)) →
      binary64SumFrom t ss = some (t + ss.sum) := by
  intro ss
  induction ss with
  | nil =>
    intro t _
    rw [binary64SumFrom_nil, List.sum_nil, add_zero]
  | cons s ss ih =>
    intro t h
    have h1 : IsBinary64 (t + s) := by
      have := h 1 (le_refl _) (by simp)
      simpa using this
    rw [binary64SumFrom_cons, doubleAdd_exact t s h1]
    simp only []
    rw [ih (t + s) (fun k hk1 hk2 => by
      have := h (k + 1) (by omega) (by simp; omega)
      rw [List.take_succ_cons, List.sum_cons, ← add_assoc] at this
      exact this)]
    rw [List.sum_cons, add_assoc]

theorem sizeToDouble_exact (n : Nat) (h : n < 2 ^ 53) : sizeToDouble n = (n : ℚ) := by
  unfold sizeToDouble
  refine (roundBinary64_exact _ ⟨(n : Int), 0, ?_, by norm_num, by norm_num, by simp⟩).1
  rw [abs_of_nonneg (by positivity)]
  exact_mod_cast h

/-- The binary64 sum of scores between -1 and 1 is finite and close to the
exact sum. -/
theorem binary64SumFrom_error :
    ∀ (ss : List ℚ) (t S : ℚ) (i : Nat),
      (∀ s ∈ ss, |s| ≤ 1) → |S| ≤ i → |t - S| ≤ (i : ℚ) * (i + 1) * (1 / 2 ^ 53) →
      i + ss.length ≤ 2 ^ 52 →
      ∃ t1, binary64SumFrom t ss = some t1 ∧
        |t1 - (S + ss.sum)| ≤
          ((i + ss.length : Nat) : ℚ) * ((i + ss.length : Nat) + 1) * (1 / 2 ^ 53) := by
  intro ss
  induction ss with
  | nil =>
    intro t S i _ _ hE _
    refine ⟨t, rfl, ?_⟩
    simpa using hE
  | cons s ss ih =>
    intro t S i hs hS hE hlen
    have hs1 : |s| ≤ 1 := hs s (List.mem_cons_self _ _)
    have hi : (i : ℚ) ≤ 2 ^ 52 - 1 := by
      have : i + 1 ≤ 2 ^ 52 := by
        rw [List.length_cons] at hlen; omega
      have h2 : ((i + 1 : Nat) : ℚ) ≤ ((2 ^ 52 : Nat) : ℚ) := by exact_mod_cast this
      push_cast at h2
      linarith
    have hi0 : (0 : ℚ) ≤ i := by positivity
    have hiu : (i : ℚ) * (1 / 2 ^ 53) ≤ 1 / 2 := by
      have : (i : ℚ) * (1 / 2 ^ 53) ≤ (2 ^ 52 - 1) * (1 / 2 ^ 53) :=
        mul_le_mul_of_nonneg_right hi (by positivity)
      have e : ((2 : ℚ) ^ 52 - 1) * (1 / 2 ^ 53) ≤ 1 / 2 := by norm_num
      linarith
    have hE0 : 0 ≤ |t - S| := abs_nonneg _
    have hEle : |t - S| ≤ ((i : ℚ) + 1) * (1 / 2) := by
      have : (i : ℚ) * (i + 1) * (1 / 2 ^ 53) = ((i : ℚ) + 1) * ((i : ℚ) * (1 / 2 ^ 53)) := by ring
      rw [this] at hE
      have := mul_le_mul_of_nonneg_left hiu (by positivity : (0 : ℚ) ≤ (i : ℚ) + 1)
      linarith
    have hx : |t + s| ≤ (i : ℚ) + 1 + |t - S| := by
      have e : t + s = S + (t - S) + s := by ring
      rw [e]
      have a1 := abs_add (S + (t - S)) s
      have a2 := abs_add S (t - S)
      linarith
    have herr := roundBinary64_error (t + s)
    have hxu : |t + s| * (1 / 2 ^ 53) ≤ ((i : ℚ) + 1) * (1 / 2 ^ 53) + |t - S| * (1 / 2 ^ 53) := by
      have := mul_le_mul_of_nonneg_right hx (by positivity : (0 : ℚ) ≤ 1 / 2 ^ 53)
      linarith
    have hEu : |t - S| * (1 / 2 ^ 53) ≤ ((i : ℚ) + 1) * (1 / 2 ^ 53) * (1 / 2) := by
      have h1 := mul_le_mul_of_nonneg_right hE (by positivity : (0 : ℚ) ≤ 1 / 2 ^ 53)
      have h2 : (i : ℚ) * (i + 1) * (1 / 2 ^ 53) * (1 / 2 ^ 53) =
          ((i : ℚ) + 1) * (1 / 2 ^ 53) * ((i : ℚ) * (1 / 2 ^ 53)) := by ring
      have h3 := mul_le_mul_of_nonneg_left hiu
        (by positivity : (0 : ℚ) ≤ ((i : ℚ) + 1) * (1 / 2 ^ 53))
      linarith
    have hd : (1 : ℚ) / 2 ^ 1075 ≤ ((i : ℚ) + 1) * (1 / 2 ^ 53) * (1 / 2) := by
      have e1 : (1 : ℚ) / 2 ^ 1075 ≤ 1 * (1 / 2 ^ 53) * (1 / 2) := by norm_num
      have e2 : (1 : ℚ) * (1 / 2 ^ 53) * (1 / 2) ≤ ((i : ℚ) + 1) * (1 / 2 ^ 53) * (1 / 2) := by
        apply mul_le_mul_of_nonneg_right _ (by norm_num)
        apply mul_le_mul_of_nonneg_right _ (by positivity)
        linarith
      linarith
    have hfin : |roundBinary64 (t + s)| < 2 ^ 1024 := by
      have a1 : |roundBinary64 (t + s)| ≤ |roundBinary64 (t + s) - (t + s)| + |t + s| := by
        have := abs_add (roundBinary64 (t + s) - (t + s)) (t + s)
        rw [sub_add_cancel] at this
        exact this
      have a2 : |t + s| ≤ 2 ^ 54 := by
        have : ((i : ℚ) + 1) * (1 / 2) ≤ 2 ^ 52 := by linarith
        have h52 : (2 : ℚ) ^ 52 + 2 ^ 52 + 2 ^ 52 ≤ 2 ^ 54 := by norm_num
        linarith
      have a3 : |t + s| * (1 / 2 ^ 53) ≤ 2 := by
        have := mul_le_mul_of_nonneg_right a2 (by positivity : (0 : ℚ) ≤ 1 / 2 ^ 53)
        have e : (2 : ℚ) ^ 54 * (1 / 2 ^ 53) = 2 := by norm_num
        linarith
      have a4 : (1 : ℚ) / 2 ^ 1075 ≤ 1 := by norm_num
      have a5 : (2 : ℚ) + 1 + 2 ^ 54 < 2 ^ 1024 := by norm_num
      linarith
    have hadd : doubleAdd t s = some (roundBinary64 (t + s)) := by
      unfold doubleAdd
      rw [if_pos hfin]
    have hS1 : |S + s| ≤ ((i + 1 : Nat) : ℚ) := by
      have := abs_add S s
      push_cast
      linarith
    have hE1 : |roundBinary64 (t + s) - (S + s)| ≤
        ((i + 1 : Nat) : ℚ) * (((i + 1 : Nat) : ℚ) + 1) * (1 / 2 ^ 53) := by
      have e : roundBinary64 (t + s) - (S + s) = (roundBinary64 (t + s) - (t + s)) + (t - S) := by
        ring
      rw [e]
      have a1 := abs_add (roundBinary64 (t + s) - (t + s)) (t - S)
      push_cast
      have e2 : ((i : ℚ) + 1) * ((i : ℚ) + 1 + 1) * (1 / 2 ^ 53) =
          ((i : ℚ) + 1) * (1 / 2 ^ 53) + ((i : ℚ) + 1) * (1 / 2 ^ 53) * (1 / 2) +
            ((i : ℚ) + 1) * (1 / 2 ^ 53) * (1 / 2) + (i : ℚ) * (i + 1) * (1 / 2 ^ 53) := by ring
      rw [e2]
      linarith
    obtain ⟨t1, ht1, hb⟩ := ih (roundBinary64 (t + s)) (S + s) (i + 1)
      (fun x hx => hs x (List.mem_cons_of_mem _ hx)) hS1 hE1
      (by rw [List.length_cons] at hlen; omega)
    refine ⟨t1, ?_, ?_⟩
    · rw [binary64SumFrom_cons, hadd]
      exact ht1
    · have e1 : S + (s :: ss).sum = S + s + ss.sum := by rw [List.sum_cons]; ring
      have e2 : i + (s :: ss).length = i + 1 + ss.length := by rw [List.length_cons]; omega
      rw [e1, e2]
      exact hb

theorem abs_sum_le_length (ss : List ℚ) (h : ∀ s ∈ ss, |s| ≤ 1) : |ss.sum| ≤ ss.length := by
  induction ss with
  | nil => simp
  | cons s ss ih =>
    rw [List.sum_cons, List.length_cons]
    have := abs_add s ss.sum
    have h1 := h s (List.mem_cons_self _ _)
    have h2 := ih (fun x hx => h x (List.mem_cons_of_mem _ hx))
    push_cast
    linarith

/-- The binary64 mean of at most `2^52` scores between -1 and 1 is a finite
number within `(n + 4) / 2^53` of their exact mean. -/
theorem binary64Mean_error (ss : List ℚ) (hne : ss ≠ []) (h : ∀ s ∈ ss, |s| ≤ 1)
    (hlen : ss.length ≤ 2 ^ 52) :
    ∃ avg, binary64Mean ss = some avg ∧
      |avg - ss.sum / (ss.length : ℚ)| ≤ ((ss.length : ℚ) + 4) * (1 / 2 ^ 53) := by
  obtain ⟨t1, ht1, hb⟩ := binary64SumFrom_error ss 0 0 0 h (by simp) (by simp) (by omega)
  simp only [zero_add] at hb
  have hn1 : 1 ≤ ss.length := by
    cases ss with
    | nil => exact absurd rfl hne
    | cons s ss => simp
  have hnq1 : (1 : ℚ) ≤ (ss.length : ℚ) := by exact_mod_cast hn1
  have hnq2 : (ss.length : ℚ) ≤ 2 ^ 52 := by exact_mod_cast hlen
  have hnpos : (0 : ℚ) < (ss.length : ℚ) := by linarith
  have hsize : sizeToDouble ss.length = (ss.length : ℚ) := sizeToDouble_exact _ (by omega)
  have hsum := abs_sum_le_length ss h
  -- the quotient before rounding
  have hq : |t1 / (ss.length : ℚ) - ss.sum / (ss.length : ℚ)| ≤
      ((ss.length : ℚ) + 1) * (1 / 2 ^ 53) := by
    rw [← sub_div, abs_div, abs_of_pos hnpos, div_le_iff₀ hnpos]
    have e : ((ss.length : ℚ) + 1) * (1 / 2 ^ 53) * (ss.length : ℚ) =
        (ss.length : ℚ) * ((ss.length : ℚ) + 1) * (1 / 2 ^ 53) := by ring
    rw [e]
    exact hb
  have hnu : ((ss.length : ℚ) + 1) * (1 / 2 ^ 53) ≤ 1 := by
    have := mul_le_mul_of_nonneg_right (by linarith : (ss.length : ℚ) + 1 ≤ 2 ^ 53)
      (by positivity : (0 : ℚ) ≤ 1 / 2 ^ 53)
    have e : (2 : ℚ) ^ 53 * (1 / 2 ^ 53) = 1 := by norm_num
    linarith
  have hqabs : |t1 / (ss.length : ℚ)| ≤ 2 := by
    have a1 : |ss.sum / (ss.length : ℚ)| ≤ 1 := by
      rw [abs_div, abs_of_pos hnpos, div_le_iff₀ hnpos]
      linarith
    have a2 := abs_add (t1 / (ss.length : ℚ) - ss.sum / (ss.length : ℚ))
      (ss.sum / (ss.length : ℚ))
    rw [sub_add_cancel] at a2
    linarith
  have herr := roundBinary64_error (t1 / (ss.length : ℚ))
  have hqu : |t1 / (ss.length : ℚ)| * (1 / 2 ^ 53) ≤ 2 * (1 / 2 ^ 53) :=
    mul_le_mul_of_nonneg_right hqabs (by positivity)
  have hd : (1 : ℚ) / 2 ^ 1075 ≤ 1 * (1 / 2 ^ 53) := by norm_num
  have hfin : |roundBinary64 (t1 / (ss.length : ℚ))| < 2 ^ 1024 := by
    have a1 := abs_add (roundBinary64 (t1 / (ss.length : ℚ)) - t1 / (ss.length : ℚ))
      (t1 / (ss.length : ℚ))
    rw [sub_add_cancel] at a1
    have a2 : (2 : ℚ) * (1 / 2 ^ 53) + 1 * (1 / 2 ^ 53) + 2 < 2 ^ 1024 := by norm_num
    linarith
  refine ⟨roundBinary64 (t1 / (ss.length : ℚ)), ?_, ?_⟩
  · unfold binary64Mean
    rw [ht1]
    simp only []
    unfold doubleDiv
    rw [hsize, if_neg (ne_of_gt hnpos), if_pos hfin]
  · have e : roundBinary64 (t1 / (ss.length : ℚ)) - ss.sum / (ss.length : ℚ) =
        (roundBinary64 (t1 / (ss.length : ℚ)) - t1 / (ss.length : ℚ)) +
          (t1 / (ss.length : ℚ) - ss.sum / (ss.length : ℚ)) := by ring
    rw [e]
    have a1 := abs_add (roundBinary64 (t1 / (ss.length : ℚ)) - t1 / (ss.length : ℚ))
      (t1 / (ss.length : ℚ) - ss.sum / (ss.length : ℚ))
    have e2 : ((ss.length : ℚ) + 4) * (1 / 2 ^ 53) =
        2 * (1 / 2 ^ 53) + 1 * (1 / 2 ^ 53) + ((ss.length : ℚ) + 1) * (1 / 2 ^ 53) := by ring
    rw [e2]
    linarith

/-- When neither a partial sum nor the quotient needs rounding, the binary64
mean is the exact mean. -/
theorem binary64Mean_exact (ss : List ℚ) (hne : ss ≠ []) (hlen : ss.length < 2 ^ 53)
    (hsum : ∀ k, k ≤ ss.length → IsBinary64 ((ss.take k).sum))
    (hquot : IsBinary64 (ss.sum / (ss.length : ℚ))) :
    binary64Mean ss = some (ss.sum / (ss.length : ℚ)) := by
  have h1 := binary64SumFrom_exact ss 0 (fun k _ hk => by
    rw [zero_add]; exact hsum k hk)
  rw [zero_add] at h1
  obtain ⟨h2, h3⟩ := roundBinary64_exact _ hquot
  have hn : (ss.length : ℚ) ≠ 0 := by
    cases ss with
    | nil => exact absurd rfl hne
    | cons s ss => rw [List.length_cons]; positivity
  unfold binary64Mean
  rw [h1]
  simp only []
  unfold doubleDiv
  rw [sizeToDouble_exact _ hlen, if_neg hn, h2, if_pos h3]

end Spec

namespace Cpp

/-- The value of the rounding, from the exponent of `x` and the integer
nearest to `x` in units of the spacing. -/
theorem roundBinary64_eq (x : ℚ) (e z : Int) (h1 : (2 : ℚ) ^ e ≤ |x|) (h2 : |x| < 2 ^ (e + 1))
    (h3 : -1022 ≤ e) (h4 : (z : ℚ) - 1 / 2 < x / 2 ^ (e - 52))
    (h5 : x / 2 ^ (e - 52) < z + 1 / 2) :
    roundBinary64 x = (z : ℚ) * 2 ^ (e - 52) := by
  unfold roundBinary64
  rw [binade_eq x e h1 h2 h3, roundTiesEven_eq _ z h4 h5]

/-- The value of the rounding of a number halfway between two binary64
numbers. -/
theorem roundBinary64_tie (x : ℚ) (e f : Int) (h1 : (2 : ℚ) ^ e ≤ |x|) (h2 : |x| < 2 ^ (e + 1))
    (h3 : -1022 ≤ e) (h4 : x / 2 ^ (e - 52) = (f : ℚ) + 1 / 2) :
    roundBinary64 x = ((if f % 2 = 0 then f else f + 1 : Int) : ℚ) * 2 ^ (e - 52) := by
  unfold roundBinary64
  rw [binade_eq x e h1 h2 h3, h4, roundTiesEven_tie]

end Cpp

namespace Aggregator

open Cpp

theorem sentimentStep_foldl (rs : List SectionResult) :
    ∀ (acc : Option ℚ) (p n k : Int), (∀ r ∈ rs, ∃ v, r.sentiment_score = some v) →
      rs.foldl sentimentStep (acc, p, n, k) =
        (acc.bind (fun t =>
            Spec.binary64SumFrom t (rs.map (fun r : SectionResult => r.sentiment_score.getD 0))),
         p + (rs.countP (fun r => r.sentiment_label = "positive".toList) : Int),
         n + (rs.countP (fun r => r.sentiment_label = "negative".toList) : Int),
         k + (rs.countP (fun r => ¬ r.sentiment_label = "positive".toList ∧
                                  ¬ r.sentiment_label = "negative".toList) : Int)) := by
  induction rs with
  | nil =>
    intro acc p n k _
    simp only [List.foldl_nil, List.map_nil, List.countP_nil, Nat.cast_zero, add_zero]
    cases acc <;> rfl
  | cons r rs ih =>
    intro acc p n k h
    obtain ⟨v, hv⟩ := h r (List.mem_cons_self _ _)
    have hrs : ∀ x ∈ rs, ∃ v, x.sentiment_score = some v :=
      fun x hx => h x (List.mem_cons_of_mem _ hx)
    have hpn : "positive".toList ≠ "negative".toList := by decide
    have hsum : (acc.bind (fun t => doubleAdd t v)).bind (fun t =>
          Spec.binary64SumFrom t (rs.map (fun r : SectionResult => r.sentiment_score.getD 0))) =
        acc.bind (fun t =>
          Spec.binary64SumFrom t
            ((r :: rs).map (fun r : SectionResult => r.sentiment_score.getD 0))) := by
      cases acc with
      | none => rfl
      | some t =>
        simp only [List.map_cons, hv, Option.getD_some, Option.some_bind]
        rw [Spec.binary64SumFrom_cons]
        cases doubleAdd t v <;> rfl
    rw [List.foldl_cons]
    by_cases h1 : r.sentiment_label = "positive".toList
    · have h2 : ¬ r.sentiment_label = "negative".toList := by rw [h1]; exact hpn
      have hstep : sentimentStep (acc, p, n, k) r =
          (acc.bind (fun t => doubleAdd t v), p + 1, n, k) := by
        unfold sentimentStep
        rw [if_pos h1, hv]
        cases acc <;> rfl
      rw [hstep, ih _ _ _ _ hrs, hsum]
      simp only [List.countP_cons]
      simp only [h1, h2, decide_True, decide_False, if_true, not_true_eq_false, false_and,
        Bool.false_eq_true, if_false, not_false_eq_true, and_true, Nat.add_zero]
      refine Prod.ext rfl (Prod.ext ?_ (Prod.ext ?_ ?_)) <;> simp
      ring
    · by_cases h2 : r.sentiment_label = "negative".toList
      · have hstep : sentimentStep (acc, p, n, k) r =
            (acc.bind (fun t => doubleAdd t v), p, n + 1, k) := by
          unfold sentimentStep
          rw [if_neg h1, if_pos h2, hv]
          cases acc <;> rfl
        rw [hstep, ih _ _ _ _ hrs, hsum]
        simp only [List.countP_cons]
        simp only [h1, h2, decide_True, decide_False, if_true, not_true_eq_false, and_false,
          Bool.false_eq_true, if_false, not_false_eq_true, true_and, Nat.add_zero]
        refine Prod.ext rfl (Prod.ext ?_ (Prod.ext ?_ ?_)) <;> simp
        ring
      · have hstep : sentimentStep (acc, p, n, k) r =
            (acc.bind (fun t => doubleAdd t v), p, n, k + 1) := by
          unfold sentimentStep
          rw [if_neg h1, if_neg h2, hv]
          cases acc <;> rfl
        rw [hstep, ih _ _ _ _ hrs, hsum]
        simp only [List.countP_cons]
        simp only [h1, h2, decide_True, decide_False, if_true,
          Bool.false_eq_true, if_false, not_false_eq_true, and_self, Nat.add_zero]
        refine Prod.ext rfl (Prod.ext ?_ (Prod.ext ?_ ?_)) <;> simp
        ring

theorem sentimentTotals_eq (results : StdMap SectionResult)
    (h : ∀ r ∈ results, ∃ v, r.2.sentiment_score = some v) :
    sentimentTotals results =
      (Spec.binary64SumFrom 0 (Spec.scoresOf results),
       (Spec.labelled "positive".toList results : Int),
       (Spec.labelled "negative".toList results : Int),
       ((results.countP (fun r => ¬ r.2.sentiment_label = "positive".toList ∧
                                  ¬ r.2.sentiment_label = "negative".toList) : Nat) : Int)) := by
  unfold sentimentTotals
  rw [sentimentStep_foldl (results.map Prod.snd) (some 0) 0 0 0
    (by
      intro r hr
      obtain ⟨x, hx, e⟩ := List.mem_map.mp hr
      rw [← e]; exact h x hx)]
  simp only [Spec.scoresOf, Spec.labelled, List.map_map, List.countP_map, zero_add]
  rfl

theorem averageSentiment_eq (results : StdMap SectionResult)
    (h : ∀ r ∈ results, ∃ v, r.2.sentiment_score = some v) :
    averageSentiment results = Spec.binary64Mean (Spec.scoresOf results) := by
  unfold averageSentiment Spec.binary64Mean
  rw [sentimentTotals_eq results h]
  simp only []
  have : (Spec.scoresOf results).length = results.length := by
    unfold Spec.scoresOf; rw [List.length_map]
  rw [this]
  cases Spec.binary64SumFrom 0 (Spec.scoresOf results) <;> rfl

end Aggregator

/-- C12 (as amended). Aggregated sentiment: for every non-empty set of stored
section results, each with its score, `getAggregatedSentiment` reports as
average the binary64 mean of the scores: they are added one after the other in
the order of the section ids, every sum rounded to binary64, and the sum is
divided in binary64 by the number of stored sections. For at most `2^52` scores
between -1 and 1 the average is a finite number within `(n + 4) / 2^53` of the
exact mean, and it is the exact mean when no partial sum and not the quotient
needs rounding. It reports the numbers of sections labelled positive and
negative and of the other sections; the three counts add up to the number of
stored sections, and the third is the number of sections labelled neutral when
every label is one of the three. -/
theorem C12_aggregated_sentiment (showDouble : Double → Str) (a : Aggregator)
    (hne : a.results ≠ [])
    (hscores : ∀ r ∈ a.results, ∃ v, r.2.sentiment_score = some v) :
    Aggregator.averageSentiment a.results = Spec.binary64Mean (Spec.scoresOf a.results) ∧
    Aggregator.getAggregatedSentiment showDouble a
      = (Spec.binary64Mean (Spec.scoresOf a.results)).map (fun avg =>
          "Average: ".toList ++ showDouble avg ++
          " (Positive: ".toList ++
          Cpp.to_string (Spec.labelled "positive".toList a.results : Int) ++
          ", Negative: ".toList ++
          Cpp.to_string (Spec.labelled "negative".toList a.results : Int) ++
          ", Neutral: ".toList ++
          Cpp.to_string ((a.results.length : Int)
            - (Spec.labelled "positive".toList a.results : Int)
            - (Spec.labelled "negative".toList a.results : Int)) ++ ")".toList) ∧
    ((∀ r ∈ a.results, ∀ v, r.2.sentiment_score = some v → |v| ≤ 1) →
      a.results.length ≤ 2 ^ 52 →
      ∃ avg, Aggregator.averageSentiment a.results = some avg ∧
        |avg - Spec.scoreSum a.results / (a.results.length : ℚ)|
          ≤ ((a.results.length : ℚ) + 4) * (1 / 2 ^ 53)) ∧
    ((∀ k, k ≤ a.results.length → Spec.IsBinary64 ((Spec.scoresOf a.results).take k).sum) →
      Spec.IsBinary64 (Spec.scoreSum a.results / (a.results.length : ℚ)) →
      a.results.length < 2 ^ 53 →
      Aggregator.averageSentiment a.results
        = some (Spec.scoreSum a.results / (a.results.length : ℚ))) ∧
    (Aggregator.sentimentTotals a.results).2.1
      + (Aggregator.sentimentTotals a.results).2.2.1
      + (Aggregator.sentimentTotals a.results).2.2.2 = (a.results.length : Int) ∧
    ((∀ r ∈ a.results, r.2.sentiment_label = "positive".toList ∨
        r.2.sentiment_label = "negative".toList ∨ r.2.sentiment_label = "neutral".toList) →
      (Aggregator.sentimentTotals a.results).2.2.2
        = (Spec.labelled "neutral".toList a.results : Int)) := by
  have ht := Aggregator.sentimentTotals_eq a.results hscores
  have havg := Aggregator.averageSentiment_eq a.results hscores
  have h3 := Aggregator.countP_three a.results
  have hlen : (Spec.scoresOf a.results).length = a.results.length := by
    unfold Spec.scoresOf; rw [List.length_map]
  have hsum : (Spec.scoresOf a.results).sum = Spec.scoreSum a.results := rfl
  have hne2 : Spec.scoresOf a.results ≠ [] := by
    intro h0
    have := congrArg List.length h0
    rw [hlen] at this
    exact hne (List.length_eq_zero.mp this)
  have hk : ((a.results.countP (fun r => ¬ r.2.sentiment_label = "positive".toList ∧
      ¬ r.2.sentiment_label = "negative".toList) : Nat) : Int)
      = (a.results.length : Int) - (Spec.labelled "positive".toList a.results : Int)
        - (Spec.labelled "negative".toList a.results : Int) := by
    unfold Spec.labelled
    omega
  refine ⟨havg, ?_, ?_, ?_, ?_, ?_⟩
  · unfold Aggregator.getAggregatedSentiment
    rw [havg, ht]
    simp only []
    rw [hk]
    cases Spec.binary64Mean (Spec.scoresOf a.results) <;> rfl
  · intro hb hn
    have := Spec.binary64Mean_error (Spec.scoresOf a.results) hne2
      (by
        intro s hs
        unfold Spec.scoresOf at hs
        obtain ⟨r, hr, e⟩ := List.mem_map.mp hs
        obtain ⟨v, hv⟩ := hscores r hr
        rw [hv] at e
        rw [← e]
        exact hb r hr v hv)
      (by rw [hlen]; exact hn)
    rw [hlen, hsum] at this
    rw [havg]
    exact this
  · intro hs hq hn
    rw [havg]
    have := Spec.binary64Mean_exact (Spec.scoresOf a.results) hne2 (by rw [hlen]; exact hn)
      (by rw [hlen]; exact hs) (by rw [hlen, hsum]; exact hq)
    rw [hlen, hsum] at this
    exact this
  · rw [ht]
    simp only []
    unfold Spec.labelled
    omega
  · intro hl
    rw [ht]
    simp only []
    rw [Aggregator.countP_neutral a.results hl]

namespace Spec

open Cpp

theorem doubleAdd_of_round (a b r : ℚ) (h : roundBinary64 (a + b) = r) (hf : |r| < 2 ^ 1024) :
    doubleAdd a b = some r := by
  unfold doubleAdd
  rw [h, if_pos hf]

theorem doubleDiv_of_round (a b r : ℚ) (hb : b ≠ 0) (h : roundBinary64 (a / b) = r)
    (hf : |r| < 2 ^ 1024) : doubleDiv a b = some r := by
  unfold doubleDiv
  rw [if_neg hb, h, if_pos hf]

theorem binary64SumFrom_cons_of (t s t1 : ℚ) (ss : List ℚ) (h : doubleAdd t s = some t1) :
    binary64SumFrom t (s :: ss) = binary64SumFrom t1 ss := by
  rw [binary64SumFrom_cons, h]

theorem binary64Mean_of (ss : List ℚ) (t r : ℚ) (h1 : binary64SumFrom 0 ss = some t)
    (h2 : doubleDiv t (sizeToDouble ss.length) = some r) : binary64Mean ss = some r := by
  unfold binary64Mean
  rw [h1]
  exact h2

end Spec

/-- Witness of C12: the scores 0.4 (positive) and -0.2 (negative), as the
binary64 numbers nearest to them, give the binary64 number nearest to 0.1 as
average, without any rounding, and the counts Positive 1, Negative 1,
Neutral 0. -/
theorem C12_aggregated_sentiment_witness :
    Cpp.roundBinary64 (2 / 5) = 3602879701896397 / 9007199254740992 ∧
    Cpp.roundBinary64 (-(1 / 5)) = -(3602879701896397 / 18014398509481984) ∧
    Cpp.roundBinary64 (1 / 10) = 3602879701896397 / 36028797018963968 ∧
    Aggregator.averageSentiment
      [("SECTION_0".toList,
          { sentiment_score := some (3602879701896397 / 9007199254740992 : ℚ),
            sentiment_label := "positive".toList }),
       ("SECTION_1".toList,
          { sentiment_score := some (-(3602879701896397 / 18014398509481984) : ℚ),
            sentiment_label := "negative".toList })]
      = some (3602879701896397 / 36028797018963968 : ℚ) ∧
    (Aggregator.sentimentTotals
      [("SECTION_0".toList,
          { sentiment_score := some (3602879701896397 / 9007199254740992 : ℚ),
            sentiment_label := "positive".toList }),
       ("SECTION_1".toList,
          { sentiment_score := some (-(3602879701896397 / 18014398509481984) : ℚ),
            sentiment_label := "negative".toList })]).2
      = (1, 1, 0) := by
  refine ⟨?_, ?_, ?_, ?_, by decide⟩
  · rw [Cpp.roundBinary64_eq (2 / 5) (-2) 7205759403792794
      (by norm_num [abs_of_pos]) (by norm_num [abs_of_pos]) (by norm_num)
      (by norm_num) (by norm_num)]
    norm_num
  · rw [Cpp.roundBinary64_eq (-(1 / 5)) (-3) (-7205759403792794)
      (by norm_num [abs_of_pos]) (by norm_num [abs_of_pos]) (by norm_num)
      (by norm_num) (by norm_num)]
    norm_num
  · rw [Cpp.roundBinary64_eq (1 / 10) (-4) 7205759403792794
      (by norm_num [abs_of_pos]) (by norm_num [abs_of_pos]) (by norm_num)
      (by norm_num) (by norm_num)]
    norm_num
  · refine ((C12_aggregated_sentiment (fun _ => []) { Aggregator.init 10 with results :=
        [("SECTION_0".toList,
            { sentiment_score := some (3602879701896397 / 9007199254740992 : ℚ),
              sentiment_label := "positive".toList }),
         ("SECTION_1".toList,
            { sentiment_score := some (-(3602879701896397 / 18014398509481984) : ℚ),
              sentiment_label := "negative".toList })] }
        (by simp) (by simp)).2.2.2.1 ?_ ?_ (by simp)).trans (by norm_num [Spec.scoreSum])
    · intro k hk
      have hk2 : k ≤ 2 := hk
      interval_cases k
      · exact ⟨0, 0, by norm_num, by norm_num, by norm_num, by simp⟩
      · exact ⟨3602879701896397, -53, by norm_num, by norm_num, by norm_num,
          by norm_num [Spec.scoresOf]⟩
      · exact ⟨3602879701896397, -54, by norm_num, by norm_num, by norm_num,
          by norm_num [Spec.scoresOf]⟩
    · exact ⟨3602879701896397, -55, by norm_num, by norm_num, by norm_num,
        by norm_num [Spec.scoreSum]⟩

/-- C12 as stated fails: the average is not computed in exact rational
arithmetic. The scores 0.1, 0.2 (positive) and -0.3 (negative), as the binary64
numbers nearest to them, have the exact mean `1 / (3 * 2^55)`, about 9.25e-18,
but the sum of the first two is rounded upwards, and the average that
`getAggregatedSentiment` computes is `6004799503160661 / 2^108`, about 1.85e-17,
twice as much. -/
theorem C12_counterexample :
    Cpp.roundBinary64 (1 / 10) = 3602879701896397 / 36028797018963968 ∧
    Cpp.roundBinary64 (1 / 5) = 3602879701896397 / 18014398509481984 ∧
    Cpp.roundBinary64 (-(3 / 10)) = -(5404319552844595 / 18014398509481984) ∧
    Aggregator.averageSentiment
      [("SECTION_0".toList,
          { sentiment_score := some (3602879701896397 / 36028797018963968 : ℚ),
            sentiment_label := "positive".toList }),
       ("SECTION_1".toList,
          { sentiment_score := some (3602879701896397 / 18014398509481984 : ℚ),
            sentiment_label := "positive".toList }),
       ("SECTION_2".toList,
          { sentiment_score := some (-(5404319552844595 / 18014398509481984) : ℚ),
            sentiment_label := "negative".toList })]
      = some (6004799503160661 / 324518553658426726783156020576256 : ℚ) ∧
    Spec.scoreSum
      [("SECTION_0".toList,
          { sentiment_score := some (3602879701896397 / 36028797018963968 : ℚ),
            sentiment_label := "positive".toList }),
       ("SECTION_1".toList,
          { sentiment_score := some (3602879701896397 / 18014398509481984 : ℚ),
            sentiment_label := "positive".toList }),
       ("SECTION_2".toList,
          { sentiment_score := some (-(5404319552844595 / 18014398509481984) : ℚ),
            sentiment_label := "negative".toList })] / 3
      = (1 / 108086391056891904 : ℚ) ∧
    (6004799503160661 / 324518553658426726783156020576256 : ℚ) ≠ 1 / 108086391056891904 := by
  refine ⟨?_, ?_, ?_, ?_, by norm_num [Spec.scoreSum], by norm_num⟩
  · rw [Cpp.roundBinary64_eq (1 / 10) (-4) 7205759403792794
      (by norm_num [abs_of_pos]) (by norm_num [abs_of_pos]) (by norm_num)
      (by norm_num) (by norm_num)]
    norm_num
  · rw [Cpp.roundBinary64_eq (1 / 5) (-3) 7205759403792794
      (by norm_num [abs_of_pos]) (by norm_num [abs_of_pos]) (by norm_num)
      (by norm_num) (by norm_num)]
    norm_num
  · rw [Cpp.roundBinary64_eq (-(3 / 10)) (-2) (-5404319552844595)
      (by norm_num [abs_of_pos]) (by norm_num [abs_of_pos]) (by norm_num)
      (by norm_num) (by norm_num)]
    norm_num
  · rw [Aggregator.averageSentiment_eq _ (by simp)]
    have h1 : Cpp.doubleAdd 0 (3602879701896397 / 36028797018963968) =
        some (3602879701896397 / 36028797018963968) := by
      have := Spec.doubleAdd_exact 0 (3602879701896397 / 36028797018963968)
        ⟨3602879701896397, -55, by norm_num, by norm_num, by norm_num, by norm_num⟩
      rw [zero_add] at this
      exact this
    have h2 : Cpp.doubleAdd (3602879701896397 / 36028797018963968)
        (3602879701896397 / 18014398509481984) =
        some (1351079888211149 / 4503599627370496) := by
      apply Spec.doubleAdd_of_round
      · rw [Cpp.roundBinary64_tie _ (-2) 5404319552844595
          (by norm_num [abs_of_pos]) (by norm_num [abs_of_pos]) (by norm_num) (by norm_num)]
        norm_num
      · norm_num [abs_of_pos]
    have h3 : Cpp.doubleAdd (1351079888211149 / 4503599627370496)
        (-(5404319552844595 / 18014398509481984)) = some (1 / 18014398509481984) := by
      have := Spec.doubleAdd_exact (1351079888211149 / 4503599627370496)
        (-(5404319552844595 / 18014398509481984))
        ⟨1, -54, by norm_num, by norm_num, by norm_num, by norm_num⟩
      rw [this]
      norm_num
    have h4 : Cpp.doubleDiv (1 / 18014398509481984)
        (Cpp.sizeToDouble ([(3602879701896397 / 36028797018963968 : ℚ),
          3602879701896397 / 18014398509481984,
          -(5404319552844595 / 18014398509481984)]).length) =
        some (6004799503160661 / 324518553658426726783156020576256) := by
      rw [show ([(3602879701896397 / 36028797018963968 : ℚ),
          3602879701896397 / 18014398509481984,
          -(5404319552844595 / 18014398509481984)]).length = 3 from rfl,
        Spec.sizeToDouble_exact 3 (by norm_num)]
      apply Spec.doubleDiv_of_round
      · norm_num
      · rw [Cpp.roundBinary64_eq _ (-56) 6004799503160661
          (by norm_num [abs_of_pos]) (by norm_num [abs_of_pos]) (by norm_num)
          (by norm_num) (by norm_num)]
        norm_num
      · norm_num [abs_of_pos]
    have hs : Spec.scoresOf
        [("SECTION_0".toList,
            { sentiment_score := some (3602879701896397 / 36028797018963968 : ℚ),
              sentiment_label := "positive".toList }),
         ("SECTION_1".toList,
            { sentiment_score := some (3602879701896397 / 18014398509481984 : ℚ),
              sentiment_label := "positive".toList }),
         ("SECTION_2".toList,
            { sentiment_score := some (-(5404319552844595 / 18014398509481984) : ℚ),
              sentiment_label := "negative".toList })] =
        [(3602879701896397 / 36028797018963968 : ℚ), 3602879701896397 / 18014398509481984,
          -(5404319552844595 / 18014398509481984)] := rfl
    rw [hs]
    exact Spec.binary64Mean_of _ _ _
      ((Spec.binary64SumFrom_cons_of _ _ _ _ h1).trans
        ((Spec.binary64SumFrom_cons_of _ _ _ _ h2).trans
          ((Spec.binary64SumFrom_cons_of _ _ _ _ h3).trans (Spec.binary64SumFrom_nil _)))) h4

namespace Spec

open Cpp

theorem sectionId_injective (n m : Nat)
    (h : "SECTION_".toList ++ natToString n = "SECTION_".toList ++ natToString m) : n = m := by
  have h2 := List.append_cancel_left h
  have h3 := congrArg digitsValue h2
  rw [natToString_value, natToString_value] at h3
  exact h3

theorem countIn_perm (w : Str) (xs ys : List (Str × Int)) (h : xs.Perm ys) :
    countIn w xs = countIn w ys := by
  unfold countIn
  exact ((h.filter _).map _).sum_eq

/-- The merged map depends on the pairs that are merged only, not on their
order nor on their grouping. -/
theorem mergeFrequencies_congr (S1 S2 : List (List (Str × Int)))
    (h : S1.flatten.Perm S2.flatten) : mergeFrequencies S1 = mergeFrequencies S2 := by
  apply StdMap.ext_of_ordered _ _ (mergeFrequencies_ordered _) (mergeFrequencies_ordered _)
  intro w
  rw [mergeFrequencies_find, mergeFrequencies_find, countIn_perm w _ _ h]
  have hm : w ∈ S1.flatten.map Prod.fst ↔ w ∈ S2.flatten.map Prod.fst :=
    (h.map Prod.fst).mem_iff
  by_cases hw : w ∈ S1.flatten.map Prod.fst
  · rw [if_pos hw, if_pos (hm.mp hw)]
  · rw [if_neg hw, if_neg (fun e => hw (hm.mpr e))]

/-- The first `K` pairs of the count sort are a top `K`. -/
theorem isTopK_take_sort (K : Nat) (m : List (Str × Int)) (hm : (m.map Prod.fst).Nodup) :
    IsTopK K m ((Aggregator.sortByCountDesc m).take K) := by
  have hperm := Aggregator.sortByCountDesc_perm m
  have hsorted := Aggregator.sortByCountDesc_sorted m
  refine ⟨?_, ?_, ?_, ?_, ?_⟩
  · rw [List.length_take, hperm.length_eq]
  · rw [List.map_take]
    exact (((hperm.map Prod.fst).nodup_iff).mpr hm).sublist (List.take_sublist _ _)
  · intro p hp
    exact hperm.subset (List.mem_of_mem_take hp)
  · exact hsorted.sublist (List.take_sublist _ _)
  · intro p hp hout q hq
    have hmem : p ∈ Aggregator.sortByCountDesc m := hperm.symm.subset hp
    rw [← List.take_append_drop K (Aggregator.sortByCountDesc m)] at hmem hsorted
    rcases List.mem_append.mp hmem with h1 | h1
    · exact absurd h1 hout
    · exact (List.pairwise_append.mp hsorted).2.2 q hq p h1

theorem wordFrequencies_mem (text : Str) (p : Str × Int) :
    p ∈ wordFrequencies text ↔
      p.1 ∈ normalizedWords text ∧ p.2 = (occurrences p.1 text : Int) := by
  unfold wordFrequencies distinctNormalized
  rw [List.mem_map]
  constructor
  · rintro ⟨w, hw, rfl⟩
    exact ⟨List.mem_dedup.mp hw, rfl⟩
  · rintro ⟨h1, h2⟩
    exact ⟨p.1, List.mem_dedup.mpr h1, Prod.ext rfl h2.symm⟩

theorem wordFrequencies_nodup (text : Str) : (wordFrequencies text).Nodup := by
  unfold wordFrequencies distinctNormalized
  apply List.Nodup.map _ (List.nodup_dedup _)
  intro a b h
  exact congrArg Prod.fst h

/-- A Worker whose setting is not below the number of distinct words of the
text sends all the word frequencies of the text. -/
theorem topWordPairs_all (Kw : Int) (text : Str)
    (h : ((distinctNormalized text).length : Int) ≤ Kw) :
    (Worker.topWordPairs Kw text).Perm (wordFrequencies text) := by
  have hfacts := Worker.wordCountMap_facts text
  have hlen : (Worker.sortByCountDesc (Worker.wordCountMap text)).length =
      (distinctNormalized text).length := by
    rw [(Worker.wordSort_perm _).length_eq, ← (Worker.wordCountMap_keys text).length_eq,
      List.length_map]
  have h1 : Worker.topWordPairs Kw text = Worker.sortByCountDesc (Worker.wordCountMap text) := by
    unfold Worker.topWordPairs
    simp only []
    rw [hlen, min_eq_right h, Int.toNat_ofNat, ← hlen, List.take_length]
  rw [h1]
  refine (Worker.wordSort_perm _).trans ?_
  have hnd : (Worker.wordCountMap text).Nodup :=
    List.Nodup.of_map Prod.fst (StdMap.ordered_nodup _ hfacts.1)
  apply (List.perm_ext_iff_of_nodup hnd (wordFrequencies_nodup text)).mpr
  intro p
  rw [wordFrequencies_mem]
  constructor
  · exact Worker.wordCountMap_mem text p
  · rintro ⟨hp1, hp2⟩
    have hf := Worker.wordCountMap_find text p.1
    rw [if_pos hp1, ← hp2] at hf
    exact StdMap.mem_of_find _ _ _ hf

theorem wordCountMap_perm_wordFrequencies (text : Str) :
    (Worker.wordCountMap text).Perm (wordFrequencies text) := by
  have hfacts := Worker.wordCountMap_facts text
  have hnd : (Worker.wordCountMap text).Nodup :=
    List.Nodup.of_map Prod.fst (StdMap.ordered_nodup _ hfacts.1)
  apply (List.perm_ext_iff_of_nodup hnd (wordFrequencies_nodup text)).mpr
  intro p
  rw [wordFrequencies_mem]
  constructor
  · exact Worker.wordCountMap_mem text p
  · rintro ⟨hp1, hp2⟩
    have hf := Worker.wordCountMap_find text p.1
    rw [if_pos hp1, ← hp2] at hf
    exact StdMap.mem_of_find _ _ _ hf

theorem isTopK_congr (K : Nat) (m1 m2 top : List (Str × Int)) (h : m1.Perm m2)
    (ht : IsTopK K m1 top) : IsTopK K m2 top := by
  obtain ⟨h1, h2, h3, h4, h5⟩ := ht
  refine ⟨?_, h2, ?_, h4, ?_⟩
  · rw [h1, h.length_eq]
  · intro p hp
    exact h.subset (h3 p hp)
  · intro p hp hout q hq
    exact h5 p (h.symm.subset hp) hout q hq

/-- The top words that a Worker sends for a text are a top `Kw` of the word
frequencies of the text. -/
theorem topWordPairs_isTopK (Kw : Int) (text : Str) :
    IsTopK Kw.toNat (wordFrequencies text) (Worker.topWordPairs Kw text) := by
  have hfacts := Worker.wordCountMap_facts text
  have e : Worker.topWordPairs Kw text =
      (Aggregator.sortByCountDesc (Worker.wordCountMap text)).take Kw.toNat := by
    unfold Worker.topWordPairs
    simp only []
    have hm : (min Kw ((Worker.sortByCountDesc (Worker.wordCountMap text)).length : Int)).toNat =
        min Kw.toNat (Worker.sortByCountDesc (Worker.wordCountMap text)).length := by
      omega
    rw [hm, Aggregator.take_min_length]
    rfl
  rw [e]
  exact isTopK_congr _ _ _ _ (wordCountMap_perm_wordFrequencies text)
    (isTopK_take_sort _ _ (StdMap.ordered_nodup _ hfacts.1))

end Spec

namespace Aggregator

open Cpp

/-- The call of `parseResult` on the result message of a Worker stores a result
whose word map holds the top words that the Worker sent. -/
theorem parseResult_resultMessage (stod : Str → Except StdExcept Double) (a : Aggregator)
    (Kw : Int) (s : Nat × Str) (hpipe : '|' ∉ s.2) (hlen : s.2.length ≤ 2147483647)
    (hstod : ∃ v, stod (Worker.sentimentParts s.2).2 = Except.ok v) :
    ∃ (af : Aggregator) (r : SectionResult),
      parseResult stod a (Spec.resultMessage Kw s) = (af, none) ∧
      af.results =
        StdMap.modify ("SECTION_".toList ++ natToString s.1) {} (fun _ => r) a.results ∧
      af.top_word_count = a.top_word_count ∧
      r.word_frequencies.Perm (Worker.topWordPairs Kw s.2) := by
  obtain ⟨v, hv⟩ := hstod
  obtain ⟨freq, hfreq, hperm⟩ := parseTopWords_findTopWords Kw s.2 hlen
  have hcount : startsWith "TOTAL_SECTIONS:".toList (Spec.resultMessage Kw s) = false := by
    unfold Spec.resultMessage
    rw [Worker.buildResult_eq]; rfl
  have htok := parseTokens_buildResult_cut stod (startLocals a) Kw s.1 s.2 v freq
    hpipe hlen hv hfreq
  have hres := parseResult_result stod a _ hcount
  unfold Spec.resultMessage at hres ⊢
  rw [htok] at hres
  simp only [] at hres
  refine ⟨_, { word_count := some (Worker.countWords s.2)
               word_frequencies := freq
               sentiment_score := some v
               sentiment_label := (Worker.sentimentParts s.2).1
               processed_text := Worker.replaceNames s.2 }, hres, ?_, ?_, hperm⟩
  · exact (storeResult_fields _ _).1
  · exact (storeResult_fields _ _).2

/-- The calls of `parseResult` on the result messages of the Workers for a list
of sections, in turn: no call throws, and the results stored hold the top words
that the Workers sent. -/
theorem parseAll_resultMessages (stod : Str → Except StdExcept Double) (Kw : Int)
    (arr : List (Nat × Str)) :
    ∀ a : Aggregator,
      (∀ s ∈ arr, '|' ∉ s.2) → (∀ s ∈ arr, s.2.length ≤ 2147483647) →
      (∀ s ∈ arr, ∃ v, stod (Worker.sentimentParts s.2).2 = Except.ok v) →
      ∃ (af : Aggregator) (R : List (Str × SectionResult)),
        parseAll stod a (arr.map (Spec.resultMessage Kw)) = (af, none) ∧
        af.results = R.foldl (fun m r => StdMap.modify r.1 {} (fun _ => r.2) m) a.results ∧
        af.top_word_count = a.top_word_count ∧
        R.map Prod.fst = arr.map (fun s => "SECTION_".toList ++ natToString s.1) ∧
        (R.flatMap (fun r => r.2.word_frequencies)).Perm
          (arr.flatMap (fun s => Worker.topWordPairs Kw s.2)) := by
  induction arr with
  | nil =>
    intro a _ _ _
    exact ⟨a, [], rfl, rfl, rfl, rfl, List.Perm.refl _⟩
  | cons s arr ih =>
    intro a hpipe hlen hstod
    obtain ⟨a1, r, h1, h2, h3, h4⟩ := parseResult_resultMessage stod a Kw s
      (hpipe s (List.mem_cons_self _ _)) (hlen s (List.mem_cons_self _ _))
      (hstod s (List.mem_cons_self _ _))
    obtain ⟨af, R, g1, g2, g3, g4, g5⟩ := ih a1
      (fun x hx => hpipe x (List.mem_cons_of_mem _ hx))
      (fun x hx => hlen x (List.mem_cons_of_mem _ hx))
      (fun x hx => hstod x (List.mem_cons_of_mem _ hx))
    refine ⟨af, ("SECTION_".toList ++ natToString s.1, r) :: R, ?_, ?_, ?_, ?_, ?_⟩
    · rw [List.map_cons, parseAll, h1]
      exact g1
    · rw [List.foldl_cons, g2, h2]
    · rw [g3, h3]
    · rw [List.map_cons, List.map_cons, g4]
    · rw [List.flatMap_cons, List.flatMap_cons]
      exact h4.append g5

/-- The global top words after the result messages of the Workers have been
received, in any order of arrival: the first pairs of the count sort of the map
that merges the top words sent. -/
theorem getGlobalTopWords_resultMessages (stod : Str → Except StdExcept Double) (K Kw : Int)
    (hK : 0 ≤ K) (secs arr : List (Nat × Str)) (hperm : arr.Perm secs)
    (hids : (secs.map Prod.fst).Nodup)
    (hpipe : ∀ s ∈ secs, '|' ∉ s.2) (hlen : ∀ s ∈ secs, s.2.length ≤ 2147483647)
    (hstod : ∀ s ∈ secs, ∃ v, stod (Worker.sentimentParts s.2).2 = Except.ok v) :
    (parseAll stod (init K) (arr.map (Spec.resultMessage Kw))).2 = none ∧
      (getGlobalTopWords (parseAll stod (init K) (arr.map (Spec.resultMessage Kw))).1).1 =
        (sortByCountDesc
          (Spec.mergeFrequencies (secs.map (fun s => Worker.topWordPairs Kw s.2)))).take
            K.toNat := by
  obtain ⟨af, R, g1, g2, g3, g4, g5⟩ := parseAll_resultMessages stod Kw arr (init K)
    (fun s hs => hpipe s (hperm.subset hs)) (fun s hs => hlen s (hperm.subset hs))
    (fun s hs => hstod s (hperm.subset hs))
  rw [g1]
  refine ⟨rfl, ?_⟩
  show (getGlobalTopWords af).1 = _
  have hK2 : 0 ≤ af.top_word_count := by rw [g3]; exact hK
  have hnd : (R.map Prod.fst).Nodup := by
    rw [g4]
    have h1 : (arr.map Prod.fst).Nodup := ((hperm.map Prod.fst).nodup_iff).mpr hids
    have h2 : (arr.map (fun s : Nat × Str => "SECTION_".toList ++ natToString s.1)) =
        (arr.map Prod.fst).map (fun n => "SECTION_".toList ++ natToString n) := by
      rw [List.map_map]; rfl
    rw [h2]
    exact List.Nodup.map (fun n m h => Spec.sectionId_injective n m h) h1
  obtain ⟨_, hstore⟩ := store_perm R [] (by simp [StdMap.Ordered])
    (fun r _ h => absurd h (List.not_mem_nil _)) hnd
  rw [List.nil_append] at hstore
  have hinit : (init K).results = [] := rfl
  rw [hinit] at g2
  rw [getGlobalTopWords_eq_take af hK2, g3, g2,
    globalFreq_eq_merge _ R hstore]
  have hK3 : (init K).top_word_count = K := rfl
  rw [hK3]
  have hflat : ∀ (α : Type) (l : List α) (f : α → List (Str × Int)),
      (l.map f).flatten = l.flatMap f := fun _ _ _ => rfl
  rw [Spec.mergeFrequencies_congr (R.map (fun r => r.2.word_frequencies))
    (secs.map (fun s => Worker.topWordPairs Kw s.2))
    (by
      rw [hflat, hflat]
      exact g5.trans (hperm.flatMap_right _))]

end Aggregator

/-- C11 (as amended). For two groups `A` and `B` of sections with pairwise
different numbers, Workers with the setting `Kw`, every `K ≥ 0` and any order of
arrival of the result messages, `parseResult` decodes every message without an
exception, and the global top words that the Aggregator computes afterwards are
a top `K` of the word-frequency map that merges directly the top words the
Workers sent (for every section a top `Kw` of the word frequencies of its
text): `K` of its pairs, most frequent first, ties in ascending word order when
the map has at most 16 words. The result is the same for every order of arrival, the map is
the same when the two groups are merged first and the two merged maps
afterwards, and it is the merge of the word frequencies of the section texts
when no section has more than `Kw` distinct words. The texts have no `|`. -/
theorem C11_top_words_merge (stod : Str → Except StdExcept Double) (K Kw : Int) (hK : 0 ≤ K)
    (A B arrival : List (Nat × Str))
    (hids : ((A ++ B).map Prod.fst).Nodup) (harr : arrival.Perm (A ++ B))
    (hpipe : ∀ s ∈ A ++ B, '|' ∉ s.2) (hlen : ∀ s ∈ A ++ B, s.2.length ≤ 2147483647)
    (hstod : ∀ s ∈ A ++ B, ∃ v, stod (Worker.sentimentParts s.2).2 = Except.ok v) :
    (Aggregator.parseAll stod (Aggregator.init K)
        (arrival.map (Spec.resultMessage Kw))).2 = none ∧
      Spec.IsTopK K.toNat
        (Spec.mergeFrequencies ((A ++ B).map (fun s => Worker.topWordPairs Kw s.2)))
        (Aggregator.getGlobalTopWords (Aggregator.parseAll stod (Aggregator.init K)
          (arrival.map (Spec.resultMessage Kw))).1).1 ∧
      ((Spec.mergeFrequencies ((A ++ B).map (fun s => Worker.topWordPairs Kw s.2))).length ≤ 16 →
        (Aggregator.getGlobalTopWords (Aggregator.parseAll stod (Aggregator.init K)
          (arrival.map (Spec.resultMessage Kw))).1).1.Pairwise
            (fun p q => q.2 < p.2 ∨ (q.2 = p.2 ∧ Cpp.strLt p.1 q.1 = true))) ∧
      (Aggregator.getGlobalTopWords (Aggregator.parseAll stod (Aggregator.init K)
          (arrival.map (Spec.resultMessage Kw))).1).1 =
        (Aggregator.getGlobalTopWords (Aggregator.parseAll stod (Aggregator.init K)
          ((A ++ B).map (Spec.resultMessage Kw))).1).1 ∧
      Spec.mergeFrequencies
          [Spec.mergeFrequencies (A.map (fun s => Worker.topWordPairs Kw s.2)),
           Spec.mergeFrequencies (B.map (fun s => Worker.topWordPairs Kw s.2))] =
        Spec.mergeFrequencies ((A ++ B).map (fun s => Worker.topWordPairs Kw s.2)) ∧
      ((∀ s ∈ A ++ B, ((Spec.distinctNormalized s.2).length : Int) ≤ Kw) →
        Spec.mergeFrequencies ((A ++ B).map (fun s => Worker.topWordPairs Kw s.2)) =
          Spec.mergeFrequencies ((A ++ B).map (fun s => Spec.wordFrequencies s.2))) ∧
      (∀ s ∈ A ++ B,
        Spec.IsTopK Kw.toNat (Spec.wordFrequencies s.2) (Worker.topWordPairs Kw s.2)) := by
  obtain ⟨h1, h2⟩ := Aggregator.getGlobalTopWords_resultMessages stod K Kw hK (A ++ B) arrival
    harr hids hpipe hlen hstod
  obtain ⟨_, h3⟩ := Aggregator.getGlobalTopWords_resultMessages stod K Kw hK (A ++ B) (A ++ B)
    (List.Perm.refl _) hids hpipe hlen hstod
  have hord := Spec.mergeFrequencies_ordered ((A ++ B).map (fun s => Worker.topWordPairs Kw s.2))
  refine ⟨h1, ?_, ?_, ?_, ?_, ?_, fun s _ => Spec.topWordPairs_isTopK Kw s.2⟩
  · rw [h2]
    exact Spec.isTopK_take_sort _ _ (Cpp.StdMap.ordered_nodup _ hord)
  · intro hl
    rw [h2]
    exact (Worker.wordSort_ties _ hl hord).sublist (List.take_sublist _ _)
  · rw [h2, h3]
  · rw [Spec.mergeFrequencies_assoc, List.map_append]
  · intro hall
    apply Spec.mergeFrequencies_congr
    have hflat : ∀ (f : Nat × Str → List (Str × Int)),
        ((A ++ B).map f).flatten = (A ++ B).flatMap f := fun _ => rfl
    rw [hflat, hflat]
    exact List.Perm.flatMap_left _ (fun s hs => Spec.topWordPairs_all Kw s.2 (hall s hs))

set_option maxRecDepth 100000 in
/-- Witness of C11: three sections in two groups, Workers and Aggregator with
the setting 2, the result messages arriving in another order. -/
theorem C11_top_words_merge_witness :
    Spec.IsTopK (2 : Int).toNat
        (Spec.mergeFrequencies
          (([(0, "a a a b b c".toList), (1, "b b b a".toList)] ++
              [(2, "c c c c a".toList)] : List (Nat × Str)).map
            (fun s => Worker.topWordPairs 2 s.2)))
        (Aggregator.getGlobalTopWords (Aggregator.parseAll stodDecimal (Aggregator.init 2)
          (([(2, "c c c c a".toList), (0, "a a a b b c".toList),
              (1, "b b b a".toList)] : List (Nat × Str)).map (Spec.resultMessage 2))).1).1 ∧
      (Aggregator.getGlobalTopWords (Aggregator.parseAll stodDecimal (Aggregator.init 2)
          (([(2, "c c c c a".toList), (0, "a a a b b c".toList),
              (1, "b b b a".toList)] : List (Nat × Str)).map (Spec.resultMessage 2))).1).1 =
        [("a".toList, 5), ("b".toList, 5)] :=
  ⟨(C11_top_words_merge stodDecimal 2 2 (by decide)
      [(0, "a a a b b c".toList), (1, "b b b a".toList)] [(2, "c c c c a".toList)]
      [(2, "c c c c a".toList), (0, "a a a b b c".toList), (1, "b b b a".toList)]
      (by decide) (by decide) (by decide) (by decide)
      (by
        intro s hs
        simp only [List.cons_append, List.nil_append, List.mem_cons, List.mem_singleton,
          List.not_mem_nil, or_false] at hs
        rcases hs with rfl | rfl | rfl
        · exact ⟨_, rfl⟩
        · exact ⟨_, rfl⟩
        · exact ⟨_, rfl⟩)).2.1,
   by decide⟩

set_option maxRecDepth 100000 in
/-- C11 as stated fails. With the setting 1 for the Workers and the Aggregator,
the sections `x x x y y` and `z z z y y` send `x:3` and `z:3`, and the global
top word is `x:3`; merging the word frequencies of the two sections directly
gives `y:4` as the most frequent word, which no Worker sent. -/
theorem C11_counterexample :
    (Aggregator.parseAll stodDecimal (Aggregator.init 1)
        [Spec.resultMessage 1 (0, "x x x y y".toList),
         Spec.resultMessage 1 (1, "z z z y y".toList)]).2 = none ∧
      (Aggregator.getGlobalTopWords (Aggregator.parseAll stodDecimal (Aggregator.init 1)
        [Spec.resultMessage 1 (0, "x x x y y".toList),
         Spec.resultMessage 1 (1, "z z z y y".toList)]).1).1 = [("x".toList, 3)] ∧
      Spec.mergeFrequencies
          [Spec.wordFrequencies "x x x y y".toList, Spec.wordFrequencies "z z z y y".toList] =
        [("x".toList, 3), ("y".toList, 4), ("z".toList, 3)] ∧
      ¬ Spec.IsTopK 1
          (Spec.mergeFrequencies
            [Spec.wordFrequencies "x x x y y".toList, Spec.wordFrequencies "z z z y y".toList])
          (Aggregator.getGlobalTopWords (Aggregator.parseAll stodDecimal (Aggregator.init 1)
            [Spec.resultMessage 1 (0, "x x x y y".toList),
             Spec.resultMessage 1 (1, "z z z y y".toList)]).1).1 := by
  decide
